import Mathlib

/-!
# MathSym: polynomial evaluator, equation solver and grammar compiler

A shallow embedding of `src/MathSym/src/parser.cpp`.

* `double` coefficients are modelled by the elements of an arbitrary linearly
  ordered field `K` (exact arithmetic); closed examples are evaluated over `ℚ`
  or `ℝ`. Rounding, underflow and the infinities of `double` are outside the
  model: in the program a quotient of two nonzero doubles can be zero, in a
  field it cannot, and the statements on evaluated polynomials are worded for
  exact arithmetic.
* `int` exponents are modelled by `Int`. The only sums of exponents are those
  of `_multiplyPolynomials` (line 809), and `evalASTNode_exponent_le_size`
  bounds every exponent the evaluator produces by the size of the tree, so
  the evaluator is modelled with mathematical sums. For the function on
  arbitrary lists, `_multiplyPolynomialsInt32` keeps the 32 bits of the `int`:
  the sum is reduced by `wrapInt32`.
* `std::vector` is modelled by `List`, `std::unordered_set<string>` by
  `Finset String`, and a thrown `_EvalException` by `Except.error`.
* Dereferencing a null token pointer or indexing a vector out of range is
  modelled by the distinguished failure `EvalError.undefinedBehaviour`.
* The tables of the grammar compiler are functions `String → Finset String`
  and `String → String → Option Nat`; the two `while (setsChanged)` loops and
  the parser loop take the number of iterations they may run as `fuel` and
  return `none` when it is used up.
* The string literal `"^\0$"` of the end-of-input marker ends at its NUL
  when it is converted to `std::string`: the marker is the string `"^"`.
* The parse tree is a value of `ASTNode`; a node pointer is the path from the
  root to the node, and the member `parent` is the path without its last
  index. A node taken from the pool is modelled as freshly constructed (null
  token), as it is for the first line a parser reads.
-/

set_option linter.unusedSectionVars false

namespace MathSym

/-! ## Data model (`parser.h`) -/

/-- Modelled from the spec: the record `Token` of the header `token.h`, which
is not among the sources; a token is `{type: string, value: string}`, and the
code reads exactly these two members. -/
structure Token where
  type : String
  value : String
deriving DecidableEq, Repr

/-- The enumeration `ASTNode::ASTNodeType`. -/
inductive ASTNodeType where
  | EMPTY
  | BINARY_OPERATOR
  | UNARY_LEFT_OPERATOR
  | OPERAND
deriving DecidableEq, Repr

/-- The tree part of `struct ASTNode`: node kind, optional token and the owned
children (the parent back-reference is not part of the tree value). -/
inductive ASTNode where
  | mk (type : ASTNodeType) (token : Option Token) (children : List ASTNode)

/-- The record `struct Monomial { double coefficient; int exponent; }`. -/
structure Monomial (K : Type) where
  coefficient : K
  exponent : Int
deriving DecidableEq, Repr

/-- The two messages carried by `_EvalException`, plus the failure that stands
for undefined behaviour of the C++ code (null token, index out of range). -/
inductive EvalError where
  | divisionByZero
  | unsupportedDivision
  | undefinedBehaviour
deriving DecidableEq, Repr

section Polynomial

variable {K : Type} [LinearOrderedField K]

/-! ## Polynomial algebra (`parser.cpp`, lines 747-835) -/

/-- The order the `sort` call establishes: `a` may stand before `b` when the
comparator `b.exponent > a.exponent` is false. -/
def expGE (a b : Monomial K) : Prop := b.exponent ≤ a.exponent

instance expGE_decidable : DecidableRel (expGE : Monomial K → Monomial K → Prop) :=
  fun a b => inferInstanceAs (Decidable (b.exponent ≤ a.exponent))

instance expGE_total : IsTotal (Monomial K) expGE :=
  ⟨fun a b => le_total b.exponent a.exponent⟩

instance expGE_trans : IsTrans (Monomial K) expGE :=
  ⟨fun _ _ _ hab hbc => le_trans hbc hab⟩

/-- The call `sort(lhs.begin(), lhs.end(), a.exponent > b.exponent)`.
`std::sort` leaves the order of entries of equal exponent open; the insertion
sort used here is one admissible outcome, and
`canonicalize_any_sorted_arrangement` shows that the result of the
canonicalisation is the same for every other one. -/
def sortDescending (l : List (Monomial K)) : List (Monomial K) :=
  l.insertionSort expGE

/-- The inner loop of lines 757-758: starting from the accumulated coefficient
`acc` of the run head with exponent `e`, add the coefficients of the following
entries while their exponent equals `e`. -/
def sumRun (e : Int) (acc : K) : List (Monomial K) → K
  | [] => acc
  | m :: rest => if m.exponent = e then sumRun e (acc + m.coefficient) rest else acc

/-- The vector after the loop of lines 755-760. `prev` is the exponent of the
entry before the current one: an entry with the same exponent as its
predecessor lies inside a run and is left as it is, every other entry is a run
head and receives the sum of its run. -/
def sumLoop : Option Int → List (Monomial K) → List (Monomial K)
  | _, [] => []
  | prev, m :: rest =>
    (if prev = some m.exponent then m
      else { coefficient := sumRun m.exponent m.coefficient rest, exponent := m.exponent })
      :: sumLoop (some m.exponent) rest

/-- The scan of `std::unique` with the predicate "equal exponents": `last` is
the entry kept last, an entry equivalent to it is dropped. -/
def uniqueFrom (last : Monomial K) : List (Monomial K) → List (Monomial K)
  | [] => [last]
  | m :: rest =>
    if last.exponent = m.exponent then uniqueFrom last rest
    else last :: uniqueFrom m rest

/-- The call `unique(lhs.begin(), lhs.end(), equal exponents)`. -/
def unique : List (Monomial K) → List (Monomial K)
  | [] => []
  | m :: rest => uniqueFrom m rest

/-- The call `remove_if(..., coefficient == 0)` followed by `erase`. -/
def removeZero (l : List (Monomial K)) : List (Monomial K) :=
  l.filter (fun m => decide (m.coefficient ≠ 0))

/-- Lines 751-766, shared by `_addPolynomial` and `_subtractPolynomial`: sort,
sum the runs, unique, remove the zero terms. -/
def canonicalize (l : List (Monomial K)) : List (Monomial K) :=
  removeZero (unique (sumLoop none (sortDescending l)))

/-- The function `Parser::_addPolynomial`. -/
def _addPolynomial (lhs rhs : List (Monomial K)) : List (Monomial K) :=
  canonicalize (lhs ++ rhs)

/-- The function `Parser::_subtractPolynomial`. -/
def _subtractPolynomial (lhs rhs : List (Monomial K)) : List (Monomial K) :=
  canonicalize
    (lhs ++ rhs.map (fun term =>
      { coefficient := term.coefficient * -1, exponent := term.exponent }))

/-- The body of the outer loop of `_multiplyPolynomials`: `temp` is `lhs` with
every term multiplied by `termr`. The sum of the exponents is the mathematical
one: this is line 809 as long as the sum fits the `int` (see `scaleByInt32`
for the 32-bit addition). -/
def scaleBy (termr : Monomial K) (lhs : List (Monomial K)) : List (Monomial K) :=
  lhs.map (fun terml =>
    { coefficient := terml.coefficient * termr.coefficient,
      exponent := terml.exponent + termr.exponent })

/-- The function `Parser::_multiplyPolynomials` with mathematical sums of
exponents, as the evaluator uses it on exponents bounded by the size of the
tree. -/
def _multiplyPolynomials (lhs rhs : List (Monomial K)) : List (Monomial K) :=
  rhs.foldl (fun result termr => _addPolynomial result (scaleBy termr lhs)) []

/-- The value a 32-bit `int` holds when the mathematical result of an addition
is `n`: the representative of `n` modulo `2^32` between `-2^31` and
`2^31 - 1`. The C++ standard leaves the overflow of `int` undefined; the
compiled program wraps around. -/
def wrapInt32 (n : Int) : Int :=
  (n + 2147483648) % 4294967296 - 2147483648

/-- The integer `n` is a value of a 32-bit `int`. -/
def FitsInt32 (n : Int) : Prop :=
  -2147483648 ≤ n ∧ n ≤ 2147483647

/-- The body of the outer loop of `_multiplyPolynomials` (lines 806-810) with
the addition `terml.exponent += termr.exponent` carried out in the 32-bit
`int` of `struct Monomial`. -/
def scaleByInt32 (termr : Monomial K) (lhs : List (Monomial K)) : List (Monomial K) :=
  lhs.map (fun terml =>
    { coefficient := terml.coefficient * termr.coefficient,
      exponent := wrapInt32 (terml.exponent + termr.exponent) })

/-- The function `Parser::_multiplyPolynomials` (lines 801-816) on arbitrary
lists, the exponents added as 32-bit `int`. -/
def _multiplyPolynomialsInt32 (lhs rhs : List (Monomial K)) : List (Monomial K) :=
  rhs.foldl (fun result termr => _addPolynomial result (scaleByInt32 termr lhs)) []

/-- The function `Parser::_dividePolynomials`. The quotient of line 831 is the
exact one of the field `K`: a nonzero term divided by a nonzero divisor stays
nonzero. The `double` quotient of the program can underflow to zero, and a
divisor that `atof` reads as infinite gives zero. -/
def _dividePolynomials (lhs rhs : List (Monomial K)) :
    Except EvalError (List (Monomial K)) :=
  match rhs with
  | [] => .error .divisionByZero
  | [d] =>
    if d.coefficient = 0 then .error .divisionByZero
    else if d.exponent ≠ 0 then .error .unsupportedDivision
    else .ok (lhs.map (fun term =>
      { coefficient := term.coefficient / d.coefficient, exponent := term.exponent }))
  | _ :: _ :: _ => .error .unsupportedDivision

end Polynomial

section Evaluator

variable {K : Type} [LinearOrderedField K]

/-! ## Evaluator and equation solver (`parser.cpp`, lines 567-744) -/

/-- The character `value[0]` of a `std::string`; for the empty string this is
the terminating NUL. -/
def firstChar (s : String) : Char := s.data.headD (Char.ofNat 0)

/-- The function `Parser::_evalASTNode`. The parameter `atof` stands for the C
library function of that name. Where the C++ code leaves the order of the two
recursive calls open (the arguments of `_multiplyPolynomials` and
`_dividePolynomials`), `children[0]` is evaluated first; reading `children[1]`
of a one-child node is undefined behaviour. -/
def _evalASTNode (atof : String → K) : ASTNode → Except EvalError (List (Monomial K))
  | .mk _ none _ => .error .undefinedBehaviour
  | .mk _ (some tok) [] =>
    if firstChar tok.value = 'x' then .ok [{ coefficient := 1, exponent := 1 }]
    else .ok [{ coefficient := atof tok.value, exponent := 0 }]
  | .mk ty (some tok) [c0] =>
    if firstChar tok.value = '+' then
      match _evalASTNode atof c0 with
      | .error e => .error e
      | .ok _ => .error .undefinedBehaviour
    else if firstChar tok.value = '-' then
      if ty = .BINARY_OPERATOR then
        match _evalASTNode atof c0 with
        | .error e => .error e
        | .ok _ => .error .undefinedBehaviour
      else if ty = .UNARY_LEFT_OPERATOR then
        match _evalASTNode atof c0 with
        | .error e => .error e
        | .ok p => .ok (_subtractPolynomial [{ coefficient := 0, exponent := 0 }] p)
      else
        -- no `return` was reached in `case '-'`: control falls through to `case '*'`
        .error .undefinedBehaviour
    else if firstChar tok.value = '*' ∨ firstChar tok.value = '/' then
      .error .undefinedBehaviour
    else .ok []
  | .mk ty (some tok) (c0 :: c1 :: _) =>
    if firstChar tok.value = '+' then
      match _evalASTNode atof c0 with
      | .error e => .error e
      | .ok lhs =>
        match _evalASTNode atof c1 with
        | .error e => .error e
        | .ok rhs => .ok (_addPolynomial lhs rhs)
    else if firstChar tok.value = '-' then
      if ty = .BINARY_OPERATOR then
        match _evalASTNode atof c0 with
        | .error e => .error e
        | .ok lhs =>
          match _evalASTNode atof c1 with
          | .error e => .error e
          | .ok rhs => .ok (_subtractPolynomial lhs rhs)
      else if ty = .UNARY_LEFT_OPERATOR then
        match _evalASTNode atof c0 with
        | .error e => .error e
        | .ok p => .ok (_subtractPolynomial [{ coefficient := 0, exponent := 0 }] p)
      else
        -- no `return` was reached in `case '-'`: control falls through to `case '*'`
        match _evalASTNode atof c0 with
        | .error e => .error e
        | .ok lhs =>
          match _evalASTNode atof c1 with
          | .error e => .error e
          | .ok rhs => .ok (_multiplyPolynomials lhs rhs)
    else if firstChar tok.value = '*' then
      match _evalASTNode atof c0 with
      | .error e => .error e
      | .ok lhs =>
        match _evalASTNode atof c1 with
        | .error e => .error e
        | .ok rhs => .ok (_multiplyPolynomials lhs rhs)
    else if firstChar tok.value = '/' then
      match _evalASTNode atof c0 with
      | .error e => .error e
      | .ok lhs =>
        match _evalASTNode atof c1 with
        | .error e => .error e
        | .ok rhs => _dividePolynomials lhs rhs
    else .ok []

/-- What `_evalASTTree` writes for one input line. -/
inductive Output (K : Type) where
  /-- The line `Error: ` followed by the message of a caught `_EvalException`. -/
  | evalError (e : EvalError)
  /-- The line `ans = ` followed by the rendered polynomial. -/
  | ans (p : List (Monomial K))
  /-- The line `Error: Equations of degree > 2 are not supported`. -/
  | unsupportedDegree
  /-- The line `Infinitely many solutions`. -/
  | infinitelyManySolutions
  /-- The line `No solutions`. -/
  | noSolutions
  /-- The line `x = r`. -/
  | oneRoot (r : K)
  /-- The line `x = r1 or x = r2`. -/
  | twoRoots (r1 r2 : K)
  /-- No `case` of the `switch` was taken: nothing is written. -/
  | nothing
  /-- Undefined behaviour of the C++ code. -/
  | undefinedBehaviour

/-- The loop of lines 628-629 over `lhs[1..]`: the write
`a[degree - lhs[i].exponent] = lhs[i].coefficient` into the three-slot array
`a`; an index outside `0..2` is undefined behaviour (`none`). -/
def fillCoefficients (degree : Int) : List K → List (Monomial K) → Option (List K)
  | a, [] => some a
  | a, m :: rest =>
    if 0 ≤ degree - m.exponent ∧ degree - m.exponent < 3 then
      fillCoefficients degree (a.set (degree - m.exponent).toNat m.coefficient) rest
    else none

/-- Lines 616-656 of `_evalASTTree`: classification of the difference
polynomial `lhs` (already subtracted) and the closed-form roots. The parameter
`sqrt` stands for the C library function of that name. -/
def solveEquation (sqrt : K → K) (lhs : List (Monomial K)) : Output K :=
  match lhs with
  | [] => .infinitelyManySolutions
  | head :: rest =>
    if head.exponent > 2 then .unsupportedDegree
    else
      match fillCoefficients head.exponent [head.coefficient, 0, 0] rest with
      | none => .undefinedBehaviour
      | some a =>
        let a0 := a.getD 0 0
        let a1 := a.getD 1 0
        let a2 := a.getD 2 0
        if head.exponent = 0 then
          if a0 ≠ 0 then .noSolutions else .infinitelyManySolutions
        else if head.exponent = 1 then .oneRoot (-a1 / a0)
        else if head.exponent = 2 then
          let D := a1 * a1 - 4 * a0 * a2
          if D > 0 then .twoRoots ((-a1 + sqrt D) / (2 * a0)) ((-a1 - sqrt D) / (2 * a0))
          else if D = 0 then .oneRoot (-a1 / (2 * a0))
          else .noSolutions
        else .nothing

/-- The function `Parser::_evalASTTree`. -/
def _evalASTTree (atof : String → K) (sqrt : K → K) : ASTNode → Output K
  | .mk _ none _ => .undefinedBehaviour
  | .mk ty (some tok) children =>
    if tok.type ≠ "=" then
      match _evalASTNode atof (.mk ty (some tok) children) with
      | .error e => .evalError e
      | .ok result => .ans result
    else
      match children with
      | c0 :: c1 :: _ =>
        match _evalASTNode atof c0 with
        | .error e => .evalError e
        | .ok lhs =>
          match _evalASTNode atof c1 with
          | .error e => .evalError e
          | .ok rhs => solveEquation sqrt (_subtractPolynomial lhs rhs)
      | [c0] =>
        match _evalASTNode atof c0 with
        | .error e => .evalError e
        | .ok _ => .undefinedBehaviour
      | [] => .undefinedBehaviour

/-- The scan of a run of decimal digits: the value read so far, the number of
digits read, and the unread rest. -/
def scanDigits : Nat → Nat → List Char → Nat × Nat × List Char
  | acc, n, [] => (acc, n, [])
  | acc, n, c :: cs =>
    if c.isDigit then scanDigits (10 * acc + (c.toNat - 48)) (n + 1) cs
    else (acc, n, c :: cs)

/-- Modelled from the spec: the value of a numeric literal, which the code
obtains from the C library function `atof` (not part of the repository). The
model reads an optional sign, a run of decimal digits and an optional fraction
`.digits`, and stops at the first other character; a string without digits
has the value 0. Exponent notation, hexadecimal literals, `inf`, `nan` and
leading white space are not modelled. -/
def atofDecimal (s : String) : K :=
  let signed : Bool × List Char :=
    match s.data with
    | '-' :: cs => (true, cs)
    | '+' :: cs => (false, cs)
    | cs => (false, cs)
  let whole := scanDigits 0 0 signed.2
  let frac : Nat × Nat :=
    match whole.2.2 with
    | '.' :: ds => ((scanDigits 0 0 ds).1, (scanDigits 0 0 ds).2.1)
    | _ => (0, 0)
  let magnitude : K := (whole.1 : K) + (frac.1 : K) / (10 : K) ^ frac.2
  if signed.1 then -magnitude else magnitude

/-! ### Reference semantics used to state the claims -/

/-- The sum of the coefficients of the entries of `l` with exponent `k`. -/
def coeffOf (k : Int) (l : List (Monomial K)) : K :=
  ((l.filter (fun m => decide (m.exponent = k))).map (fun m => m.coefficient)).sum

/-- The coefficient carried by the first entry of `l` with exponent `k`, if
there is such an entry. -/
def coefficientAt (k : Int) (l : List (Monomial K)) : Option K :=
  (l.find? (fun m => decide (m.exponent = k))).map (fun m => m.coefficient)

/-- Canonical form: exponents strictly descending, no zero coefficient. -/
def Canonical (l : List (Monomial K)) : Prop :=
  l.Pairwise (fun a b => b.exponent < a.exponent) ∧ ∀ m ∈ l, m.coefficient ≠ 0

/-- The value of a monomial list at `v`: the sum of `coefficient * v ^ exponent`. -/
def evalPoly (v : K) (l : List (Monomial K)) : K :=
  (l.map (fun m => m.coefficient * v ^ m.exponent)).sum

/-- The ASTs of the evaluator's contract: variable leaves, numeric-literal
leaves, binary `+`, `-`, `*` nodes with two children, unary-left `-` nodes
with one child, and `/` nodes whose divisor evaluates to a nonzero scalar. -/
inductive Arithmetic (atof : String → K) : ASTNode → Prop where
  | varLeaf (ty : ASTNodeType) (tok : Token) :
      firstChar tok.value = 'x' → Arithmetic atof (.mk ty (some tok) [])
  | litLeaf (ty : ASTNodeType) (tok : Token) :
      firstChar tok.value ≠ 'x' → Arithmetic atof (.mk ty (some tok) [])
  | add (tok : Token) (l r : ASTNode) :
      firstChar tok.value = '+' → Arithmetic atof l → Arithmetic atof r →
      Arithmetic atof (.mk .BINARY_OPERATOR (some tok) [l, r])
  | sub (tok : Token) (l r : ASTNode) :
      firstChar tok.value = '-' → Arithmetic atof l → Arithmetic atof r →
      Arithmetic atof (.mk .BINARY_OPERATOR (some tok) [l, r])
  | mul (tok : Token) (l r : ASTNode) :
      firstChar tok.value = '*' → Arithmetic atof l → Arithmetic atof r →
      Arithmetic atof (.mk .BINARY_OPERATOR (some tok) [l, r])
  | neg (tok : Token) (c : ASTNode) :
      firstChar tok.value = '-' → Arithmetic atof c →
      Arithmetic atof (.mk .UNARY_LEFT_OPERATOR (some tok) [c])
  | div (tok : Token) (l r : ASTNode) (c : K) :
      firstChar tok.value = '/' → Arithmetic atof l → Arithmetic atof r → c ≠ 0 →
      _evalASTNode atof r = .ok [{ coefficient := c, exponent := 0 }] →
      Arithmetic atof (.mk .BINARY_OPERATOR (some tok) [l, r])

/-- The arithmetic value of an expression tree with the variable set to `v`
(0 for a tree that is not an arithmetic expression). -/
def denote (atof : String → K) (v : K) : ASTNode → K
  | .mk _ none _ => 0
  | .mk _ (some tok) [] => if firstChar tok.value = 'x' then v else atof tok.value
  | .mk _ (some tok) [c] => if firstChar tok.value = '-' then - denote atof v c else 0
  | .mk _ (some tok) (l :: r :: _) =>
    if firstChar tok.value = '+' then denote atof v l + denote atof v r
    else if firstChar tok.value = '-' then denote atof v l - denote atof v r
    else if firstChar tok.value = '*' then denote atof v l * denote atof v r
    else if firstChar tok.value = '/' then denote atof v l / denote atof v r
    else 0

/-- The roots an output line reports. -/
def Output.roots : Output K → List K
  | .oneRoot r => [r]
  | .twoRoots r1 r2 => [r1, r2]
  | _ => []

/-- The dense coefficient of `x^k`: the coefficient of the entry with exponent
`k`, a missing term being read as 0. -/
def denseCoefficient (k : Int) (l : List (Monomial K)) : K :=
  (coefficientAt k l).getD 0

/-- The discriminant `a1^2 - 4*a0*a2` of the dense coefficients `a0` (of
`x^2`), `a1` (of `x`) and `a2` (constant) of `l`. -/
def discriminant (l : List (Monomial K)) : K :=
  denseCoefficient 1 l ^ 2 - 4 * denseCoefficient 2 l * denseCoefficient 0 l

/-! ### Sample trees -/

/-- The leaf of a numeric literal. -/
def numLeaf (literal : String) : ASTNode :=
  .mk .OPERAND (some { type := "num", value := literal }) []

/-- The leaf of the variable. -/
def varLeaf : ASTNode :=
  .mk .OPERAND (some { type := "x", value := "x" }) []

/-- A binary operator node over two operands. -/
def binaryNode (op : String) (l r : ASTNode) : ASTNode :=
  .mk .BINARY_OPERATOR (some { type := op, value := op }) [l, r]

/-- A unary-left minus node over one operand. -/
def negateNode (c : ASTNode) : ASTNode :=
  .mk .UNARY_LEFT_OPERATOR (some { type := "-", value := "-" }) [c]

/-- The sum of `f exponent coefficient` over the entries of `l`. -/
def sumOver (f : Int → K → K) (l : List (Monomial K)) : K :=
  (l.map (fun m => f m.exponent m.coefficient)).sum

/-- The sum, over all pairs of one monomial of `p` and one of `q` whose
exponents add up to `k`, of the product of the coefficients. -/
def pairSum (k : Int) (p q : List (Monomial K)) : K :=
  (((List.product p q).filter (fun ab => decide (ab.1.exponent + ab.2.exponent = k))).map
    (fun ab => ab.1.coefficient * ab.2.coefficient)).sum

end Evaluator

section Grammar

/-! ## Grammar model and FIRST sets (`parser.cpp`, lines 55-134 and 191-226) -/

/-- The enumeration `Symbol::SymbolType`. -/
inductive SymbolType where
  | TERMINAL
  | NONTERMINAL
  | EPSILON
  | EOFL
deriving DecidableEq, Repr

/-- The record `struct Symbol { SymbolType type; std::string name; }`. -/
structure Symbol where
  type : SymbolType
  name : String
deriving DecidableEq, Repr

/-- The record `struct Production`. -/
structure Production where
  lhsSymbol : String
  rhsSymbols : List Symbol
deriving DecidableEq, Repr

/-- The name `"^e$"` of the epsilon symbol and of the epsilon marker of the
FIRST sets. -/
def epsilonName : String := "^e$"

/-- The type `_readConfigFile` leaves on a right-hand-side symbol: the first
pass (lines 98-101) makes it `EPSILON` when its name is `"^e$"` and `TERMINAL`
otherwise, the second pass (lines 114-118) makes it `NONTERMINAL` when its
name is a left-hand side. -/
def symbolTypeOf (nonterminals : Finset String) (name : String) : SymbolType :=
  if name ∈ nonterminals then .NONTERMINAL
  else if name = epsilonName then .EPSILON
  else .TERMINAL

/-- The result of `Parser::_readConfigFile` on the non-comment lines of the
grammar file, each already split into its left-hand side and the words of its
right-hand side: the set `nonterminals` and the vector `_productions`. A line
without a right-hand-side word is malformed and makes the call fail. -/
def _readConfigFile (lines : List (String × List String)) :
    Option (Finset String × List Production) :=
  if lines.all (fun line => !line.2.isEmpty) then
    some ((lines.map (fun line => line.1)).toFinset,
      lines.map (fun line =>
        { lhsSymbol := line.1,
          rhsSymbols := line.2.map (fun name =>
            { type := symbolTypeOf (lines.map (fun line => line.1)).toFinset name,
              name := name }) }))
  else none

/-- The inner loop of `_computeFIRST` (lines 202-216) from the symbol at which
it stands: `rhs` is the set built so far. A terminal ends the scan, a
nonterminal ends it when the set holds no epsilon marker afterwards. -/
def firstOfRhs (FIRST : String → Finset String) :
    Finset String → List Symbol → Finset String
  | rhs, [] => rhs
  | rhs, symbol :: rest =>
    match symbol.type with
    | .EPSILON => firstOfRhs FIRST (insert symbol.name (rhs.erase epsilonName)) rest
    | .TERMINAL => insert symbol.name (rhs.erase epsilonName)
    | .NONTERMINAL =>
      if epsilonName ∈ rhs.erase epsilonName ∪ FIRST symbol.name then
        firstOfRhs FIRST (rhs.erase epsilonName ∪ FIRST symbol.name) rest
      else rhs.erase epsilonName ∪ FIRST symbol.name
    | .EOFL => firstOfRhs FIRST (rhs.erase epsilonName) rest

/-- The assignment `table[key] = value` on a map whose missing keys read as
the empty set. -/
def tableSet (table : String → Finset String) (key : String) (value : Finset String) :
    String → Finset String :=
  fun k => if k = key then value else table k

/-- The body of the loop over the productions (lines 200-225): the table and
the flag `setsChanged` after one production. A missing key of the map is the
empty set. -/
def firstStep (state : (String → Finset String) × Bool) (production : Production) :
    (String → Finset String) × Bool :=
  (tableSet state.1 production.lhsSymbol
      (state.1 production.lhsSymbol ∪ firstOfRhs state.1 ∅ production.rhsSymbols),
    state.2 || !decide (firstOfRhs state.1 ∅ production.rhsSymbols
      ⊆ state.1 production.lhsSymbol))

/-- One pass of the `while` loop: `setsChanged = false` and the loop over all
productions. -/
def firstPass (productions : List Production) (FIRST : String → Finset String) :
    (String → Finset String) × Bool :=
  productions.foldl firstStep (FIRST, false)

/-- The `while (setsChanged)` loop, limited to `fuel` passes. -/
def firstLoop (productions : List Production) :
    Nat → (String → Finset String) → Option (String → Finset String)
  | 0, _ => none
  | fuel + 1, FIRST =>
    if (firstPass productions FIRST).2 then
      firstLoop productions fuel (firstPass productions FIRST).1
    else some (firstPass productions FIRST).1

/-- The function `Parser::_computeFIRST` over `_productions`, limited to `fuel`
passes; every set starts empty. -/
def _computeFIRST (productions : List Production) (fuel : Nat) :
    Option (String → Finset String) :=
  firstLoop productions fuel (fun _ => ∅)

/-- The names of the left-hand sides. -/
def lhsNames (productions : List Production) : Finset String :=
  (productions.map (fun production => production.lhsSymbol)).toFinset

/-- The names of the right-hand-side symbols. -/
def rhsNames (productions : List Production) : Finset String :=
  (productions.flatMap (fun production =>
    production.rhsSymbols.map (fun symbol => symbol.name))).toFinset

/-- A number of passes that suffices for `_computeFIRST`. -/
def firstFuelBound (productions : List Production) : Nat :=
  (lhsNames productions).card * (rhsNames productions).card + 1

/-! ### Derivations -/

/-- One derivation step on a sentential form: a nonterminal is replaced by the
right-hand side of one of its productions, or an epsilon symbol is erased. -/
inductive DerivationStep (productions : List Production) : List Symbol → List Symbol → Prop where
  | expand (production : Production) (before after : List Symbol) :
      production ∈ productions →
      DerivationStep productions
        (before ++ { type := .NONTERMINAL, name := production.lhsSymbol } :: after)
        (before ++ production.rhsSymbols ++ after)
  | erase (name : String) (before after : List Symbol) :
      DerivationStep productions
        (before ++ { type := .EPSILON, name := name } :: after) (before ++ after)

/-- Derivation in any number of steps. -/
def Derives (productions : List Production) : List Symbol → List Symbol → Prop :=
  Relation.ReflTransGen (DerivationStep productions)

/-- The symbol `s` lets the scan of a right-hand side pass on: it is an epsilon
symbol, or a nonterminal whose set holds the epsilon marker. -/
def Nullable (FIRST : String → Finset String) (s : Symbol) : Prop :=
  s.type = .EPSILON ∨ (s.type = .NONTERMINAL ∧ epsilonName ∈ FIRST s.name)

/-- The name `t` is contributed by the symbol `s`: it is the name of the
terminal `s`, or a member of the set of the nonterminal `s`. -/
def SymbolFirst (FIRST : String → Finset String) (t : String) (s : Symbol) : Prop :=
  (s.type = .TERMINAL ∧ t = s.name) ∨ (s.type = .NONTERMINAL ∧ t ∈ FIRST s.name)

/-- The name `t` is contributed by a symbol of the form that is reached
through nullable symbols only. -/
def FirstIn (FIRST : String → Finset String) (t : String) : List Symbol → Prop
  | [] => False
  | s :: rest => SymbolFirst FIRST t s ∨ (Nullable FIRST s ∧ FirstIn FIRST t rest)

/-- A symbol as `_readConfigFile` leaves it: an epsilon symbol is named
`"^e$"`, a terminal is not, and no symbol has the type `EOFL`. -/
def Symbol.Regular (s : Symbol) : Prop :=
  (s.type = .EPSILON → s.name = epsilonName) ∧ (s.type = .TERMINAL → s.name ≠ epsilonName)
    ∧ s.type ≠ .EOFL

/-- Every member of a set of the table is justified by a derivation. -/
def SoundTable (productions : List Production) (F : String → Finset String) : Prop :=
  ∀ A x, x ∈ F A →
    (x = epsilonName → Derives productions [{ type := .NONTERMINAL, name := A }] [])
      ∧ (x ≠ epsilonName →
          ∃ β, Derives productions [{ type := .NONTERMINAL, name := A }]
            ({ type := .TERMINAL, name := x } :: β))

/-! ### FOLLOW sets, FIRST+ sets and the LL(1) table (`parser.cpp`, lines 246-361) -/

/-- The name of the end-of-input marker. The source writes it `"^\0$"`; every
use converts this literal from `const char *` to `std::string` or compares it
as a C string, which ends at the NUL character, so the marker is the
one-character string `"^"`. -/
def eofName : String := "^"

/-- The member `_startSymbol` after `_readConfigFile` (lines 88-89): the
left-hand side of the first production, the empty string when there is none. -/
def startSymbolOf (lines : List (String × List String)) : String :=
  match lines with
  | [] => ""
  | line :: _ => line.1

/-- The loop of lines 259-284 over the right-hand side from right to left
(`reversed` is the part still to visit, rightmost symbol first): the table
`FOLLOW`, the flag `setsChanged` and the set `trailer`. -/
def followScan (FIRST : String → Finset String) :
    ((String → Finset String) × Bool) × Finset String → List Symbol →
      ((String → Finset String) × Bool) × Finset String
  | state, [] => state
  | state, symbol :: reversed =>
    if symbol.type ≠ .NONTERMINAL then
      followScan FIRST (state.1, {symbol.name}) reversed
    else
      followScan FIRST
        ((tableSet state.1.1 symbol.name (state.1.1 symbol.name ∪ state.2),
            state.1.2 || !decide (state.2 ⊆ state.1.1 symbol.name)),
          if epsilonName ∈ FIRST symbol.name then
            (state.2 ∪ FIRST symbol.name).erase epsilonName
          else FIRST symbol.name)
        reversed

/-- The body of the loop over the productions (lines 257-285): `trailer`
starts as a copy of `FOLLOW[production.lhsSymbol]`. -/
def followStep (FIRST : String → Finset String)
    (state : (String → Finset String) × Bool) (production : Production) :
    (String → Finset String) × Bool :=
  (followScan FIRST (state, state.1 production.lhsSymbol) production.rhsSymbols.reverse).1

/-- One pass of the `while` loop of `_computeFOLLOW`. -/
def followPass (FIRST : String → Finset String) (productions : List Production)
    (FOLLOW : String → Finset String) : (String → Finset String) × Bool :=
  productions.foldl (followStep FIRST) (FOLLOW, false)

/-- The `while (setsChanged)` loop of `_computeFOLLOW`, limited to `fuel`
passes. -/
def followLoop (FIRST : String → Finset String) (productions : List Production) :
    Nat → (String → Finset String) → Option (String → Finset String)
  | 0, _ => none
  | fuel + 1, FOLLOW =>
    if (followPass FIRST productions FOLLOW).2 then
      followLoop FIRST productions fuel (followPass FIRST productions FOLLOW).1
    else some (followPass FIRST productions FOLLOW).1

/-- The function `Parser::_computeFOLLOW`, limited to `fuel` passes: every set
starts empty, except that the set of the start symbol holds the end-of-input
marker. -/
def _computeFOLLOW (startSymbol : String) (productions : List Production)
    (FIRST : String → Finset String) (fuel : Nat) : Option (String → Finset String) :=
  followLoop FIRST productions fuel (tableSet (fun _ => ∅) startSymbol {eofName})

/-- The set `_computeFIRST_PLUS` stores for one production (lines 312-336):
the scan of lines 316-330 repeats the scan of `_computeFIRST` on the empty
set, and the sets of `FOLLOW` are added when the epsilon marker is present. -/
def firstPlusOf (FIRST FOLLOW : String → Finset String) (production : Production) :
    Finset String :=
  if epsilonName ∈ firstOfRhs FIRST ∅ production.rhsSymbols then
    firstOfRhs FIRST ∅ production.rhsSymbols ∪ FOLLOW production.lhsSymbol
  else firstOfRhs FIRST ∅ production.rhsSymbols

/-- The function `Parser::_computeFIRST_PLUS`: the vector `FIRST_PLUS`, one set
per production. -/
def _computeFIRST_PLUS (productions : List Production)
    (FIRST FOLLOW : String → Finset String) : List (Finset String) :=
  productions.map (firstPlusOf FIRST FOLLOW)

/-- The writes `_ll1Table[lhsSymbol][symbol] = i` of one production (lines
358-360): every member of its set other than the epsilon marker becomes a key
with the value `i`. A table is read as a lookup, `none` for a missing entry. -/
def tableWrite (table : String → String → Option Nat) (lhsSymbol : String)
    (set : Finset String) (i : Nat) : String → String → Option Nat :=
  fun N t => if N = lhsSymbol ∧ t ∈ set ∧ t ≠ epsilonName then some i else table N t

/-- The loop of `_constructLL1Table` from production `i` on. -/
def constructFrom (i : Nat) (table : String → String → Option Nat) :
    List Production → List (Finset String) → String → String → Option Nat
  | production :: productions, set :: sets =>
    constructFrom (i + 1) (tableWrite table production.lhsSymbol set i) productions sets
  | _, _ => table

/-- The function `Parser::_constructLL1Table` on the empty member `_ll1Table`. -/
def _constructLL1Table (productions : List Production) (FIRST_PLUS : List (Finset String)) :
    String → String → Option Nat :=
  constructFrom 0 (fun _ _ => none) productions FIRST_PLUS

/-- What `Parser::init` leaves in the parser, together with the intermediate
sets. -/
structure GrammarTables where
  productions : List Production
  startSymbol : String
  FIRST : String → Finset String
  FOLLOW : String → Finset String
  FIRST_PLUS : List (Finset String)
  ll1Table : String → String → Option Nat

/-- The grammar part of `Parser::init` (lines 19-32), each of the two loops
limited to `fuel` passes. -/
def init (lines : List (String × List String)) (fuel : Nat) : Option GrammarTables :=
  match _readConfigFile lines with
  | none => none
  | some grammar =>
    match _computeFIRST grammar.2 fuel with
    | none => none
    | some FIRST =>
      match _computeFOLLOW (startSymbolOf lines) grammar.2 FIRST fuel with
      | none => none
      | some FOLLOW =>
        some {
          productions := grammar.2
          startSymbol := startSymbolOf lines
          FIRST := FIRST
          FOLLOW := FOLLOW
          FIRST_PLUS := _computeFIRST_PLUS grammar.2 FIRST FOLLOW
          ll1Table := _constructLL1Table grammar.2
            (_computeFIRST_PLUS grammar.2 FIRST FOLLOW) }

/-- All the names of the grammar: the left-hand sides, the right-hand-side
symbols and the two sentinels. -/
def symbolNames (productions : List Production) : Finset String :=
  lhsNames productions ∪ rhsNames productions ∪ {epsilonName, eofName}

/-- The bound on the number of passes of either loop: the number of
nonterminals times the number of names, plus one final pass. -/
def passBound (productions : List Production) : Nat :=
  (lhsNames productions).card * (symbolNames productions).card + 1

/-- What belongs to FIRST of a sentential form: the epsilon marker when the
form derives the empty form, a terminal when the form derives a form that
begins with it. -/
def InFirstOfForm (productions : List Production) (form : List Symbol) (t : String) : Prop :=
  (t = epsilonName ∧ Derives productions form [])
    ∨ (t ≠ epsilonName ∧ ∃ rest, Derives productions form ({ type := .TERMINAL, name := t } :: rest))

/-- Production `i` qualifies for the entry `(N, t)`: its left-hand side is
`N` and its FIRST+ set holds `t`, which is not the epsilon marker. -/
def Qualifies (productions : List Production) (FIRST_PLUS : List (Finset String))
    (N t : String) (i : Nat) : Prop :=
  ∃ production set, productions[i]? = some production ∧ FIRST_PLUS[i]? = some set
    ∧ production.lhsSymbol = N ∧ t ∈ set ∧ t ≠ epsilonName

/-- The classic expression grammar, one entry for each line of the grammar
file: productions 0 to 9. -/
def expressionGrammar : List (String × List String) :=
  [("E", ["T", "E'"]),
   ("E'", ["+", "T", "E'"]),
   ("E'", ["-", "T", "E'"]),
   ("E'", ["^e$"]),
   ("T", ["F", "T'"]),
   ("T'", ["*", "F", "T'"]),
   ("T'", ["/", "F", "T'"]),
   ("T'", ["^e$"]),
   ("F", ["(", "E", ")"]),
   ("F", ["num"])]

/-- The productions `_readConfigFile` builds from `expressionGrammar`. -/
def expressionProductions : List Production :=
  [{ lhsSymbol := "E",
     rhsSymbols := [{ type := .NONTERMINAL, name := "T" }, { type := .NONTERMINAL, name := "E'" }] },
   { lhsSymbol := "E'",
     rhsSymbols := [{ type := .TERMINAL, name := "+" }, { type := .NONTERMINAL, name := "T" },
       { type := .NONTERMINAL, name := "E'" }] },
   { lhsSymbol := "E'",
     rhsSymbols := [{ type := .TERMINAL, name := "-" }, { type := .NONTERMINAL, name := "T" },
       { type := .NONTERMINAL, name := "E'" }] },
   { lhsSymbol := "E'", rhsSymbols := [{ type := .EPSILON, name := "^e$" }] },
   { lhsSymbol := "T",
     rhsSymbols := [{ type := .NONTERMINAL, name := "F" }, { type := .NONTERMINAL, name := "T'" }] },
   { lhsSymbol := "T'",
     rhsSymbols := [{ type := .TERMINAL, name := "*" }, { type := .NONTERMINAL, name := "F" },
       { type := .NONTERMINAL, name := "T'" }] },
   { lhsSymbol := "T'",
     rhsSymbols := [{ type := .TERMINAL, name := "/" }, { type := .NONTERMINAL, name := "F" },
       { type := .NONTERMINAL, name := "T'" }] },
   { lhsSymbol := "T'", rhsSymbols := [{ type := .EPSILON, name := "^e$" }] },
   { lhsSymbol := "F",
     rhsSymbols := [{ type := .TERMINAL, name := "(" }, { type := .NONTERMINAL, name := "E" },
       { type := .TERMINAL, name := ")" }] },
   { lhsSymbol := "F", rhsSymbols := [{ type := .TERMINAL, name := "num" }] }]

/-- The sixteen entries of the textbook table of the expression grammar, the
end of the input under its name `eofName`. -/
def expressionTable : List (String × String × Nat) :=
  [("E", "(", 0), ("E", "num", 0),
   ("E'", "+", 1), ("E'", "-", 2), ("E'", ")", 3), ("E'", eofName, 3),
   ("T", "(", 4), ("T", "num", 4),
   ("T'", "*", 5), ("T'", "/", 6), ("T'", "+", 7), ("T'", "-", 7), ("T'", ")", 7),
   ("T'", eofName, 7),
   ("F", "(", 8), ("F", "num", 9)]

end Grammar

section ParserLoop

/-! ## The table-driven parser (`parser.cpp`, lines 378-491) -/

/-- The members of `class Parser` that `parse` reads: the productions, the
start symbol and the table left by `init`, and the two collections filled by
`_readSemanticsFile`. The map `_unaryOperators` sends a production index to
the position of its unary-left slot. -/
structure Parser where
  _productions : List Production
  _startSymbol : String
  _ll1Table : String → String → Option Nat
  _unaryOperators : Nat → Option Int
  _unusedTerminals : Finset String

/-- The constant `Parser::_binaryOperators` (line 14). -/
def _binaryOperators : Finset String := {"+", "-", "*", "/", "="}

/-- The token `{ "^\0$", "^\0$" }` that line 380 appends to the caller's
tokens: both members are the string `eofName`. -/
def eofToken : Token := { type := eofName, value := eofName }

/-- The member `type` of a node. -/
def ASTNode.type : ASTNode → ASTNodeType
  | .mk type _ _ => type

/-- The member `token` of a node. -/
def ASTNode.token : ASTNode → Option Token
  | .mk _ token _ => token

/-- The member `children` of a node. -/
def ASTNode.children : ASTNode → List ASTNode
  | .mk _ _ children => children

/-- The assignment `node->token = &tokens[nextInputToken]`. -/
def ASTNode.setToken (token : Token) : ASTNode → ASTNode
  | .mk type _ children => .mk type (some token) children

/-- The calls `node->children.push_back(...)` of one expansion. -/
def ASTNode.appendChildren (created : List ASTNode) : ASTNode → ASTNode
  | .mk type token children => .mk type token (children ++ created)

/-- A node pointer is modelled by the path that leads from the root of the
tree to the node, a list of child indices. `nodeAt` dereferences it. -/
def nodeAt : List Nat → ASTNode → Option ASTNode
  | [], node => some node
  | i :: path, .mk _ _ children =>
    match children[i]? with
    | none => none
    | some child => nodeAt path child

/-- A write through a node pointer: the tree in which the node at `path` has
been replaced by its image under `f`; `none` for a path that leads nowhere. -/
def updateAt (f : ASTNode → ASTNode) : List Nat → ASTNode → Option ASTNode
  | [], node => some (f node)
  | i :: path, .mk type token children =>
    match children[i]? with
    | none => none
    | some child =>
      match updateAt f path child with
      | none => none
      | some updated => some (.mk type token (children.set i updated))

/-- The local variables of `_parseAndCreateParseTree` together with the tree
under construction. Both stacks have their top at the head of the list. -/
structure ParseState where
  parseStack : List Symbol
  astStack : List (List Nat)
  astTree : ASTNode
  nextInputToken : Nat
  linePos : Nat

/-- How the loop of `_parseAndCreateParseTree` ends: `break` (the tree is
returned), one of the three `return NULL` branches, which print a bar under
column `linePos`, or undefined behaviour of the C++ code (`back()` or `top()`
of an empty stack, an index out of range). -/
inductive ParseOutcome where
  | success
  | syntaxError (linePos : Nat)
  | undefinedBehaviour
deriving DecidableEq, Repr

/-- The nodes the loop of lines 455-478 creates for the right-hand side of
production `productionIndex`, from position `i` on. A node that
`_getASTNode` hands out for the first time has a null token. -/
def createdNodes (parser : Parser) (productionIndex : Nat) : Nat → List Symbol → List ASTNode
  | _, [] => []
  | i, symbol :: rest =>
    match symbol.type with
    | .EPSILON => createdNodes parser productionIndex (i + 1) rest
    | .NONTERMINAL => .mk .EMPTY none [] :: createdNodes parser productionIndex (i + 1) rest
    | .TERMINAL =>
      if symbol.name ∈ parser._unusedTerminals then
        createdNodes parser productionIndex (i + 1) rest
      else
        .mk (if parser._unaryOperators productionIndex = some (i : Int) then
              .UNARY_LEFT_OPERATOR
            else if symbol.name ∈ _binaryOperators then .BINARY_OPERATOR
            else .OPERAND) none []
          :: createdNodes parser productionIndex (i + 1) rest
    | .EOFL => createdNodes parser productionIndex (i + 1) rest

/-- One iteration of the loop of lines 395-484 on the token vector `tokens`
(the caller's tokens followed by `eofToken`): the next state, or the way the
loop ends. -/
def parseStep (parser : Parser) (tokens : List Token) (s : ParseState) :
    ParseState ⊕ ParseOutcome :=
  match s.parseStack with
  | [] => .inr .undefinedBehaviour
  | stackTop :: parseStack =>
    match stackTop.type with
    | .EPSILON => .inl { s with parseStack := parseStack }
    | .EOFL =>
      match tokens[s.nextInputToken]? with
      | none => .inr .undefinedBehaviour
      | some token =>
        if token.value = eofName then .inr .success else .inr (.syntaxError s.linePos)
    | .TERMINAL =>
      match tokens[s.nextInputToken]? with
      | none => .inr .undefinedBehaviour
      | some token =>
        if stackTop.name = token.type then
          if stackTop.name ∉ parser._unusedTerminals then
            match s.astStack with
            | [] => .inr .undefinedBehaviour
            | astStackTop :: astStack =>
              match updateAt (ASTNode.setToken token) astStackTop s.astTree with
              | none => .inr .undefinedBehaviour
              | some tree =>
                .inl { parseStack := parseStack, astStack := astStack, astTree := tree,
                       nextInputToken := s.nextInputToken + 1,
                       linePos := s.linePos + token.value.utf8ByteSize }
          else
            .inl { s with parseStack := parseStack,
                          nextInputToken := s.nextInputToken + 1,
                          linePos := s.linePos + token.value.utf8ByteSize }
        else .inr (.syntaxError s.linePos)
    | .NONTERMINAL =>
      match tokens[s.nextInputToken]? with
      | none => .inr .undefinedBehaviour
      | some token =>
        match parser._ll1Table stackTop.name token.type with
        | none => .inr (.syntaxError s.linePos)
        | some i =>
          match parser._productions[i]? with
          | none => .inr .undefinedBehaviour
          | some production =>
            match s.astStack with
            | [] => .inr .undefinedBehaviour
            | astStackTop :: astStack =>
              match updateAt
                  (ASTNode.appendChildren (createdNodes parser i 0 production.rhsSymbols))
                  astStackTop s.astTree with
              | none => .inr .undefinedBehaviour
              | some tree =>
                match nodeAt astStackTop tree with
                | none => .inr .undefinedBehaviour
                | some node =>
                  .inl { s with
                    parseStack := production.rhsSymbols ++ parseStack,
                    astStack :=
                      (List.range node.children.length).map (fun k => astStackTop ++ [k])
                        ++ astStack,
                    astTree := tree }

/-- The loop `while (true)` of lines 395-484, limited to `fuel` iterations:
the way it ends and the state in which it ends. -/
def parseLoop (parser : Parser) (tokens : List Token) :
    Nat → ParseState → Option (ParseOutcome × ParseState)
  | 0, _ => none
  | fuel + 1, s =>
    match parseStep parser tokens s with
    | .inl next => parseLoop parser tokens fuel next
    | .inr outcome => some (outcome, s)

/-- The state in which the loop is entered (lines 380-394). -/
def initialState (parser : Parser) : ParseState :=
  { parseStack := [{ type := .NONTERMINAL, name := parser._startSymbol },
      { type := .EOFL, name := eofName }],
    astStack := [[]],
    astTree := .mk .EMPTY none [],
    nextInputToken := 0,
    linePos := 0 }

/-- The function `Parser::_parseAndCreateParseTree` on the caller's tokens:
on `success` the tree returned is the member `astTree` of the final state. -/
def _parseAndCreateParseTree (parser : Parser) (tokens : List Token) (fuel : Nat) :
    Option (ParseOutcome × ParseState) :=
  parseLoop parser (tokens ++ [eofToken]) fuel (initialState parser)

/-- The parser `init` leaves for a grammar, with the two collections of the
semantics file. -/
def parserOf (tables : GrammarTables) (unaryOperators : Nat → Option Int)
    (unusedTerminals : Finset String) : Parser :=
  { _productions := tables.productions,
    _startSymbol := tables.startSymbol,
    _ll1Table := tables.ll1Table,
    _unaryOperators := unaryOperators,
    _unusedTerminals := unusedTerminals }

/-- The column of the first unconsumed token: the sum of the lengths of the
values of the first `consumed` tokens. -/
def consumedLength (tokens : List Token) (consumed : Nat) : Nat :=
  ((tokens.take consumed).map (fun token => token.value.utf8ByteSize)).sum

/-- The parser of the expression grammar: the productions and the table
`init` builds for `expressionGrammar`, no unary-left slot, and the two
parentheses as unused terminals. -/
def expressionParser : Parser :=
  { _productions := expressionProductions,
    _startSymbol := "E",
    _ll1Table := _constructLL1Table expressionProductions
      [{"(", "num"}, {"+"}, {"-"}, {"^e$", "^", ")"}, {"(", "num"}, {"*"}, {"/"},
        {"^e$", "^", ")", "+", "-"}, {"("}, {"num"}],
    _unaryOperators := fun _ => none,
    _unusedTerminals := {"(", ")"} }

end ParserLoop

section Rendering

variable {K : Type} [LinearOrderedField K]

/-! ## The printed form of a result (`parser.cpp`, lines 579-600) -/

/-- What lines 583-587 write for `result[0]`. The parameter `fmt` stands for
the insertion `cout << double` of a coefficient; an exponent is an `int` and
is written in decimal. -/
def renderLeading (fmt : K → String) (term : Monomial K) : String :=
  (if term.coefficient ≠ 1 ∨ term.exponent = 0 then fmt term.coefficient else "")
    ++ (if term.exponent ≠ 0 then "x" else "")
    ++ (if term.exponent ≠ 0 ∧ term.exponent ≠ 1 then "^" ++ toString term.exponent else "")

/-- What one iteration of the loop of lines 588-596 writes for a term after
the first. -/
def renderFollowing (fmt : K → String) (term : Monomial K) : String :=
  (if term.coefficient > 0 then " + " else " - ")
    ++ (if |term.coefficient| ≠ 1 ∨ |term.exponent| = 0 then fmt |term.coefficient| else "")
    ++ (if term.exponent ≠ 0 then "x" else "")
    ++ (if term.exponent ≠ 0 ∧ term.exponent ≠ 1 then "^" ++ toString term.exponent else "")

/-- The text written after `ans = ` (lines 582-599): `0` for the empty
vector. -/
def render (fmt : K → String) : List (Monomial K) → String
  | [] => "0"
  | term :: rest => renderLeading fmt term ++ String.join (rest.map (renderFollowing fmt))

end Rendering

section TreeTransformer

variable {K : Type} [LinearOrderedField K]

/-! ## From the parse tree to the AST (`parser.cpp`, lines 41-52, 494-564, 661-696)

The functions of this part work on the tree by side effect. A tree value
stands for the nodes reachable from the root, a node pointer is the path from
the root to the node as in `nodeAt`, and the member `parent` of a node is the
path without its last index: `_pruneParseTree` sets every `parent` it leaves
reachable to the node one level up, and `_convertParseTreeToAST` sets the one
of the root to `NULL`, before `_moveUpOperators` reads them. -/

/-- The predicate of the `remove_if` call of lines 544-552; `none` when the
null token of a node that is not `EMPTY` is dereferenced. -/
def removable : ASTNode → Option Bool
  | .mk type token children =>
    if type ≠ .EMPTY then
      match token with
      | none => none
      | some token => some (decide (token.type = "(" ∨ token.type = ")"))
    else some children.isEmpty

/-- The calls `remove_if` and `erase` of lines 544-553. -/
def removeUnnecessary : List ASTNode → Option (List ASTNode)
  | [] => some []
  | node :: rest =>
    match removable node, removeUnnecessary rest with
    | some true, some kept => some kept
    | some false, some kept => some (node :: kept)
    | _, _ => none

/-- The body of the loop of lines 556-560: an `EMPTY` child with exactly one
child is replaced by that child. -/
def collapseChild (child : ASTNode) : ASTNode :=
  match child with
  | .mk .EMPTY _ [grandchild] => grandchild
  | _ => child

mutual
/-- The function `Parser::_pruneParseTree`: the tree below `root` after the
call, `none` for undefined behaviour. -/
def _pruneParseTree : ASTNode → Option ASTNode
  | .mk type token children =>
    match pruneChildren children with
    | none => none
    | some pruned =>
      match removeUnnecessary pruned with
      | none => none
      | some kept => some (.mk type token (kept.map collapseChild))
/-- The loop of lines 538-539 over the children. -/
def pruneChildren : List ASTNode → Option (List ASTNode)
  | [] => some []
  | child :: rest =>
    match _pruneParseTree child with
    | none => none
    | some pruned =>
      match pruneChildren rest with
      | none => none
      | some others => some (pruned :: others)
end

/-- The two `swap` calls of lines 690-691 between a node and its child
number `i`. -/
def swapWithChild (i : Nat) : ASTNode → ASTNode
  | .mk type token children =>
    match children[i]? with
    | none => .mk type token children
    | some (.mk childType childToken grandchildren) =>
      .mk childType childToken (children.set i (.mk type token grandchildren))

/-- The `while` loop of lines 670-693. The node `current` is given by its
path in reverse, so that the head is `childIndx` and the tail the path of the
parent; the empty path is the root, whose `parent` is `NULL`. The result is
the tree after the loop and the value returned, `none` for a path that leads
nowhere. -/
def climb (tree : ASTNode) : List Nat → Bool → Bool → Option (ASTNode × Bool)
  | reversed, hasLeft, hasRight =>
    match nodeAt reversed.reverse tree with
    | none => none
    | some current =>
      if (current.type = .BINARY_OPERATOR ∧ (!hasLeft || !hasRight))
          ∨ (current.type = .UNARY_LEFT_OPERATOR ∧ !hasRight) then
        match reversed with
        | [] => some (tree, false)
        | childIndx :: parentReversed =>
          match nodeAt parentReversed.reverse tree with
          | none => none
          | some parent =>
            match updateAt (swapWithChild childIndx) parentReversed.reverse tree with
            | none => none
            | some swapped =>
              climb swapped parentReversed
                (hasLeft || decide (childIndx > 0))
                (hasRight || decide (childIndx < parent.children.length - 1))
      else some (tree, true)

mutual
/-- The function `Parser::_moveUpOperators` called on the node at `path` of
`tree`. The first argument is that node as it is when the call starts: the
function never changes a `children` vector, so the recursion runs over its
children. The result is the whole tree after the call and the value
returned. -/
def moveUpAt : ASTNode → List Nat → ASTNode → Option (ASTNode × Bool)
  | .mk _ _ children, path, tree =>
    match moveUpChildren children path 0 tree with
    | none => none
    | some (moved, false) => some (moved, false)
    | some (moved, true) =>
      climb moved path.reverse (decide (children.length ≥ 1)) (decide (children.length ≥ 2))
/-- The loop of lines 662-664 from child number `k` on. -/
def moveUpChildren : List ASTNode → List Nat → Nat → ASTNode → Option (ASTNode × Bool)
  | [], _, _, tree => some (tree, true)
  | child :: rest, path, k, tree =>
    match moveUpAt child (path ++ [k]) tree with
    | none => none
    | some (moved, false) => some (moved, false)
    | some (moved, true) => moveUpChildren rest path (k + 1) moved
end

/-- The call `_moveUpOperators(astTree)` on a root. -/
def _moveUpOperators (root : ASTNode) : Option (ASTNode × Bool) :=
  moveUpAt root [] root

/-- Lines 505-506 and 516-517: a root with exactly one child gives way to
that child. -/
def replaceRoot (astTree : ASTNode) : ASTNode :=
  match astTree with
  | .mk _ _ [child] => child
  | _ => astTree

/-- The function `Parser::_convertParseTreeToAST`. The value
`_moveUpOperators` returns is not read (line 512): the tree it leaves is
pruned and returned whatever it is. -/
def _convertParseTreeToAST (astTree : ASTNode) : Option ASTNode :=
  match _pruneParseTree astTree with
  | none => none
  | some pruned =>
    match _moveUpOperators (replaceRoot pruned) with
    | none => none
    | some moved =>
      match _pruneParseTree moved.1 with
      | none => none
      | some final => some (replaceRoot final)

/-- What a call of `Parser::parse` does with one line. -/
inductive ParseResult (K : Type) where
  /-- The parser printed the bar under column `linePos`; `parse` returns `false`. -/
  | syntaxError (linePos : Nat)
  /-- The AST was handed to `_evalASTTree`, which wrote `output`; `parse`
  returns `true`. -/
  | evaluated (output : Output K)
  /-- Undefined behaviour of the C++ code. -/
  | undefinedBehaviour

/-- The function `Parser::parse`, the parser loop limited to `fuel`
iterations. -/
def parse (parser : Parser) (atof : String → K) (sqrt : K → K) (tokens : List Token)
    (fuel : Nat) : Option (ParseResult K) :=
  match _parseAndCreateParseTree parser tokens fuel with
  | none => none
  | some (.syntaxError linePos, _) => some (.syntaxError linePos)
  | some (.undefinedBehaviour, _) => some .undefinedBehaviour
  | some (.success, final) =>
    match _convertParseTreeToAST final.astTree with
    | none => some .undefinedBehaviour
    | some ast => some (.evaluated (_evalASTTree atof sqrt ast))

end TreeTransformer

section EvaluatorOrigins

variable {K : Type} [LinearOrderedField K]

/-- The trees from which the claim on the shape of the results lets the
single monomial `0*x^0` arise: a leaf that is not the variable and whose text
has the value 0, or a node `/` whose first child is such a tree and whose
second child evaluates to a nonzero scalar. -/
inductive LiteralZeroOrigin (atof : String → K) : ASTNode → Prop where
  | leaf (type : ASTNodeType) (token : Token) :
      firstChar token.value ≠ 'x' → atof token.value = 0 →
      LiteralZeroOrigin atof (.mk type (some token) [])
  | quotient (type : ASTNodeType) (token : Token) (c0 c1 : ASTNode) (rest : List ASTNode)
      (d : K) :
      firstChar token.value = '/' → LiteralZeroOrigin atof c0 →
      _evalASTNode atof c1 = .ok [{ coefficient := d, exponent := 0 }] → d ≠ 0 →
      LiteralZeroOrigin atof (.mk type (some token) (c0 :: c1 :: rest))

end EvaluatorOrigins

section ExpansionKinds

/-- The kind the claim on the node kinds gives to the child created for the
symbol at `position` of the right-hand side of production `i`, as the claim
is written: the symbol's type is not looked at. -/
def claimedKind (parser : Parser) (i position : Nat) (symbol : Symbol) : ASTNodeType :=
  if parser._unaryOperators i = some (position : Int) then .UNARY_LEFT_OPERATOR
  else if symbol.name ∈ _binaryOperators then .BINARY_OPERATOR
  else .OPERAND

/-- The kind of the child created for the symbol at `position` of the
right-hand side of production `i`, in the words of the amended claim: `EMPTY`
for a nonterminal, otherwise as in `claimedKind`. -/
def expectedKind (parser : Parser) (i position : Nat) (symbol : Symbol) : ASTNodeType :=
  if symbol.type = .NONTERMINAL then .EMPTY else claimedKind parser i position symbol

/-- The symbols of a right-hand side for which a child is created, in the
words of the claim, with their positions counted from `first`: those that are
neither epsilon nor an unused terminal. -/
def nodeBearing (parser : Parser) (first : Nat) (rhs : List Symbol) : List (Nat × Symbol) :=
  (rhs.enumFrom first).filter (fun entry =>
    decide (entry.2.type ≠ .EPSILON
      ∧ ¬ (entry.2.type = .TERMINAL ∧ entry.2.name ∈ parser._unusedTerminals)))

/-- The children the amended claim expects for production `i`: one fresh leaf
for each node-bearing symbol, in order. -/
def expectedChildren (parser : Parser) (i : Nat) (rhs : List Symbol) : List ASTNode :=
  (nodeBearing parser 0 rhs).map (fun entry =>
    .mk (expectedKind parser i entry.1 entry.2) none [])

end ExpansionKinds

section TreeShape

mutual
/-- The proper descendants of a node, in pre-order. -/
def properDescendants : ASTNode → List ASTNode
  | .mk _ _ children => descendantsOfList children
/-- The nodes of a list of trees, in pre-order. -/
def descendantsOfList : List ASTNode → List ASTNode
  | [] => []
  | child :: rest => child :: (properDescendants child ++ descendantsOfList rest)
end

/-- The node carries a token of type `(` or `)`. -/
def CarriesDelimiter (node : ASTNode) : Prop :=
  ∃ token, node.token = some token ∧ (token.type = "(" ∨ token.type = ")")

/-- The three kinds of node the claim on `_pruneParseTree` rules out below the
root: (a) a placeholder without children, (b) a node that is not a
placeholder and carries a grouping delimiter, (c) a placeholder with exactly
one child. -/
def Superfluous (node : ASTNode) : Prop :=
  (node.type = .EMPTY ∧ node.children = [])
    ∨ (node.type ≠ .EMPTY ∧ CarriesDelimiter node)
    ∨ (node.type = .EMPTY ∧ node.children.length = 1)

end TreeShape

section Relabelling

mutual
/-- The tree without its labels: every kind is `EMPTY`, every token null; what
is left is the `children` vectors and with them the parent references. -/
def skeleton : ASTNode → ASTNode
  | .mk _ _ children => .mk .EMPTY none (skeletonOfList children)
/-- The skeletons of a list of trees. -/
def skeletonOfList : List ASTNode → List ASTNode
  | [] => []
  | child :: rest => skeleton child :: skeletonOfList rest
end

mutual
/-- The pairs (kind, token) of the nodes of a tree, in pre-order. -/
def labels : ASTNode → List (ASTNodeType × Option Token)
  | .mk type token children => (type, token) :: labelsOfList children
/-- The pairs (kind, token) of the nodes of a list of trees. -/
def labelsOfList : List ASTNode → List (ASTNodeType × Option Token)
  | [] => []
  | child :: rest => labels child ++ labelsOfList rest
end

/-- The tree `after` arises from `before` by exchanging the pair (kind, token)
of one node with that of its parent. -/
def LabelSwap (before after : ASTNode) : Prop :=
  ∃ (path : List Nat) (i : Nat) (parent child : ASTNode),
    nodeAt path before = some parent ∧ parent.children[i]? = some child
      ∧ updateAt (swapWithChild i) path before = some after

end Relabelling

section ParserInvariants

/-- The terminal symbol a token is matched by. -/
def terminalOf (token : Token) : Symbol := { type := .TERMINAL, name := token.type }

/-- Every entry of the table points to a production of the nonterminal it is
filed under, as the entries `_constructLL1Table` writes do. -/
def TablePointsToLhs (parser : Parser) : Prop :=
  ∀ (N t : String) (i : Nat), parser._ll1Table N t = some i →
    ∃ production, parser._productions[i]? = some production ∧ production.lhsSymbol = N

/-- No right-hand side holds a symbol of type `EOFL`; `_readConfigFile` never
produces one. -/
def NoEndSymbol (parser : Parser) : Prop :=
  ∀ production ∈ parser._productions, ∀ symbol ∈ production.rhsSymbols, symbol.type ≠ .EOFL

/-- The invariant behind the soundness of the parser: the symbol stack is a
body without end-of-input symbol on top of the end-of-input symbol, and the
start symbol derives the consumed tokens followed by the body. -/
def DerivationInvariant (parser : Parser) (tokens : List Token) (s : ParseState) : Prop :=
  ∃ body : List Symbol, s.parseStack = body ++ [{ type := .EOFL, name := eofName }]
    ∧ (∀ symbol ∈ body, symbol.type ≠ .EOFL)
    ∧ Derives parser._productions [{ type := .NONTERMINAL, name := parser._startSymbol }]
        ((tokens.take s.nextInputToken).map terminalOf ++ body)

end ParserInvariants

section TreeInvariants

/-- What the invariant of the parser loop records of a node: the pointer to
it (its path), its kind, its token and the number of its children. -/
structure NodeEntry where
  path : List Nat
  type : ASTNodeType
  token : Option Token
  childCount : Nat

/-- The entry of the node `node` found at `path`. -/
def entryOf (path : List Nat) (node : ASTNode) : NodeEntry :=
  { path := path, type := node.type, token := node.token,
    childCount := node.children.length }

mutual
/-- The entries of the nodes of the tree found at `path`, in pre-order. -/
def nodesAt : List Nat → ASTNode → List NodeEntry
  | path, .mk type token children =>
    { path := path, type := type, token := token, childCount := children.length }
      :: nodesOfChildren path 0 children
/-- The entries of the nodes of the children of the node at `path`, the first
of which is child number `k`. -/
def nodesOfChildren : List Nat → Nat → List ASTNode → List NodeEntry
  | _, _, [] => []
  | path, k, child :: rest => nodesAt (path ++ [k]) child ++ nodesOfChildren path (k + 1) rest
end

/-- A symbol of the symbol stack for which a node waits on the node stack: a
nonterminal, or a terminal outside the unused-terminal set. -/
def counted (parser : Parser) (symbol : Symbol) : Bool :=
  decide (symbol.type = .NONTERMINAL
    ∨ (symbol.type = .TERMINAL ∧ symbol.name ∉ parser._unusedTerminals))

/-- The node of `entry` waits for `symbol`: it has no token and no child yet,
and it is a placeholder exactly when the symbol is a nonterminal. -/
def Awaits (symbol : Symbol) (entry : NodeEntry) : Prop :=
  entry.token = none ∧ entry.childCount = 0
    ∧ (symbol.type = .NONTERMINAL → entry.type = .EMPTY)
    ∧ (symbol.type = .TERMINAL → entry.type ≠ .EMPTY)

/-- The tokens of the entries that are not placeholders, in order. -/
def yieldOf (entries : List NodeEntry) : List (Option Token) :=
  (entries.filter (fun entry => decide (entry.type ≠ .EMPTY))).map (fun entry => entry.token)

/-- The tokens whose type is not in the unused-terminal set, in order. -/
def usedTokens (parser : Parser) (tokens : List Token) : List Token :=
  tokens.filter (fun token => decide (token.type ∉ parser._unusedTerminals))

/-- The invariant that ties the two stacks to the tree: in pre-order the
nodes of the tree are the finished ones followed by the ones on the node
stack; the latter wait, in order, for the counted symbols of the symbol stack;
and the tokens of the finished nodes that are not placeholders are the used
tokens consumed so far. -/
def TreeInvariant (parser : Parser) (tokens : List Token) (s : ParseState) : Prop :=
  ∃ finished pending : List NodeEntry,
    nodesAt [] s.astTree = finished ++ pending
      ∧ pending.map (fun entry => entry.path) = s.astStack
      ∧ List.Forall₂ Awaits (s.parseStack.filter (counted parser)) pending
      ∧ yieldOf finished
        = (usedTokens parser (tokens.take s.nextInputToken)).map some

/-- The states the loop of `_parseAndCreateParseTree` passes through on the
caller's `tokens`. -/
def Reachable (parser : Parser) (tokens : List Token) (s : ParseState) : Prop :=
  Relation.ReflTransGen
    (fun a b => parseStep parser (tokens ++ [eofToken]) a = .inl b) (initialState parser) s

end TreeInvariants

section StackInvariants

/-- The symbol stack is a body without end-of-input symbol on top of the
end-of-input symbol pushed first. -/
def StackShape (s : ParseState) : Prop :=
  ∃ body : List Symbol, s.parseStack = body ++ [{ type := .EOFL, name := eofName }]
    ∧ ∀ symbol ∈ body, symbol.type ≠ .EOFL

end StackInvariants

section Termination

/-- The symbol `Y` is a left corner of the nonterminal `X`: a production of
`X` has `Y` on its right-hand side behind symbols that derive the empty
form. -/
def LeftCorner (productions : List Production) (Y X : Symbol) : Prop :=
  X.type = .NONTERMINAL
    ∧ ∃ production ∈ productions, production.lhsSymbol = X.name
      ∧ ∃ α β : List Symbol, production.rhsSymbols = α ++ Y :: β ∧ Derives productions α []

/-- The grammar is left-recursive: some nonterminal derives, in one step or
more, a form that begins with the nonterminal itself. -/
def LeftRecursive (productions : List Production) : Prop :=
  ∃ (A : String) (γ : List Symbol),
    Relation.TransGen (DerivationStep productions)
      [{ type := .NONTERMINAL, name := A }] ({ type := .NONTERMINAL, name := A } :: γ)

/-- No terminal of a right-hand side has the name of the end-of-input
marker. -/
def NoMarkerTerminal (parser : Parser) : Prop :=
  ∀ production ∈ parser._productions, ∀ symbol ∈ production.rhsSymbols,
    symbol.type = .TERMINAL → symbol.name ≠ eofName

/-- The loop started in `s` stands in `t` after `n` iterations. -/
def RunsTo (parser : Parser) (tokens : List Token) (n : Nat) (s t : ParseState) : Prop :=
  ∀ k, parseLoop parser tokens (n + k) s = parseLoop parser tokens k t

/-- The grammar `E -> num`, `E -> E + num`, whose second production is
left-recursive. -/
def leftRecursiveGrammar : List (String × List String) :=
  [("E", ["num"]), ("E", ["E", "+", "num"])]

/-- The parser `init` builds for `leftRecursiveGrammar`; the entry for `E`
under `num` is the later production, number 1. -/
def leftRecursiveParser : Parser :=
  { _productions :=
      [{ lhsSymbol := "E", rhsSymbols := [{ type := .TERMINAL, name := "num" }] },
       { lhsSymbol := "E",
         rhsSymbols := [{ type := .NONTERMINAL, name := "E" }, { type := .TERMINAL, name := "+" },
           { type := .TERMINAL, name := "num" }] }],
    _startSymbol := "E",
    _ll1Table := _constructLL1Table
      [{ lhsSymbol := "E", rhsSymbols := [{ type := .TERMINAL, name := "num" }] },
       { lhsSymbol := "E",
         rhsSymbols := [{ type := .NONTERMINAL, name := "E" }, { type := .TERMINAL, name := "+" },
           { type := .TERMINAL, name := "num" }] }]
      [{"num"}, {"num"}],
    _unaryOperators := fun _ => none,
    _unusedTerminals := ∅ }

end Termination

section TerminationStates

/-- No terminal on the symbol stack bears the name of the end-of-input
marker. -/
def NoMarkerOnStack (s : ParseState) : Prop :=
  ∀ symbol ∈ s.parseStack, symbol.type = .TERMINAL → symbol.name ≠ eofName

/-- The invariant that keeps the loop on the caller's `tokens` within its
containers: the invariant of the two stacks and the tree, the shape of the
symbol stack, no terminal named like the marker on it, and the cursor not past
the token that `_parseAndCreateParseTree` appends. -/
def SafeState (parser : Parser) (tokens : List Token) (s : ParseState) : Prop :=
  TreeInvariant parser (tokens ++ [eofToken]) s ∧ StackShape s ∧ NoMarkerOnStack s
    ∧ s.nextInputToken ≤ tokens.length

end TerminationStates

section ExpressionRank

/-- A rank of sentential forms of the expression grammar that every derivation
step at the head of a form lowers: `E` above `T` above `F` above terminals, a
lone epsilon symbol or other nonterminal in between. Forms the derivations
from a single nonterminal never reach have none. -/
def expressionHeadRank : List Symbol → Option Nat
  | [] => some 0
  | symbol :: tail =>
    match symbol.type with
    | .TERMINAL => some 0
    | .EPSILON => if tail = [] then some 1 else none
    | .EOFL => none
    | .NONTERMINAL =>
      if symbol.name = "F" then some 1
      else if symbol.name = "T" then some 2
      else if symbol.name = "E" then some 3
      else if tail = [] then some 2
      else none

end ExpressionRank

/-! # Theorems -/

section PolynomialLemmas

variable {K : Type} [LinearOrderedField K]

theorem sumOver_nil (f : Int → K → K) : sumOver f ([] : List (Monomial K)) = 0 := rfl

theorem sumOver_cons (f : Int → K → K) (m : Monomial K) (l : List (Monomial K)) :
    sumOver f (m :: l) = f m.exponent m.coefficient + sumOver f l := by
  simp [sumOver]

theorem sumOver_append (f : Int → K → K) (a b : List (Monomial K)) :
    sumOver f (a ++ b) = sumOver f a + sumOver f b := by
  simp [sumOver]

theorem sumOver_perm (f : Int → K → K) {a b : List (Monomial K)} (h : a.Perm b) :
    sumOver f a = sumOver f b := by
  unfold sumOver
  exact (h.map _).sum_eq

theorem sumLoop_cons_same (e : Int) (m : Monomial K) (rest : List (Monomial K))
    (h : m.exponent = e) :
    sumLoop (some e) (m :: rest) = m :: sumLoop (some e) rest := by
  simp [sumLoop, h]

theorem sumLoop_cons_other (prev : Option Int) (m : Monomial K) (rest : List (Monomial K))
    (h : prev ≠ some m.exponent) :
    sumLoop prev (m :: rest)
      = { coefficient := sumRun m.exponent m.coefficient rest, exponent := m.exponent }
          :: sumLoop (some m.exponent) rest := by
  simp [sumLoop, h]

/-- Summing the runs and dropping the run tails keeps every additive weighted
sum: the kept head of the current run accounts for the pending coefficient `c`. -/
theorem sumOver_uniqueFrom_sumLoop (f : Int → K → K)
    (hadd : ∀ e c d, f e (c + d) = f e c + f e d) (l : List (Monomial K)) :
    ∀ (e : Int) (c : K),
      sumOver f (uniqueFrom { coefficient := sumRun e c l, exponent := e } (sumLoop (some e) l))
        = f e c + sumOver f l := by
  induction l with
  | nil => intro e c; simp [sumLoop, uniqueFrom, sumRun, sumOver]
  | cons m rest ih =>
    intro e c
    by_cases h : m.exponent = e
    · rw [sumLoop_cons_same e m rest h]
      simp only [uniqueFrom, sumRun, h, if_true]
      rw [ih e (c + m.coefficient), hadd, sumOver_cons, h, add_assoc]
    · have h2 : (some e : Option Int) ≠ some m.exponent := by
        intro hh; exact h (Option.some.inj hh).symm
      rw [sumLoop_cons_other (some e) m rest h2]
      have h3 : ¬ e = m.exponent := fun hh => h hh.symm
      simp only [uniqueFrom, sumRun, h, h3, if_false]
      rw [sumOver_cons, ih m.exponent m.coefficient, sumOver_cons]

theorem sumOver_unique_sumLoop (f : Int → K → K)
    (hadd : ∀ e c d, f e (c + d) = f e c + f e d) (l : List (Monomial K)) :
    sumOver f (unique (sumLoop none l)) = sumOver f l := by
  cases l with
  | nil => rfl
  | cons m rest =>
    rw [sumLoop_cons_other none m rest (by simp)]
    simp only [unique]
    rw [sumOver_uniqueFrom_sumLoop f hadd rest m.exponent m.coefficient, sumOver_cons]

theorem additive_zero (f : Int → K → K)
    (hadd : ∀ e c d, f e (c + d) = f e c + f e d) (e : Int) : f e 0 = 0 := by
  have h := hadd e 0 0
  rw [add_zero] at h
  exact self_eq_add_right.mp h

theorem sumOver_removeZero (f : Int → K → K)
    (hadd : ∀ e c d, f e (c + d) = f e c + f e d) (l : List (Monomial K)) :
    sumOver f (removeZero l) = sumOver f l := by
  induction l with
  | nil => rfl
  | cons m rest ih =>
    unfold removeZero at ih ⊢
    by_cases h : m.coefficient = 0
    · rw [List.filter_cons_of_neg (by simpa using h), ih, sumOver_cons, h,
        additive_zero f hadd, zero_add]
    · rw [List.filter_cons_of_pos (by simpa using h), sumOver_cons, sumOver_cons, ih]

/-- Canonicalisation keeps every additive weighted sum. -/
theorem sumOver_canonicalize (f : Int → K → K)
    (hadd : ∀ e c d, f e (c + d) = f e c + f e d) (l : List (Monomial K)) :
    sumOver f (canonicalize l) = sumOver f l := by
  unfold canonicalize sortDescending
  rw [sumOver_removeZero f hadd, sumOver_unique_sumLoop f hadd]
  exact sumOver_perm f (List.perm_insertionSort _ l)

/-- Every exponent left by the run pass comes from the pending head or from
the input. -/
theorem mem_uniqueFrom_sumLoop (l : List (Monomial K)) :
    ∀ (e : Int) (c : K) (x : Monomial K),
      x ∈ uniqueFrom { coefficient := c, exponent := e } (sumLoop (some e) l) →
        x.exponent = e ∨ ∃ m ∈ l, m.exponent = x.exponent := by
  induction l with
  | nil =>
    intro e c x hx
    simp [sumLoop, uniqueFrom] at hx
    left; rw [hx]
  | cons m rest ih =>
    intro e c x hx
    by_cases h : m.exponent = e
    · rw [sumLoop_cons_same e m rest h] at hx
      simp only [uniqueFrom, h, if_true] at hx
      rcases ih e c x hx with h1 | ⟨m', hm', he⟩
      · exact Or.inl h1
      · exact Or.inr ⟨m', List.mem_cons_of_mem _ hm', he⟩
    · have h2 : (some e : Option Int) ≠ some m.exponent := by
        intro hh; exact h (Option.some.inj hh).symm
      rw [sumLoop_cons_other (some e) m rest h2] at hx
      have h3 : ¬ e = m.exponent := fun hh => h hh.symm
      simp only [uniqueFrom, h3, if_false, List.mem_cons] at hx
      rcases hx with hx | hx
      · left; rw [hx]
      · rcases ih m.exponent _ x hx with h1 | ⟨m', hm', he⟩
        · exact Or.inr ⟨m, List.mem_cons_self _ _, h1.symm⟩
        · exact Or.inr ⟨m', List.mem_cons_of_mem _ hm', he⟩

/-- On a list sorted by descending exponent, whose exponents do not exceed the
pending head, the run pass leaves strictly descending exponents. -/
theorem pairwise_uniqueFrom_sumLoop (l : List (Monomial K)) :
    ∀ (e : Int) (c : K), l.Pairwise expGE → (∀ m ∈ l, m.exponent ≤ e) →
      (uniqueFrom { coefficient := c, exponent := e } (sumLoop (some e) l)).Pairwise
        (fun a b => b.exponent < a.exponent) := by
  induction l with
  | nil => intro e c _ _; simp [sumLoop, uniqueFrom]
  | cons m rest ih =>
    intro e c hs hle
    have hrest : rest.Pairwise expGE := (List.pairwise_cons.mp hs).2
    have hhead : ∀ m' ∈ rest, m'.exponent ≤ m.exponent := (List.pairwise_cons.mp hs).1
    by_cases h : m.exponent = e
    · rw [sumLoop_cons_same e m rest h]
      simp only [uniqueFrom, h, if_true]
      exact ih e c hrest (fun m' hm' => hle m' (List.mem_cons_of_mem _ hm'))
    · have h2 : (some e : Option Int) ≠ some m.exponent := by
        intro hh; exact h (Option.some.inj hh).symm
      rw [sumLoop_cons_other (some e) m rest h2]
      have h3 : ¬ e = m.exponent := fun hh => h hh.symm
      simp only [uniqueFrom, h3, if_false]
      have hlt : m.exponent < e := lt_of_le_of_ne (hle m (List.mem_cons_self _ _)) h
      refine List.pairwise_cons.mpr ⟨?_, ih m.exponent _ hrest hhead⟩
      intro x hx
      rcases mem_uniqueFrom_sumLoop rest m.exponent _ x hx with h1 | ⟨m', hm', he⟩
      · show x.exponent < e
        rw [h1]; exact hlt
      · show x.exponent < e
        rw [← he]; exact lt_of_le_of_lt (hhead m' hm') hlt

theorem pairwise_unique_sumLoop (l : List (Monomial K)) (hs : l.Pairwise expGE) :
    (unique (sumLoop none l)).Pairwise (fun a b => b.exponent < a.exponent) := by
  cases l with
  | nil => simp [sumLoop, unique]
  | cons m rest =>
    rw [sumLoop_cons_other none m rest (by simp)]
    simp only [unique]
    exact pairwise_uniqueFrom_sumLoop rest m.exponent _ (List.pairwise_cons.mp hs).2
      (List.pairwise_cons.mp hs).1

theorem mem_unique_sumLoop (l : List (Monomial K)) (x : Monomial K)
    (hx : x ∈ unique (sumLoop none l)) : ∃ m ∈ l, m.exponent = x.exponent := by
  cases l with
  | nil => simp [sumLoop, unique] at hx
  | cons m rest =>
    rw [sumLoop_cons_other none m rest (by simp)] at hx
    simp only [unique] at hx
    rcases mem_uniqueFrom_sumLoop rest m.exponent _ x hx with h1 | ⟨m', hm', he⟩
    · exact ⟨m, List.mem_cons_self _ _, h1.symm⟩
    · exact ⟨m', List.mem_cons_of_mem _ hm', he⟩

theorem sortDescending_sorted (l : List (Monomial K)) :
    (sortDescending l).Pairwise expGE :=
  List.sorted_insertionSort expGE l

/-- The output of the shared tail of `_addPolynomial` / `_subtractPolynomial`
is canonical, whatever the input. -/
theorem canonicalize_canonical (l : List (Monomial K)) : Canonical (canonicalize l) := by
  constructor
  · unfold canonicalize removeZero
    exact (pairwise_unique_sumLoop _ (sortDescending_sorted l)).filter _
  · intro m hm
    unfold canonicalize removeZero at hm
    simpa using (List.mem_filter.mp hm).2

/-- Canonicalisation invents no exponent. -/
theorem mem_canonicalize (l : List (Monomial K)) (x : Monomial K)
    (hx : x ∈ canonicalize l) : ∃ m ∈ l, m.exponent = x.exponent := by
  unfold canonicalize removeZero at hx
  obtain ⟨m, hm, he⟩ := mem_unique_sumLoop _ x (List.mem_filter.mp hx).1
  exact ⟨m, (List.perm_insertionSort expGE l).mem_iff.mp hm, he⟩

/-- The weight that selects the coefficient of `x^k`. -/
theorem coeffOf_eq_sumOver (k : Int) (l : List (Monomial K)) :
    coeffOf k l = sumOver (fun e c => if e = k then c else 0) l := by
  induction l with
  | nil => rfl
  | cons m rest ih =>
    unfold coeffOf at ih ⊢
    rw [sumOver_cons, ← ih]
    by_cases h : m.exponent = k
    · rw [List.filter_cons_of_pos (by simpa using h)]
      simp [h]
    · rw [List.filter_cons_of_neg (by simpa using h)]
      simp [h]

theorem selector_additive (k : Int) :
    ∀ (e : Int) (c d : K),
      (fun (e : Int) (c : K) => if e = k then c else 0) e (c + d)
        = (fun (e : Int) (c : K) => if e = k then c else 0) e c
          + (fun (e : Int) (c : K) => if e = k then c else 0) e d := by
  intro e c d
  by_cases h : e = k <;> simp [h]

theorem coeffOf_canonicalize (k : Int) (l : List (Monomial K)) :
    coeffOf k (canonicalize l) = coeffOf k l := by
  rw [coeffOf_eq_sumOver, coeffOf_eq_sumOver]
  exact sumOver_canonicalize _ (selector_additive k) l

theorem coeffOf_cons (k : Int) (m : Monomial K) (l : List (Monomial K)) :
    coeffOf k (m :: l) = (if m.exponent = k then m.coefficient else 0) + coeffOf k l := by
  rw [coeffOf_eq_sumOver, coeffOf_eq_sumOver, sumOver_cons]

theorem coeffOf_append (k : Int) (a b : List (Monomial K)) :
    coeffOf k (a ++ b) = coeffOf k a + coeffOf k b := by
  rw [coeffOf_eq_sumOver, coeffOf_eq_sumOver, coeffOf_eq_sumOver, sumOver_append]

theorem coeffOf_eq_zero_of_absent (k : Int) (l : List (Monomial K))
    (h : ∀ m ∈ l, m.exponent ≠ k) : coeffOf k l = 0 := by
  induction l with
  | nil => rfl
  | cons m rest ih =>
    rw [coeffOf_cons, if_neg (h m (List.mem_cons_self _ _)), zero_add]
    exact ih (fun m' hm' => h m' (List.mem_cons_of_mem _ hm'))

theorem Canonical.tail {m : Monomial K} {l : List (Monomial K)} (h : Canonical (m :: l)) :
    Canonical l :=
  ⟨(List.pairwise_cons.mp h.1).2, fun x hx => h.2 x (List.mem_cons_of_mem _ hx)⟩

/-- In a canonical list the entry found for `x^k` carries the whole coefficient
of `x^k`, and there is no entry exactly when that coefficient is zero. -/
theorem coefficientAt_of_canonical (k : Int) (l : List (Monomial K)) (h : Canonical l) :
    coefficientAt k l = if coeffOf k l = 0 then none else some (coeffOf k l) := by
  induction l with
  | nil => simp [coefficientAt, coeffOf]
  | cons m rest ih =>
    by_cases hk : m.exponent = k
    · have hrest : coeffOf k rest = 0 := by
        apply coeffOf_eq_zero_of_absent
        intro x hx
        have := (List.pairwise_cons.mp h.1).1 x hx
        omega
      have hne : m.coefficient ≠ 0 := h.2 m (List.mem_cons_self _ _)
      rw [coeffOf_cons, if_pos hk, hrest, add_zero, if_neg hne]
      simp [coefficientAt, List.find?, hk]
    · rw [coeffOf_cons, if_neg hk, zero_add, ← ih h.tail]
      simp [coefficientAt, List.find?, hk]

theorem coeffOf_negate (k : Int) (l : List (Monomial K)) :
    coeffOf k (l.map (fun term =>
      ({ coefficient := term.coefficient * -1, exponent := term.exponent } : Monomial K)))
      = - coeffOf k l := by
  induction l with
  | nil => simp [coeffOf]
  | cons m rest ih =>
    rw [List.map_cons, coeffOf_cons, coeffOf_cons, ih]
    by_cases h : m.exponent = k <;> simp [h]; ring

theorem coeffOf_add (k : Int) (p q : List (Monomial K)) :
    coeffOf k (_addPolynomial p q) = coeffOf k p + coeffOf k q := by
  unfold _addPolynomial
  rw [coeffOf_canonicalize, coeffOf_append]

theorem coeffOf_subtract (k : Int) (p q : List (Monomial K)) :
    coeffOf k (_subtractPolynomial p q) = coeffOf k p - coeffOf k q := by
  unfold _subtractPolynomial
  rw [coeffOf_canonicalize, coeffOf_append, coeffOf_negate, sub_eq_add_neg]

theorem addPolynomial_canonical (p q : List (Monomial K)) : Canonical (_addPolynomial p q) :=
  canonicalize_canonical _

theorem subtractPolynomial_canonical (p q : List (Monomial K)) :
    Canonical (_subtractPolynomial p q) :=
  canonicalize_canonical _

theorem canonical_nil : Canonical ([] : List (Monomial K)) :=
  ⟨List.Pairwise.nil, fun _ h => absurd h (List.not_mem_nil _)⟩

theorem foldl_add_canonical (lhs : List (Monomial K)) (rhs : List (Monomial K)) :
    ∀ init : List (Monomial K), Canonical init →
      Canonical (rhs.foldl (fun result termr => _addPolynomial result (scaleBy termr lhs)) init) := by
  induction rhs with
  | nil => intro init h; exact h
  | cons b rest ih =>
    intro init _
    rw [List.foldl_cons]
    exact ih _ (addPolynomial_canonical _ _)

theorem multiplyPolynomials_canonical (p q : List (Monomial K)) :
    Canonical (_multiplyPolynomials p q) :=
  foldl_add_canonical p q [] canonical_nil

theorem sumOver_foldl_add (f : Int → K → K)
    (hadd : ∀ e c d, f e (c + d) = f e c + f e d) (lhs rhs : List (Monomial K)) :
    ∀ init : List (Monomial K),
      sumOver f (rhs.foldl (fun result termr => _addPolynomial result (scaleBy termr lhs)) init)
        = sumOver f init + (rhs.map (fun termr => sumOver f (scaleBy termr lhs))).sum := by
  induction rhs with
  | nil => intro init; simp
  | cons b rest ih =>
    intro init
    rw [List.foldl_cons, ih, List.map_cons, List.sum_cons]
    unfold _addPolynomial
    rw [sumOver_canonicalize f hadd, sumOver_append, add_assoc]

/-- Every additive weighted sum of a product is the double sum over the
operands, right operand outermost as in the loop. -/
theorem sumOver_multiply (f : Int → K → K)
    (hadd : ∀ e c d, f e (c + d) = f e c + f e d) (lhs rhs : List (Monomial K)) :
    sumOver f (_multiplyPolynomials lhs rhs)
      = (rhs.map (fun termr => sumOver f (scaleBy termr lhs))).sum := by
  unfold _multiplyPolynomials
  rw [sumOver_foldl_add f hadd, sumOver_nil, zero_add]

theorem sum_filter_map {α : Type} (P : α → Bool) (g : α → K) (l : List α) :
    ((l.filter P).map g).sum = (l.map (fun x => if P x then g x else 0)).sum := by
  induction l with
  | nil => rfl
  | cons a rest ih =>
    by_cases h : P a
    · rw [List.filter_cons_of_pos h]; simp [h, ih]
    · rw [List.filter_cons_of_neg h]; simp [h, ih]

theorem sum_product_eq {α β : Type} (h : α → β → K) (p : List α) (q : List β) :
    ((List.product p q).map (fun ab => h ab.1 ab.2)).sum
      = (q.map (fun b => (p.map (fun a => h a b)).sum)).sum := by
  induction p with
  | nil => simp [List.product]
  | cons a rest ih =>
    have hcons : List.product (a :: rest) q = q.map (Prod.mk a) ++ List.product rest q := rfl
    rw [hcons, List.map_append, List.sum_append, ih]
    simp only [List.map_cons, List.sum_cons, List.map_map]
    rw [List.sum_map_add]
    rfl

/-- The coefficient of `x^k` in a product is the sum over all pairs of terms
whose exponents add up to `k`. -/
theorem coeffOf_multiply (k : Int) (p q : List (Monomial K)) :
    coeffOf k (_multiplyPolynomials p q) = pairSum k p q := by
  rw [coeffOf_eq_sumOver, sumOver_multiply _ (selector_additive k)]
  unfold pairSum
  rw [sum_filter_map]
  rw [sum_product_eq (fun (a b : Monomial K) =>
    if decide (a.exponent + b.exponent = k) = true then a.coefficient * b.coefficient else 0)]
  congr 1
  apply List.map_congr_left
  intro b _
  unfold sumOver scaleBy
  rw [List.map_map]
  congr 1
  apply List.map_congr_left
  intro a _
  simp

theorem coeffOf_head (x : Monomial K) (l : List (Monomial K)) (h : Canonical (x :: l)) :
    coeffOf x.exponent (x :: l) = x.coefficient := by
  rw [coeffOf_cons, if_pos rfl, coeffOf_eq_zero_of_absent, add_zero]
  intro m hm
  have := (List.pairwise_cons.mp h.1).1 m hm
  omega

theorem coeffOf_above_head (k : Int) (x : Monomial K) (l : List (Monomial K))
    (h : Canonical (x :: l)) (hk : x.exponent < k) : coeffOf k (x :: l) = 0 := by
  apply coeffOf_eq_zero_of_absent
  intro m hm
  rcases List.mem_cons.mp hm with rfl | hm
  · omega
  · have := (List.pairwise_cons.mp h.1).1 m hm
    omega

/-- A canonical list is determined by its coefficients. -/
theorem canonical_ext :
    ∀ a b : List (Monomial K), Canonical a → Canonical b →
      (∀ k, coeffOf k a = coeffOf k b) → a = b := by
  intro a
  induction a with
  | nil =>
    intro b _ hb h
    cases b with
    | nil => rfl
    | cons y b' =>
      have h1 := h y.exponent
      rw [coeffOf_head y b' hb] at h1
      exact absurd h1.symm (hb.2 y (List.mem_cons_self _ _))
  | cons x a' ih =>
    intro b ha hb h
    cases b with
    | nil =>
      have h1 := h x.exponent
      rw [coeffOf_head x a' ha] at h1
      exact absurd h1 (ha.2 x (List.mem_cons_self _ _))
    | cons y b' =>
      have hx : x.coefficient ≠ 0 := ha.2 x (List.mem_cons_self _ _)
      have hy : y.coefficient ≠ 0 := hb.2 y (List.mem_cons_self _ _)
      have hexp : x.exponent = y.exponent := by
        rcases lt_trichotomy x.exponent y.exponent with hlt | heq | hgt
        · have h1 := h y.exponent
          rw [coeffOf_above_head _ x a' ha hlt, coeffOf_head y b' hb] at h1
          exact absurd h1.symm hy
        · exact heq
        · have h1 := h x.exponent
          rw [coeffOf_above_head _ y b' hb hgt, coeffOf_head x a' ha] at h1
          exact absurd h1 hx
      have hcoef : x.coefficient = y.coefficient := by
        have h1 := h x.exponent
        rw [coeffOf_head x a' ha, hexp, coeffOf_head y b' hb] at h1
        exact h1
      have hxy : x = y := by
        cases x; cases y
        simp only at hexp hcoef
        rw [hexp, hcoef]
      have htail : ∀ k, coeffOf k a' = coeffOf k b' := by
        intro k
        have h1 := h k
        rw [coeffOf_cons, coeffOf_cons, hxy] at h1
        exact add_left_cancel h1
      rw [hxy, ih b' ha.tail hb.tail htail]

/-- The result of canonicalisation does not depend on the order in which the
sort leaves entries of equal exponent: any arrangement of the input that is
sorted by descending exponent gives the same list. -/
theorem canonicalize_any_sorted_arrangement (l arranged : List (Monomial K))
    (hperm : arranged.Perm l) (hsorted : arranged.Pairwise expGE) :
    removeZero (unique (sumLoop none arranged)) = canonicalize l := by
  apply canonical_ext
  · constructor
    · unfold removeZero
      exact (pairwise_unique_sumLoop _ hsorted).filter _
    · intro m hm
      unfold removeZero at hm
      simpa using (List.mem_filter.mp hm).2
  · exact canonicalize_canonical l
  · intro k
    rw [coeffOf_canonicalize, coeffOf_eq_sumOver, coeffOf_eq_sumOver,
      sumOver_removeZero _ (selector_additive k), sumOver_unique_sumLoop _ (selector_additive k)]
    exact sumOver_perm _ hperm

theorem coefficientAt_eq_none (k : Int) (l : List (Monomial K)) :
    coefficientAt k l = none ↔ ∀ m ∈ l, m.exponent ≠ k := by
  unfold coefficientAt
  simp [List.find?_eq_none]

theorem wrapInt32_of_fits (n : Int) (h : FitsInt32 n) : wrapInt32 n = n := by
  unfold FitsInt32 at h
  unfold wrapInt32
  omega

theorem scaleByInt32_eq (termr : Monomial K) (lhs : List (Monomial K))
    (h : ∀ a ∈ lhs, FitsInt32 (a.exponent + termr.exponent)) :
    scaleByInt32 termr lhs = scaleBy termr lhs := by
  unfold scaleByInt32 scaleBy
  apply List.map_congr_left
  intro a ha
  rw [wrapInt32_of_fits _ (h a ha)]

/-- As long as no sum of exponents leaves the range of the `int`, the product
with 32-bit exponents is the product with mathematical exponents. -/
theorem multiplyPolynomialsInt32_eq (lhs rhs : List (Monomial K))
    (h : ∀ a ∈ lhs, ∀ b ∈ rhs, FitsInt32 (a.exponent + b.exponent)) :
    _multiplyPolynomialsInt32 lhs rhs = _multiplyPolynomials lhs rhs := by
  unfold _multiplyPolynomialsInt32 _multiplyPolynomials
  generalize ([] : List (Monomial K)) = start
  induction rhs generalizing start with
  | nil => rfl
  | cons b rest ih =>
    rw [List.foldl_cons, List.foldl_cons,
      scaleByInt32_eq b lhs (fun a ha => h a ha b (List.mem_cons_self _ _))]
    exact ih (fun a ha c hc => h a ha c (List.mem_cons_of_mem _ hc)) _

end PolynomialLemmas

/-! ## The claims on the polynomial algebra -/

section PolynomialClaims

variable {K : Type} [LinearOrderedField K]

/-- C2: for all monomial lists `p` and `q`, canonical or not, each of
`_addPolynomial p q`, `_subtractPolynomial p q` and `_multiplyPolynomials p q`
is a list whose exponents are strictly descending (hence pairwise distinct)
and whose coefficients are all nonzero. -/
theorem combine_restores_canonical_form (p q : List (Monomial K)) :
    ((_addPolynomial p q).Pairwise (fun a b => b.exponent < a.exponent)
        ∧ ∀ m ∈ _addPolynomial p q, m.coefficient ≠ 0)
      ∧ ((_subtractPolynomial p q).Pairwise (fun a b => b.exponent < a.exponent)
        ∧ ∀ m ∈ _subtractPolynomial p q, m.coefficient ≠ 0)
      ∧ ((_multiplyPolynomials p q).Pairwise (fun a b => b.exponent < a.exponent)
        ∧ ∀ m ∈ _multiplyPolynomials p q, m.coefficient ≠ 0) :=
  ⟨addPolynomial_canonical p q, subtractPolynomial_canonical p q,
    multiplyPolynomials_canonical p q⟩

/-- C4, as stated, fails on exponents whose sum leaves the 32-bit `int`: the
product of `{1*x^2147483647}` and `{1*x^1}` is `{1*x^(-2147483648)}`. The pairs
whose exponents add up to `-2147483648` are none, so the sum of the claim is 0
there and the term should be absent; the one pair adds up to `2147483648`,
where the sum is 1 and the result has no term. -/
theorem multiply_exponent_overflow :
    _multiplyPolynomialsInt32
        [({ coefficient := 1, exponent := 2147483647 } : Monomial ℚ)]
        [{ coefficient := 1, exponent := 1 }]
      = [{ coefficient := 1, exponent := -2147483648 }]
    ∧ pairSum (-2147483648)
        [({ coefficient := 1, exponent := 2147483647 } : Monomial ℚ)]
        [{ coefficient := 1, exponent := 1 }] = 0
    ∧ pairSum 2147483648
        [({ coefficient := 1, exponent := 2147483647 } : Monomial ℚ)]
        [{ coefficient := 1, exponent := 1 }] = 1 := by
  refine ⟨?_, ?_, ?_⟩
  · simp [_multiplyPolynomialsInt32, scaleByInt32, wrapInt32, _addPolynomial, canonicalize,
      sortDescending, List.insertionSort, List.orderedInsert, sumLoop, sumRun, unique,
      uniqueFrom, removeZero]
  · simp [pairSum, List.product]
  · simp [pairSum, List.product]

/-- C4, amended: multiplication is full distribution as long as the exponents
stay within the `int`. For all monomial lists `p`, `q` such that every sum of
an exponent of `p` and an exponent of `q` is a value of a 32-bit `int`, and
every exponent `k`, the entry of `x^k` in the product computed by
`_multiplyPolynomials` with 32-bit exponents carries the sum over all pairs
(one monomial of `p`, one of `q`) whose exponents add up to `k` of the product
of their coefficients, and `x^k` is absent from the result exactly when that
sum is 0. Example: `(x+1)*(x-1)` gives `{1*x^2, -1*x^0}`. -/
theorem multiply_is_full_distribution (p q : List (Monomial K))
    (hfit : ∀ a ∈ p, ∀ b ∈ q, FitsInt32 (a.exponent + b.exponent)) (k : Int) :
    coefficientAt k (_multiplyPolynomialsInt32 p q)
        = (if pairSum k p q = 0 then none else some (pairSum k p q))
      ∧ ((∀ m ∈ _multiplyPolynomialsInt32 p q, m.exponent ≠ k) ↔ pairSum k p q = 0)
      ∧ _multiplyPolynomialsInt32
          [({ coefficient := 1, exponent := 1 } : Monomial K), { coefficient := 1, exponent := 0 }]
          [{ coefficient := 1, exponent := 1 }, { coefficient := -1, exponent := 0 }]
        = [{ coefficient := 1, exponent := 2 }, { coefficient := -1, exponent := 0 }] := by
  rw [multiplyPolynomialsInt32_eq p q hfit]
  have h := coefficientAt_of_canonical k _ (multiplyPolynomials_canonical p q)
  rw [coeffOf_multiply] at h
  refine ⟨h, ?_, ?_⟩
  · rw [← coefficientAt_eq_none, h]
    by_cases h0 : pairSum k p q = 0 <;> simp [h0]
  · rw [multiplyPolynomialsInt32_eq _ _ (by simp [FitsInt32])]
    simp [_multiplyPolynomials, scaleBy, _addPolynomial, canonicalize, sortDescending,
      List.insertionSort, List.orderedInsert, expGE, sumLoop, sumRun, unique, uniqueFrom,
      removeZero]

/-- C4, amended, on the product `(2x+1)*(x-3)` and the exponent 1: the sums of
the exponents are 2, 1, 1 and 0, and the entry of `x^1` carries
`2*(-3) + 1*1 = -5`. -/
theorem multiply_is_full_distribution_witness :
    (∀ a ∈ [({ coefficient := 2, exponent := 1 } : Monomial ℚ), { coefficient := 1, exponent := 0 }],
      ∀ b ∈ [({ coefficient := 1, exponent := 1 } : Monomial ℚ), { coefficient := -3, exponent := 0 }],
        FitsInt32 (a.exponent + b.exponent))
    ∧ pairSum 1
        [({ coefficient := 2, exponent := 1 } : Monomial ℚ), { coefficient := 1, exponent := 0 }]
        [{ coefficient := 1, exponent := 1 }, { coefficient := -3, exponent := 0 }] = -5
    ∧ coefficientAt 1 (_multiplyPolynomialsInt32
        [({ coefficient := 2, exponent := 1 } : Monomial ℚ), { coefficient := 1, exponent := 0 }]
        [{ coefficient := 1, exponent := 1 }, { coefficient := -3, exponent := 0 }])
      = (if pairSum 1
            [({ coefficient := 2, exponent := 1 } : Monomial ℚ), { coefficient := 1, exponent := 0 }]
            [{ coefficient := 1, exponent := 1 }, { coefficient := -3, exponent := 0 }] = 0
          then none
          else some (pairSum 1
            [({ coefficient := 2, exponent := 1 } : Monomial ℚ), { coefficient := 1, exponent := 0 }]
            [{ coefficient := 1, exponent := 1 }, { coefficient := -3, exponent := 0 }])) :=
  have hfit : ∀ a ∈ [({ coefficient := 2, exponent := 1 } : Monomial ℚ),
        { coefficient := 1, exponent := 0 }],
      ∀ b ∈ [({ coefficient := 1, exponent := 1 } : Monomial ℚ),
        { coefficient := -3, exponent := 0 }],
        FitsInt32 (a.exponent + b.exponent) := by simp [FitsInt32]
  ⟨hfit, by simp [pairSum, List.product]; norm_num,
    (multiply_is_full_distribution _ _ hfit 1).1⟩

/-- C5: addition and subtraction are coefficient-wise. For all monomial lists
`p`, `q` and every exponent `k`, the entry of `x^k` in `_addPolynomial p q`
carries `coeffOf k p + coeffOf k q` and in `_subtractPolynomial p q` carries
`coeffOf k p - coeffOf k q`, where `coeffOf k` of a list is the sum of the
coefficients of its entries with exponent `k`; the exponent is absent from the
result exactly when that value is 0. Example: `(x+1)+(-x+1)` gives `{2*x^0}`. -/
theorem add_subtract_coefficientwise (p q : List (Monomial K)) (k : Int) :
    coefficientAt k (_addPolynomial p q)
        = (if coeffOf k p + coeffOf k q = 0 then none else some (coeffOf k p + coeffOf k q))
      ∧ coefficientAt k (_subtractPolynomial p q)
        = (if coeffOf k p - coeffOf k q = 0 then none else some (coeffOf k p - coeffOf k q))
      ∧ ((∀ m ∈ _addPolynomial p q, m.exponent ≠ k) ↔ coeffOf k p + coeffOf k q = 0)
      ∧ ((∀ m ∈ _subtractPolynomial p q, m.exponent ≠ k) ↔ coeffOf k p - coeffOf k q = 0)
      ∧ _addPolynomial
          [({ coefficient := 1, exponent := 1 } : Monomial K), { coefficient := 1, exponent := 0 }]
          [{ coefficient := -1, exponent := 1 }, { coefficient := 1, exponent := 0 }]
        = [{ coefficient := 2, exponent := 0 }] := by
  have ha := coefficientAt_of_canonical k _ (addPolynomial_canonical p q)
  have hs := coefficientAt_of_canonical k _ (subtractPolynomial_canonical p q)
  rw [coeffOf_add] at ha
  rw [coeffOf_subtract] at hs
  refine ⟨ha, hs, ?_, ?_, ?_⟩
  · rw [← coefficientAt_eq_none, ha]
    by_cases h0 : coeffOf k p + coeffOf k q = 0 <;> simp [h0]
  · rw [← coefficientAt_eq_none, hs]
    by_cases h0 : coeffOf k p - coeffOf k q = 0 <;> simp [h0]
  · simp [_addPolynomial, canonicalize, sortDescending,
      List.insertionSort, List.orderedInsert, expGE, sumLoop, sumRun, unique, uniqueFrom,
      removeZero]
    norm_num

/-- C6: complete case split of division. For every dividend `p` and divisor
`q`, `_dividePolynomials p q` fails with the division-by-zero error exactly
when `q` is empty or is a single monomial with coefficient 0; fails with the
unsupported-polynomial-division error exactly when `q` is neither of those and
is not a single monomial of exponent 0; and otherwise succeeds, returning `p`
with every coefficient divided by the coefficient of `q` and with exponents,
order and length unchanged. Examples: `6/3` gives `{2*x^0}`, `x/0` is a
division by zero, `1/(x+1)` is an unsupported division. -/
theorem divide_case_split (p q : List (Monomial K)) :
    (_dividePolynomials p q = .error .divisionByZero
        ↔ (q = [] ∨ ∃ e, q = [{ coefficient := 0, exponent := e }]))
      ∧ (_dividePolynomials p q = .error .unsupportedDivision
        ↔ (¬ (q = [] ∨ ∃ e, q = [{ coefficient := 0, exponent := e }])
            ∧ ¬ ∃ c, q = [{ coefficient := c, exponent := 0 }]))
      ∧ (¬ (q = [] ∨ ∃ e, q = [{ coefficient := 0, exponent := e }]) →
          (∃ c, q = [{ coefficient := c, exponent := 0 }]) →
          ∃ c, c ≠ 0 ∧ q = [{ coefficient := c, exponent := 0 }]
            ∧ _dividePolynomials p q
              = .ok (p.map (fun term =>
                  { coefficient := term.coefficient / c, exponent := term.exponent })))
      ∧ _dividePolynomials [({ coefficient := 6, exponent := 0 } : Monomial K)]
          [{ coefficient := 3, exponent := 0 }] = .ok [{ coefficient := 2, exponent := 0 }]
      ∧ _dividePolynomials [({ coefficient := 1, exponent := 1 } : Monomial K)]
          [{ coefficient := 0, exponent := 0 }] = .error .divisionByZero
      ∧ _dividePolynomials [({ coefficient := 1, exponent := 0 } : Monomial K)]
          [{ coefficient := 1, exponent := 1 }, { coefficient := 1, exponent := 0 }]
        = .error .unsupportedDivision := by
  refine ⟨?_, ?_, ?_, ?_, ?_, ?_⟩
  · match q with
    | [] => simp [_dividePolynomials]
    | [⟨c, e⟩] =>
      by_cases hc : c = 0
      · simp [_dividePolynomials, hc]
      · by_cases he : e = 0 <;> simp [_dividePolynomials, hc, he]
    | _ :: _ :: _ => simp [_dividePolynomials]
  · match q with
    | [] => simp [_dividePolynomials]
    | [⟨c, e⟩] =>
      by_cases hc : c = 0
      · simp [_dividePolynomials, hc]
      · by_cases he : e = 0 <;> simp [_dividePolynomials, hc, he]
    | _ :: _ :: _ => simp [_dividePolynomials]
  · rintro hz ⟨c, rfl⟩
    have hc : c ≠ 0 := by
      intro h0
      exact hz (Or.inr ⟨0, by rw [h0]⟩)
    exact ⟨c, hc, rfl, by simp [_dividePolynomials, hc]⟩
  · simp [_dividePolynomials]
    norm_num
  · simp [_dividePolynomials]
  · simp [_dividePolynomials]

end PolynomialClaims

/-! ## The evaluator -/

section EvaluatorLemmas

variable {K : Type} [LinearOrderedField K]

/-- Induction over an AST: a property that holds for a node whenever it holds
for all of its children holds for every node. -/
theorem ASTNode.induction (P : ASTNode → Prop)
    (step : ∀ ty tok children, (∀ c ∈ children, P c) → P (.mk ty tok children)) :
    ∀ n, P n
  | .mk ty tok children =>
    step ty tok children (fun c hc => by
      have := List.sizeOf_lt_of_mem hc
      exact ASTNode.induction P step c)
termination_by n => sizeOf n
decreasing_by
  simp_wf
  omega

/-- The shapes of a successful evaluation: the empty list of the `switch`
default, a variable leaf, a literal leaf, a unary minus of the evaluated first
child, or one of the four binary operations on the two evaluated first
children. -/
theorem evalASTNode_cases (atof : String → K) (ty : ASTNodeType) (tok : Option Token)
    (children : List ASTNode) (p : List (Monomial K))
    (h : _evalASTNode atof (.mk ty tok children) = .ok p) :
    p = [] ∨ (children = [] ∧ p = [{ coefficient := 1, exponent := 1 }])
      ∨ (children = [] ∧ ∃ c, p = [{ coefficient := c, exponent := 0 }])
      ∨ (∃ c0 rest q, children = c0 :: rest ∧ _evalASTNode atof c0 = .ok q
          ∧ p = _subtractPolynomial [({ coefficient := 0, exponent := 0 } : Monomial K)] q)
      ∨ (∃ c0 c1 rest l r, children = c0 :: c1 :: rest
          ∧ _evalASTNode atof c0 = .ok l ∧ _evalASTNode atof c1 = .ok r
            ∧ (p = _addPolynomial l r ∨ p = _subtractPolynomial l r
              ∨ p = _multiplyPolynomials l r ∨ _dividePolynomials l r = .ok p)) := by
  match tok, children with
  | none, _ => simp [_evalASTNode] at h
  | some t, [] =>
    simp only [_evalASTNode] at h
    split at h
    · right; left; exact ⟨rfl, (Except.ok.inj h).symm⟩
    · right; right; left; exact ⟨rfl, _, (Except.ok.inj h).symm⟩
  | some t, [c0] =>
    simp only [_evalASTNode] at h
    split at h
    · split at h <;> simp at h
    · split at h
      · split at h
        · split at h <;> simp at h
        · split at h
          · split at h
            · simp at h
            · rename_i q hq
              right; right; right; left
              exact ⟨c0, [], q, rfl, hq, (Except.ok.inj h).symm⟩
          · simp at h
      · split at h
        · simp at h
        · left; exact (Except.ok.inj h).symm
  | some t, c0 :: c1 :: rest =>
    simp only [_evalASTNode] at h
    split at h
    · split at h
      · simp at h
      · rename_i l hl
        split at h
        · simp at h
        · rename_i r hr
          right; right; right; right
          exact ⟨c0, c1, rest, l, r, rfl, hl, hr, Or.inl (Except.ok.inj h).symm⟩
    · split at h
      · split at h
        · split at h
          · simp at h
          · rename_i l hl
            split at h
            · simp at h
            · rename_i r hr
              right; right; right; right
              exact ⟨c0, c1, rest, l, r, rfl, hl, hr,
                Or.inr (Or.inl (Except.ok.inj h).symm)⟩
        · split at h
          · split at h
            · simp at h
            · rename_i q hq
              right; right; right; left
              exact ⟨c0, c1 :: rest, q, rfl, hq, (Except.ok.inj h).symm⟩
          · split at h
            · simp at h
            · rename_i l hl
              split at h
              · simp at h
              · rename_i r hr
                right; right; right; right
                exact ⟨c0, c1, rest, l, r, rfl, hl, hr,
                  Or.inr (Or.inr (Or.inl (Except.ok.inj h).symm))⟩
      · split at h
        · split at h
          · simp at h
          · rename_i l hl
            split at h
            · simp at h
            · rename_i r hr
              right; right; right; right
              exact ⟨c0, c1, rest, l, r, rfl, hl, hr,
                Or.inr (Or.inr (Or.inl (Except.ok.inj h).symm))⟩
        · split at h
          · split at h
            · simp at h
            · rename_i l hl
              split at h
              · simp at h
              · rename_i r hr
                right; right; right; right
                exact ⟨c0, c1, rest, l, r, rfl, hl, hr, Or.inr (Or.inr (Or.inr h))⟩
          · left; exact (Except.ok.inj h).symm

theorem power_additive (v : K) :
    ∀ (e : Int) (c d : K),
      (fun (e : Int) (c : K) => c * v ^ e) e (c + d)
        = (fun (e : Int) (c : K) => c * v ^ e) e c + (fun (e : Int) (c : K) => c * v ^ e) e d := by
  intro e c d
  simp only
  ring

theorem evalPoly_eq_sumOver (v : K) (l : List (Monomial K)) :
    evalPoly v l = sumOver (fun e c => c * v ^ e) l := rfl

theorem evalPoly_cons (v : K) (m : Monomial K) (l : List (Monomial K)) :
    evalPoly v (m :: l) = m.coefficient * v ^ m.exponent + evalPoly v l := by
  simp [evalPoly]

theorem evalPoly_add (v : K) (p q : List (Monomial K)) :
    evalPoly v (_addPolynomial p q) = evalPoly v p + evalPoly v q := by
  unfold _addPolynomial
  rw [evalPoly_eq_sumOver, sumOver_canonicalize _ (power_additive v), sumOver_append]
  rfl

theorem evalPoly_negate (v : K) (l : List (Monomial K)) :
    evalPoly v (l.map (fun term =>
      ({ coefficient := term.coefficient * -1, exponent := term.exponent } : Monomial K)))
      = - evalPoly v l := by
  induction l with
  | nil => simp [evalPoly]
  | cons m rest ih =>
    rw [List.map_cons, evalPoly_cons, evalPoly_cons, ih]
    ring

theorem evalPoly_subtract (v : K) (p q : List (Monomial K)) :
    evalPoly v (_subtractPolynomial p q) = evalPoly v p - evalPoly v q := by
  unfold _subtractPolynomial
  rw [evalPoly_eq_sumOver, sumOver_canonicalize _ (power_additive v), sumOver_append,
    ← evalPoly_eq_sumOver, ← evalPoly_eq_sumOver, evalPoly_negate, sub_eq_add_neg]

theorem evalPoly_scaleBy (v : K) (b : Monomial K) (p : List (Monomial K))
    (hb : 0 ≤ b.exponent) (hp : ∀ m ∈ p, 0 ≤ m.exponent) :
    evalPoly v (scaleBy b p) = evalPoly v p * (b.coefficient * v ^ b.exponent) := by
  induction p with
  | nil => simp [evalPoly, scaleBy]
  | cons a rest ih =>
    have ha : 0 ≤ a.exponent := hp a (List.mem_cons_self _ _)
    have hpow : v ^ (a.exponent + b.exponent) = v ^ a.exponent * v ^ b.exponent := by
      apply zpow_add'
      by_cases h0 : a.exponent + b.exponent = 0
      · right; right; constructor <;> omega
      · right; left; exact h0
    unfold scaleBy at ih ⊢
    rw [List.map_cons, evalPoly_cons, evalPoly_cons,
      ih (fun m hm => hp m (List.mem_cons_of_mem _ hm))]
    simp only [hpow]
    ring

theorem evalPoly_multiply (v : K) (p q : List (Monomial K))
    (hp : ∀ m ∈ p, 0 ≤ m.exponent) (hq : ∀ m ∈ q, 0 ≤ m.exponent) :
    evalPoly v (_multiplyPolynomials p q) = evalPoly v p * evalPoly v q := by
  rw [evalPoly_eq_sumOver, sumOver_multiply _ (power_additive v)]
  induction q with
  | nil => simp [evalPoly]
  | cons b rest ih =>
    rw [List.map_cons, List.sum_cons, ih (fun m hm => hq m (List.mem_cons_of_mem _ hm)),
      ← evalPoly_eq_sumOver, evalPoly_scaleBy v b p (hq b (List.mem_cons_self _ _)) hp,
      evalPoly_cons]
    ring

theorem evalPoly_divide (v c : K) (p : List (Monomial K)) :
    evalPoly v (p.map (fun term =>
      ({ coefficient := term.coefficient / c, exponent := term.exponent } : Monomial K)))
      = evalPoly v p / c := by
  induction p with
  | nil => simp [evalPoly]
  | cons m rest ih =>
    rw [List.map_cons, evalPoly_cons, evalPoly_cons, ih]
    ring

/-! ### Exponents of the results -/

theorem nonneg_add (p q : List (Monomial K)) (hp : ∀ m ∈ p, 0 ≤ m.exponent)
    (hq : ∀ m ∈ q, 0 ≤ m.exponent) : ∀ m ∈ _addPolynomial p q, 0 ≤ m.exponent := by
  intro x hx
  obtain ⟨m, hm, he⟩ := mem_canonicalize _ x hx
  rw [← he]
  rcases List.mem_append.mp hm with h | h
  · exact hp m h
  · exact hq m h

theorem nonneg_subtract (p q : List (Monomial K)) (hp : ∀ m ∈ p, 0 ≤ m.exponent)
    (hq : ∀ m ∈ q, 0 ≤ m.exponent) : ∀ m ∈ _subtractPolynomial p q, 0 ≤ m.exponent := by
  intro x hx
  obtain ⟨m, hm, he⟩ := mem_canonicalize _ x hx
  rw [← he]
  rcases List.mem_append.mp hm with h | h
  · exact hp m h
  · obtain ⟨m', hm', rfl⟩ := List.mem_map.mp h
    exact hq m' hm'

theorem nonneg_foldl_add (p q : List (Monomial K)) (hp : ∀ m ∈ p, 0 ≤ m.exponent)
    (hq : ∀ m ∈ q, 0 ≤ m.exponent) :
    ∀ init : List (Monomial K), (∀ m ∈ init, 0 ≤ m.exponent) →
      ∀ m ∈ q.foldl (fun result termr => _addPolynomial result (scaleBy termr p)) init,
        0 ≤ m.exponent := by
  induction q with
  | nil => intro init hi; exact hi
  | cons b rest ih =>
    intro init hi
    rw [List.foldl_cons]
    apply ih (fun m hm => hq m (List.mem_cons_of_mem _ hm))
    apply nonneg_add _ _ hi
    intro m hm
    obtain ⟨a, ha, rfl⟩ := List.mem_map.mp hm
    have h1 := hp a ha
    have h2 := hq b (List.mem_cons_self _ _)
    show 0 ≤ a.exponent + b.exponent
    omega

theorem nonneg_multiply (p q : List (Monomial K)) (hp : ∀ m ∈ p, 0 ≤ m.exponent)
    (hq : ∀ m ∈ q, 0 ≤ m.exponent) : ∀ m ∈ _multiplyPolynomials p q, 0 ≤ m.exponent :=
  nonneg_foldl_add p q hp hq [] (fun _ h => absurd h (List.not_mem_nil _))

theorem divide_ok (p q r : List (Monomial K)) (h : _dividePolynomials p q = .ok r) :
    ∃ c, c ≠ 0 ∧ q = [{ coefficient := c, exponent := 0 }]
      ∧ r = p.map (fun term =>
          ({ coefficient := term.coefficient / c, exponent := term.exponent } : Monomial K)) := by
  match q with
  | [] => simp [_dividePolynomials] at h
  | [⟨c, e⟩] =>
    by_cases hc : c = 0
    · simp [_dividePolynomials, hc] at h
    · by_cases he : e = 0
      · simp [_dividePolynomials, hc, he] at h
        exact ⟨c, hc, by rw [he], h.symm⟩
      · simp [_dividePolynomials, hc, he] at h
  | _ :: _ :: _ => simp [_dividePolynomials] at h

/-- Every exponent of a polynomial returned by the evaluator is non-negative. -/
theorem evalASTNode_nonneg (atof : String → K) :
    ∀ (n : ASTNode) (p : List (Monomial K)), _evalASTNode atof n = .ok p →
      ∀ m ∈ p, 0 ≤ m.exponent := by
  intro n
  induction n using ASTNode.induction with
  | step ty tok children ih =>
    intro p h
    rcases evalASTNode_cases atof ty tok children p h with
      rfl | ⟨_, rfl⟩ | ⟨_, c, rfl⟩ | ⟨c0, rest, q, hch, hq, rfl⟩
        | ⟨c0, c1, rest, l, r, hch, hl, hr, hp⟩
    · intro m hm; exact absurd hm (List.not_mem_nil _)
    · intro m hm; rw [List.mem_singleton.mp hm]; exact Int.one_nonneg
    · intro m hm; rw [List.mem_singleton.mp hm]
    · have hc0 : c0 ∈ children := by rw [hch]; exact List.mem_cons_self _ _
      apply nonneg_subtract _ _ _ (ih c0 hc0 q hq)
      intro m hm; rw [List.mem_singleton.mp hm]
    · have hc0 : c0 ∈ children := by rw [hch]; exact List.mem_cons_self _ _
      have hc1 : c1 ∈ children := by
        rw [hch]; exact List.mem_cons_of_mem _ (List.mem_cons_self _ _)
      have hl0 := ih c0 hc0 l hl
      have hr0 := ih c1 hc1 r hr
      rcases hp with rfl | rfl | rfl | hd
      · exact nonneg_add l r hl0 hr0
      · exact nonneg_subtract l r hl0 hr0
      · exact nonneg_multiply l r hl0 hr0
      · obtain ⟨c, _, _, rfl⟩ := divide_ok l r p hd
        intro m hm
        obtain ⟨a, ha, rfl⟩ := List.mem_map.mp hm
        exact hl0 a ha

theorem mem_foldl_add (p q : List (Monomial K)) :
    ∀ init : List (Monomial K),
      ∀ m ∈ q.foldl (fun result termr => _addPolynomial result (scaleBy termr p)) init,
        (∃ m' ∈ init, m'.exponent = m.exponent)
          ∨ ∃ a ∈ p, ∃ b ∈ q, m.exponent = a.exponent + b.exponent := by
  induction q with
  | nil => intro init m hm; exact Or.inl ⟨m, hm, rfl⟩
  | cons b rest ih =>
    intro init m hm
    rw [List.foldl_cons] at hm
    rcases ih _ m hm with ⟨m', hm', he⟩ | ⟨a, ha, b', hb', he⟩
    · obtain ⟨m2, hm2, he2⟩ := mem_canonicalize _ m' hm'
      rcases List.mem_append.mp hm2 with h | h
      · exact Or.inl ⟨m2, h, he2.trans he⟩
      · obtain ⟨a, ha, rfl⟩ := List.mem_map.mp h
        exact Or.inr ⟨a, ha, b, List.mem_cons_self _ _, (he2.trans he).symm⟩
    · exact Or.inr ⟨a, ha, b', List.mem_cons_of_mem _ hb', he⟩

/-- No exponent of a polynomial returned by the evaluator exceeds the size of
the tree: the sums of exponents formed by `_multiplyPolynomials` stay far
inside the range of `int` for every tree that fits into memory. -/
theorem evalASTNode_exponent_le_size (atof : String → K) :
    ∀ (n : ASTNode) (p : List (Monomial K)), _evalASTNode atof n = .ok p →
      ∀ m ∈ p, m.exponent ≤ (sizeOf n : Int) := by
  intro n
  induction n using ASTNode.induction with
  | step ty tok children ih =>
    intro p h
    rcases evalASTNode_cases atof ty tok children p h with
      rfl | ⟨_, rfl⟩ | ⟨_, c, rfl⟩ | ⟨c0, rest, q, hch, hq, rfl⟩
        | ⟨c0, c1, rest, l, r, hch, hl, hr, hp⟩
    · intro m hm; exact absurd hm (List.not_mem_nil _)
    · intro m hm
      rw [List.mem_singleton.mp hm]
      simp only [ASTNode.mk.sizeOf_spec]
      omega
    · intro m hm
      rw [List.mem_singleton.mp hm]
      simp only [ASTNode.mk.sizeOf_spec]
      omega
    · have hc0 : c0 ∈ children := by rw [hch]; exact List.mem_cons_self _ _
      have h0 := ih c0 hc0 q hq
      intro m hm
      obtain ⟨m', hm', he⟩ := mem_canonicalize _ m hm
      rw [← he, hch]
      simp only [ASTNode.mk.sizeOf_spec, List.cons.sizeOf_spec]
      rcases List.mem_append.mp hm' with h1 | h1
      · rw [List.mem_singleton.mp h1]
        simp only
        omega
      · obtain ⟨a, ha, rfl⟩ := List.mem_map.mp h1
        have := h0 a ha
        simp only
        omega
    · have hc0 : c0 ∈ children := by rw [hch]; exact List.mem_cons_self _ _
      have hc1 : c1 ∈ children := by
        rw [hch]; exact List.mem_cons_of_mem _ (List.mem_cons_self _ _)
      have hl0 := ih c0 hc0 l hl
      have hr0 := ih c1 hc1 r hr
      have hnl := evalASTNode_nonneg atof c0 l hl
      have hnr := evalASTNode_nonneg atof c1 r hr
      have hsize : (sizeOf c0 : Int) + (sizeOf c1 : Int)
          ≤ (sizeOf (ASTNode.mk ty tok children) : Int) := by
        rw [hch]
        simp only [ASTNode.mk.sizeOf_spec, List.cons.sizeOf_spec]
        omega
      have h0 : (0 : Int) ≤ (sizeOf c0 : Int) := Int.natCast_nonneg _
      have h1 : (0 : Int) ≤ (sizeOf c1 : Int) := Int.natCast_nonneg _
      intro m hm
      rcases hp with rfl | rfl | rfl | hd
      · obtain ⟨m', hm', he⟩ := mem_canonicalize _ m hm
        rw [← he]
        rcases List.mem_append.mp hm' with h2 | h2
        · have := hl0 m' h2; omega
        · have := hr0 m' h2; omega
      · obtain ⟨m', hm', he⟩ := mem_canonicalize _ m hm
        rw [← he]
        rcases List.mem_append.mp hm' with h2 | h2
        · have := hl0 m' h2; omega
        · obtain ⟨a, ha, rfl⟩ := List.mem_map.mp h2
          have := hr0 a ha
          simp only
          omega
      · rcases mem_foldl_add l r [] m hm with ⟨m', hm', _⟩ | ⟨a, ha, b, hb, he⟩
        · exact absurd hm' (List.not_mem_nil _)
        · have := hl0 a ha
          have := hr0 b hb
          omega
      · obtain ⟨c, _, _, rfl⟩ := divide_ok l r p hd
        obtain ⟨a, ha, rfl⟩ := List.mem_map.mp hm
        have := hl0 a ha
        simp only
        omega

/-- The shape of a polynomial returned by the evaluator: canonical, or the
single monomial `0*x^0`. -/
theorem evalASTNode_shape (atof : String → K) :
    ∀ (n : ASTNode) (p : List (Monomial K)), _evalASTNode atof n = .ok p →
      Canonical p ∨ p = [{ coefficient := 0, exponent := 0 }] := by
  intro n
  induction n using ASTNode.induction with
  | step ty tok children ih =>
    intro p h
    rcases evalASTNode_cases atof ty tok children p h with
      rfl | ⟨_, rfl⟩ | ⟨_, c, rfl⟩ | ⟨c0, rest, q, hch, hq, rfl⟩
        | ⟨c0, c1, rest, l, r, hch, hl, hr, hp⟩
    · exact Or.inl canonical_nil
    · left
      refine ⟨List.pairwise_singleton _ _, ?_⟩
      intro m hm; rw [List.mem_singleton.mp hm]; exact one_ne_zero
    · by_cases hc : c = 0
      · right; rw [hc]
      · left
        refine ⟨List.pairwise_singleton _ _, ?_⟩
        intro m hm; rw [List.mem_singleton.mp hm]; exact hc
    · exact Or.inl (subtractPolynomial_canonical _ _)
    · rcases hp with rfl | rfl | rfl | hd
      · exact Or.inl (addPolynomial_canonical _ _)
      · exact Or.inl (subtractPolynomial_canonical _ _)
      · exact Or.inl (multiplyPolynomials_canonical _ _)
      · obtain ⟨c, hc, _, rfl⟩ := divide_ok l r p hd
        have hc0 : c0 ∈ children := by rw [hch]; exact List.mem_cons_self _ _
        rcases ih c0 hc0 l hl with hcan | rfl
        · left
          constructor
          · exact List.Pairwise.map _ (fun _ _ hab => hab) hcan.1
          · intro m hm
            obtain ⟨a, ha, rfl⟩ := List.mem_map.mp hm
            exact div_ne_zero (hcan.2 a ha) hc
        · right
          simp

/-! ### The equation solver -/

theorem below_zero_nil (l : List (Monomial K)) (hn : ∀ m ∈ l, 0 ≤ m.exponent)
    (hb : ∀ m ∈ l, m.exponent < 0) : l = [] := by
  cases l with
  | nil => rfl
  | cons m t =>
    have h1 := hn m (List.mem_cons_self _ _)
    have h2 := hb m (List.mem_cons_self _ _)
    omega

theorem below_one_shape (l : List (Monomial K))
    (hp : l.Pairwise (fun a b => b.exponent < a.exponent))
    (hn : ∀ m ∈ l, 0 ≤ m.exponent) (hb : ∀ m ∈ l, m.exponent < 1) :
    l = [] ∨ ∃ c, l = [{ coefficient := c, exponent := 0 }] := by
  cases l with
  | nil => exact Or.inl rfl
  | cons m t =>
    right
    have h1 := hn m (List.mem_cons_self _ _)
    have h2 := hb m (List.mem_cons_self _ _)
    have hm : m.exponent = 0 := by omega
    have ht : t = [] := by
      apply below_zero_nil t (fun x hx => hn x (List.mem_cons_of_mem _ hx))
      intro x hx
      have := (List.pairwise_cons.mp hp).1 x hx
      omega
    refine ⟨m.coefficient, ?_⟩
    rw [ht]
    cases m
    simp only at hm
    rw [hm]

theorem below_two_shape (l : List (Monomial K))
    (hp : l.Pairwise (fun a b => b.exponent < a.exponent))
    (hn : ∀ m ∈ l, 0 ≤ m.exponent) (hb : ∀ m ∈ l, m.exponent < 2) :
    l = [] ∨ (∃ c, l = [{ coefficient := c, exponent := 0 }])
      ∨ (∃ b, l = [{ coefficient := b, exponent := 1 }])
      ∨ ∃ b c, l = [{ coefficient := b, exponent := 1 }, { coefficient := c, exponent := 0 }] := by
  cases l with
  | nil => exact Or.inl rfl
  | cons m t =>
    right
    have h1 := hn m (List.mem_cons_self _ _)
    have h2 := hb m (List.mem_cons_self _ _)
    have hlt : ∀ x ∈ t, x.exponent < m.exponent := (List.pairwise_cons.mp hp).1
    have hnt : ∀ x ∈ t, 0 ≤ x.exponent := fun x hx => hn x (List.mem_cons_of_mem _ hx)
    have hpt := (List.pairwise_cons.mp hp).2
    by_cases hm : m.exponent = 0
    · left
      have ht : t = [] := by
        apply below_zero_nil t hnt
        intro x hx
        have := hlt x hx
        omega
      refine ⟨m.coefficient, ?_⟩
      rw [ht]
      cases m
      simp only at hm
      rw [hm]
    · right
      have hm1 : m.exponent = 1 := by omega
      have hshape := below_one_shape t hpt hnt (fun x hx => by have := hlt x hx; omega)
      cases m
      simp only at hm1
      rcases hshape with ht | ⟨c, ht⟩
      · left; exact ⟨_, by rw [ht, hm1]⟩
      · right; exact ⟨_, c, by rw [ht, hm1]⟩

/-- An equation whose canonical difference has degree 0 has no solutions. -/
theorem solve_degree_zero (sqrt : K → K) (h : Monomial K) (t : List (Monomial K))
    (hc : Canonical (h :: t)) (hn : ∀ m ∈ h :: t, 0 ≤ m.exponent) (h0 : h.exponent = 0) :
    solveEquation sqrt (h :: t) = .noSolutions := by
  have ht : t = [] := by
    apply below_zero_nil t (fun x hx => hn x (List.mem_cons_of_mem _ hx))
    intro x hx
    have := (List.pairwise_cons.mp hc.1).1 x hx
    omega
  have hne : h.coefficient ≠ 0 := hc.2 h (List.mem_cons_self _ _)
  simp [solveEquation, fillCoefficients, ht, h0, hne]

/-- An equation whose canonical difference has degree 1: the coefficient of
`x` is nonzero and the solver reports the single root `-a1/a0`. -/
theorem solve_degree_one (sqrt : K → K) (h : Monomial K) (t : List (Monomial K))
    (hc : Canonical (h :: t)) (hn : ∀ m ∈ h :: t, 0 ≤ m.exponent) (h1 : h.exponent = 1) :
    denseCoefficient 1 (h :: t) ≠ 0
      ∧ solveEquation sqrt (h :: t)
        = .oneRoot (- denseCoefficient 0 (h :: t) / denseCoefficient 1 (h :: t)) := by
  have hne : h.coefficient ≠ 0 := hc.2 h (List.mem_cons_self _ _)
  have hshape := below_one_shape t hc.tail.1 (fun x hx => hn x (List.mem_cons_of_mem _ hx))
    (fun x hx => by have := (List.pairwise_cons.mp hc.1).1 x hx; omega)
  rcases hshape with ht | ⟨c, ht⟩
  · subst ht
    simp [solveEquation, fillCoefficients, denseCoefficient, coefficientAt, h1, hne]
  · subst ht
    simp [solveEquation, fillCoefficients, denseCoefficient, coefficientAt, h1, hne]

/-- An equation whose canonical difference has degree 2: the coefficient of
`x^2` is nonzero and the solver branches on the sign of the discriminant. -/
theorem solve_degree_two (sqrt : K → K) (h : Monomial K) (t : List (Monomial K))
    (hc : Canonical (h :: t)) (hn : ∀ m ∈ h :: t, 0 ≤ m.exponent) (h2 : h.exponent = 2) :
    denseCoefficient 2 (h :: t) ≠ 0
      ∧ solveEquation sqrt (h :: t)
        = (if discriminant (h :: t) > 0 then
            .twoRoots
              ((- denseCoefficient 1 (h :: t) + sqrt (discriminant (h :: t)))
                / (2 * denseCoefficient 2 (h :: t)))
              ((- denseCoefficient 1 (h :: t) - sqrt (discriminant (h :: t)))
                / (2 * denseCoefficient 2 (h :: t)))
          else if discriminant (h :: t) = 0 then
            .oneRoot (- denseCoefficient 1 (h :: t) / (2 * denseCoefficient 2 (h :: t)))
          else .noSolutions) := by
  have hne : h.coefficient ≠ 0 := hc.2 h (List.mem_cons_self _ _)
  have hshape := below_two_shape t hc.tail.1 (fun x hx => hn x (List.mem_cons_of_mem _ hx))
    (fun x hx => by have := (List.pairwise_cons.mp hc.1).1 x hx; omega)
  rcases hshape with ht | ⟨c, ht⟩ | ⟨b, ht⟩ | ⟨b, c, ht⟩
  · subst ht
    simp [solveEquation, fillCoefficients, denseCoefficient, discriminant, coefficientAt, h2, hne,
      sq]
  · subst ht
    simp [solveEquation, fillCoefficients, denseCoefficient, discriminant, coefficientAt, h2, hne,
      sq]
  · subst ht
    simp [solveEquation, fillCoefficients, denseCoefficient, discriminant, coefficientAt, h2, hne,
      sq]
  · subst ht
    simp [solveEquation, fillCoefficients, denseCoefficient, discriminant, coefficientAt, h2, hne,
      sq]

/-- On a tree whose root token has type `=` and whose two sides evaluate, the
top level hands the canonical difference to the solver. -/
theorem evalASTTree_equation (atof : String → K) (sqrt : K → K) (ty : ASTNodeType)
    (tok : Token) (c0 c1 : ASTNode) (rest : List ASTNode) (p q : List (Monomial K))
    (htok : tok.type = "=") (hl : _evalASTNode atof c0 = .ok p)
    (hr : _evalASTNode atof c1 = .ok q) :
    _evalASTTree atof sqrt (.mk ty (some tok) (c0 :: c1 :: rest))
      = solveEquation sqrt (_subtractPolynomial p q) := by
  simp [_evalASTTree, htok, hl, hr]

end EvaluatorLemmas

/-! ## The claims on the evaluator -/

section EvaluatorClaims

variable {K : Type} [LinearOrderedField K]

/-- C1: semantic correctness of the evaluator. For every AST built from
variable leaves, numeric-literal leaves, binary `+`, `-`, `*` nodes with two
children, unary-left `-` nodes with one child, and `/` nodes whose divisor
evaluates to a nonzero scalar, `_evalASTNode` succeeds with a polynomial `p`
such that for every number `v` the value of `p` at `v` (the sum of
`coefficient * v ^ exponent`) equals the arithmetic value of the expression
with the variable set to `v`. -/
theorem evaluate_semantically_correct (atof : String → K) (n : ASTNode)
    (hn : Arithmetic atof n) :
    ∃ p, _evalASTNode atof n = .ok p ∧ ∀ v : K, evalPoly v p = denote atof v n := by
  induction hn with
  | varLeaf ty tok hx =>
    refine ⟨[{ coefficient := 1, exponent := 1 }], by simp [_evalASTNode, hx], ?_⟩
    intro v
    simp [evalPoly, denote, hx]
  | litLeaf ty tok hx =>
    refine ⟨[{ coefficient := atof tok.value, exponent := 0 }], by simp [_evalASTNode, hx], ?_⟩
    intro v
    simp [evalPoly, denote, hx]
  | add tok l r hc _ _ ihl ihr =>
    obtain ⟨pl, hl, hvl⟩ := ihl
    obtain ⟨pr, hr, hvr⟩ := ihr
    refine ⟨_addPolynomial pl pr, by simp [_evalASTNode, hc, hl, hr], ?_⟩
    intro v
    rw [evalPoly_add, hvl, hvr]
    simp [denote, hc]
  | sub tok l r hc _ _ ihl ihr =>
    obtain ⟨pl, hl, hvl⟩ := ihl
    obtain ⟨pr, hr, hvr⟩ := ihr
    have h1 : ¬ firstChar tok.value = '+' := by rw [hc]; decide
    refine ⟨_subtractPolynomial pl pr, by simp [_evalASTNode, hc, hl, hr], ?_⟩
    intro v
    rw [evalPoly_subtract, hvl, hvr]
    simp [denote, hc]
  | mul tok l r hc _ _ ihl ihr =>
    obtain ⟨pl, hl, hvl⟩ := ihl
    obtain ⟨pr, hr, hvr⟩ := ihr
    refine ⟨_multiplyPolynomials pl pr, by simp [_evalASTNode, hc, hl, hr], ?_⟩
    intro v
    rw [evalPoly_multiply v pl pr (evalASTNode_nonneg atof l pl hl)
      (evalASTNode_nonneg atof r pr hr), hvl, hvr]
    simp [denote, hc]
  | neg tok c hc _ ih =>
    obtain ⟨pc, hpc, hvc⟩ := ih
    refine ⟨_subtractPolynomial [{ coefficient := 0, exponent := 0 }] pc,
      by simp [_evalASTNode, hc, hpc], ?_⟩
    intro v
    rw [evalPoly_subtract, hvc]
    simp [denote, hc, evalPoly]
  | div tok l r c hc _ _ hc0 hr ihl ihr =>
    obtain ⟨pl, hl, hvl⟩ := ihl
    refine ⟨pl.map (fun term =>
      ({ coefficient := term.coefficient / c, exponent := term.exponent } : Monomial K)),
      by simp [_evalASTNode, hc, hl, hr, _dividePolynomials, hc0], ?_⟩
    intro v
    obtain ⟨pr, hr2, hvr⟩ := ihr
    have hpr : pr = [{ coefficient := c, exponent := 0 }] := by
      rw [hr] at hr2
      exact (Except.ok.inj hr2).symm
    have hden : denote atof v r = c := by
      rw [← hvr v, hpr]
      simp [evalPoly]
    rw [evalPoly_divide, hvl]
    simp [denote, hc, hden]

/-- Witness of C1 on the tree of `(x + 1) / 2 - -x * 3`. -/
theorem evaluate_semantically_correct_witness :
    Arithmetic (atofDecimal : String → ℚ)
        (binaryNode "-"
          (binaryNode "/" (binaryNode "+" varLeaf (numLeaf "1")) (numLeaf "2"))
          (binaryNode "*" (negateNode varLeaf) (numLeaf "3")))
      ∧ ∃ p, _evalASTNode (atofDecimal : String → ℚ)
          (binaryNode "-"
            (binaryNode "/" (binaryNode "+" varLeaf (numLeaf "1")) (numLeaf "2"))
            (binaryNode "*" (negateNode varLeaf) (numLeaf "3"))) = .ok p
        ∧ ∀ v : ℚ, evalPoly v p
          = denote atofDecimal v
            (binaryNode "-"
              (binaryNode "/" (binaryNode "+" varLeaf (numLeaf "1")) (numLeaf "2"))
              (binaryNode "*" (negateNode varLeaf) (numLeaf "3"))) :=
  have hx : Arithmetic (atofDecimal : String → ℚ) varLeaf :=
    Arithmetic.varLeaf _ _ (by decide)
  have hnum : ∀ s : String, firstChar s ≠ 'x' →
      Arithmetic (atofDecimal : String → ℚ) (numLeaf s) :=
    fun s hs => Arithmetic.litLeaf _ _ hs
  have h : Arithmetic (atofDecimal : String → ℚ)
      (binaryNode "-"
        (binaryNode "/" (binaryNode "+" varLeaf (numLeaf "1")) (numLeaf "2"))
        (binaryNode "*" (negateNode varLeaf) (numLeaf "3"))) :=
    Arithmetic.sub _ _ _ (by decide)
      (Arithmetic.div _ _ _ 2 (by decide)
        (Arithmetic.add _ _ _ (by decide) hx (hnum "1" (by decide)))
        (hnum "2" (by decide)) (by norm_num)
        (by simp [numLeaf, _evalASTNode, firstChar, atofDecimal, scanDigits]))
      (Arithmetic.mul _ _ _ (by decide)
        (Arithmetic.neg _ _ (by decide) hx) (hnum "3" (by decide)))
  ⟨h, evaluate_semantically_correct atofDecimal _ h⟩

/-- C3, as stated, fails: the leaf of the literal `0` evaluates successfully
to the one-element list `{0*x^0}`, which carries a zero coefficient and so is
not canonical. -/
theorem evaluate_literal_zero_not_canonical :
    _evalASTNode (atofDecimal : String → ℚ) (numLeaf "0")
        = .ok [{ coefficient := 0, exponent := 0 }]
      ∧ ¬ (([{ coefficient := 0, exponent := 0 }] : List (Monomial ℚ)).Pairwise
            (fun a b => b.exponent < a.exponent)
          ∧ ∀ m ∈ ([{ coefficient := 0, exponent := 0 }] : List (Monomial ℚ)),
              m.coefficient ≠ 0) := by
  constructor
  · simp [numLeaf, _evalASTNode, firstChar, atofDecimal, scanDigits]
  · intro h
    exact h.2 _ (List.mem_singleton.mpr rfl) rfl

/-- C3, amended: in exact arithmetic (coefficients in an ordered field, every
literal read as a number of that field), for every AST on which `_evalASTNode`
succeeds, the exponents of the returned polynomial are strictly descending
(hence pairwise distinct), and either no coefficient is zero or the polynomial
is exactly the one-element list `{0*x^0}`. -/
theorem evaluate_result_canonical_or_zero_constant (atof : String → K) (n : ASTNode)
    (p : List (Monomial K)) (h : _evalASTNode atof n = .ok p) :
    p.Pairwise (fun a b => b.exponent < a.exponent)
      ∧ ((∀ m ∈ p, m.coefficient ≠ 0) ∨ p = [{ coefficient := 0, exponent := 0 }]) := by
  rcases evalASTNode_shape atof n p h with hc | rfl
  · exact ⟨hc.1, Or.inl hc.2⟩
  · exact ⟨List.pairwise_singleton _ _, Or.inr rfl⟩

/-- Witness of the amended C3 on the tree of `x + 1`, which evaluates to
`{1*x^1, 1*x^0}`. -/
theorem evaluate_result_canonical_or_zero_constant_witness :
    _evalASTNode (atofDecimal : String → ℚ) (binaryNode "+" varLeaf (numLeaf "1"))
        = .ok [{ coefficient := 1, exponent := 1 }, { coefficient := 1, exponent := 0 }]
      ∧ (([{ coefficient := 1, exponent := 1 }, { coefficient := 1, exponent := 0 }] :
            List (Monomial ℚ)).Pairwise (fun a b => b.exponent < a.exponent)
        ∧ ((∀ m ∈ ([{ coefficient := 1, exponent := 1 }, { coefficient := 1, exponent := 0 }] :
              List (Monomial ℚ)), m.coefficient ≠ 0)
          ∨ ([{ coefficient := 1, exponent := 1 }, { coefficient := 1, exponent := 0 }] :
              List (Monomial ℚ)) = [{ coefficient := 0, exponent := 0 }])) :=
  have h : _evalASTNode (atofDecimal : String → ℚ) (binaryNode "+" varLeaf (numLeaf "1"))
      = .ok [{ coefficient := 1, exponent := 1 }, { coefficient := 1, exponent := 0 }] := by
    simp [binaryNode, varLeaf, numLeaf, _evalASTNode, firstChar, atofDecimal, scanDigits,
      _addPolynomial, canonicalize, sortDescending, List.insertionSort, List.orderedInsert,
      expGE, sumLoop, sumRun, unique, uniqueFrom, removeZero]
  ⟨h, evaluate_result_canonical_or_zero_constant atofDecimal _ _ h⟩

/-- C7: equation classification. For every AST whose root token is `=` and
whose two sides evaluate successfully, with `d` the canonical difference of the
left side minus the right side: if `d` has no terms the outcome is
`Infinitely many solutions`; if the leading exponent of `d` is 0 (a single
nonzero constant remains) the outcome is `No solutions`; if the leading
exponent of `d` is greater than 2 the outcome is the unsupported-degree error
and no root is reported. -/
theorem equation_classification (atof : String → K) (sqrt : K → K) (ty : ASTNodeType)
    (tok : Token) (c0 c1 : ASTNode) (rest : List ASTNode) (p q : List (Monomial K))
    (htok : tok.type = "=") (hl : _evalASTNode atof c0 = .ok p)
    (hr : _evalASTNode atof c1 = .ok q) :
    (_subtractPolynomial p q = [] →
        _evalASTTree atof sqrt (.mk ty (some tok) (c0 :: c1 :: rest)) = .infinitelyManySolutions)
      ∧ (∀ h t, _subtractPolynomial p q = h :: t → h.exponent = 0 →
        t = [] ∧ h.coefficient ≠ 0
          ∧ _evalASTTree atof sqrt (.mk ty (some tok) (c0 :: c1 :: rest)) = .noSolutions)
      ∧ (∀ h t, _subtractPolynomial p q = h :: t → h.exponent > 2 →
        _evalASTTree atof sqrt (.mk ty (some tok) (c0 :: c1 :: rest)) = .unsupportedDegree
          ∧ (_evalASTTree atof sqrt (.mk ty (some tok) (c0 :: c1 :: rest))).roots = []) := by
  rw [evalASTTree_equation atof sqrt ty tok c0 c1 rest p q htok hl hr]
  have hcan := subtractPolynomial_canonical p q
  have hnn := nonneg_subtract p q (evalASTNode_nonneg atof c0 p hl)
    (evalASTNode_nonneg atof c1 q hr)
  refine ⟨?_, ?_, ?_⟩
  · intro hd
    rw [hd]
    rfl
  · intro h t hd h0
    rw [hd] at hcan hnn ⊢
    refine ⟨?_, hcan.2 h (List.mem_cons_self _ _), solve_degree_zero sqrt h t hcan hnn h0⟩
    apply below_zero_nil t (fun x hx => hnn x (List.mem_cons_of_mem _ hx))
    intro x hx
    have := (List.pairwise_cons.mp hcan.1).1 x hx
    omega
  · intro h t hd h3
    rw [hd]
    simp [solveEquation, h3, Output.roots]

/-- Witness of C7 on the trees of `0 = 0`, `0 = 1` and `x*x*x = 0`. -/
theorem equation_classification_witness :
    _evalASTTree (atofDecimal : String → ℝ) Real.sqrt
        (binaryNode "=" (numLeaf "0") (numLeaf "0")) = .infinitelyManySolutions
      ∧ _evalASTTree (atofDecimal : String → ℝ) Real.sqrt
        (binaryNode "=" (numLeaf "0") (numLeaf "1")) = .noSolutions
      ∧ _evalASTTree (atofDecimal : String → ℝ) Real.sqrt
        (binaryNode "=" (binaryNode "*" (binaryNode "*" varLeaf varLeaf) varLeaf) (numLeaf "0"))
          = .unsupportedDegree := by
  have e0 : _evalASTNode (atofDecimal : String → ℝ) (numLeaf "0")
      = .ok [{ coefficient := 0, exponent := 0 }] := by
    simp [numLeaf, _evalASTNode, firstChar, atofDecimal, scanDigits]
  have e1 : _evalASTNode (atofDecimal : String → ℝ) (numLeaf "1")
      = .ok [{ coefficient := 1, exponent := 0 }] := by
    simp [numLeaf, _evalASTNode, firstChar, atofDecimal, scanDigits]
  have e3 : _evalASTNode (atofDecimal : String → ℝ)
      (binaryNode "*" (binaryNode "*" varLeaf varLeaf) varLeaf)
      = .ok [{ coefficient := 1, exponent := 3 }] := by
    simp [binaryNode, varLeaf, _evalASTNode, firstChar,
      _multiplyPolynomials, scaleBy,
      _addPolynomial, canonicalize, sortDescending, List.insertionSort, List.orderedInsert,
      expGE, sumLoop, sumRun, unique, uniqueFrom, removeZero]
  have d00 : _subtractPolynomial ([{ coefficient := 0, exponent := 0 }] : List (Monomial ℝ))
      [{ coefficient := 0, exponent := 0 }] = [] := by
    simp [_subtractPolynomial, canonicalize, sortDescending, List.insertionSort,
      List.orderedInsert, expGE, sumLoop, sumRun, unique, uniqueFrom, removeZero]
  have d01 : _subtractPolynomial ([{ coefficient := 0, exponent := 0 }] : List (Monomial ℝ))
      [{ coefficient := 1, exponent := 0 }] = [{ coefficient := -1, exponent := 0 }] := by
    simp [_subtractPolynomial, canonicalize, sortDescending, List.insertionSort,
      List.orderedInsert, expGE, sumLoop, sumRun, unique, uniqueFrom, removeZero]
  have d30 : _subtractPolynomial ([{ coefficient := 1, exponent := 3 }] : List (Monomial ℝ))
      [{ coefficient := 0, exponent := 0 }] = [{ coefficient := 1, exponent := 3 }] := by
    simp [_subtractPolynomial, canonicalize, sortDescending, List.insertionSort,
      List.orderedInsert, expGE, sumLoop, sumRun, unique, uniqueFrom, removeZero]
  exact ⟨(equation_classification atofDecimal Real.sqrt .BINARY_OPERATOR
      { type := "=", value := "=" } (numLeaf "0") (numLeaf "0") [] _ _ rfl e0 e0).1 d00,
    ((equation_classification atofDecimal Real.sqrt .BINARY_OPERATOR
      { type := "=", value := "=" } (numLeaf "0") (numLeaf "1") [] _ _ rfl e0 e1).2.1
        _ _ d01 rfl).2.2,
    ((equation_classification atofDecimal Real.sqrt .BINARY_OPERATOR
      { type := "=", value := "=" } _ (numLeaf "0") [] _ _ rfl e3 e0).2.2
        _ _ d30 (by decide)).1⟩

/-- C8: linear equations. Whenever the canonical difference `d` of the left
side minus the right side has degree 1, with `a0` the coefficient of `x` and
`a1` the constant term (0 when the constant monomial is absent), `a0` is not 0,
the solver reports exactly the one root `r = -a1/a0`, and `a0*r + a1 = 0`. -/
theorem linear_equation_root (atof : String → K) (sqrt : K → K) (ty : ASTNodeType)
    (tok : Token) (c0 c1 : ASTNode) (rest : List ASTNode) (p q d : List (Monomial K))
    (htok : tok.type = "=") (hl : _evalASTNode atof c0 = .ok p)
    (hr : _evalASTNode atof c1 = .ok q) (hd : d = _subtractPolynomial p q)
    (hdeg : ∃ h t, d = h :: t ∧ h.exponent = 1) :
    denseCoefficient 1 d ≠ 0
      ∧ _evalASTTree atof sqrt (.mk ty (some tok) (c0 :: c1 :: rest))
        = .oneRoot (- denseCoefficient 0 d / denseCoefficient 1 d)
      ∧ denseCoefficient 1 d * (- denseCoefficient 0 d / denseCoefficient 1 d)
          + denseCoefficient 0 d = 0 := by
  rw [evalASTTree_equation atof sqrt ty tok c0 c1 rest p q htok hl hr, ← hd]
  have hcan := subtractPolynomial_canonical p q
  have hnn := nonneg_subtract p q (evalASTNode_nonneg atof c0 p hl)
    (evalASTNode_nonneg atof c1 q hr)
  rw [← hd] at hcan hnn
  obtain ⟨h, t, hht, h1⟩ := hdeg
  rw [hht] at hcan hnn ⊢
  obtain ⟨hne, hsolve⟩ := solve_degree_one sqrt h t hcan hnn h1
  refine ⟨hne, hsolve, ?_⟩
  field_simp
  ring

/-- Witness of C8 on the trees of `x + 1 = 0` (root `-1`) and `2*x + 3 = 7`
(root `2`). -/
theorem linear_equation_root_witness :
    _evalASTTree (atofDecimal : String → ℝ) Real.sqrt
        (binaryNode "=" (binaryNode "+" varLeaf (numLeaf "1")) (numLeaf "0")) = .oneRoot (-1)
      ∧ _evalASTTree (atofDecimal : String → ℝ) Real.sqrt
        (binaryNode "="
          (binaryNode "+" (binaryNode "*" (numLeaf "2") varLeaf) (numLeaf "3")) (numLeaf "7"))
          = .oneRoot 2 := by
  have e0 : _evalASTNode (atofDecimal : String → ℝ) (numLeaf "0")
      = .ok [{ coefficient := 0, exponent := 0 }] := by
    simp [numLeaf, _evalASTNode, firstChar, atofDecimal, scanDigits]
  have e7 : _evalASTNode (atofDecimal : String → ℝ) (numLeaf "7")
      = .ok [{ coefficient := 7, exponent := 0 }] := by
    simp [numLeaf, _evalASTNode, firstChar, atofDecimal, scanDigits]
  have ex1 : _evalASTNode (atofDecimal : String → ℝ) (binaryNode "+" varLeaf (numLeaf "1"))
      = .ok [{ coefficient := 1, exponent := 1 }, { coefficient := 1, exponent := 0 }] := by
    simp [binaryNode, varLeaf, numLeaf, _evalASTNode, firstChar, atofDecimal, scanDigits,
      _addPolynomial, canonicalize, sortDescending, List.insertionSort, List.orderedInsert,
      expGE, sumLoop, sumRun, unique, uniqueFrom, removeZero]
  have e2x3 : _evalASTNode (atofDecimal : String → ℝ)
      (binaryNode "+" (binaryNode "*" (numLeaf "2") varLeaf) (numLeaf "3"))
      = .ok [{ coefficient := 2, exponent := 1 }, { coefficient := 3, exponent := 0 }] := by
    simp [binaryNode, varLeaf, numLeaf, _evalASTNode, firstChar, atofDecimal, scanDigits,
      _multiplyPolynomials, scaleBy,
      _addPolynomial, canonicalize, sortDescending, List.insertionSort, List.orderedInsert,
      expGE, sumLoop, sumRun, unique, uniqueFrom, removeZero]
  have d1 : ([{ coefficient := 1, exponent := 1 }, { coefficient := 1, exponent := 0 }] :
        List (Monomial ℝ))
      = _subtractPolynomial
          ([{ coefficient := 1, exponent := 1 }, { coefficient := 1, exponent := 0 }] :
            List (Monomial ℝ))
          [{ coefficient := 0, exponent := 0 }] := by
    simp [_subtractPolynomial, canonicalize, sortDescending, List.insertionSort,
      List.orderedInsert, expGE, sumLoop, sumRun, unique, uniqueFrom, removeZero]
  have d2 : ([{ coefficient := 2, exponent := 1 }, { coefficient := -4, exponent := 0 }] :
        List (Monomial ℝ))
      = _subtractPolynomial
          ([{ coefficient := 2, exponent := 1 }, { coefficient := 3, exponent := 0 }] :
            List (Monomial ℝ))
          [{ coefficient := 7, exponent := 0 }] := by
    simp [_subtractPolynomial, canonicalize, sortDescending, List.insertionSort,
      List.orderedInsert, expGE, sumLoop, sumRun, unique, uniqueFrom, removeZero]
    norm_num
  have w1 := (linear_equation_root atofDecimal Real.sqrt .BINARY_OPERATOR
    { type := "=", value := "=" } _ (numLeaf "0") [] _ _ _ rfl ex1 e0 d1 ⟨_, _, rfl, rfl⟩).2.1
  have w2 := (linear_equation_root atofDecimal Real.sqrt .BINARY_OPERATOR
    { type := "=", value := "=" } _ (numLeaf "7") [] _ _ _ rfl e2x3 e7 d2 ⟨_, _, rfl, rfl⟩).2.1
  constructor
  · rw [show binaryNode "=" (binaryNode "+" varLeaf (numLeaf "1")) (numLeaf "0")
        = .mk .BINARY_OPERATOR (some { type := "=", value := "=" })
            [binaryNode "+" varLeaf (numLeaf "1"), numLeaf "0"] from rfl, w1]
    simp [denseCoefficient, coefficientAt]
  · rw [show binaryNode "="
          (binaryNode "+" (binaryNode "*" (numLeaf "2") varLeaf) (numLeaf "3")) (numLeaf "7")
        = .mk .BINARY_OPERATOR (some { type := "=", value := "=" })
            [binaryNode "+" (binaryNode "*" (numLeaf "2") varLeaf) (numLeaf "3"), numLeaf "7"]
        from rfl, w2]
    simp [denseCoefficient, coefficientAt]
    norm_num

/-- C9: quadratic equations. Whenever the canonical difference `d` has degree
2, the dense coefficients `a0` (of `x^2`), `a1` (of `x`) and `a2` (constant),
missing terms read as 0, give `D = a1^2 - 4*a0*a2`; `a0` is not 0; the solver
reports `No solutions` iff `D < 0`, the single root `-a1/(2*a0)` iff `D = 0`,
and the two roots `(-a1 + sqrt D)/(2*a0)` and `(-a1 - sqrt D)/(2*a0)` iff
`D > 0`; every reported root `r` satisfies `a0*r^2 + a1*r + a2 = 0` over the
reals. -/
theorem quadratic_equation_roots (atof : String → ℝ) (ty : ASTNodeType)
    (tok : Token) (c0 c1 : ASTNode) (rest : List ASTNode) (p q d : List (Monomial ℝ))
    (htok : tok.type = "=") (hl : _evalASTNode atof c0 = .ok p)
    (hr : _evalASTNode atof c1 = .ok q) (hd : d = _subtractPolynomial p q)
    (hdeg : ∃ h t, d = h :: t ∧ h.exponent = 2) :
    denseCoefficient 2 d ≠ 0
      ∧ (_evalASTTree atof Real.sqrt (.mk ty (some tok) (c0 :: c1 :: rest)) = .noSolutions
          ↔ discriminant d < 0)
      ∧ (_evalASTTree atof Real.sqrt (.mk ty (some tok) (c0 :: c1 :: rest))
            = .oneRoot (- denseCoefficient 1 d / (2 * denseCoefficient 2 d))
          ↔ discriminant d = 0)
      ∧ (_evalASTTree atof Real.sqrt (.mk ty (some tok) (c0 :: c1 :: rest))
            = .twoRoots
                ((- denseCoefficient 1 d + Real.sqrt (discriminant d))
                  / (2 * denseCoefficient 2 d))
                ((- denseCoefficient 1 d - Real.sqrt (discriminant d))
                  / (2 * denseCoefficient 2 d))
          ↔ 0 < discriminant d)
      ∧ ∀ r ∈ (_evalASTTree atof Real.sqrt (.mk ty (some tok) (c0 :: c1 :: rest))).roots,
          denseCoefficient 2 d * r ^ 2 + denseCoefficient 1 d * r + denseCoefficient 0 d = 0 := by
  rw [evalASTTree_equation atof Real.sqrt ty tok c0 c1 rest p q htok hl hr, ← hd]
  have hcan := subtractPolynomial_canonical p q
  have hnn := nonneg_subtract p q (evalASTNode_nonneg atof c0 p hl)
    (evalASTNode_nonneg atof c1 q hr)
  rw [← hd] at hcan hnn
  obtain ⟨h, t, hht, h2⟩ := hdeg
  rw [hht] at hcan hnn
  obtain ⟨hne, hsolve⟩ := solve_degree_two Real.sqrt h t hcan hnn h2
  rw [← hht] at hne hsolve
  rw [hsolve]
  have hD : discriminant d
      = denseCoefficient 1 d ^ 2 - 4 * denseCoefficient 2 d * denseCoefficient 0 d := rfl
  refine ⟨hne, ?_⟩
  rcases lt_trichotomy (discriminant d) 0 with hlt | heq | hgt
  · have h1 : ¬ discriminant d > 0 := not_lt.mpr (le_of_lt hlt)
    have h2 : ¬ discriminant d = 0 := ne_of_lt hlt
    have h3 : ¬ 0 < discriminant d := h1
    rw [if_neg h1, if_neg h2]
    simp [h2, h3, hlt, Output.roots]
  · have h1 : ¬ discriminant d > 0 := by rw [heq]; exact lt_irrefl 0
    have h3 : ¬ discriminant d < 0 := by rw [heq]; exact lt_irrefl 0
    have h4 : ¬ (0:ℝ) < discriminant d := h1
    rw [if_neg h1, if_pos heq]
    refine ⟨by simp [h3], by simp [heq], by simp [h4], ?_⟩
    intro r hr
    simp only [Output.roots, List.mem_singleton] at hr
    rw [hr]
    rw [hD] at heq
    field_simp
    linear_combination (-2 * denseCoefficient 2 d ^ 2) * heq
  · have h1 : discriminant d > 0 := hgt
    have h2 : ¬ discriminant d = 0 := ne_of_gt hgt
    have h3 : ¬ discriminant d < 0 := not_lt.mpr (le_of_lt hgt)
    have hs : Real.sqrt (discriminant d) ^ 2 = discriminant d := Real.sq_sqrt (le_of_lt hgt)
    rw [if_pos h1]
    refine ⟨by simp [h3], by simp [h2], by simp [hgt], ?_⟩
    intro r hr
    simp only [Output.roots, List.mem_cons, List.mem_singleton, List.not_mem_nil, or_false] at hr
    generalize Real.sqrt (discriminant d) = s at hs hr
    rw [hD] at hs
    rcases hr with hr1 | hr2
    · rw [hr1]
      field_simp
      linear_combination (2 * denseCoefficient 2 d ^ 2) * hs
    · rw [hr2]
      field_simp
      linear_combination (2 * denseCoefficient 2 d ^ 2) * hs

/-- Witness of C9 on the tree of `x*x = 1`: the solver reports two roots and
each of them satisfies `r^2 - 1 = 0`. -/
theorem quadratic_equation_roots_witness :
    (_evalASTTree (atofDecimal : String → ℝ) Real.sqrt
        (binaryNode "=" (binaryNode "*" varLeaf varLeaf) (numLeaf "1"))).roots.length = 2
      ∧ ∀ r ∈ (_evalASTTree (atofDecimal : String → ℝ) Real.sqrt
          (binaryNode "=" (binaryNode "*" varLeaf varLeaf) (numLeaf "1"))).roots,
          r ^ 2 - 1 = 0 := by
  have e1 : _evalASTNode (atofDecimal : String → ℝ) (numLeaf "1")
      = .ok [{ coefficient := 1, exponent := 0 }] := by
    simp [numLeaf, _evalASTNode, firstChar, atofDecimal, scanDigits]
  have exx : _evalASTNode (atofDecimal : String → ℝ) (binaryNode "*" varLeaf varLeaf)
      = .ok [{ coefficient := 1, exponent := 2 }] := by
    simp [binaryNode, varLeaf, _evalASTNode, firstChar, _multiplyPolynomials, scaleBy,
      _addPolynomial, canonicalize, sortDescending, List.insertionSort, List.orderedInsert,
      expGE, sumLoop, sumRun, unique, uniqueFrom, removeZero]
  have dd : ([{ coefficient := 1, exponent := 2 }, { coefficient := -1, exponent := 0 }] :
        List (Monomial ℝ))
      = _subtractPolynomial ([{ coefficient := 1, exponent := 2 }] : List (Monomial ℝ))
          [{ coefficient := 1, exponent := 0 }] := by
    simp [_subtractPolynomial, canonicalize, sortDescending, List.insertionSort,
      List.orderedInsert, expGE, sumLoop, sumRun, unique, uniqueFrom, removeZero]
  have w := quadratic_equation_roots atofDecimal .BINARY_OPERATOR
    { type := "=", value := "=" } (binaryNode "*" varLeaf varLeaf) (numLeaf "1") [] _ _ _
    rfl exx e1 dd ⟨_, _, rfl, rfl⟩
  have hD : discriminant ([{ coefficient := 1, exponent := 2 },
      { coefficient := -1, exponent := 0 }] : List (Monomial ℝ)) = 4 := by
    simp [discriminant, denseCoefficient, coefficientAt]
  have hout := w.2.2.2.1.mpr (by rw [hD]; norm_num)
  have htree : binaryNode "=" (binaryNode "*" varLeaf varLeaf) (numLeaf "1")
      = .mk .BINARY_OPERATOR (some { type := "=", value := "=" })
          [binaryNode "*" varLeaf varLeaf, numLeaf "1"] := rfl
  constructor
  · rw [htree, hout]
    rfl
  · intro r hr
    rw [htree] at hr
    have h := w.2.2.2.2 r hr
    simp [denseCoefficient, coefficientAt] at h
    linarith

end EvaluatorClaims

/-! ## The grammar compiler: FIRST sets -/

section GrammarLemmas

theorem firstOfRhs_epsilon (FIRST : String → Finset String) (acc : Finset String)
    (s : Symbol) (rest : List Symbol) (h : s.type = .EPSILON) :
    firstOfRhs FIRST acc (s :: rest)
      = firstOfRhs FIRST (insert s.name (acc.erase epsilonName)) rest := by
  simp [firstOfRhs, h]

theorem firstOfRhs_terminal (FIRST : String → Finset String) (acc : Finset String)
    (s : Symbol) (rest : List Symbol) (h : s.type = .TERMINAL) :
    firstOfRhs FIRST acc (s :: rest) = insert s.name (acc.erase epsilonName) := by
  simp [firstOfRhs, h]

theorem firstOfRhs_nonterminal_pass (FIRST : String → Finset String) (acc : Finset String)
    (s : Symbol) (rest : List Symbol) (h : s.type = .NONTERMINAL)
    (he : epsilonName ∈ FIRST s.name) :
    firstOfRhs FIRST acc (s :: rest)
      = firstOfRhs FIRST (acc.erase epsilonName ∪ FIRST s.name) rest := by
  simp [firstOfRhs, h, he]

theorem firstOfRhs_nonterminal_stop (FIRST : String → Finset String) (acc : Finset String)
    (s : Symbol) (rest : List Symbol) (h : s.type = .NONTERMINAL)
    (he : epsilonName ∉ FIRST s.name) :
    firstOfRhs FIRST acc (s :: rest) = acc.erase epsilonName ∪ FIRST s.name := by
  simp [firstOfRhs, h, he]

/-- What the scan of a right-hand side collects, for a name other than the
epsilon marker. -/
theorem mem_firstOfRhs_of_ne (FIRST : String → Finset String) (t : String)
    (ht : t ≠ epsilonName) :
    ∀ (l : List Symbol), (∀ s ∈ l, s.Regular) → ∀ acc : Finset String,
      (t ∈ firstOfRhs FIRST acc l ↔ t ∈ acc ∨ FirstIn FIRST t l) := by
  intro l
  induction l with
  | nil => intro _ acc; simp [firstOfRhs, FirstIn]
  | cons s rest ih =>
    intro hreg acc
    have hs : s.Regular := hreg s (List.mem_cons_self _ _)
    have ih2 := ih (fun x hx => hreg x (List.mem_cons_of_mem _ hx))
    cases hty : s.type with
    | EPSILON =>
      rw [firstOfRhs_epsilon FIRST acc s rest hty, ih2]
      have hname : s.name = epsilonName := hs.1 hty
      simp [FirstIn, SymbolFirst, Nullable, hty, hname, ht]
    | TERMINAL =>
      rw [firstOfRhs_terminal FIRST acc s rest hty]
      simp only [FirstIn, SymbolFirst, Nullable, hty, Finset.mem_insert, Finset.mem_erase]
      simp [ht]
      tauto
    | NONTERMINAL =>
      by_cases he : epsilonName ∈ FIRST s.name
      · rw [firstOfRhs_nonterminal_pass FIRST acc s rest hty he, ih2]
        simp only [FirstIn, SymbolFirst, Nullable, hty, Finset.mem_union, Finset.mem_erase]
        simp [ht, he]
        tauto
      · rw [firstOfRhs_nonterminal_stop FIRST acc s rest hty he]
        simp only [FirstIn, SymbolFirst, Nullable, hty, Finset.mem_union, Finset.mem_erase]
        simp [ht, he]
    | EOFL => exact absurd hty hs.2.2

/-- When the scan of a right-hand side ends with the epsilon marker in hand. -/
theorem epsilon_mem_firstOfRhs (FIRST : String → Finset String) :
    ∀ (l : List Symbol), (∀ s ∈ l, s.Regular) → ∀ acc : Finset String,
      (epsilonName ∈ firstOfRhs FIRST acc l
        ↔ (l = [] ∧ epsilonName ∈ acc) ∨ (l ≠ [] ∧ ∀ s ∈ l, Nullable FIRST s)) := by
  intro l
  induction l with
  | nil => intro _ acc; simp [firstOfRhs]
  | cons s rest ih =>
    intro hreg acc
    have hs : s.Regular := hreg s (List.mem_cons_self _ _)
    have ih2 := ih (fun x hx => hreg x (List.mem_cons_of_mem _ hx))
    have hall : ∀ acc' : Finset String, epsilonName ∈ acc' →
        (epsilonName ∈ firstOfRhs FIRST acc' rest ↔ ∀ x ∈ rest, Nullable FIRST x) := by
      intro acc' hacc
      rw [ih2]
      cases rest with
      | nil => simp [hacc]
      | cons a b => simp
    cases hty : s.type with
    | EPSILON =>
      have hname : s.name = epsilonName := hs.1 hty
      rw [firstOfRhs_epsilon FIRST acc s rest hty, hall _ (by simp [hname])]
      simp [Nullable, hty]
    | TERMINAL =>
      rw [firstOfRhs_terminal FIRST acc s rest hty]
      have hname : s.name ≠ epsilonName := hs.2.1 hty
      simp [Nullable, hty, Ne.symm hname]
    | NONTERMINAL =>
      by_cases he : epsilonName ∈ FIRST s.name
      · rw [firstOfRhs_nonterminal_pass FIRST acc s rest hty he, hall _ (by simp [he])]
        simp [Nullable, hty, he]
      · rw [firstOfRhs_nonterminal_stop FIRST acc s rest hty he]
        simp [Nullable, hty, he]
    | EOFL => exact absurd hty hs.2.2

/-! ### One pass and the loop -/

theorem tableSet_same (table : String → Finset String) (key : String) (value : Finset String) :
    tableSet table key value key = value := by
  simp [tableSet]

theorem tableSet_other (table : String → Finset String) (key : String) (value : Finset String)
    (k : String) (h : k ≠ key) : tableSet table key value k = table k := by
  simp [tableSet, h]

theorem tableSet_self (table : String → Finset String) (key : String) :
    tableSet table key (table key) = table := by
  funext k
  by_cases h : k = key
  · rw [h, tableSet_same]
  · rw [tableSet_other _ _ _ _ h]

theorem foldl_firstStep_true (l : List Production) :
    ∀ F : String → Finset String, (l.foldl firstStep (F, true)).2 = true := by
  induction l with
  | nil => intro F; rfl
  | cons production rest ih =>
    intro F
    rw [List.foldl_cons]
    exact ih _

/-- A property of tables that every single update keeps is kept by a pass. -/
theorem foldl_firstStep_invariant (J : (String → Finset String) → Prop) (l : List Production)
    (hstep : ∀ F, J F → ∀ production ∈ l,
      J (tableSet F production.lhsSymbol
        (F production.lhsSymbol ∪ firstOfRhs F ∅ production.rhsSymbols))) :
    ∀ state : (String → Finset String) × Bool, J state.1 → J (l.foldl firstStep state).1 := by
  induction l with
  | nil => intro state h; exact h
  | cons production rest ih =>
    intro state h
    rw [List.foldl_cons]
    apply ih (fun F hF q hq => hstep F hF q (List.mem_cons_of_mem _ hq))
    exact hstep state.1 h production (List.mem_cons_self _ _)

/-- A property of tables that every single update keeps is kept by the loop. -/
theorem firstLoop_invariant (J : (String → Finset String) → Prop) (productions : List Production)
    (hstep : ∀ F, J F → ∀ production ∈ productions,
      J (tableSet F production.lhsSymbol
        (F production.lhsSymbol ∪ firstOfRhs F ∅ production.rhsSymbols))) :
    ∀ (fuel : Nat) (F R : String → Finset String), J F →
      firstLoop productions fuel F = some R → J R := by
  intro fuel
  induction fuel with
  | zero => intro F R _ h; simp [firstLoop] at h
  | succ n ih =>
    intro F R hF h
    have hpass : J (firstPass productions F).1 :=
      foldl_firstStep_invariant J productions hstep (F, false) hF
    simp only [firstLoop] at h
    split at h
    · exact ih _ R hpass h
    · rw [← Option.some.inj h]; exact hpass

/-- A pass that leaves the flag down has changed nothing, and the table is
closed under the rule of every production. -/
theorem foldl_firstStep_unchanged (l : List Production) :
    ∀ F : String → Finset String, (l.foldl firstStep (F, false)).2 = false →
      (l.foldl firstStep (F, false)).1 = F
        ∧ ∀ production ∈ l,
            firstOfRhs F ∅ production.rhsSymbols ⊆ F production.lhsSymbol := by
  induction l with
  | nil => intro F _; exact ⟨rfl, fun _ h => absurd h (List.not_mem_nil _)⟩
  | cons production rest ih =>
    intro F h
    rw [List.foldl_cons] at h ⊢
    by_cases hsub : firstOfRhs F ∅ production.rhsSymbols ⊆ F production.lhsSymbol
    · have hstep : firstStep (F, false) production = (F, false) := by
        unfold firstStep
        simp only [Finset.union_eq_left.mpr hsub, tableSet_self, hsub, decide_True,
          Bool.not_true, Bool.or_false]
      rw [hstep] at h ⊢
      obtain ⟨h1, h2⟩ := ih F h
      refine ⟨h1, ?_⟩
      intro q hq
      rcases List.mem_cons.mp hq with rfl | hq
      · exact hsub
      · exact h2 q hq
    · have hstep : (firstStep (F, false) production).2 = true := by
        unfold firstStep
        simp [hsub]
      have : firstStep (F, false) production = ((firstStep (F, false) production).1, true) := by
        rw [← hstep]
      rw [this, foldl_firstStep_true] at h
      exact absurd h (by decide)

/-- The table the loop returns is closed under the rule of every production. -/
theorem firstLoop_closed (productions : List Production) :
    ∀ (fuel : Nat) (F R : String → Finset String), firstLoop productions fuel F = some R →
      ∀ production ∈ productions,
        firstOfRhs R ∅ production.rhsSymbols ⊆ R production.lhsSymbol := by
  intro fuel
  induction fuel with
  | zero => intro F R h; simp [firstLoop] at h
  | succ n ih =>
    intro F R h
    simp only [firstLoop] at h
    split at h
    · exact ih _ R h
    · rename_i hflag
      have hfalse : (firstPass productions F).2 = false := by simpa using hflag
      obtain ⟨h1, h2⟩ := foldl_firstStep_unchanged productions F hfalse
      have hR : R = F := by
        rw [← Option.some.inj h]; exact h1
      rw [hR]
      exact h2

theorem firstLoop_fuel_mono (productions : List Production) :
    ∀ (fuel extra : Nat) (F R : String → Finset String),
      firstLoop productions fuel F = some R → firstLoop productions (fuel + extra) F = some R := by
  intro fuel
  induction fuel with
  | zero => intro extra F R h; simp [firstLoop] at h
  | succ n ih =>
    intro extra F R h
    have hadd : n + 1 + extra = (n + extra) + 1 := by omega
    rw [hadd]
    simp only [firstLoop] at h ⊢
    split at h
    · rename_i hflag
      rw [if_pos hflag]
      exact ih extra _ R h
    · rename_i hflag
      rw [if_neg hflag]
      exact h

/-! ### Convergence -/

theorem firstOfRhs_subset (FIRST : String → Finset String) (S : Finset String)
    (hF : ∀ A, FIRST A ⊆ S) :
    ∀ (l : List Symbol) (acc : Finset String), acc ⊆ S → (∀ s ∈ l, s.name ∈ S) →
      firstOfRhs FIRST acc l ⊆ S := by
  intro l
  induction l with
  | nil => intro acc hacc _; exact hacc
  | cons s rest ih =>
    intro acc hacc hl
    have hs : s.name ∈ S := hl s (List.mem_cons_self _ _)
    have hrest : ∀ x ∈ rest, x.name ∈ S := fun x hx => hl x (List.mem_cons_of_mem _ hx)
    have herase : acc.erase epsilonName ⊆ S := (Finset.erase_subset _ _).trans hacc
    have hins : insert s.name (acc.erase epsilonName) ⊆ S :=
      Finset.insert_subset hs herase
    have hun : acc.erase epsilonName ∪ FIRST s.name ⊆ S := Finset.union_subset herase (hF _)
    simp only [firstOfRhs]
    split
    · exact ih _ hins hrest
    · exact hins
    · split
      · exact ih _ hun hrest
      · exact hun
    · exact ih _ herase hrest

theorem mem_rhsNames (productions : List Production) (production : Production)
    (hp : production ∈ productions) (s : Symbol) (hs : s ∈ production.rhsSymbols) :
    s.name ∈ rhsNames productions := by
  unfold rhsNames
  simp only [List.mem_toFinset, List.mem_flatMap, List.mem_map]
  exact ⟨production, hp, s, hs, rfl⟩

theorem mem_lhsNames (productions : List Production) (production : Production)
    (hp : production ∈ productions) : production.lhsSymbol ∈ lhsNames productions := by
  unfold lhsNames
  simp only [List.mem_toFinset, List.mem_map]
  exact ⟨production, hp, rfl⟩

/-- Every set of the table stays inside the names of the right-hand-side
symbols. -/
theorem bounded_update (productions : List Production) (F : String → Finset String)
    (hF : ∀ A, F A ⊆ rhsNames productions) (production : Production)
    (hp : production ∈ productions) :
    ∀ A, tableSet F production.lhsSymbol
      (F production.lhsSymbol ∪ firstOfRhs F ∅ production.rhsSymbols) A
        ⊆ rhsNames productions := by
  intro A
  by_cases hA : A = production.lhsSymbol
  · rw [hA, tableSet_same]
    apply Finset.union_subset (hF _)
    exact firstOfRhs_subset F _ hF _ ∅ (Finset.empty_subset _)
      (fun s hs => mem_rhsNames productions production hp s hs)
  · rw [tableSet_other _ _ _ _ hA]
    exact hF A

theorem update_superset (F : String → Finset String) (A : String) (extra : Finset String) :
    ∀ B, F B ⊆ tableSet F A (F A ∪ extra) B := by
  intro B
  by_cases hB : B = A
  · rw [hB, tableSet_same]; exact Finset.subset_union_left
  · rw [tableSet_other _ _ _ _ hB]

/-- The total size of the sets of the left-hand sides grows along a pass, and
grows strictly when the pass raises the flag. -/
theorem foldl_firstStep_measure (N : Finset String) (l : List Production)
    (hl : ∀ production ∈ l, production.lhsSymbol ∈ N) :
    ∀ state : (String → Finset String) × Bool,
      (∑ A in N, (state.1 A).card) ≤ ∑ A in N, ((l.foldl firstStep state).1 A).card
        ∧ ((l.foldl firstStep state).2 = true →
            state.2 = true
              ∨ (∑ A in N, (state.1 A).card) < ∑ A in N, ((l.foldl firstStep state).1 A).card) := by
  induction l with
  | nil =>
    intro state
    exact ⟨le_refl _, fun h => Or.inl h⟩
  | cons production rest ih =>
    intro state
    rw [List.foldl_cons]
    obtain ⟨hle, hlt⟩ := ih (fun q hq => hl q (List.mem_cons_of_mem _ hq))
      (firstStep state production)
    have hmono : ∀ A, state.1 A ⊆ (firstStep state production).1 A :=
      update_superset state.1 _ _
    have hle0 : (∑ A in N, (state.1 A).card) ≤ ∑ A in N, ((firstStep state production).1 A).card :=
      Finset.sum_le_sum (fun A _ => Finset.card_le_card (hmono A))
    refine ⟨le_trans hle0 hle, ?_⟩
    intro hflag
    rcases hlt hflag with h1 | h1
    · by_cases hc : state.2 = true
      · exact Or.inl hc
      · right
        have hsub : ¬ firstOfRhs state.1 ∅ production.rhsSymbols
            ⊆ state.1 production.lhsSymbol := by
          intro hsub
          apply hc
          have : (firstStep state production).2 = state.2 := by
            unfold firstStep
            simp [hsub]
          rw [← this]; exact h1
        have hstrict : state.1 production.lhsSymbol
            ⊂ (firstStep state production).1 production.lhsSymbol := by
          unfold firstStep
          simp only [tableSet_same]
          rw [Finset.ssubset_iff_subset_ne]
          refine ⟨Finset.subset_union_left, ?_⟩
          intro heq
          apply hsub
          rw [heq]
          exact Finset.subset_union_right
        have hlt0 : (∑ A in N, (state.1 A).card)
            < ∑ A in N, ((firstStep state production).1 A).card :=
          Finset.sum_lt_sum (fun A _ => Finset.card_le_card (hmono A))
            ⟨production.lhsSymbol, hl production (List.mem_cons_self _ _),
              Finset.card_lt_card hstrict⟩
        exact lt_of_lt_of_le hlt0 hle
    · exact Or.inr (lt_of_le_of_lt hle0 h1)

/-- The loop terminates: with the sets bounded by `S`, it returns as soon as
the fuel exceeds the room left for growth. -/
theorem firstLoop_terminates (productions : List Production) :
    ∀ (fuel : Nat) (F : String → Finset String),
      (∀ A, F A ⊆ rhsNames productions) →
      (lhsNames productions).card * (rhsNames productions).card
        < (∑ A in lhsNames productions, (F A).card) + fuel →
      ∃ R, firstLoop productions fuel F = some R := by
  intro fuel
  induction fuel with
  | zero =>
    intro F hF hlt
    exfalso
    have hbound : (∑ A in lhsNames productions, (F A).card)
        ≤ (lhsNames productions).card * (rhsNames productions).card := by
      have := Finset.sum_le_card_nsmul (lhsNames productions) (fun A => (F A).card)
        (rhsNames productions).card (fun A _ => Finset.card_le_card (hF A))
      simpa using this
    omega
  | succ n ih =>
    intro F hF hlt
    simp only [firstLoop]
    by_cases hflag : (firstPass productions F).2 = true
    · rw [if_pos hflag]
      apply ih
      · exact foldl_firstStep_invariant (fun G => ∀ A, G A ⊆ rhsNames productions) productions
          (fun G hG q hq => bounded_update productions G hG q hq) (F, false) hF
      · have hm := (foldl_firstStep_measure (lhsNames productions) productions
          (fun q hq => mem_lhsNames productions q hq) (F, false)).2 hflag
        rcases hm with hm | hm
        · exact absurd hm Bool.false_ne_true
        · unfold firstPass
          simp only at hm
          omega
    · rw [if_neg hflag]
      exact ⟨_, rfl⟩

/-- With `firstFuelBound` passes or more, `_computeFIRST` returns, and the
table does not depend on the fuel. -/
theorem computeFIRST_returns (productions : List Production) :
    ∃ FIRST, ∀ fuel, firstFuelBound productions ≤ fuel →
      _computeFIRST productions fuel = some FIRST := by
  obtain ⟨R, hR⟩ := firstLoop_terminates productions (firstFuelBound productions)
    (fun _ => ∅) (fun _ => Finset.empty_subset _) (by unfold firstFuelBound; simp)
  refine ⟨R, ?_⟩
  intro fuel hfuel
  obtain ⟨k, rfl⟩ := Nat.exists_eq_add_of_le hfuel
  exact firstLoop_fuel_mono productions _ k _ R hR

/-! ### Least closed table -/

theorem nullable_mono (F G : String → Finset String) (hFG : ∀ A, F A ⊆ G A) (s : Symbol)
    (h : Nullable F s) : Nullable G s := by
  rcases h with h | ⟨h1, h2⟩
  · exact Or.inl h
  · exact Or.inr ⟨h1, hFG _ h2⟩

theorem firstIn_mono (F G : String → Finset String) (hFG : ∀ A, F A ⊆ G A) (t : String) :
    ∀ l : List Symbol, FirstIn F t l → FirstIn G t l := by
  intro l
  induction l with
  | nil => intro h; exact h
  | cons s rest ih =>
    intro h
    rcases h with (⟨h1, h2⟩ | ⟨h1, h2⟩) | ⟨h1, h2⟩
    · exact Or.inl (Or.inl ⟨h1, h2⟩)
    · exact Or.inl (Or.inr ⟨h1, hFG _ h2⟩)
    · exact Or.inr ⟨nullable_mono F G hFG s h1, ih h2⟩

/-- The scan of a right-hand side is monotone in the table. -/
theorem firstOfRhs_mono (F G : String → Finset String) (hFG : ∀ A, F A ⊆ G A)
    (l : List Symbol) (hreg : ∀ s ∈ l, s.Regular) :
    firstOfRhs F ∅ l ⊆ firstOfRhs G ∅ l := by
  intro t ht
  by_cases he : t = epsilonName
  · rw [he] at ht ⊢
    rw [epsilon_mem_firstOfRhs F l hreg] at ht
    rw [epsilon_mem_firstOfRhs G l hreg]
    rcases ht with ⟨_, h⟩ | ⟨h1, h2⟩
    · exact absurd h (Finset.not_mem_empty _)
    · exact Or.inr ⟨h1, fun s hs => nullable_mono F G hFG s (h2 s hs)⟩
  · rw [mem_firstOfRhs_of_ne F t he l hreg] at ht
    rw [mem_firstOfRhs_of_ne G t he l hreg]
    rcases ht with h | h
    · exact absurd h (Finset.not_mem_empty _)
    · exact Or.inr (firstIn_mono F G hFG t l h)

/-- The table the loop returns lies below every table that is closed under
the rule of every production. -/
theorem firstLoop_least (productions : List Production)
    (hreg : ∀ production ∈ productions, ∀ s ∈ production.rhsSymbols, s.Regular)
    (G : String → Finset String)
    (hG : ∀ production ∈ productions,
      firstOfRhs G ∅ production.rhsSymbols ⊆ G production.lhsSymbol)
    (fuel : Nat) (R : String → Finset String)
    (h : firstLoop productions fuel (fun _ => ∅) = some R) : ∀ A, R A ⊆ G A := by
  apply firstLoop_invariant (fun F => ∀ A, F A ⊆ G A) productions ?_ fuel (fun _ => ∅) R
    (fun _ => Finset.empty_subset _) h
  intro F hF production hp A
  by_cases hA : A = production.lhsSymbol
  · rw [hA, tableSet_same]
    apply Finset.union_subset (hF _)
    exact (firstOfRhs_mono F G hF _ (hreg production hp)).trans (hG production hp)
  · rw [tableSet_other _ _ _ _ hA]
    exact hF A

/-! ### Derivations -/

theorem derivationStep_context (productions : List Production) (c d : List Symbol)
    {a b : List Symbol} (h : DerivationStep productions a b) :
    DerivationStep productions (c ++ a ++ d) (c ++ b ++ d) := by
  cases h with
  | expand production before after hp =>
    have h1 : c ++ (before ++ { type := .NONTERMINAL, name := production.lhsSymbol } :: after) ++ d
        = (c ++ before) ++ { type := .NONTERMINAL, name := production.lhsSymbol }
            :: (after ++ d) := by
      simp
    have h2 : c ++ (before ++ production.rhsSymbols ++ after) ++ d
        = (c ++ before) ++ production.rhsSymbols ++ (after ++ d) := by
      simp
    rw [h1, h2]
    exact DerivationStep.expand production _ _ hp
  | erase name before after =>
    have h1 : c ++ (before ++ { type := .EPSILON, name := name } :: after) ++ d
        = (c ++ before) ++ { type := .EPSILON, name := name } :: (after ++ d) := by
      simp
    have h2 : c ++ (before ++ after) ++ d = (c ++ before) ++ (after ++ d) := by
      simp
    rw [h1, h2]
    exact DerivationStep.erase name _ _

theorem derives_context (productions : List Production) (c d : List Symbol)
    {a b : List Symbol} (h : Derives productions a b) :
    Derives productions (c ++ a ++ d) (c ++ b ++ d) := by
  unfold Derives at h ⊢
  induction h with
  | refl => exact Relation.ReflTransGen.refl
  | tail _ hstep ih =>
    exact Relation.ReflTransGen.tail ih (derivationStep_context productions c d hstep)

theorem derives_append (productions : List Production) {a b c d : List Symbol}
    (h1 : Derives productions a b) (h2 : Derives productions c d) :
    Derives productions (a ++ c) (b ++ d) := by
  have e1 := derives_context productions [] c h1
  have e2 := derives_context productions b [] h2
  simp only [List.nil_append, List.append_nil] at e1 e2
  exact Relation.ReflTransGen.trans e1 e2

theorem derives_of_production (productions : List Production) (production : Production)
    (hp : production ∈ productions) :
    Derives productions [{ type := .NONTERMINAL, name := production.lhsSymbol }]
      production.rhsSymbols := by
  have h := DerivationStep.expand production [] [] hp
  simp only [List.nil_append, List.append_nil] at h
  exact Relation.ReflTransGen.single h

theorem nullable_derives (productions : List Production) (F : String → Finset String)
    (hF : SoundTable productions F) (s : Symbol) (h : Nullable F s) :
    Derives productions [s] [] := by
  cases s with
  | mk ty name =>
    rcases h with h | ⟨h1, h2⟩
    · simp only at h
      subst h
      have hstep := @DerivationStep.erase productions name [] []
      simp only [List.nil_append] at hstep
      exact Relation.ReflTransGen.single hstep
    · simp only at h1 h2
      subst h1
      exact (hF name epsilonName h2).1 rfl

theorem all_nullable_derives (productions : List Production) (F : String → Finset String)
    (hF : SoundTable productions F) :
    ∀ l : List Symbol, (∀ s ∈ l, Nullable F s) → Derives productions l [] := by
  intro l
  induction l with
  | nil => intro _; exact Relation.ReflTransGen.refl
  | cons s rest ih =>
    intro h
    have h1 := nullable_derives productions F hF s (h s (List.mem_cons_self _ _))
    have h2 := ih (fun x hx => h x (List.mem_cons_of_mem _ hx))
    have := derives_append productions h1 h2
    simpa using this

theorem firstIn_derives (productions : List Production) (F : String → Finset String)
    (hF : SoundTable productions F) (t : String) (ht : t ≠ epsilonName) :
    ∀ l : List Symbol, FirstIn F t l →
      ∃ β, Derives productions l ({ type := .TERMINAL, name := t } :: β) := by
  intro l
  induction l with
  | nil => intro h; exact absurd h id
  | cons s rest ih =>
    intro h
    rcases h with (⟨h1, h2⟩ | ⟨h1, h2⟩) | ⟨h1, h2⟩
    · cases s with
      | mk ty name =>
        simp only at h1 h2
        subst h1
        subst h2
        exact ⟨rest, Relation.ReflTransGen.refl⟩
    · cases s with
      | mk ty name =>
        simp only at h1 h2
        subst h1
        obtain ⟨β, hβ⟩ := (hF name t h2).2 ht
        refine ⟨β ++ rest, ?_⟩
        have := derives_append productions hβ (Relation.ReflTransGen.refl : Derives productions rest rest)
        simpa using this
    · obtain ⟨β, hβ⟩ := ih h2
      refine ⟨β, ?_⟩
      have h3 := nullable_derives productions F hF s h1
      have := derives_append productions h3 hβ
      simpa using this

/-- One update of the table keeps it sound. -/
theorem soundTable_update (productions : List Production) (F : String → Finset String)
    (hF : SoundTable productions F) (production : Production) (hp : production ∈ productions)
    (hreg : ∀ s ∈ production.rhsSymbols, s.Regular) :
    SoundTable productions (tableSet F production.lhsSymbol
      (F production.lhsSymbol ∪ firstOfRhs F ∅ production.rhsSymbols)) := by
  intro A x hx
  by_cases hA : A = production.lhsSymbol
  · rw [hA, tableSet_same] at hx
    rcases Finset.mem_union.mp hx with hx | hx
    · rw [hA]; exact hF _ x hx
    · rw [hA]
      have hprod := derives_of_production productions production hp
      constructor
      · intro he
        rw [he, epsilon_mem_firstOfRhs F _ hreg] at hx
        rcases hx with ⟨_, h⟩ | ⟨_, h⟩
        · exact absurd h (Finset.not_mem_empty _)
        · exact Relation.ReflTransGen.trans hprod (all_nullable_derives productions F hF _ h)
      · intro hne
        rw [mem_firstOfRhs_of_ne F x hne _ hreg] at hx
        rcases hx with h | h
        · exact absurd h (Finset.not_mem_empty _)
        · obtain ⟨β, hβ⟩ := firstIn_derives productions F hF x hne _ h
          exact ⟨β, Relation.ReflTransGen.trans hprod hβ⟩
  · rw [tableSet_other _ _ _ _ hA] at hx
    exact hF A x hx

/-- The table the loop returns is sound. -/
theorem firstLoop_sound (productions : List Production)
    (hreg : ∀ production ∈ productions, ∀ s ∈ production.rhsSymbols, s.Regular)
    (fuel : Nat) (R : String → Finset String)
    (h : firstLoop productions fuel (fun _ => ∅) = some R) : SoundTable productions R := by
  apply firstLoop_invariant (SoundTable productions) productions ?_ fuel (fun _ => ∅) R ?_ h
  · intro F hF production hp
    exact soundTable_update productions F hF production hp (hreg production hp)
  · intro A x hx
    exact absurd hx (Finset.not_mem_empty _)

/-! ### Completeness of a closed table -/

theorem firstIn_append (F : String → Finset String) (t : String) :
    ∀ a b : List Symbol,
      FirstIn F t (a ++ b) ↔ FirstIn F t a ∨ ((∀ s ∈ a, Nullable F s) ∧ FirstIn F t b) := by
  intro a
  induction a with
  | nil => intro b; simp [FirstIn]
  | cons s rest ih =>
    intro b
    show (SymbolFirst F t s ∨ (Nullable F s ∧ FirstIn F t (rest ++ b))) ↔
      (SymbolFirst F t s ∨ (Nullable F s ∧ FirstIn F t rest))
        ∨ ((∀ x ∈ s :: rest, Nullable F x) ∧ FirstIn F t b)
    rw [ih b, List.forall_mem_cons]
    constructor
    · rintro (h | ⟨h1, h2 | ⟨h2, h3⟩⟩)
      · exact Or.inl (Or.inl h)
      · exact Or.inl (Or.inr ⟨h1, h2⟩)
      · exact Or.inr ⟨⟨h1, h2⟩, h3⟩
    · rintro ((h | ⟨h1, h2⟩) | ⟨⟨h1, h2⟩, h3⟩)
      · exact Or.inl h
      · exact Or.inr ⟨h1, Or.inl h2⟩
      · exact Or.inr ⟨h1, Or.inr ⟨h2, h3⟩⟩

theorem closed_epsilon_mem (productions : List Production) (F : String → Finset String)
    (hcl : ∀ production ∈ productions,
      firstOfRhs F ∅ production.rhsSymbols ⊆ F production.lhsSymbol)
    (hreg : ∀ production ∈ productions, ∀ s ∈ production.rhsSymbols, s.Regular)
    (hne : ∀ production ∈ productions, production.rhsSymbols ≠ [])
    (production : Production) (hp : production ∈ productions)
    (h : ∀ s ∈ production.rhsSymbols, Nullable F s) :
    epsilonName ∈ F production.lhsSymbol := by
  apply hcl production hp
  rw [epsilon_mem_firstOfRhs F _ (hreg production hp)]
  exact Or.inr ⟨hne production hp, h⟩

theorem closed_first_mem (productions : List Production) (F : String → Finset String)
    (hcl : ∀ production ∈ productions,
      firstOfRhs F ∅ production.rhsSymbols ⊆ F production.lhsSymbol)
    (hreg : ∀ production ∈ productions, ∀ s ∈ production.rhsSymbols, s.Regular)
    (production : Production) (hp : production ∈ productions) (t : String)
    (ht : t ≠ epsilonName) (h : FirstIn F t production.rhsSymbols) :
    t ∈ F production.lhsSymbol := by
  apply hcl production hp
  rw [mem_firstOfRhs_of_ne F t ht _ (hreg production hp)]
  exact Or.inr h

theorem step_nullable (productions : List Production) (F : String → Finset String)
    (hcl : ∀ production ∈ productions,
      firstOfRhs F ∅ production.rhsSymbols ⊆ F production.lhsSymbol)
    (hreg : ∀ production ∈ productions, ∀ s ∈ production.rhsSymbols, s.Regular)
    (hne : ∀ production ∈ productions, production.rhsSymbols ≠ [])
    {a b : List Symbol} (hstep : DerivationStep productions a b)
    (h : ∀ s ∈ b, Nullable F s) : ∀ s ∈ a, Nullable F s := by
  cases hstep with
  | expand production before after hp =>
    intro s hs
    simp only [List.mem_append, List.mem_cons] at hs
    have hb : ∀ x ∈ before, Nullable F x := fun x hx => h x (by simp [hx])
    have hr : ∀ x ∈ production.rhsSymbols, Nullable F x := fun x hx => h x (by simp [hx])
    have ha : ∀ x ∈ after, Nullable F x := fun x hx => h x (by simp [hx])
    rcases hs with hs | hs | hs
    · exact hb s hs
    · rw [hs]
      exact Or.inr ⟨rfl, closed_epsilon_mem productions F hcl hreg hne production hp hr⟩
    · exact ha s hs
  | erase name before after =>
    intro s hs
    simp only [List.mem_append, List.mem_cons] at hs
    rcases hs with hs | hs | hs
    · exact h s (by simp [hs])
    · rw [hs]; exact Or.inl rfl
    · exact h s (by simp [hs])

theorem step_firstIn (productions : List Production) (F : String → Finset String)
    (hcl : ∀ production ∈ productions,
      firstOfRhs F ∅ production.rhsSymbols ⊆ F production.lhsSymbol)
    (hreg : ∀ production ∈ productions, ∀ s ∈ production.rhsSymbols, s.Regular)
    (hne : ∀ production ∈ productions, production.rhsSymbols ≠ [])
    (t : String) (ht : t ≠ epsilonName)
    {a b : List Symbol} (hstep : DerivationStep productions a b)
    (h : FirstIn F t b) : FirstIn F t a := by
  cases hstep with
  | expand production before after hp =>
    rw [firstIn_append, firstIn_append] at h
    rw [firstIn_append]
    rcases h with (h | ⟨h1, h2⟩) | ⟨h1, h2⟩
    · exact Or.inl h
    · right
      refine ⟨h1, Or.inl (Or.inr ⟨rfl, ?_⟩)⟩
      exact closed_first_mem productions F hcl hreg production hp t ht h2
    · right
      have hb : ∀ x ∈ before, Nullable F x := fun x hx => h1 x (by simp [hx])
      have hr : ∀ x ∈ production.rhsSymbols, Nullable F x := fun x hx => h1 x (by simp [hx])
      refine ⟨hb, Or.inr ⟨Or.inr ⟨rfl, ?_⟩, h2⟩⟩
      exact closed_epsilon_mem productions F hcl hreg hne production hp hr
  | erase name before after =>
    rw [firstIn_append] at h ⊢
    rcases h with h | ⟨h1, h2⟩
    · exact Or.inl h
    · exact Or.inr ⟨h1, Or.inr ⟨Or.inl rfl, h2⟩⟩

/-- In a closed table, every form that derives the empty form consists of
nullable symbols. -/
theorem derives_nullable (productions : List Production) (F : String → Finset String)
    (hcl : ∀ production ∈ productions,
      firstOfRhs F ∅ production.rhsSymbols ⊆ F production.lhsSymbol)
    (hreg : ∀ production ∈ productions, ∀ s ∈ production.rhsSymbols, s.Regular)
    (hne : ∀ production ∈ productions, production.rhsSymbols ≠ [])
    {a : List Symbol} (h : Derives productions a []) : ∀ s ∈ a, Nullable F s := by
  unfold Derives at h
  induction h using Relation.ReflTransGen.head_induction_on with
  | refl => intro s hs; exact absurd hs (List.not_mem_nil _)
  | head hstep _ ih => exact step_nullable productions F hcl hreg hne hstep ih

/-- In a closed table, every form that derives a form beginning with the
terminal `t` contributes `t`. -/
theorem derives_firstIn (productions : List Production) (F : String → Finset String)
    (hcl : ∀ production ∈ productions,
      firstOfRhs F ∅ production.rhsSymbols ⊆ F production.lhsSymbol)
    (hreg : ∀ production ∈ productions, ∀ s ∈ production.rhsSymbols, s.Regular)
    (hne : ∀ production ∈ productions, production.rhsSymbols ≠ [])
    (t : String) (ht : t ≠ epsilonName) {a β : List Symbol}
    (h : Derives productions a ({ type := .TERMINAL, name := t } :: β)) : FirstIn F t a := by
  unfold Derives at h
  induction h using Relation.ReflTransGen.head_induction_on with
  | refl => exact Or.inl (Or.inl ⟨rfl, rfl⟩)
  | head hstep _ ih => exact step_firstIn productions F hcl hreg hne t ht hstep ih

/-! ### The grammars `_readConfigFile` accepts -/

theorem symbolTypeOf_regular (nonterminals : Finset String) (name : String) :
    Symbol.Regular { type := symbolTypeOf nonterminals name, name := name } := by
  unfold Symbol.Regular symbolTypeOf
  by_cases h1 : name ∈ nonterminals
  · simp [h1]
  · by_cases h2 : name = epsilonName
    · subst h2
      simp [h1]
    · simp [h1, h2]

theorem readConfigFile_regular (lines : List (String × List String))
    (nonterminals : Finset String) (productions : List Production)
    (h : _readConfigFile lines = some (nonterminals, productions)) :
    (∀ production ∈ productions, ∀ s ∈ production.rhsSymbols, s.Regular)
      ∧ (∀ production ∈ productions, production.rhsSymbols ≠ []) := by
  unfold _readConfigFile at h
  split at h
  · rename_i hall
    have hP := (Prod.mk.inj (Option.some.inj h)).2
    rw [← hP]
    constructor
    · intro production hp s hs
      obtain ⟨line, _, rfl⟩ := List.mem_map.mp hp
      obtain ⟨name, _, rfl⟩ := List.mem_map.mp hs
      exact symbolTypeOf_regular _ name
    · intro production hp
      obtain ⟨line, hline, rfl⟩ := List.mem_map.mp hp
      have := List.all_eq_true.mp hall line hline
      simp only [ne_eq, List.map_eq_nil_iff]
      intro hnil
      rw [hnil] at this
      simp at this
  · exact absurd h (by simp)

/-- The sets `_computeFIRST` returns for the grammar `S -> A b`, `A -> a`,
`A -> ^e$`: `FIRST(S) = {a, b}` and `FIRST(A) = {a, ^e$}`. -/
theorem computeFIRST_sample :
    ∃ nonterminals productions,
      _readConfigFile [("S", ["A", "b"]), ("A", ["a"]), ("A", ["^e$"])]
          = some (nonterminals, productions)
        ∧ (_computeFIRST productions (firstFuelBound productions)).map
            (fun FIRST => (FIRST "S", FIRST "A"))
          = some ({"a", "b"}, {"a", "^e$"}) := by
  refine ⟨_, _, rfl, ?_⟩
  simp [firstFuelBound, lhsNames, rhsNames, _computeFIRST, firstLoop, firstPass, firstStep,
    firstOfRhs, tableSet, symbolTypeOf, epsilonName]
  decide

end GrammarLemmas

/-! ## The claim on the FIRST sets -/

section GrammarClaims

/-- C10: FIRST is the least fixpoint. For every grammar `_readConfigFile`
accepts, `_computeFIRST` returns a table (for every number of passes from
`firstFuelBound` on, always the same) such that, for every name `A`, a
terminal `t` is in `FIRST A` exactly when some form derivable from the
nonterminal `A` begins with `t`, and the epsilon marker is in `FIRST A`
exactly when `A` derives the empty form; the table is closed under the rule
of every production, and it lies below every table that is closed. -/
theorem computeFIRST_least_fixpoint (lines : List (String × List String))
    (nonterminals : Finset String) (productions : List Production)
    (hread : _readConfigFile lines = some (nonterminals, productions)) :
    ∃ FIRST : String → Finset String,
      (∀ fuel, firstFuelBound productions ≤ fuel → _computeFIRST productions fuel = some FIRST)
        ∧ (∀ A t, t ≠ epsilonName →
            (t ∈ FIRST A ↔ ∃ β, Derives productions [{ type := .NONTERMINAL, name := A }]
              ({ type := .TERMINAL, name := t } :: β)))
        ∧ (∀ A, epsilonName ∈ FIRST A
            ↔ Derives productions [{ type := .NONTERMINAL, name := A }] [])
        ∧ (∀ production ∈ productions,
            firstOfRhs FIRST ∅ production.rhsSymbols ⊆ FIRST production.lhsSymbol)
        ∧ (∀ G : String → Finset String,
            (∀ production ∈ productions,
              firstOfRhs G ∅ production.rhsSymbols ⊆ G production.lhsSymbol) →
            ∀ A, FIRST A ⊆ G A) := by
  obtain ⟨hreg, hne⟩ := readConfigFile_regular lines nonterminals productions hread
  obtain ⟨FIRST, hF⟩ := computeFIRST_returns productions
  have hrun : firstLoop productions (firstFuelBound productions) (fun _ => ∅) = some FIRST :=
    hF _ (le_refl _)
  have hcl := firstLoop_closed productions _ _ FIRST hrun
  have hsound := firstLoop_sound productions hreg _ FIRST hrun
  refine ⟨FIRST, hF, ?_, ?_, hcl, ?_⟩
  · intro A t ht
    constructor
    · intro hmem
      exact (hsound A t hmem).2 ht
    · rintro ⟨β, hβ⟩
      have h := derives_firstIn productions FIRST hcl hreg hne t ht hβ
      rcases h with (⟨h1, _⟩ | ⟨_, h2⟩) | ⟨_, h2⟩
      · exact absurd h1 (by simp)
      · exact h2
      · exact absurd h2 id
  · intro A
    constructor
    · intro hmem
      exact (hsound A _ hmem).1 rfl
    · intro hd
      have h := derives_nullable productions FIRST hcl hreg hne hd _ (List.mem_singleton.mpr rfl)
      rcases h with h | ⟨_, h⟩
      · exact absurd h (by simp)
      · exact h
  · intro G hG
    exact firstLoop_least productions hreg G hG _ FIRST hrun

/-- Witness of C10 on the grammar `S -> A b`, `A -> a`, `A -> ^e$`. -/
theorem computeFIRST_least_fixpoint_witness :
    ∃ nonterminals productions,
      _readConfigFile [("S", ["A", "b"]), ("A", ["a"]), ("A", ["^e$"])]
          = some (nonterminals, productions)
        ∧ ∃ FIRST : String → Finset String,
          (∀ fuel, firstFuelBound productions ≤ fuel →
              _computeFIRST productions fuel = some FIRST)
            ∧ (∀ A t, t ≠ epsilonName →
                (t ∈ FIRST A ↔ ∃ β, Derives productions [{ type := .NONTERMINAL, name := A }]
                  ({ type := .TERMINAL, name := t } :: β)))
            ∧ (∀ A, epsilonName ∈ FIRST A
                ↔ Derives productions [{ type := .NONTERMINAL, name := A }] [])
            ∧ (∀ production ∈ productions,
                firstOfRhs FIRST ∅ production.rhsSymbols ⊆ FIRST production.lhsSymbol)
            ∧ (∀ G : String → Finset String,
                (∀ production ∈ productions,
                  firstOfRhs G ∅ production.rhsSymbols ⊆ G production.lhsSymbol) →
                ∀ A, FIRST A ⊆ G A) :=
  ⟨_, _, rfl,
    computeFIRST_least_fixpoint [("S", ["A", "b"]), ("A", ["a"]), ("A", ["^e$"])] _ _ rfl⟩

end GrammarClaims

/-! ## The grammar compiler: the LL(1) table -/

section TableLemmas

theorem qualifies_zero (production : Production) (productions : List Production)
    (set : Finset String) (sets : List (Finset String)) (N t : String) :
    Qualifies (production :: productions) (set :: sets) N t 0
      ↔ (N = production.lhsSymbol ∧ t ∈ set ∧ t ≠ epsilonName) := by
  unfold Qualifies
  constructor
  · rintro ⟨p, s, hp, hs, h1, h2, h3⟩
    simp only [List.getElem?_cons_zero, Option.some.injEq] at hp hs
    subst hp; subst hs
    exact ⟨h1.symm, h2, h3⟩
  · rintro ⟨h1, h2, h3⟩
    exact ⟨production, set, by simp, by simp, h1.symm, h2, h3⟩

theorem qualifies_succ (production : Production) (productions : List Production)
    (set : Finset String) (sets : List (Finset String)) (N t : String) (j : Nat) :
    Qualifies (production :: productions) (set :: sets) N t (j + 1)
      ↔ Qualifies productions sets N t j := by
  unfold Qualifies
  simp only [List.getElem?_cons_succ]

theorem not_qualifies_nil_left (sets : List (Finset String)) (N t : String) (j : Nat) :
    ¬ Qualifies [] sets N t j := by
  rintro ⟨p, s, hp, _⟩
  simp at hp

theorem not_qualifies_nil_right (productions : List Production) (N t : String) (j : Nat) :
    ¬ Qualifies productions [] N t j := by
  rintro ⟨p, s, _, hs, _⟩
  simp at hs

/-- The entry `(N, t)` after the loop: the index of the last production that
qualifies, or the entry the table had before when none qualifies. -/
theorem constructFrom_spec (N t : String) :
    ∀ (productions : List Production) (sets : List (Finset String)) (i0 : Nat)
      (table : String → String → Option Nat),
      (∃ k, Qualifies productions sets N t k
          ∧ (∀ j, k < j → ¬ Qualifies productions sets N t j)
          ∧ constructFrom i0 table productions sets N t = some (i0 + k))
        ∨ ((∀ j, ¬ Qualifies productions sets N t j)
          ∧ constructFrom i0 table productions sets N t = table N t) := by
  intro productions
  induction productions with
  | nil =>
    intro sets i0 table
    right
    exact ⟨fun j => not_qualifies_nil_left sets N t j, by simp [constructFrom]⟩
  | cons production rest ih =>
    intro sets i0 table
    cases sets with
    | nil =>
      right
      exact ⟨fun j => not_qualifies_nil_right _ N t j, by simp [constructFrom]⟩
    | cons set sets =>
      have hdef : constructFrom i0 table (production :: rest) (set :: sets) N t
          = constructFrom (i0 + 1) (tableWrite table production.lhsSymbol set i0) rest sets N t :=
        rfl
      rw [hdef]
      rcases ih sets (i0 + 1) (tableWrite table production.lhsSymbol set i0) with
        ⟨k, hk, hmax, hval⟩ | ⟨hnone, hval⟩
      · left
        refine ⟨k + 1, (qualifies_succ _ _ _ _ N t k).mpr hk, ?_, ?_⟩
        · intro j hj
          cases j with
          | zero => omega
          | succ j' =>
            rw [qualifies_succ]
            exact hmax j' (by omega)
        · rw [hval]
          congr 1
          omega
      · by_cases h0 : N = production.lhsSymbol ∧ t ∈ set ∧ t ≠ epsilonName
        · left
          refine ⟨0, (qualifies_zero _ _ _ _ N t).mpr h0, ?_, ?_⟩
          · intro j hj
            cases j with
            | zero => omega
            | succ j' =>
              rw [qualifies_succ]
              exact hnone j'
          · rw [hval]
            unfold tableWrite
            rw [if_pos h0]
            rfl
        · right
          constructor
          · intro j
            cases j with
            | zero => rw [qualifies_zero]; exact h0
            | succ j' => rw [qualifies_succ]; exact hnone j'
          · rw [hval]
            unfold tableWrite
            rw [if_neg h0]

theorem constructLL1Table_spec (productions : List Production)
    (FIRST_PLUS : List (Finset String)) (N t : String) :
    (∃ k, Qualifies productions FIRST_PLUS N t k
        ∧ (∀ j, k < j → ¬ Qualifies productions FIRST_PLUS N t j)
        ∧ _constructLL1Table productions FIRST_PLUS N t = some k)
      ∨ ((∀ j, ¬ Qualifies productions FIRST_PLUS N t j)
        ∧ _constructLL1Table productions FIRST_PLUS N t = none) := by
  unfold _constructLL1Table
  rcases constructFrom_spec N t productions FIRST_PLUS 0 (fun _ _ => none) with
    ⟨k, h1, h2, h3⟩ | ⟨h1, h2⟩
  · left
    exact ⟨k, h1, h2, by rw [h3, Nat.zero_add]⟩
  · right
    exact ⟨h1, h2⟩

/-- The lookup of `(N, t)` yields `i` exactly when `i` is the largest
qualifying index. -/
theorem constructLL1Table_eq_some_iff (productions : List Production)
    (FIRST_PLUS : List (Finset String)) (N t : String) (i : Nat) :
    _constructLL1Table productions FIRST_PLUS N t = some i
      ↔ (Qualifies productions FIRST_PLUS N t i
          ∧ ∀ j, i < j → ¬ Qualifies productions FIRST_PLUS N t j) := by
  rcases constructLL1Table_spec productions FIRST_PLUS N t with ⟨k, h1, h2, h3⟩ | ⟨h1, h2⟩
  · rw [h3]
    constructor
    · intro h
      have hk : k = i := Option.some.inj h
      subst hk
      exact ⟨h1, h2⟩
    · rintro ⟨hq, hmax⟩
      rcases Nat.lt_trichotomy k i with hlt | heq | hgt
      · exact absurd hq (h2 i hlt)
      · rw [heq]
      · exact absurd h1 (hmax k hgt)
  · rw [h2]
    constructor
    · intro h; exact absurd h (by simp)
    · rintro ⟨hq, _⟩; exact absurd hq (h1 i)

theorem constructLL1Table_eq_none_iff (productions : List Production)
    (FIRST_PLUS : List (Finset String)) (N t : String) :
    _constructLL1Table productions FIRST_PLUS N t = none
      ↔ ∀ i, ¬ Qualifies productions FIRST_PLUS N t i := by
  rcases constructLL1Table_spec productions FIRST_PLUS N t with ⟨k, h1, h2, h3⟩ | ⟨h1, h2⟩
  · rw [h3]
    constructor
    · intro h; exact absurd h (by simp)
    · intro h; exact absurd h1 (h k)
  · rw [h2]
    exact ⟨fun _ => h1, fun _ => rfl⟩

end TableLemmas

section TableClaims

/-- C13: table construction with last-production-wins. For every grammar and
every FIRST+ family with one set per production, after `_constructLL1Table`
the lookup of `(N, t)` yields the index `i` if and only if `i` is the largest
production index whose left-hand side is `N` and whose FIRST+ set contains
`t` with `t` different from the epsilon marker; the lookup has no entry
exactly when no production qualifies; and the epsilon marker is never a
lookahead key. -/
theorem ll1Table_last_production_wins (productions : List Production)
    (FIRST_PLUS : List (Finset String)) (hlen : FIRST_PLUS.length = productions.length)
    (N t : String) :
    (∀ i : Nat, _constructLL1Table productions FIRST_PLUS N t = some i
        ↔ (i < productions.length ∧ Qualifies productions FIRST_PLUS N t i
            ∧ ∀ j : Nat, i < j → ¬ Qualifies productions FIRST_PLUS N t j))
      ∧ (_constructLL1Table productions FIRST_PLUS N t = none
        ↔ ∀ i : Nat, ¬ Qualifies productions FIRST_PLUS N t i)
      ∧ _constructLL1Table productions FIRST_PLUS N epsilonName = none := by
  refine ⟨?_, ?_, ?_⟩
  · intro i
    rw [constructLL1Table_eq_some_iff]
    constructor
    · rintro ⟨hq, hmax⟩
      refine ⟨?_, hq, hmax⟩
      obtain ⟨_, set, _, hset, _⟩ := hq
      by_contra hge
      rw [List.getElem?_eq_none (by omega)] at hset
      exact absurd hset (by simp)
    · rintro ⟨_, hq, hmax⟩
      exact ⟨hq, hmax⟩
  · exact constructLL1Table_eq_none_iff productions FIRST_PLUS N t
  · rw [constructLL1Table_eq_none_iff]
    rintro i ⟨_, _, _, _, _, _, h⟩
    exact h rfl

/-- Witness of C13 on two productions of `A` whose sets both hold `x`: the
later one wins. -/
theorem ll1Table_last_production_wins_witness :
    ([{"x"}, {"x", "^e$"}] : List (Finset String)).length
        = ([{ lhsSymbol := "A", rhsSymbols := [{ type := .TERMINAL, name := "x" }] },
            { lhsSymbol := "A", rhsSymbols := [{ type := .TERMINAL, name := "x" },
              { type := .EPSILON, name := "^e$" }] }] : List Production).length
      ∧ _constructLL1Table
          [{ lhsSymbol := "A", rhsSymbols := [{ type := .TERMINAL, name := "x" }] },
            { lhsSymbol := "A", rhsSymbols := [{ type := .TERMINAL, name := "x" },
              { type := .EPSILON, name := "^e$" }] }]
          [{"x"}, {"x", "^e$"}] "A" epsilonName = none :=
  ⟨rfl, (ll1Table_last_production_wins
    [{ lhsSymbol := "A", rhsSymbols := [{ type := .TERMINAL, name := "x" }] },
      { lhsSymbol := "A", rhsSymbols := [{ type := .TERMINAL, name := "x" },
        { type := .EPSILON, name := "^e$" }] }]
    [{"x"}, {"x", "^e$"}] rfl "A" "x").2.2⟩

end TableClaims

/-! ## The grammar compiler: FIRST+ and FOLLOW -/

section FirstPlusLemmas

/-- With the table `_computeFIRST` returns, the scan of the right-hand side of
a production collects exactly FIRST of that form. -/
theorem firstOfRhs_semantic (productions : List Production)
    (hreg : ∀ production ∈ productions, ∀ s ∈ production.rhsSymbols, s.Regular)
    (hne : ∀ production ∈ productions, production.rhsSymbols ≠ [])
    (fuel : Nat) (FIRST : String → Finset String)
    (hF : _computeFIRST productions fuel = some FIRST)
    (production : Production) (hp : production ∈ productions) (t : String) :
    t ∈ firstOfRhs FIRST ∅ production.rhsSymbols
      ↔ InFirstOfForm productions production.rhsSymbols t := by
  have hcl := firstLoop_closed productions fuel _ FIRST hF
  have hsound := firstLoop_sound productions hreg fuel FIRST hF
  unfold InFirstOfForm
  by_cases he : t = epsilonName
  · subst he
    rw [epsilon_mem_firstOfRhs FIRST _ (hreg production hp)]
    constructor
    · rintro (⟨_, h⟩ | ⟨_, h⟩)
      · exact absurd h (Finset.not_mem_empty _)
      · exact Or.inl ⟨rfl, all_nullable_derives productions FIRST hsound _ h⟩
    · rintro (⟨_, h⟩ | ⟨h, _⟩)
      · exact Or.inr ⟨hne production hp, derives_nullable productions FIRST hcl hreg hne h⟩
      · exact absurd rfl h
  · rw [mem_firstOfRhs_of_ne FIRST t he _ (hreg production hp)]
    constructor
    · rintro (h | h)
      · exact absurd h (Finset.not_mem_empty _)
      · exact Or.inr ⟨he, firstIn_derives productions FIRST hsound t he _ h⟩
    · rintro (⟨h, _⟩ | ⟨_, rest, h⟩)
      · exact absurd h he
      · exact Or.inr (derives_firstIn productions FIRST hcl hreg hne t he h)

end FirstPlusLemmas

section FirstPlusClaims

/-- C12, as stated, fails: for the grammar `S -> ^e$` the set stored for the
production is `{^e$, ^}`, the epsilon marker included, whereas FIRST of the
right-hand side without the epsilon marker united with `FOLLOW(S)` is `{^}`. -/
theorem firstPlus_keeps_epsilon :
    (init [("S", ["^e$"])] 2).map (fun tables =>
        (tables.FIRST_PLUS,
          tables.productions.map (fun production =>
            (firstOfRhs tables.FIRST ∅ production.rhsSymbols,
              (firstOfRhs tables.FIRST ∅ production.rhsSymbols).erase epsilonName
                ∪ tables.FOLLOW production.lhsSymbol))))
      = some ([{"^e$", "^"}], [({"^e$"}, {"^"})])
      ∧ ({"^e$", "^"} : Finset String) ≠ {"^"} := by
  constructor
  · simp [init, _readConfigFile, startSymbolOf, _computeFIRST, firstLoop, firstPass, firstStep,
      firstOfRhs, _computeFOLLOW, followLoop, followPass, followStep, followScan,
      _computeFIRST_PLUS, firstPlusOf, tableSet, symbolTypeOf, epsilonName, eofName]
    decide
  · decide

/-- C12, amended: for every grammar `_readConfigFile` accepts, with the table
`_computeFIRST` returns and any table `FOLLOW`, the set `_computeFIRST_PLUS`
stores for a production `A -> beta` equals FIRST(beta) when the epsilon marker
is not in FIRST(beta), and otherwise equals FIRST(beta), the epsilon marker
included, united with `FOLLOW(A)`. -/
theorem firstPlus_definition (lines : List (String × List String))
    (nonterminals : Finset String) (productions : List Production)
    (hread : _readConfigFile lines = some (nonterminals, productions))
    (fuel : Nat) (FIRST : String → Finset String)
    (hF : _computeFIRST productions fuel = some FIRST) (FOLLOW : String → Finset String)
    (i : Nat) (production : Production) (hi : productions[i]? = some production) :
    ∃ set, (_computeFIRST_PLUS productions FIRST FOLLOW)[i]? = some set
      ∧ (¬ InFirstOfForm productions production.rhsSymbols epsilonName →
          ∀ t, t ∈ set ↔ InFirstOfForm productions production.rhsSymbols t)
      ∧ (InFirstOfForm productions production.rhsSymbols epsilonName →
          ∀ t, t ∈ set ↔ (InFirstOfForm productions production.rhsSymbols t
            ∨ t ∈ FOLLOW production.lhsSymbol)) := by
  obtain ⟨hreg, hne⟩ := readConfigFile_regular lines nonterminals productions hread
  have hp : production ∈ productions := List.getElem?_mem hi
  have hsem := firstOfRhs_semantic productions hreg hne fuel FIRST hF production hp
  refine ⟨firstPlusOf FIRST FOLLOW production, ?_, ?_, ?_⟩
  · unfold _computeFIRST_PLUS
    rw [List.getElem?_map, hi]
    rfl
  · intro heps t
    have h0 : epsilonName ∉ firstOfRhs FIRST ∅ production.rhsSymbols := by
      rw [hsem]; exact heps
    unfold firstPlusOf
    rw [if_neg h0, hsem]
  · intro heps t
    have h0 : epsilonName ∈ firstOfRhs FIRST ∅ production.rhsSymbols := by
      rw [hsem]; exact heps
    unfold firstPlusOf
    rw [if_pos h0, Finset.mem_union, hsem]

/-- Witness of the amended C12 on the grammar `S -> A b`, `A -> a`,
`A -> ^e$` and its last production. -/
theorem firstPlus_definition_witness :
    ∃ nonterminals productions FIRST production,
      _readConfigFile [("S", ["A", "b"]), ("A", ["a"]), ("A", ["^e$"])]
          = some (nonterminals, productions)
        ∧ _computeFIRST productions (firstFuelBound productions) = some FIRST
        ∧ productions[2]? = some production
        ∧ ∃ set, (_computeFIRST_PLUS productions FIRST (fun _ => {"b"}))[2]? = some set
          ∧ (¬ InFirstOfForm productions production.rhsSymbols epsilonName →
              ∀ t, t ∈ set ↔ InFirstOfForm productions production.rhsSymbols t)
          ∧ (InFirstOfForm productions production.rhsSymbols epsilonName →
              ∀ t, t ∈ set ↔ (InFirstOfForm productions production.rhsSymbols t
                ∨ t ∈ (fun _ => ({"b"} : Finset String)) production.lhsSymbol)) := by
  obtain ⟨FIRST, hF⟩ := computeFIRST_returns
    ([("S", ["A", "b"]), ("A", ["a"]), ("A", ["^e$"])].map (fun line : String × List String =>
      ({ lhsSymbol := line.1,
         rhsSymbols := line.2.map (fun name =>
          { type := symbolTypeOf
              (([("S", ["A", "b"]), ("A", ["a"]), ("A", ["^e$"])] :
                List (String × List String)).map (fun line => line.1)).toFinset name,
            name := name }) } : Production)))
  exact ⟨_, _, FIRST, _, rfl, hF _ (le_refl _), rfl,
    firstPlus_definition [("S", ["A", "b"]), ("A", ["a"]), ("A", ["^e$"])] _ _ rfl _ FIRST
      (hF _ (le_refl _)) (fun _ => {"b"}) 2 _ rfl⟩

/-- C11 at the grammar `S -> A ^e$`, `A -> a`: the epsilon symbol to the right
of `A` derives the empty form, so `FOLLOW(A)` has to contain `FOLLOW(S)`, which
holds the end-of-input marker `^`; `_computeFOLLOW` returns `FOLLOW(S) = {^}`
and `FOLLOW(A) = {^e$}`, the epsilon marker alone. -/
theorem computeFOLLOW_epsilon_symbol_blocks_trailer :
    (init [("S", ["A", "^e$"]), ("A", ["a"])] 3).map (fun tables =>
        (tables.productions, tables.startSymbol, tables.FOLLOW "S", tables.FOLLOW "A"))
      = some
        ([{ lhsSymbol := "S", rhsSymbols :=
              [{ type := .NONTERMINAL, name := "A" }, { type := .EPSILON, name := "^e$" }] },
          { lhsSymbol := "A", rhsSymbols := [{ type := .TERMINAL, name := "a" }] }],
          "S", {"^"}, {"^e$"})
      ∧ eofName ∉ ({"^e$"} : Finset String) := by
  constructor
  · simp [init, _readConfigFile, startSymbolOf, _computeFIRST, firstLoop, firstPass, firstStep,
      firstOfRhs, _computeFOLLOW, followLoop, followPass, followStep, followScan,
      tableSet, symbolTypeOf, epsilonName, eofName]
  · decide

end FirstPlusClaims

/-! ## The grammar compiler: convergence of the two loops -/

section ConvergenceLemmas

/-- The table `_computeFIRST` returns is reproduced by one more pass, which
leaves the flag down. -/
theorem firstLoop_fixpoint (productions : List Production) :
    ∀ (fuel : Nat) (F R : String → Finset String), firstLoop productions fuel F = some R →
      firstPass productions R = (R, false) := by
  intro fuel
  induction fuel with
  | zero => intro F R h; simp [firstLoop] at h
  | succ n ih =>
    intro F R h
    simp only [firstLoop] at h
    split at h
    · exact ih _ R h
    · rename_i hflag
      have hfalse : (firstPass productions F).2 = false := by simpa using hflag
      obtain ⟨h1, _⟩ := foldl_firstStep_unchanged productions F hfalse
      have hR : R = F := by
        rw [← Option.some.inj h]; exact h1
      rw [hR]
      exact Prod.ext h1 hfalse

/-- The effect of the right-to-left scan of one right-hand side on the table:
the sets stay inside `S`, they only grow, a raised flag means that the flag
was up before or that the total size of the sets of `N` has grown, and a flag
that is down means that it was down before and that nothing has changed. -/
theorem followScan_props (FIRST : String → Finset String) (N S : Finset String)
    (hFIRST : ∀ A, FIRST A ⊆ S) :
    ∀ (l : List Symbol), (∀ s ∈ l, s.name ∈ S) →
      (∀ s ∈ l, s.type = .NONTERMINAL → s.name ∈ N) →
      ∀ (state : ((String → Finset String) × Bool) × Finset String),
        (∀ A, state.1.1 A ⊆ S) → state.2 ⊆ S →
        (∀ A, (followScan FIRST state l).1.1 A ⊆ S)
          ∧ (∀ A, state.1.1 A ⊆ (followScan FIRST state l).1.1 A)
          ∧ ((followScan FIRST state l).1.2 = true →
              state.1.2 = true
                ∨ (∑ A in N, (state.1.1 A).card)
                  < ∑ A in N, ((followScan FIRST state l).1.1 A).card)
          ∧ ((followScan FIRST state l).1.2 = false →
              state.1.2 = false ∧ (followScan FIRST state l).1.1 = state.1.1) := by
  intro l
  induction l with
  | nil =>
    intro _ _ state hb _
    exact ⟨hb, fun _ => Finset.Subset.refl _, fun h => Or.inl h, fun h => ⟨h, rfl⟩⟩
  | cons s rest ih =>
    intro hnames hnt state hb htr
    have hrestn : ∀ x ∈ rest, x.name ∈ S := fun x hx => hnames x (List.mem_cons_of_mem _ hx)
    have hrestt : ∀ x ∈ rest, x.type = .NONTERMINAL → x.name ∈ N :=
      fun x hx => hnt x (List.mem_cons_of_mem _ hx)
    by_cases hty : s.type = .NONTERMINAL
    · have hdef : followScan FIRST state (s :: rest)
          = followScan FIRST
              ((tableSet state.1.1 s.name (state.1.1 s.name ∪ state.2),
                  state.1.2 || !decide (state.2 ⊆ state.1.1 s.name)),
                if epsilonName ∈ FIRST s.name then
                  (state.2 ∪ FIRST s.name).erase epsilonName
                else FIRST s.name)
              rest := by
        simp [followScan, hty]
      rw [hdef]
      have hb1 : ∀ A, tableSet state.1.1 s.name (state.1.1 s.name ∪ state.2) A ⊆ S := by
        intro A
        by_cases hA : A = s.name
        · rw [hA, tableSet_same]
          exact Finset.union_subset (hb _) htr
        · rw [tableSet_other _ _ _ _ hA]
          exact hb A
      have htr1 : (if epsilonName ∈ FIRST s.name then
            (state.2 ∪ FIRST s.name).erase epsilonName
          else FIRST s.name) ⊆ S := by
        split
        · exact (Finset.erase_subset _ _).trans (Finset.union_subset htr (hFIRST _))
        · exact hFIRST _
      obtain ⟨i1, i2, i3, i4⟩ := ih hrestn hrestt
        ((tableSet state.1.1 s.name (state.1.1 s.name ∪ state.2),
            state.1.2 || !decide (state.2 ⊆ state.1.1 s.name)),
          if epsilonName ∈ FIRST s.name then
            (state.2 ∪ FIRST s.name).erase epsilonName
          else FIRST s.name) hb1 htr1
      have hmono := update_superset state.1.1 s.name state.2
      have hle : (∑ A in N, (state.1.1 A).card)
          ≤ ∑ A in N, (tableSet state.1.1 s.name (state.1.1 s.name ∪ state.2) A).card :=
        Finset.sum_le_sum (fun A _ => Finset.card_le_card (hmono A))
      refine ⟨i1, fun A => (hmono A).trans (i2 A), ?_, ?_⟩
      · intro hflag
        rcases i3 hflag with h1 | h1
        · simp only [Bool.or_eq_true, Bool.not_eq_true', decide_eq_false_iff_not] at h1
          rcases h1 with h1 | h1
          · exact Or.inl h1
          · right
            have hstrict : state.1.1 s.name
                ⊂ tableSet state.1.1 s.name (state.1.1 s.name ∪ state.2) s.name := by
              rw [tableSet_same, Finset.ssubset_iff_subset_ne]
              refine ⟨Finset.subset_union_left, ?_⟩
              intro heq
              apply h1
              rw [heq]
              exact Finset.subset_union_right
            have hlt : (∑ A in N, (state.1.1 A).card)
                < ∑ A in N, (tableSet state.1.1 s.name (state.1.1 s.name ∪ state.2) A).card :=
              Finset.sum_lt_sum (fun A _ => Finset.card_le_card (hmono A))
                ⟨s.name, hnt s (List.mem_cons_self _ _) hty, Finset.card_lt_card hstrict⟩
            have hle2 : (∑ A in N,
                  (tableSet state.1.1 s.name (state.1.1 s.name ∪ state.2) A).card)
                ≤ ∑ A in N, ((followScan FIRST
                    ((tableSet state.1.1 s.name (state.1.1 s.name ∪ state.2),
                        state.1.2 || !decide (state.2 ⊆ state.1.1 s.name)),
                      if epsilonName ∈ FIRST s.name then
                        (state.2 ∪ FIRST s.name).erase epsilonName
                      else FIRST s.name) rest).1.1 A).card :=
              Finset.sum_le_sum (fun A _ => Finset.card_le_card (i2 A))
            exact lt_of_lt_of_le hlt hle2
        · exact Or.inr (lt_of_le_of_lt hle h1)
      · intro hflag
        obtain ⟨h1, h2⟩ := i4 hflag
        simp only [Bool.or_eq_false_iff, Bool.not_eq_false', decide_eq_true_eq] at h1
        refine ⟨h1.1, ?_⟩
        rw [h2]
        simp only
        rw [Finset.union_eq_left.mpr h1.2, tableSet_self]
    · have hdef : followScan FIRST state (s :: rest)
          = followScan FIRST (state.1, {s.name}) rest := by
        simp [followScan, hty]
      rw [hdef]
      exact ih hrestn hrestt (state.1, {s.name}) hb
        (Finset.singleton_subset_iff.mpr (hnames s (List.mem_cons_self _ _)))

/-- The same four facts for a whole pass of `_computeFOLLOW`. -/
theorem foldl_followStep_props (FIRST : String → Finset String) (N S : Finset String)
    (hFIRST : ∀ A, FIRST A ⊆ S) (l : List Production)
    (hnames : ∀ production ∈ l, ∀ s ∈ production.rhsSymbols, s.name ∈ S)
    (hnt : ∀ production ∈ l, ∀ s ∈ production.rhsSymbols,
      s.type = .NONTERMINAL → s.name ∈ N) :
    ∀ (state : (String → Finset String) × Bool), (∀ A, state.1 A ⊆ S) →
      (∀ A, (l.foldl (followStep FIRST) state).1 A ⊆ S)
        ∧ (∀ A, state.1 A ⊆ (l.foldl (followStep FIRST) state).1 A)
        ∧ ((l.foldl (followStep FIRST) state).2 = true →
            state.2 = true
              ∨ (∑ A in N, (state.1 A).card)
                < ∑ A in N, ((l.foldl (followStep FIRST) state).1 A).card)
        ∧ ((l.foldl (followStep FIRST) state).2 = false →
            state.2 = false ∧ (l.foldl (followStep FIRST) state).1 = state.1) := by
  induction l with
  | nil =>
    intro state hb
    exact ⟨hb, fun _ => Finset.Subset.refl _, fun h => Or.inl h, fun h => ⟨h, rfl⟩⟩
  | cons production rest ih =>
    intro state hb
    rw [List.foldl_cons]
    have hscan := followScan_props FIRST N S hFIRST production.rhsSymbols.reverse
      (fun s hs => hnames production (List.mem_cons_self _ _) s (List.mem_reverse.mp hs))
      (fun s hs => hnt production (List.mem_cons_self _ _) s (List.mem_reverse.mp hs))
      (state, state.1 production.lhsSymbol) hb (hb _)
    obtain ⟨s1, s2, s3, s4⟩ := hscan
    obtain ⟨i1, i2, i3, i4⟩ := ih
      (fun q hq => hnames q (List.mem_cons_of_mem _ hq))
      (fun q hq => hnt q (List.mem_cons_of_mem _ hq))
      (followStep FIRST state production) s1
    have hle : (∑ A in N, (state.1 A).card)
        ≤ ∑ A in N, ((followStep FIRST state production).1 A).card :=
      Finset.sum_le_sum (fun A _ => Finset.card_le_card (s2 A))
    have hle2 : (∑ A in N, ((followStep FIRST state production).1 A).card)
        ≤ ∑ A in N, ((rest.foldl (followStep FIRST)
            (followStep FIRST state production)).1 A).card :=
      Finset.sum_le_sum (fun A _ => Finset.card_le_card (i2 A))
    refine ⟨i1, fun A => (s2 A).trans (i2 A), ?_, ?_⟩
    · intro hflag
      rcases i3 hflag with h1 | h1
      · rcases s3 h1 with h2 | h2
        · exact Or.inl h2
        · exact Or.inr (lt_of_lt_of_le h2 hle2)
      · exact Or.inr (lt_of_le_of_lt hle h1)
    · intro hflag
      obtain ⟨h1, h2⟩ := i4 hflag
      obtain ⟨h3, h4⟩ := s4 h1
      exact ⟨h3, by rw [h2]; exact h4⟩

/-- The loop of `_computeFOLLOW` terminates as soon as the fuel exceeds the
room left for growth, and one more pass over its result changes nothing. -/
theorem followLoop_terminates (FIRST : String → Finset String) (N S : Finset String)
    (hFIRST : ∀ A, FIRST A ⊆ S) (productions : List Production)
    (hnames : ∀ production ∈ productions, ∀ s ∈ production.rhsSymbols, s.name ∈ S)
    (hnt : ∀ production ∈ productions, ∀ s ∈ production.rhsSymbols,
      s.type = .NONTERMINAL → s.name ∈ N) :
    ∀ (fuel : Nat) (F : String → Finset String), (∀ A, F A ⊆ S) →
      N.card * S.card < (∑ A in N, (F A).card) + fuel →
      ∃ R, followLoop FIRST productions fuel F = some R
        ∧ followPass FIRST productions R = (R, false) := by
  intro fuel
  induction fuel with
  | zero =>
    intro F hF hlt
    exfalso
    have hbound : (∑ A in N, (F A).card) ≤ N.card * S.card := by
      have := Finset.sum_le_card_nsmul N (fun A => (F A).card) S.card
        (fun A _ => Finset.card_le_card (hF A))
      simpa using this
    omega
  | succ n ih =>
    intro F hF hlt
    obtain ⟨p1, _, p3, p4⟩ :=
      foldl_followStep_props FIRST N S hFIRST productions hnames hnt (F, false) hF
    simp only [followLoop]
    by_cases hflag : (followPass FIRST productions F).2 = true
    · rw [if_pos hflag]
      apply ih _ p1
      rcases p3 hflag with h | h
      · exact absurd h Bool.false_ne_true
      · simp only at h
        omega
    · rw [if_neg hflag]
      have hfalse : (followPass FIRST productions F).2 = false := by simpa using hflag
      obtain ⟨_, h2⟩ := p4 hfalse
      refine ⟨_, rfl, ?_⟩
      have h3 : (followPass FIRST productions F).1 = F := h2
      rw [h3]
      exact Prod.ext h3 hfalse

theorem followLoop_fuel_mono (FIRST : String → Finset String) (productions : List Production) :
    ∀ (fuel extra : Nat) (F R : String → Finset String),
      followLoop FIRST productions fuel F = some R →
        followLoop FIRST productions (fuel + extra) F = some R := by
  intro fuel
  induction fuel with
  | zero => intro extra F R h; simp [followLoop] at h
  | succ n ih =>
    intro extra F R h
    have hadd : n + 1 + extra = (n + extra) + 1 := by omega
    rw [hadd]
    simp only [followLoop] at h ⊢
    split at h
    · rename_i hflag
      rw [if_pos hflag]
      exact ih extra _ R h
    · rename_i hflag
      rw [if_neg hflag]
      exact h

/-- In a grammar `_readConfigFile` accepts, the set `nonterminals` is the set
of the left-hand sides, and a right-hand-side symbol of type `NONTERMINAL` is
named by one of them. -/
theorem readConfigFile_nonterminals (lines : List (String × List String))
    (nonterminals : Finset String) (productions : List Production)
    (h : _readConfigFile lines = some (nonterminals, productions)) :
    nonterminals = lhsNames productions
      ∧ ∀ production ∈ productions, ∀ s ∈ production.rhsSymbols,
          s.type = .NONTERMINAL → s.name ∈ lhsNames productions := by
  unfold _readConfigFile at h
  split at h
  · have hN := (Prod.mk.inj (Option.some.inj h)).1
    have hP := (Prod.mk.inj (Option.some.inj h)).2
    have hlhs : lhsNames productions = (lines.map (fun line => line.1)).toFinset := by
      rw [← hP]
      unfold lhsNames
      rw [List.map_map]
      rfl
    refine ⟨by rw [← hN, hlhs], ?_⟩
    intro production hp s hs hty
    rw [hlhs]
    rw [← hP] at hp
    obtain ⟨line, _, rfl⟩ := List.mem_map.mp hp
    obtain ⟨name, _, rfl⟩ := List.mem_map.mp hs
    simp only [symbolTypeOf] at hty
    by_contra hmem
    rw [if_neg hmem] at hty
    split at hty <;> exact absurd hty (by decide)
  · exact absurd h (by simp)

theorem rhsNames_subset_symbolNames (productions : List Production) :
    rhsNames productions ⊆ symbolNames productions := by
  unfold symbolNames
  intro x hx
  simp [hx]

theorem firstFuelBound_le_passBound (productions : List Production) :
    firstFuelBound productions ≤ passBound productions := by
  unfold firstFuelBound passBound
  have := Finset.card_le_card (rhsNames_subset_symbolNames productions)
  have := Nat.mul_le_mul_left (lhsNames productions).card this
  omega

end ConvergenceLemmas

section ConvergenceClaims

/-- C19: for every grammar the reader accepts, the loops of `_computeFIRST`
and `_computeFOLLOW` return their tables once the fuel, which counts the
passes, reaches the number of nonterminals times the number of distinct
symbol names (the two sentinels included) plus one, and one more pass over
the returned tables leaves them as they are with the change flag down. -/
theorem set_solvers_converge (lines : List (String × List String))
    (nonterminals : Finset String) (productions : List Production)
    (hread : _readConfigFile lines = some (nonterminals, productions)) :
    ∃ FIRST FOLLOW,
      (∀ fuel, nonterminals.card * (symbolNames productions).card + 1 ≤ fuel →
        _computeFIRST productions fuel = some FIRST)
      ∧ (∀ fuel, nonterminals.card * (symbolNames productions).card + 1 ≤ fuel →
        _computeFOLLOW (startSymbolOf lines) productions FIRST fuel = some FOLLOW)
      ∧ firstPass productions FIRST = (FIRST, false)
      ∧ followPass FIRST productions FOLLOW = (FOLLOW, false) := by
  obtain ⟨hN, hnt⟩ := readConfigFile_nonterminals lines nonterminals productions hread
  obtain ⟨FIRST, hF⟩ := computeFIRST_returns productions
  have hrun : firstLoop productions (firstFuelBound productions) (fun _ => ∅) = some FIRST :=
    hF _ (le_refl _)
  have hbF : ∀ A, FIRST A ⊆ rhsNames productions :=
    firstLoop_invariant (fun F => ∀ A, F A ⊆ rhsNames productions) productions
      (fun F hb production hp => bounded_update productions F hb production hp)
      _ _ FIRST (fun _ => Finset.empty_subset _) hrun
  have hbS : ∀ A, FIRST A ⊆ symbolNames productions :=
    fun A => (hbF A).trans (rhsNames_subset_symbolNames productions)
  have hinit : ∀ A, tableSet (fun _ => (∅ : Finset String)) (startSymbolOf lines) {eofName} A
      ⊆ symbolNames productions := by
    intro A
    by_cases hA : A = startSymbolOf lines
    · rw [hA, tableSet_same]
      unfold symbolNames
      intro x hx
      simp only [Finset.mem_singleton] at hx
      simp [hx]
    · rw [tableSet_other _ _ _ _ hA]
      exact Finset.empty_subset _
  obtain ⟨FOLLOW, hrunF, hfix⟩ := followLoop_terminates FIRST (lhsNames productions)
    (symbolNames productions) hbS productions
    (fun production hp s hs =>
      rhsNames_subset_symbolNames productions (mem_rhsNames productions production hp s hs))
    hnt (passBound productions) _ hinit (by unfold passBound; omega)
  refine ⟨FIRST, FOLLOW, ?_, ?_, firstLoop_fixpoint productions _ _ FIRST hrun, hfix⟩
  · intro fuel hfuel
    apply hF
    rw [hN] at hfuel
    exact le_trans (firstFuelBound_le_passBound productions) hfuel
  · intro fuel hfuel
    rw [hN] at hfuel
    obtain ⟨k, rfl⟩ := Nat.exists_eq_add_of_le hfuel
    exact followLoop_fuel_mono FIRST productions _ k _ FOLLOW hrunF

theorem set_solvers_converge_witness :
    _readConfigFile [("S", ["A", "b"]), ("A", ["a"]), ("A", ["^e$"])]
        = some (({"S", "A"} : Finset String),
            [{ lhsSymbol := "S",
               rhsSymbols := [{ type := .NONTERMINAL, name := "A" },
                 { type := .TERMINAL, name := "b" }] },
             { lhsSymbol := "A", rhsSymbols := [{ type := .TERMINAL, name := "a" }] },
             { lhsSymbol := "A", rhsSymbols := [{ type := .EPSILON, name := "^e$" }] }])
      ∧ ∃ FIRST FOLLOW,
          (∀ fuel, ({"S", "A"} : Finset String).card
              * (symbolNames
                  [{ lhsSymbol := "S",
                     rhsSymbols := [{ type := .NONTERMINAL, name := "A" },
                       { type := .TERMINAL, name := "b" }] },
                   { lhsSymbol := "A", rhsSymbols := [{ type := .TERMINAL, name := "a" }] },
                   { lhsSymbol := "A",
                     rhsSymbols := [{ type := .EPSILON, name := "^e$" }] }]).card + 1 ≤ fuel →
            _computeFIRST
              [{ lhsSymbol := "S",
                 rhsSymbols := [{ type := .NONTERMINAL, name := "A" },
                   { type := .TERMINAL, name := "b" }] },
               { lhsSymbol := "A", rhsSymbols := [{ type := .TERMINAL, name := "a" }] },
               { lhsSymbol := "A", rhsSymbols := [{ type := .EPSILON, name := "^e$" }] }]
              fuel = some FIRST)
          ∧ (∀ fuel, ({"S", "A"} : Finset String).card
              * (symbolNames
                  [{ lhsSymbol := "S",
                     rhsSymbols := [{ type := .NONTERMINAL, name := "A" },
                       { type := .TERMINAL, name := "b" }] },
                   { lhsSymbol := "A", rhsSymbols := [{ type := .TERMINAL, name := "a" }] },
                   { lhsSymbol := "A",
                     rhsSymbols := [{ type := .EPSILON, name := "^e$" }] }]).card + 1 ≤ fuel →
            _computeFOLLOW (startSymbolOf [("S", ["A", "b"]), ("A", ["a"]), ("A", ["^e$"])])
              [{ lhsSymbol := "S",
                 rhsSymbols := [{ type := .NONTERMINAL, name := "A" },
                   { type := .TERMINAL, name := "b" }] },
               { lhsSymbol := "A", rhsSymbols := [{ type := .TERMINAL, name := "a" }] },
               { lhsSymbol := "A", rhsSymbols := [{ type := .EPSILON, name := "^e$" }] }]
              FIRST fuel = some FOLLOW)
          ∧ firstPass
              [{ lhsSymbol := "S",
                 rhsSymbols := [{ type := .NONTERMINAL, name := "A" },
                   { type := .TERMINAL, name := "b" }] },
               { lhsSymbol := "A", rhsSymbols := [{ type := .TERMINAL, name := "a" }] },
               { lhsSymbol := "A", rhsSymbols := [{ type := .EPSILON, name := "^e$" }] }]
              FIRST = (FIRST, false)
          ∧ followPass FIRST
              [{ lhsSymbol := "S",
                 rhsSymbols := [{ type := .NONTERMINAL, name := "A" },
                   { type := .TERMINAL, name := "b" }] },
               { lhsSymbol := "A", rhsSymbols := [{ type := .TERMINAL, name := "a" }] },
               { lhsSymbol := "A", rhsSymbols := [{ type := .EPSILON, name := "^e$" }] }]
              FOLLOW = (FOLLOW, false) :=
  have hread : _readConfigFile [("S", ["A", "b"]), ("A", ["a"]), ("A", ["^e$"])]
      = some (({"S", "A"} : Finset String),
          [{ lhsSymbol := "S",
             rhsSymbols := [{ type := .NONTERMINAL, name := "A" },
               { type := .TERMINAL, name := "b" }] },
           { lhsSymbol := "A", rhsSymbols := [{ type := .TERMINAL, name := "a" }] },
           { lhsSymbol := "A", rhsSymbols := [{ type := .EPSILON, name := "^e$" }] }]) := by
    simp [_readConfigFile, symbolTypeOf, epsilonName]
  ⟨hread, set_solvers_converge _ _ _ hread⟩

end ConvergenceClaims

/-! ## The grammar compiler on the expression grammar -/

section PipelineLemmas

theorem init_fuel_mono (lines : List (String × List String)) (fuel extra : Nat)
    (tables : GrammarTables) (h : init lines fuel = some tables) :
    init lines (fuel + extra) = some tables := by
  unfold init at h ⊢
  cases hread : _readConfigFile lines with
  | none => rw [hread] at h; exact absurd h (by simp)
  | some grammar =>
    rw [hread] at h
    simp only at h ⊢
    cases hF : _computeFIRST grammar.2 fuel with
    | none => rw [hF] at h; exact absurd h (by simp)
    | some FIRST =>
      rw [hF] at h
      simp only at h
      have hF2 : _computeFIRST grammar.2 (fuel + extra) = some FIRST :=
        firstLoop_fuel_mono grammar.2 fuel extra _ FIRST hF
      rw [hF2]
      simp only
      cases hW : _computeFOLLOW (startSymbolOf lines) grammar.2 FIRST fuel with
      | none => rw [hW] at h; exact absurd h (by simp)
      | some FOLLOW =>
        rw [hW] at h
        have hW2 : _computeFOLLOW (startSymbolOf lines) grammar.2 FIRST (fuel + extra)
            = some FOLLOW :=
          followLoop_fuel_mono FIRST grammar.2 fuel extra _ FOLLOW hW
        rw [hW2]
        exact h

/-- The table `init` stores is the one `_constructLL1Table` builds from the
productions and the FIRST+ sets it stores. -/
theorem init_table (lines : List (String × List String)) (fuel : Nat)
    (tables : GrammarTables) (h : init lines fuel = some tables) :
    tables.ll1Table = _constructLL1Table tables.productions tables.FIRST_PLUS := by
  unfold init at h
  cases hread : _readConfigFile lines with
  | none => rw [hread] at h; exact absurd h (by simp)
  | some grammar =>
    rw [hread] at h
    simp only at h
    cases hF : _computeFIRST grammar.2 fuel with
    | none => rw [hF] at h; exact absurd h (by simp)
    | some FIRST =>
      rw [hF] at h
      simp only at h
      cases hW : _computeFOLLOW (startSymbolOf lines) grammar.2 FIRST fuel with
      | none => rw [hW] at h; exact absurd h (by simp)
      | some FOLLOW =>
        rw [hW] at h
        simp only [Option.some.injEq] at h
        rw [← h]

theorem expressionGrammar_sets :
    (init expressionGrammar 4).map (fun tables => (tables.productions, tables.FIRST_PLUS))
      = some (expressionProductions,
          [{"(", "num"}, {"+"}, {"-"}, {"^e$", "^", ")"}, {"(", "num"}, {"*"}, {"/"},
            {"^e$", "^", ")", "+", "-"}, {"("}, {"num"}]) := by
  decide

/-- The table built from the productions and the FIRST+ sets of the
expression grammar holds the sixteen textbook entries and no other. -/
theorem expressionTable_entries (N t : String) (i : Nat) :
    _constructLL1Table expressionProductions
        [{"(", "num"}, {"+"}, {"-"}, {"^e$", "^", ")"}, {"(", "num"}, {"*"}, {"/"},
          {"^e$", "^", ")", "+", "-"}, {"("}, {"num"}] N t = some i
      ↔ (N, t, i) ∈ expressionTable := by
  simp only [_constructLL1Table, constructFrom, tableWrite, expressionProductions,
    expressionTable, epsilonName, eofName]
  have hN : N = "E" ∨ N = "E'" ∨ N = "T" ∨ N = "T'" ∨ N = "F"
      ∨ (N ≠ "E" ∧ N ≠ "E'" ∧ N ≠ "T" ∧ N ≠ "T'" ∧ N ≠ "F") := by tauto
  have ht : t = "(" ∨ t = "num" ∨ t = "+" ∨ t = "-" ∨ t = "*" ∨ t = "/" ∨ t = ")" ∨ t = "^"
      ∨ (t ≠ "(" ∧ t ≠ "num" ∧ t ≠ "+" ∧ t ≠ "-" ∧ t ≠ "*" ∧ t ≠ "/" ∧ t ≠ ")" ∧ t ≠ "^") := by
    tauto
  rcases hN with rfl | rfl | rfl | rfl | rfl | ⟨n1, n2, n3, n4, n5⟩ <;>
    rcases ht with rfl | rfl | rfl | rfl | rfl | rfl | rfl | rfl |
      ⟨t1, t2, t3, t4, t5, t6, t7, t8⟩ <;>
    simp [*] <;> omega

end PipelineLemmas

section PipelineClaims

/-- C14: on the classic expression grammar the pipeline of `init` (reader,
FIRST, FOLLOW, FIRST+, table) returns its tables for every fuel from 4 on, and
the table it stores has exactly the sixteen textbook entries of
`expressionTable`: an entry is `some i` at `(N, t)` if and only if
`(N, t, i)` is one of them, the end of the input being the name `^`. -/
theorem expression_grammar_table :
    ∃ tables, (∀ extra, init expressionGrammar (4 + extra) = some tables)
      ∧ tables.productions = expressionProductions
      ∧ ∀ N t i, tables.ll1Table N t = some i ↔ (N, t, i) ∈ expressionTable := by
  have h := expressionGrammar_sets
  obtain ⟨tables, hinit, hpair⟩ := Option.map_eq_some'.mp h
  have hP : tables.productions = expressionProductions := (Prod.mk.inj hpair).1
  have hS := (Prod.mk.inj hpair).2
  refine ⟨tables, fun extra => init_fuel_mono _ 4 extra tables hinit, hP, ?_⟩
  intro N t i
  rw [init_table _ _ tables hinit, hP, hS]
  exact expressionTable_entries N t i

end PipelineClaims



/-! ## The parser loop: cursor and column -/

section ParserLemmas

theorem consumedLength_succ (tokens : List Token) (n : Nat) (token : Token)
    (h : tokens[n]? = some token) :
    consumedLength tokens (n + 1) = consumedLength tokens n + token.value.utf8ByteSize := by
  unfold consumedLength
  rw [List.take_succ, h]
  simp

/-- A step that continues keeps the column equal to the length of the
consumed tokens. -/
theorem parseStep_linePos (parser : Parser) (tokens : List Token) (s next : ParseState)
    (h : parseStep parser tokens s = .inl next)
    (hs : s.linePos = consumedLength tokens s.nextInputToken) :
    next.linePos = consumedLength tokens next.nextInputToken := by
  unfold parseStep at h
  split at h
  · exact absurd h (by simp)
  · split at h
    · simp only [Sum.inl.injEq] at h
      subst h
      exact hs
    · split at h
      · exact absurd h (by simp)
      · split at h <;> exact absurd h (by simp)
    · split at h
      · exact absurd h (by simp)
      · rename_i token htoken
        split at h
        · split at h
          · split at h
            · exact absurd h (by simp)
            · split at h
              · exact absurd h (by simp)
              · simp only [Sum.inl.injEq] at h
                subst h
                simp only
                rw [consumedLength_succ tokens _ token htoken, hs]
          · simp only [Sum.inl.injEq] at h
            subst h
            simp only
            rw [consumedLength_succ tokens _ token htoken, hs]
        · exact absurd h (by simp)
    · split at h
      · exact absurd h (by simp)
      · split at h
        · exact absurd h (by simp)
        · split at h
          · exact absurd h (by simp)
          · split at h
            · exact absurd h (by simp)
            · split at h
              · exact absurd h (by simp)
              · split at h
                · exact absurd h (by simp)
                · simp only [Sum.inl.injEq] at h
                  subst h
                  exact hs

/-- A step that ends in a syntax error reports the column of the state and
has read a token at the cursor. -/
theorem parseStep_syntaxError (parser : Parser) (tokens : List Token) (s : ParseState)
    (offset : Nat) (h : parseStep parser tokens s = .inr (.syntaxError offset)) :
    offset = s.linePos ∧ s.nextInputToken < tokens.length := by
  have hlt : ∀ token, tokens[s.nextInputToken]? = some token →
      s.nextInputToken < tokens.length := by
    intro token htoken
    by_contra hge
    rw [List.getElem?_eq_none (by omega)] at htoken
    exact absurd htoken (by simp)
  unfold parseStep at h
  split at h
  · exact absurd h (by simp)
  · split at h
    · exact absurd h (by simp)
    · split at h
      · exact absurd h (by simp)
      · rename_i token htoken
        split at h
        · exact absurd h (by simp)
        · simp only [Sum.inr.injEq, ParseOutcome.syntaxError.injEq] at h
          exact ⟨h.symm, hlt token htoken⟩
    · split at h
      · exact absurd h (by simp)
      · rename_i token htoken
        split at h
        · split at h
          · split at h
            · exact absurd h (by simp)
            · split at h <;> exact absurd h (by simp)
          · exact absurd h (by simp)
        · simp only [Sum.inr.injEq, ParseOutcome.syntaxError.injEq] at h
          exact ⟨h.symm, hlt token htoken⟩
    · split at h
      · exact absurd h (by simp)
      · rename_i token htoken
        split at h
        · simp only [Sum.inr.injEq, ParseOutcome.syntaxError.injEq] at h
          exact ⟨h.symm, hlt token htoken⟩
        · split at h
          · exact absurd h (by simp)
          · split at h
            · exact absurd h (by simp)
            · split at h
              · exact absurd h (by simp)
              · split at h <;> exact absurd h (by simp)

/-- A step that ends in success has read the end-of-input value at the
cursor. -/
theorem parseStep_success (parser : Parser) (tokens : List Token) (s : ParseState)
    (h : parseStep parser tokens s = .inr .success) :
    ∃ token, tokens[s.nextInputToken]? = some token ∧ token.value = eofName := by
  unfold parseStep at h
  split at h
  · exact absurd h (by simp)
  · split at h
    · exact absurd h (by simp)
    · split at h
      · exact absurd h (by simp)
      · rename_i token htoken
        split at h
        · rename_i hvalue
          exact ⟨token, htoken, hvalue⟩
        · exact absurd h (by simp)
    · split at h
      · exact absurd h (by simp)
      · split at h
        · split at h
          · split at h
            · exact absurd h (by simp)
            · split at h <;> exact absurd h (by simp)
          · exact absurd h (by simp)
        · exact absurd h (by simp)
    · split at h
      · exact absurd h (by simp)
      · split at h
        · exact absurd h (by simp)
        · split at h
          · exact absurd h (by simp)
          · split at h
            · exact absurd h (by simp)
            · split at h
              · exact absurd h (by simp)
              · split at h <;> exact absurd h (by simp)

/-- The step at a state whose symbol stack has the end-of-input symbol on
top. -/
theorem parseStep_at_end_symbol (parser : Parser) (tokens : List Token) (s : ParseState)
    (name : String) (rest : List Symbol)
    (hstack : s.parseStack = { type := .EOFL, name := name } :: rest)
    (token : Token) (htoken : tokens[s.nextInputToken]? = some token) :
    parseStep parser tokens s
      = if token.value = eofName then .inr .success else .inr (.syntaxError s.linePos) := by
  unfold parseStep
  rw [hstack]
  simp only [htoken]

/-- What the loop returns is the state in which it ends, which inherits every
property that the continuing steps preserve, together with the way the step
at that state ends. -/
theorem parseLoop_final (parser : Parser) (tokens : List Token) (J : ParseState → Prop)
    (hJ : ∀ s next, parseStep parser tokens s = .inl next → J s → J next) :
    ∀ (fuel : Nat) (s : ParseState) (outcome : ParseOutcome) (final : ParseState),
      parseLoop parser tokens fuel s = some (outcome, final) → J s →
        J final ∧ parseStep parser tokens final = .inr outcome := by
  intro fuel
  induction fuel with
  | zero => intro s outcome final h; simp [parseLoop] at h
  | succ n ih =>
    intro s outcome final h hs
    simp only [parseLoop] at h
    split at h
    · rename_i next hstep
      exact ih next outcome final h (hJ s next hstep hs)
    · rename_i o hstep
      simp only [Option.some.injEq, Prod.mk.injEq] at h
      obtain ⟨h1, h2⟩ := h
      subst h1
      subst h2
      exact ⟨hs, hstep⟩

theorem consumedLength_append (tokens extra : List Token) (n : Nat) (h : n ≤ tokens.length) :
    consumedLength (tokens ++ extra) n = consumedLength tokens n := by
  unfold consumedLength
  rw [List.take_append_of_le_length h]

/-- The parser `init` leaves for the expression grammar is
`expressionParser`. -/
theorem expressionParser_from_init :
    ∃ tables, init expressionGrammar 4 = some tables
      ∧ parserOf tables (fun _ => none) {"(", ")"} = expressionParser := by
  have h : (init expressionGrammar 4).map (fun tables =>
      (tables.productions, tables.FIRST_PLUS, tables.startSymbol))
      = some (expressionProductions,
          [{"(", "num"}, {"+"}, {"-"}, {"^e$", "^", ")"}, {"(", "num"}, {"*"}, {"/"},
            {"^e$", "^", ")", "+", "-"}, {"("}, {"num"}], "E") := by
    decide
  obtain ⟨tables, hinit, hpair⟩ := Option.map_eq_some'.mp h
  simp only [Prod.mk.injEq] at hpair
  obtain ⟨hP, hS, hstart⟩ := hpair
  refine ⟨tables, hinit, ?_⟩
  unfold parserOf expressionParser
  rw [init_table _ _ tables hinit, hP, hS, hstart]

end ParserLemmas

section ParserClaims

/-- C18: whenever `_parseAndCreateParseTree` ends in a syntax error, the
column it reports is the sum of the lengths of the values of the tokens
consumed so far, all of which are tokens of the caller, and the token at the
cursor, the first unconsumed one, exists. -/
theorem syntax_error_offset (parser : Parser) (tokens : List Token) (fuel offset : Nat)
    (final : ParseState)
    (h : _parseAndCreateParseTree parser tokens fuel = some (.syntaxError offset, final)) :
    final.nextInputToken ≤ tokens.length
      ∧ offset = consumedLength tokens final.nextInputToken := by
  unfold _parseAndCreateParseTree at h
  obtain ⟨hJ, hstep⟩ := parseLoop_final parser (tokens ++ [eofToken])
    (fun s => s.linePos = consumedLength (tokens ++ [eofToken]) s.nextInputToken)
    (parseStep_linePos parser _) fuel _ _ final h rfl
  obtain ⟨hoff, hlt⟩ := parseStep_syntaxError parser _ final offset hstep
  have hle : final.nextInputToken ≤ tokens.length := by
    simp only [List.length_append, List.length_singleton] at hlt
    omega
  refine ⟨hle, ?_⟩
  rw [hoff, hJ, consumedLength_append _ _ _ hle]

theorem syntax_error_offset_witness :
    ∃ final,
      _parseAndCreateParseTree expressionParser
          [{ type := "num", value := "2" }, { type := "+", value := "+" },
            { type := "*", value := "*" }, { type := "num", value := "3" }] 30
        = some (.syntaxError 2, final)
      ∧ final.nextInputToken
          ≤ ([{ type := "num", value := "2" }, { type := "+", value := "+" },
              { type := "*", value := "*" }, { type := "num", value := "3" }] :
              List Token).length
      ∧ 2 = consumedLength
          [{ type := "num", value := "2" }, { type := "+", value := "+" },
            { type := "*", value := "*" }, { type := "num", value := "3" }]
          final.nextInputToken := by
  have h : (_parseAndCreateParseTree expressionParser
      [{ type := "num", value := "2" }, { type := "+", value := "+" },
        { type := "*", value := "*" }, { type := "num", value := "3" }] 30).map
          (fun r => r.1) = some (.syntaxError 2) := by
    simp [_parseAndCreateParseTree, parseLoop, parseStep, initialState, expressionParser,
      eofToken, eofName, expressionProductions, _constructLL1Table, constructFrom, tableWrite,
      epsilonName, updateAt, nodeAt, createdNodes, ASTNode.appendChildren, ASTNode.setToken,
      ASTNode.children, _binaryOperators, List.range, List.range.loop]
    decide
  obtain ⟨r, hrun, hr⟩ := Option.map_eq_some'.mp h
  obtain ⟨outcome, final⟩ := r
  simp only at hr
  subst hr
  exact ⟨final, hrun, syntax_error_offset _ _ _ _ _ hrun⟩

/-- C15 as stated fails: with the grammar `E -> num` and the caller tokens
`2`, `^`, `3`, the second of which has the value `^` of the end-of-input
marker, the loop ends in success at its third step with the cursor on the
second of the three caller tokens, the symbol stack holding the end-of-input
symbol alone. -/
theorem success_with_unconsumed_tokens :
    ((init [("E", ["num"])] 2).bind (fun tables =>
        (_parseAndCreateParseTree (parserOf tables (fun _ => none) ∅)
          [{ type := "num", value := "2" }, { type := "^", value := "^" },
            { type := "num", value := "3" }] 3).map
          (fun r => (r.1, r.2.nextInputToken, r.2.parseStack))))
      = some (.success, 1, [{ type := .EOFL, name := "^" }])
    ∧ 1 < ([{ type := "num", value := "2" }, { type := "^", value := "^" },
        { type := "num", value := "3" }] : List Token).length := by
  constructor
  · simp [init, _readConfigFile, startSymbolOf, _computeFIRST, firstLoop, firstPass, firstStep,
      firstOfRhs, _computeFOLLOW, followLoop, followPass, followStep, followScan,
      _computeFIRST_PLUS, firstPlusOf, tableSet, symbolTypeOf, epsilonName, eofName,
      parserOf, _parseAndCreateParseTree, parseLoop, parseStep, initialState,
      eofToken, _constructLL1Table, constructFrom, tableWrite,
      updateAt, nodeAt, createdNodes, ASTNode.appendChildren, ASTNode.setToken,
      ASTNode.children, _binaryOperators, List.range, List.range.loop]
  · decide

/-- C15, amended: for every parser and every token stream none of whose
tokens has the end-of-input marker as its value, if
`_parseAndCreateParseTree` ends in success then the cursor stands on the token
the parser appended, every token of the caller being consumed; and the loop
entered in a state whose symbol stack has the end-of-input symbol on top while
a token of the caller is unconsumed ends at once in a syntax error. -/
theorem success_only_at_end_of_input (parser : Parser) (tokens : List Token)
    (hmarker : ∀ token ∈ tokens, token.value ≠ eofName) :
    (∀ fuel final, _parseAndCreateParseTree parser tokens fuel = some (.success, final) →
        final.nextInputToken = tokens.length)
      ∧ (∀ (s : ParseState) (name : String) (rest : List Symbol) (fuel : Nat),
          s.parseStack = { type := .EOFL, name := name } :: rest →
          s.nextInputToken < tokens.length →
          parseLoop parser (tokens ++ [eofToken]) (fuel + 1) s
            = some (.syntaxError s.linePos, s)) := by
  constructor
  · intro fuel final h
    unfold _parseAndCreateParseTree at h
    obtain ⟨_, hstep⟩ := parseLoop_final parser (tokens ++ [eofToken]) (fun _ => True)
      (fun _ _ _ _ => trivial) fuel _ _ final h trivial
    obtain ⟨token, htoken, hvalue⟩ := parseStep_success parser _ final hstep
    by_contra hne
    have hlt : final.nextInputToken < (tokens ++ [eofToken]).length := by
      by_contra hge
      rw [List.getElem?_eq_none (by omega)] at htoken
      exact absurd htoken (by simp)
    simp only [List.length_append, List.length_singleton] at hlt
    have hlt2 : final.nextInputToken < tokens.length := by omega
    rw [List.getElem?_append_left hlt2] at htoken
    exact hmarker token (List.getElem?_mem htoken) hvalue
  · intro s name rest fuel hstack hlt
    have htoken : (tokens ++ [eofToken])[s.nextInputToken]?
        = some (tokens[s.nextInputToken]) := by
      rw [List.getElem?_append_left hlt, List.getElem?_eq_getElem hlt]
    have hstep := parseStep_at_end_symbol parser (tokens ++ [eofToken]) s name rest hstack
      _ htoken
    rw [if_neg (hmarker _ (List.getElem_mem hlt))] at hstep
    simp only [parseLoop, hstep]

theorem success_only_at_end_of_input_witness :
    (∀ token ∈ ([{ type := "num", value := "2" }] : List Token), token.value ≠ eofName)
      ∧ (∃ final,
          _parseAndCreateParseTree expressionParser [{ type := "num", value := "2" }] 20
            = some (.success, final)
          ∧ final.nextInputToken = ([{ type := "num", value := "2" }] : List Token).length)
      ∧ (∀ (s : ParseState) (name : String) (rest : List Symbol) (fuel : Nat),
          s.parseStack = { type := .EOFL, name := name } :: rest →
          s.nextInputToken < ([{ type := "num", value := "2" }] : List Token).length →
          parseLoop expressionParser ([{ type := "num", value := "2" }] ++ [eofToken])
              (fuel + 1) s
            = some (.syntaxError s.linePos, s)) := by
  have hmarker : ∀ token ∈ ([{ type := "num", value := "2" }] : List Token),
      token.value ≠ eofName := by
    intro token htoken
    rw [List.mem_singleton.mp htoken]
    decide
  have h : (_parseAndCreateParseTree expressionParser
      [{ type := "num", value := "2" }] 20).map (fun r => r.1) = some .success := by
    simp [_parseAndCreateParseTree, parseLoop, parseStep, initialState, expressionParser,
      eofToken, eofName, expressionProductions, _constructLL1Table, constructFrom, tableWrite,
      epsilonName, updateAt, nodeAt, createdNodes, ASTNode.appendChildren, ASTNode.setToken,
      ASTNode.children, _binaryOperators, List.range, List.range.loop]
  obtain ⟨r, hrun, hr⟩ := Option.map_eq_some'.mp h
  obtain ⟨outcome, final⟩ := r
  simp only at hr
  subst hr
  have hclaim := success_only_at_end_of_input expressionParser _ hmarker
  exact ⟨hmarker, ⟨final, hrun, hclaim.1 20 final hrun⟩, hclaim.2⟩

end ParserClaims

/-! ## The printed form of a result -/

section RenderingClaims

variable {K : Type} [LinearOrderedField K]

/-- C17 at the canonical polynomial `-1*x^1`, the value of `0-x`: the code
writes the formatted coefficient `-1` in front of `x`, because the test of
the leading term is `coefficient != 1` alone, while the same term after a
leading `x^2` is written ` - x` without the digit, the test there being
`abs(coefficient) != 1`. -/
theorem render_leading_minus_one (sqrt : K → K) (fmt : K → String) :
    _evalASTTree (atofDecimal : String → K) sqrt (binaryNode "-" (numLeaf "0") varLeaf)
        = .ans [{ coefficient := -1, exponent := 1 }]
      ∧ Canonical [({ coefficient := -1, exponent := 1 } : Monomial K)]
      ∧ render fmt [{ coefficient := -1, exponent := 1 }] = fmt (-1) ++ "x"
      ∧ render fmt [{ coefficient := 1, exponent := 2 }, { coefficient := -1, exponent := 1 }]
          = "x^2 - x" := by
  refine ⟨?_, ?_, ?_, ?_⟩
  · simp [_evalASTTree, _evalASTNode, binaryNode, numLeaf, varLeaf, firstChar, atofDecimal,
      scanDigits, _subtractPolynomial, canonicalize, sortDescending, List.insertionSort,
      List.orderedInsert, expGE, sumLoop, sumRun, unique, uniqueFrom, removeZero]
  · constructor
    · exact List.pairwise_singleton _ _
    · intro m hm
      rw [List.mem_singleton.mp hm]
      norm_num
  · have h1 : ¬ ((-1 : K) = 1) := by norm_num
    simp [render, renderLeading, h1, String.join]
  · have h2 : ¬ ((1 : K) < 0) := by norm_num
    have h3 : toString (2 : Int) = "2" := by decide
    simp [render, renderLeading, renderFollowing, h2, h3, String.join]

end RenderingClaims

/-! ## From the parse tree to the AST -/

section TransformerClaims

/-- C16 at the grammar `E -> num +` and the line `2+`: the parser returns the
tree `EMPTY[num 2, +]`, which the first pruning leaves as it is;
`_moveUpOperators` returns `false` on it, the operator having reached the
parentless root with no right operand; `_convertParseTreeToAST` goes on all
the same and returns the leaf `2`, and `parse` hands it to the evaluator,
which writes `ans = 2`. -/
theorem move_up_failure_is_not_checked (sqrt : ℚ → ℚ) :
    ((init [("E", ["num", "+"])] 2).bind (fun tables =>
        (_parseAndCreateParseTree (parserOf tables (fun _ => none) ∅)
          [{ type := "num", value := "2" }, { type := "+", value := "+" }] 4).map
          (fun r => (r.1, r.2.astTree))))
      = some (.success,
          .mk .EMPTY none
            [numLeaf "2", .mk .BINARY_OPERATOR (some { type := "+", value := "+" }) []])
    ∧ (_pruneParseTree (.mk .EMPTY none
          [numLeaf "2", .mk .BINARY_OPERATOR (some { type := "+", value := "+" }) []])).map
          replaceRoot
        = some (.mk .EMPTY none
            [numLeaf "2", .mk .BINARY_OPERATOR (some { type := "+", value := "+" }) []])
    ∧ _moveUpOperators (.mk .EMPTY none
          [numLeaf "2", .mk .BINARY_OPERATOR (some { type := "+", value := "+" }) []])
        = some (.mk .BINARY_OPERATOR (some { type := "+", value := "+" })
            [numLeaf "2", .mk .EMPTY none []], false)
    ∧ _convertParseTreeToAST (.mk .EMPTY none
          [numLeaf "2", .mk .BINARY_OPERATOR (some { type := "+", value := "+" }) []])
        = some (numLeaf "2")
    ∧ (init [("E", ["num", "+"])] 2).bind (fun tables =>
        parse (parserOf tables (fun _ => none) ∅) atofDecimal sqrt
          [{ type := "num", value := "2" }, { type := "+", value := "+" }] 4)
      = some (.evaluated (.ans [{ coefficient := 2, exponent := 0 }])) := by
  refine ⟨?_, rfl, rfl, rfl, ?_⟩
  · simp [init, _readConfigFile, startSymbolOf, _computeFIRST, firstLoop, firstPass, firstStep,
      firstOfRhs, _computeFOLLOW, followLoop, followPass, followStep, followScan,
      _computeFIRST_PLUS, firstPlusOf, tableSet, symbolTypeOf, epsilonName, eofName,
      parserOf, _parseAndCreateParseTree, parseLoop, parseStep, initialState,
      eofToken, _constructLL1Table, constructFrom, tableWrite,
      updateAt, nodeAt, createdNodes, ASTNode.appendChildren, ASTNode.setToken,
      ASTNode.children, _binaryOperators, List.range, List.range.loop, numLeaf]
  · simp [init, _readConfigFile, startSymbolOf, _computeFIRST, firstLoop, firstPass, firstStep,
      firstOfRhs, _computeFOLLOW, followLoop, followPass, followStep, followScan,
      _computeFIRST_PLUS, firstPlusOf, tableSet, symbolTypeOf, epsilonName, eofName,
      parserOf, parse, _parseAndCreateParseTree, parseLoop, parseStep, initialState,
      eofToken, _constructLL1Table, constructFrom, tableWrite,
      updateAt, nodeAt, createdNodes, ASTNode.appendChildren, ASTNode.setToken,
      ASTNode.children, _binaryOperators, List.range, List.range.loop, numLeaf,
      _convertParseTreeToAST, _pruneParseTree, pruneChildren, removeUnnecessary, removable,
      collapseChild, replaceRoot, _moveUpOperators, moveUpAt, moveUpChildren, climb,
      swapWithChild, ASTNode.type, _evalASTTree, _evalASTNode, firstChar, atofDecimal,
      scanDigits]

/-- C20 at the grammar `E -> num + num num` and the line `1+2 3`: the parser
returns the tree `EMPTY[num 1, +, num 2, num 3]`, operator and operands being
leaves under the placeholder root; `_moveUpOperators` returns `true` on it,
the operator having a left and a right neighbour, and the AST that
`_convertParseTreeToAST` returns is the `BINARY_OPERATOR` node `+` with the
three children `1`, `2`, `3`. -/
theorem binary_operator_with_three_children :
    ((init [("E", ["num", "+", "num", "num"])] 2).bind (fun tables =>
        (_parseAndCreateParseTree (parserOf tables (fun _ => none) ∅)
          [{ type := "num", value := "1" }, { type := "+", value := "+" },
            { type := "num", value := "2" }, { type := "num", value := "3" }] 6).map
          (fun r => (r.1, r.2.astTree))))
      = some (.success,
          .mk .EMPTY none
            [numLeaf "1", .mk .BINARY_OPERATOR (some { type := "+", value := "+" }) [],
              numLeaf "2", numLeaf "3"])
    ∧ (_pruneParseTree (.mk .EMPTY none
          [numLeaf "1", .mk .BINARY_OPERATOR (some { type := "+", value := "+" }) [],
            numLeaf "2", numLeaf "3"])).map replaceRoot
        = some (.mk .EMPTY none
            [numLeaf "1", .mk .BINARY_OPERATOR (some { type := "+", value := "+" }) [],
              numLeaf "2", numLeaf "3"])
    ∧ _moveUpOperators (.mk .EMPTY none
          [numLeaf "1", .mk .BINARY_OPERATOR (some { type := "+", value := "+" }) [],
            numLeaf "2", numLeaf "3"])
        = some (.mk .BINARY_OPERATOR (some { type := "+", value := "+" })
            [numLeaf "1", .mk .EMPTY none [], numLeaf "2", numLeaf "3"], true)
    ∧ _convertParseTreeToAST (.mk .EMPTY none
          [numLeaf "1", .mk .BINARY_OPERATOR (some { type := "+", value := "+" }) [],
            numLeaf "2", numLeaf "3"])
        = some (.mk .BINARY_OPERATOR (some { type := "+", value := "+" })
            [numLeaf "1", numLeaf "2", numLeaf "3"]) := by
  refine ⟨?_, rfl, rfl, rfl⟩
  simp [init, _readConfigFile, startSymbolOf, _computeFIRST, firstLoop, firstPass, firstStep,
      firstOfRhs, _computeFOLLOW, followLoop, followPass, followStep, followScan,
      _computeFIRST_PLUS, firstPlusOf, tableSet, symbolTypeOf, epsilonName, eofName,
      parserOf, _parseAndCreateParseTree, parseLoop, parseStep, initialState,
      eofToken, _constructLL1Table, constructFrom, tableWrite,
      updateAt, nodeAt, createdNodes, ASTNode.appendChildren, ASTNode.setToken,
      ASTNode.children, _binaryOperators, List.range, List.range.loop, numLeaf]

end TransformerClaims

/-! ## The evaluator: array bounds and the origin of the zero constant -/

section EvaluatorBounds

variable {K : Type} [LinearOrderedField K]

theorem fillCoefficients_isSome (degree : Int) :
    ∀ (rest : List (Monomial K)) (a : List K),
      (∀ m ∈ rest, 0 ≤ degree - m.exponent ∧ degree - m.exponent < 3) →
        (fillCoefficients degree a rest).isSome = true := by
  intro rest
  induction rest with
  | nil => intro a _; rfl
  | cons m rest ih =>
    intro a h
    have hm := h m (List.mem_cons_self _ _)
    simp only [fillCoefficients, hm, and_self, if_true]
    exact ih _ (fun x hx => h x (List.mem_cons_of_mem _ hx))

/-- C30: every exponent of a polynomial `_evalASTNode` returns is
non-negative; hence, for two sides that evaluate and a difference
`head :: rest` of degree at most 2, the degree handed to the `switch` is 0, 1
or 2, every index `degree - exponent` the loop of lines 628-629 writes to lies
in 1..2, and the loop of the model never leaves the three-slot array. -/
theorem coefficient_array_in_bounds (atof : String → K) (c0 c1 : ASTNode)
    (p q : List (Monomial K)) (hl : _evalASTNode atof c0 = .ok p)
    (hr : _evalASTNode atof c1 = .ok q) :
    (∀ m ∈ p, 0 ≤ m.exponent) ∧ (∀ m ∈ q, 0 ≤ m.exponent)
      ∧ ∀ head rest, _subtractPolynomial p q = head :: rest → head.exponent ≤ 2 →
          (head.exponent = 0 ∨ head.exponent = 1 ∨ head.exponent = 2)
            ∧ (∀ m ∈ rest, 1 ≤ head.exponent - m.exponent ∧ head.exponent - m.exponent ≤ 2)
            ∧ (fillCoefficients head.exponent [head.coefficient, 0, 0] rest).isSome = true := by
  have hp := evalASTNode_nonneg atof c0 p hl
  have hq := evalASTNode_nonneg atof c1 q hr
  refine ⟨hp, hq, ?_⟩
  intro head rest hd hle
  have hcan := subtractPolynomial_canonical p q
  have hnn := nonneg_subtract p q hp hq
  rw [hd] at hcan hnn
  have h0 := hnn head (List.mem_cons_self _ _)
  have hidx : ∀ m ∈ rest, 1 ≤ head.exponent - m.exponent ∧ head.exponent - m.exponent ≤ 2 := by
    intro m hm
    have h1 := (List.pairwise_cons.mp hcan.1).1 m hm
    have h2 := hnn m (List.mem_cons_of_mem _ hm)
    omega
  refine ⟨by omega, hidx, ?_⟩
  apply fillCoefficients_isSome
  intro m hm
  have := hidx m hm
  omega

theorem coefficient_array_in_bounds_witness :
    _evalASTNode (atofDecimal : String → ℚ)
        (binaryNode "-" (binaryNode "*" varLeaf varLeaf) (numLeaf "1"))
        = .ok [{ coefficient := 1, exponent := 2 }, { coefficient := -1, exponent := 0 }]
      ∧ _evalASTNode (atofDecimal : String → ℚ) (numLeaf "0")
        = .ok [{ coefficient := 0, exponent := 0 }]
      ∧ _subtractPolynomial
          ([{ coefficient := 1, exponent := 2 }, { coefficient := -1, exponent := 0 }] :
            List (Monomial ℚ)) [{ coefficient := 0, exponent := 0 }]
        = [{ coefficient := 1, exponent := 2 }, { coefficient := -1, exponent := 0 }]
      ∧ ((2 : Int) = 0 ∨ (2 : Int) = 1 ∨ (2 : Int) = 2)
      ∧ (∀ m ∈ ([{ coefficient := -1, exponent := 0 }] : List (Monomial ℚ)),
          1 ≤ (2 : Int) - m.exponent ∧ (2 : Int) - m.exponent ≤ 2)
      ∧ (fillCoefficients (2 : Int) [(1 : ℚ), 0, 0]
          [{ coefficient := -1, exponent := 0 }]).isSome = true := by
  have e0 : _evalASTNode (atofDecimal : String → ℚ)
      (binaryNode "-" (binaryNode "*" varLeaf varLeaf) (numLeaf "1"))
      = .ok [{ coefficient := 1, exponent := 2 }, { coefficient := -1, exponent := 0 }] := by
    simp [binaryNode, varLeaf, numLeaf, _evalASTNode, firstChar, atofDecimal, scanDigits,
      _multiplyPolynomials, scaleBy, _subtractPolynomial,
      _addPolynomial, canonicalize, sortDescending, List.insertionSort, List.orderedInsert,
      expGE, sumLoop, sumRun, unique, uniqueFrom, removeZero]
  have e1 : _evalASTNode (atofDecimal : String → ℚ) (numLeaf "0")
      = .ok [{ coefficient := 0, exponent := 0 }] := by
    simp [numLeaf, _evalASTNode, firstChar, atofDecimal, scanDigits]
  have d : _subtractPolynomial
      ([{ coefficient := 1, exponent := 2 }, { coefficient := -1, exponent := 0 }] :
        List (Monomial ℚ)) [{ coefficient := 0, exponent := 0 }]
      = [{ coefficient := 1, exponent := 2 }, { coefficient := -1, exponent := 0 }] := by
    simp [_subtractPolynomial, canonicalize, sortDescending, List.insertionSort,
      List.orderedInsert, expGE, sumLoop, sumRun, unique, uniqueFrom, removeZero]
  exact ⟨e0, e1, d,
    (coefficient_array_in_bounds atofDecimal _ _ _ _ e0 e1).2.2 _ _ d (by decide)⟩

end EvaluatorBounds

section EvaluatorOriginLemmas

variable {K : Type} [LinearOrderedField K]

theorem zero_constant_not_canonical :
    ¬ Canonical [({ coefficient := 0, exponent := 0 } : Monomial K)] := by
  intro h
  exact h.2 _ (List.mem_singleton.mpr rfl) rfl

/-- How a successful evaluation can return the single monomial `0*x^0`: at a
leaf that is not the variable and has the value 0, or at a node `/` whose two
first children evaluate and whose quotient is that monomial. -/
theorem evalASTNode_zero_cases (atof : String → K) (ty : ASTNodeType) (tok : Option Token)
    (children : List ASTNode)
    (h : _evalASTNode atof (.mk ty tok children)
      = .ok [({ coefficient := 0, exponent := 0 } : Monomial K)]) :
    (∃ t, tok = some t ∧ children = [] ∧ firstChar t.value ≠ 'x' ∧ atof t.value = 0)
      ∨ (∃ t c0 c1 rest l r, tok = some t ∧ children = c0 :: c1 :: rest
          ∧ firstChar t.value = '/'
          ∧ _evalASTNode atof c0 = .ok l ∧ _evalASTNode atof c1 = .ok r
          ∧ _dividePolynomials l r = .ok [{ coefficient := 0, exponent := 0 }]) := by
  match tok, children with
  | none, _ => simp [_evalASTNode] at h
  | some t, [] =>
    simp only [_evalASTNode] at h
    split at h
    · simp at h
    · rename_i hx
      simp only [Except.ok.injEq, List.cons.injEq, Monomial.mk.injEq, and_true] at h
      exact Or.inl ⟨t, rfl, rfl, hx, h⟩
  | some t, [c0] =>
    exfalso
    rcases evalASTNode_cases atof ty (some t) [c0] _ h with
      h0 | ⟨h0, _⟩ | ⟨h0, _⟩ | ⟨c, rest, q, _, _, hp⟩ | ⟨c, c1, rest, l, r, hch, _⟩
    · simp at h0
    · simp at h0
    · simp at h0
    · exact zero_constant_not_canonical (hp ▸ subtractPolynomial_canonical _ q)
    · simp at hch
  | some t, c0 :: c1 :: rest =>
    simp only [_evalASTNode] at h
    repeat' split at h
    all_goals first
      | exact absurd ((Except.ok.inj h) ▸ addPolynomial_canonical _ _)
          zero_constant_not_canonical
      | exact absurd ((Except.ok.inj h) ▸ subtractPolynomial_canonical _ _)
          zero_constant_not_canonical
      | exact absurd ((Except.ok.inj h) ▸ multiplyPolynomials_canonical _ _)
          zero_constant_not_canonical
      | (refine Or.inr ⟨t, c0, c1, rest, _, _, rfl, rfl, ?_, ?_, ?_, h⟩ <;> assumption)
      | simp at h

end EvaluatorOriginLemmas

section EvaluatorOriginClaims

variable {K : Type} [LinearOrderedField K]

/-- C29: for every AST on which `_evalASTNode` succeeds, the returned list is
a canonical polynomial or exactly the one-element list `0*x^0`; and it is
that list only at a tree of `LiteralZeroOrigin`: a leaf other than the
variable whose text has the value 0, possibly divided by nonzero scalars. -/
theorem evaluate_zero_constant_origin (atof : String → K) (n : ASTNode)
    (p : List (Monomial K)) (h : _evalASTNode atof n = .ok p) :
    (Canonical p ∨ p = [{ coefficient := 0, exponent := 0 }])
      ∧ (p = [{ coefficient := 0, exponent := 0 }] → LiteralZeroOrigin atof n) := by
  refine ⟨evalASTNode_shape atof n p h, ?_⟩
  intro hp
  rw [hp] at h
  clear hp
  induction n using ASTNode.induction with
  | step ty tok children ih =>
    rcases evalASTNode_zero_cases atof ty tok children h with
      ⟨t, rfl, rfl, hx, h0⟩ | ⟨t, c0, c1, rest, l, r, rfl, rfl, hdiv, hl, hr, hq⟩
    · exact LiteralZeroOrigin.leaf ty t hx h0
    · obtain ⟨d, hd, rfl, hmap⟩ := divide_ok l _ _ hq
      have hl0 : l = [{ coefficient := 0, exponent := 0 }] := by
        match l, hmap with
        | [], hmap => simp at hmap
        | _ :: _ :: _, hmap => simp at hmap
        | [a], hmap =>
          simp only [List.map_cons, List.map_nil, List.cons.injEq, Monomial.mk.injEq,
            and_true] at hmap
          obtain ⟨hc, he⟩ := hmap
          have ha : a.coefficient = 0 := by
            rcases div_eq_zero_iff.mp hc.symm with h1 | h1
            · exact h1
            · exact absurd h1 hd
          cases a
          simp only at ha he
          rw [ha, ← he]
      rw [hl0] at hl
      exact LiteralZeroOrigin.quotient ty t c0 c1 rest d hdiv
        (ih c0 (List.mem_cons_self _ _) hl) hr hd

theorem evaluate_zero_constant_origin_witness :
    _evalASTNode (atofDecimal : String → ℚ) (binaryNode "/" (numLeaf "0") (numLeaf "2"))
        = .ok [{ coefficient := 0, exponent := 0 }]
      ∧ (Canonical ([{ coefficient := 0, exponent := 0 }] : List (Monomial ℚ))
          ∨ ([{ coefficient := 0, exponent := 0 }] : List (Monomial ℚ))
            = [{ coefficient := 0, exponent := 0 }])
      ∧ (([{ coefficient := 0, exponent := 0 }] : List (Monomial ℚ))
            = [{ coefficient := 0, exponent := 0 }] →
          LiteralZeroOrigin (atofDecimal : String → ℚ)
            (binaryNode "/" (numLeaf "0") (numLeaf "2"))) := by
  have e : _evalASTNode (atofDecimal : String → ℚ)
      (binaryNode "/" (numLeaf "0") (numLeaf "2"))
      = .ok [{ coefficient := 0, exponent := 0 }] := by
    simp [binaryNode, numLeaf, _evalASTNode, firstChar, atofDecimal, scanDigits,
      _dividePolynomials]
  exact ⟨e, evaluate_zero_constant_origin atofDecimal _ _ e⟩

end EvaluatorOriginClaims

/-! ## The parser loop: the nodes of an expansion -/

section ExpansionLemmas

theorem nodeAt_updateAt_same (f : ASTNode → ASTNode) :
    ∀ (path : List Nat) (tree updated : ASTNode), updateAt f path tree = some updated →
      ∃ node, nodeAt path tree = some node ∧ nodeAt path updated = some (f node) := by
  intro path
  induction path with
  | nil =>
    intro tree updated h
    simp only [updateAt, Option.some.injEq] at h
    exact ⟨tree, rfl, by rw [← h]; rfl⟩
  | cons i path ih =>
    intro tree updated h
    obtain ⟨type, token, children⟩ := tree
    simp only [updateAt] at h
    split at h
    · exact absurd h (by simp)
    · rename_i child hchild
      split at h
      · exact absurd h (by simp)
      · rename_i inner hinner
        obtain ⟨node, h1, h2⟩ := ih child inner hinner
        simp only [Option.some.injEq] at h
        subst h
        refine ⟨node, ?_, ?_⟩
        · simp only [nodeAt, hchild]
          exact h1
        · have hlt : i < children.length := by
            by_contra hge
            rw [List.getElem?_eq_none (by omega)] at hchild
            exact absurd hchild (by simp)
          simp only [nodeAt, List.getElem?_set_self hlt]
          exact h2

/-- The loop of lines 455-478 creates the children the amended claim
expects. -/
theorem createdNodes_eq (parser : Parser) (i : Nat) :
    ∀ (rhs : List Symbol) (first : Nat), (∀ s ∈ rhs, s.type ≠ .EOFL) →
      createdNodes parser i first rhs
        = (nodeBearing parser first rhs).map (fun entry =>
            .mk (expectedKind parser i entry.1 entry.2) none []) := by
  intro rhs
  induction rhs with
  | nil => intro first _; rfl
  | cons symbol rest ih =>
    intro first h
    have hrest := ih (first + 1) (fun s hs => h s (List.mem_cons_of_mem _ hs))
    have hsym := h symbol (List.mem_cons_self _ _)
    unfold nodeBearing at hrest ⊢
    simp only [createdNodes, List.enumFrom_cons, List.filter_cons]
    cases hty : symbol.type with
    | EPSILON => simp [hty, hrest]
    | NONTERMINAL => simp [hty, hrest, expectedKind]
    | TERMINAL =>
      by_cases hu : symbol.name ∈ parser._unusedTerminals
      · simp [hty, hu, hrest]
      · simp [hty, hu, hrest, expectedKind, claimedKind]
    | EOFL => exact absurd hty hsym

end ExpansionLemmas

section ExpansionClaims

/-- C21 as stated fails: the first step of the expression parser on the line
`2` expands `E` with production 0, `E -> T E'`, and the two children it
appends for the nonterminals `T` and `E'` have the kind `EMPTY`, where the
claim gives them the kind `OPERAND`. -/
theorem nonterminal_child_is_placeholder :
    (parseStep expressionParser [{ type := "num", value := "2" }, eofToken]
        (initialState expressionParser)).elim
        (fun next => some (next.parseStack, next.astTree)) (fun _ => none)
      = some
          ([{ type := .NONTERMINAL, name := "T" }, { type := .NONTERMINAL, name := "E'" },
            { type := .EOFL, name := "^" }],
            .mk .EMPTY none [.mk .EMPTY none [], .mk .EMPTY none []])
    ∧ claimedKind expressionParser 0 0 { type := .NONTERMINAL, name := "T" } = .OPERAND
    ∧ claimedKind expressionParser 0 1 { type := .NONTERMINAL, name := "E'" } = .OPERAND := by
  refine ⟨?_, ?_, ?_⟩
  · simp [parseStep, initialState, expressionParser,
      eofToken, eofName, expressionProductions, _constructLL1Table, constructFrom, tableWrite,
      epsilonName, updateAt, nodeAt, createdNodes, ASTNode.appendChildren, ASTNode.setToken,
      ASTNode.children, _binaryOperators, List.range, List.range.loop]
  · simp [claimedKind, expressionParser, _binaryOperators]
  · simp [claimedKind, expressionParser, _binaryOperators]

/-- C21, amended: when the parser expands a nonterminal with production `i`,
the children appended to the popped node are, one for one and in order, fresh
leaves for the right-hand-side symbols that are neither epsilon nor unused
terminals; the child of a nonterminal has the kind `EMPTY`, and the child of
a terminal has the kind `UNARY_LEFT_OPERATOR` if the semantics mark `i` and
its position, else `BINARY_OPERATOR` if its name is one of `+ - * / =`, else
`OPERAND`. -/
theorem expansion_children (parser : Parser) (tokens : List Token) (s next : ParseState)
    (name : String) (rest : List Symbol)
    (hreg : ∀ production ∈ parser._productions, ∀ symbol ∈ production.rhsSymbols,
      symbol.type ≠ .EOFL)
    (hstack : s.parseStack = { type := .NONTERMINAL, name := name } :: rest)
    (hstep : parseStep parser tokens s = .inl next) :
    ∃ (token : Token) (i : Nat) (production : Production) (popped : List Nat)
        (remaining : List (List Nat)) (node : ASTNode),
      tokens[s.nextInputToken]? = some token
        ∧ parser._ll1Table name token.type = some i
        ∧ parser._productions[i]? = some production
        ∧ s.astStack = popped :: remaining
        ∧ nodeAt popped s.astTree = some node
        ∧ nodeAt popped next.astTree
          = some (node.appendChildren (expectedChildren parser i production.rhsSymbols)) := by
  unfold parseStep at hstep
  rw [hstack] at hstep
  simp only at hstep
  split at hstep
  · exact absurd hstep (by simp)
  · rename_i token htoken
    split at hstep
    · exact absurd hstep (by simp)
    · rename_i i hi
      split at hstep
      · exact absurd hstep (by simp)
      · rename_i production hproduction
        split at hstep
        · exact absurd hstep (by simp)
        · rename_i popped remaining hast
          split at hstep
          · exact absurd hstep (by simp)
          · rename_i tree htree
            split at hstep
            · exact absurd hstep (by simp)
            · simp only [Sum.inl.injEq] at hstep
              subst hstep
              obtain ⟨node, h1, h2⟩ := nodeAt_updateAt_same _ popped s.astTree tree htree
              refine ⟨token, i, production, popped, remaining, node, htoken, hi, hproduction,
                hast, h1, ?_⟩
              simp only
              rw [h2]
              unfold expectedChildren
              rw [createdNodes_eq parser i production.rhsSymbols 0
                (hreg production (List.getElem?_mem hproduction))]

theorem expansion_children_witness :
    parseStep expressionParser [{ type := "num", value := "2" }, eofToken]
        (initialState expressionParser)
      = .inl
          { parseStack := [{ type := .NONTERMINAL, name := "T" },
              { type := .NONTERMINAL, name := "E'" }, { type := .EOFL, name := "^" }],
            astStack := [[0], [1]],
            astTree := .mk .EMPTY none [.mk .EMPTY none [], .mk .EMPTY none []],
            nextInputToken := 0,
            linePos := 0 }
    ∧ ∃ (token : Token) (i : Nat) (production : Production) (popped : List Nat)
        (remaining : List (List Nat)) (node : ASTNode),
      ([{ type := "num", value := "2" }, eofToken] : List Token)[
          (initialState expressionParser).nextInputToken]? = some token
        ∧ expressionParser._ll1Table "E" token.type = some i
        ∧ expressionParser._productions[i]? = some production
        ∧ (initialState expressionParser).astStack = popped :: remaining
        ∧ nodeAt popped (initialState expressionParser).astTree = some node
        ∧ nodeAt popped (ASTNode.mk .EMPTY none [.mk .EMPTY none [], .mk .EMPTY none []])
          = some (node.appendChildren
              (expectedChildren expressionParser i production.rhsSymbols)) := by
  have hstep : parseStep expressionParser [{ type := "num", value := "2" }, eofToken]
      (initialState expressionParser)
      = .inl
          { parseStack := [{ type := .NONTERMINAL, name := "T" },
              { type := .NONTERMINAL, name := "E'" }, { type := .EOFL, name := "^" }],
            astStack := [[0], [1]],
            astTree := .mk .EMPTY none [.mk .EMPTY none [], .mk .EMPTY none []],
            nextInputToken := 0,
            linePos := 0 } := by
    simp [parseStep, initialState, expressionParser,
      eofToken, eofName, expressionProductions, _constructLL1Table, constructFrom, tableWrite,
      epsilonName, updateAt, nodeAt, createdNodes, ASTNode.appendChildren, ASTNode.setToken,
      ASTNode.children, _binaryOperators, List.range, List.range.loop]
  have hreg : ∀ production ∈ expressionParser._productions,
      ∀ symbol ∈ production.rhsSymbols, symbol.type ≠ .EOFL := by
    simp [expressionParser, expressionProductions]
  exact ⟨hstep, expansion_children expressionParser _ _ _ "E"
    [{ type := .EOFL, name := eofName }] hreg rfl hstep⟩

end ExpansionClaims

/-! ## Pruning -/

section PruneLemmas

theorem mem_descendantsOfList (d : ASTNode) :
    ∀ l : List ASTNode,
      d ∈ descendantsOfList l ↔ ∃ c ∈ l, d = c ∨ d ∈ properDescendants c := by
  intro l
  induction l with
  | nil => simp [descendantsOfList]
  | cons child rest ih =>
    simp only [descendantsOfList, List.mem_cons, List.mem_append, ih]
    constructor
    · rintro (h | h | ⟨c, hc, h⟩)
      · exact ⟨child, Or.inl rfl, Or.inl h⟩
      · exact ⟨child, Or.inl rfl, Or.inr h⟩
      · exact ⟨c, Or.inr hc, h⟩
    · rintro ⟨c, hc | hc, h⟩
      · subst hc
        rcases h with h | h
        · exact Or.inl h
        · exact Or.inr (Or.inl h)
      · exact Or.inr (Or.inr ⟨c, hc, h⟩)

theorem mem_properDescendants (d : ASTNode) (type : ASTNodeType) (token : Option Token)
    (children : List ASTNode) :
    d ∈ properDescendants (.mk type token children)
      ↔ ∃ c ∈ children, d = c ∨ d ∈ properDescendants c := by
  simp only [properDescendants]
  exact mem_descendantsOfList d children

theorem mem_properDescendants_iff (d node : ASTNode) :
    d ∈ properDescendants node ↔ ∃ c ∈ node.children, d = c ∨ d ∈ properDescendants c := by
  obtain ⟨type, token, children⟩ := node
  exact mem_properDescendants d type token children

theorem pruneChildren_mem :
    ∀ (children pruned : List ASTNode), pruneChildren children = some pruned →
      ∀ k ∈ pruned, ∃ c ∈ children, _pruneParseTree c = some k := by
  intro children
  induction children with
  | nil =>
    intro pruned h k hk
    simp only [pruneChildren, Option.some.injEq] at h
    subst h
    exact absurd hk (List.not_mem_nil _)
  | cons child rest ih =>
    intro pruned h k hk
    simp only [pruneChildren] at h
    split at h
    · exact absurd h (by simp)
    · rename_i first hfirst
      split at h
      · exact absurd h (by simp)
      · rename_i others hothers
        simp only [Option.some.injEq] at h
        subst h
        rcases List.mem_cons.mp hk with hk | hk
        · subst hk
          exact ⟨child, List.mem_cons_self _ _, hfirst⟩
        · obtain ⟨c, hc, hp⟩ := ih others hothers k hk
          exact ⟨c, List.mem_cons_of_mem _ hc, hp⟩

theorem removeUnnecessary_mem :
    ∀ (pruned kept : List ASTNode), removeUnnecessary pruned = some kept →
      ∀ k ∈ kept, k ∈ pruned ∧ removable k = some false := by
  intro pruned
  induction pruned with
  | nil =>
    intro kept h k hk
    simp only [removeUnnecessary, Option.some.injEq] at h
    subst h
    exact absurd hk (List.not_mem_nil _)
  | cons node rest ih =>
    intro kept h k hk
    simp only [removeUnnecessary] at h
    split at h
    · rename_i others _ hothers
      simp only [Option.some.injEq] at h
      subst h
      obtain ⟨h1, h2⟩ := ih others hothers k hk
      exact ⟨List.mem_cons_of_mem _ h1, h2⟩
    · rename_i others hnode hothers
      simp only [Option.some.injEq] at h
      subst h
      rcases List.mem_cons.mp hk with hk | hk
      · subst hk
        exact ⟨List.mem_cons_self _ _, hnode⟩
      · obtain ⟨h1, h2⟩ := ih others hothers k hk
        exact ⟨List.mem_cons_of_mem _ h1, h2⟩
    · exact absurd h (by simp)

/-- The result of a successful pruning: the kept children are pruned children
that the predicate of `remove_if` rejects. -/
theorem pruneParseTree_some (type : ASTNodeType) (token : Option Token)
    (children : List ASTNode) (result : ASTNode)
    (h : _pruneParseTree (.mk type token children) = some result) :
    ∃ kept : List ASTNode, result = .mk type token (kept.map collapseChild)
      ∧ ∀ k ∈ kept, removable k = some false ∧ ∃ c ∈ children, _pruneParseTree c = some k := by
  simp only [_pruneParseTree] at h
  cases hpruned : pruneChildren children with
  | none => rw [hpruned] at h; exact absurd h (by simp)
  | some pruned =>
    rw [hpruned] at h
    simp only at h
    cases hkept : removeUnnecessary pruned with
    | none => rw [hkept] at h; exact absurd h (by simp)
    | some kept =>
      rw [hkept] at h
      simp only [Option.some.injEq] at h
      refine ⟨kept, h.symm, ?_⟩
      intro k hk
      obtain ⟨h1, h2⟩ := removeUnnecessary_mem pruned kept hkept k hk
      exact ⟨h2, pruneChildren_mem children pruned hpruned k h1⟩

theorem collapseChild_single (token : Option Token) (grandchild : ASTNode) :
    collapseChild (.mk .EMPTY token [grandchild]) = grandchild := rfl

theorem collapseChild_other (type : ASTNodeType) (token : Option Token)
    (children : List ASTNode) (h : ¬ (type = .EMPTY ∧ ∃ g, children = [g])) :
    collapseChild (.mk type token children) = .mk type token children := by
  unfold collapseChild
  split
  · rename_i tok g heq
    simp only [ASTNode.mk.injEq] at heq
    exact absurd ⟨heq.1, g, heq.2.2⟩ h
  · rfl

theorem not_superfluous_of_kept (type : ASTNodeType) (token : Option Token)
    (children : List ASTNode) (hkept : removable (.mk type token children) = some false)
    (h : ¬ (type = .EMPTY ∧ ∃ g, children = [g])) :
    ¬ Superfluous (.mk type token children) := by
  rintro (⟨h1, h2⟩ | ⟨h1, t, h2, h3⟩ | ⟨h1, h2⟩)
  · simp only [ASTNode.type] at h1
    simp only [ASTNode.children] at h2
    simp [removable, h1, h2] at hkept
  · simp only [ASTNode.type] at h1
    simp only [ASTNode.token] at h2
    simp [removable, h1, h2, h3] at hkept
  · simp only [ASTNode.type] at h1
    simp only [ASTNode.children] at h2
    exact h ⟨h1, List.length_eq_one.mp h2⟩

/-- The nodes below a child, and the child, are below the parent. -/
theorem properDescendants_of_child (type : ASTNodeType) (token : Option Token)
    (children : List ASTNode) (c : ASTNode) (hc : c ∈ children) (d : ASTNode)
    (hd : d = c ∨ d ∈ properDescendants c) :
    d ∈ properDescendants (.mk type token children) :=
  (mem_properDescendants d type token children).mpr ⟨c, hc, hd⟩

/-- The image of a kept child under the collapse of lines 556-560 is the
child or one of its children, what lies below the image lies below the child,
and the image is not superfluous when nothing below the child is. -/
theorem collapseChild_descendants (k : ASTNode) (hkept : removable k = some false)
    (hbelow : ∀ d ∈ properDescendants k, ¬ Superfluous d) :
    ¬ Superfluous (collapseChild k)
      ∧ (collapseChild k = k ∨ collapseChild k ∈ properDescendants k)
      ∧ ∀ d ∈ properDescendants (collapseChild k), d ∈ properDescendants k := by
  obtain ⟨type, token, children⟩ := k
  by_cases h : type = .EMPTY ∧ ∃ g, children = [g]
  · obtain ⟨rfl, g, rfl⟩ := h
    rw [collapseChild_single]
    have hg : g ∈ properDescendants (.mk .EMPTY token [g]) :=
      properDescendants_of_child _ _ _ g (List.mem_singleton.mpr rfl) g (Or.inl rfl)
    refine ⟨hbelow g hg, Or.inr hg, ?_⟩
    intro d hd
    exact properDescendants_of_child _ _ _ g (List.mem_singleton.mpr rfl) d (Or.inr hd)
  · rw [collapseChild_other type token children h]
    exact ⟨not_superfluous_of_kept type token children hkept h, Or.inl rfl, fun d hd => hd⟩

/-- After a successful pruning no proper descendant is superfluous. -/
theorem pruneParseTree_postcondition :
    ∀ (root result : ASTNode), _pruneParseTree root = some result →
      ∀ d ∈ properDescendants result, ¬ Superfluous d := by
  intro root
  induction root using ASTNode.induction with
  | step type token children ih =>
    intro result h d hd
    obtain ⟨kept, rfl, hkept⟩ := pruneParseTree_some type token children result h
    obtain ⟨image, himage, hdi⟩ := (mem_properDescendants d _ _ _).mp hd
    obtain ⟨k, hk, rfl⟩ := List.mem_map.mp himage
    obtain ⟨hrem, c, hc, hprune⟩ := hkept k hk
    obtain ⟨h1, _, h3⟩ := collapseChild_descendants k hrem (ih c hc k hprune)
    rcases hdi with rfl | hdi
    · exact h1
    · exact ih c hc k hprune d (h3 d hdi)

/-- Pruning keeps the kind and the token of the root. -/
theorem pruneParseTree_label (root result : ASTNode) (h : _pruneParseTree root = some result) :
    result.type = root.type ∧ result.token = root.token := by
  obtain ⟨type, token, children⟩ := root
  obtain ⟨kept, rfl, _⟩ := pruneParseTree_some type token children result h
  exact ⟨rfl, rfl⟩

/-- Every node of a pruned tree carries the kind and the token of a node of
the tree before. -/
theorem pruneParseTree_labels :
    ∀ (root result : ASTNode), _pruneParseTree root = some result →
      ∀ d, d = result ∨ d ∈ properDescendants result →
        ∃ m, (m = root ∨ m ∈ properDescendants root) ∧ m.type = d.type ∧ m.token = d.token := by
  intro root
  induction root using ASTNode.induction with
  | step type token children ih =>
    intro result h d hd
    rcases hd with rfl | hd
    · obtain ⟨h1, h2⟩ := pruneParseTree_label _ _ h
      exact ⟨_, Or.inl rfl, h1.symm, h2.symm⟩
    · obtain ⟨kept, rfl, hkept⟩ := pruneParseTree_some type token children result h
      obtain ⟨image, himage, hdi⟩ := (mem_properDescendants d _ _ _).mp hd
      obtain ⟨k, hk, rfl⟩ := List.mem_map.mp himage
      obtain ⟨hrem, c, hc, hprune⟩ := hkept k hk
      have hdk : d = k ∨ d ∈ properDescendants k := by
        obtain ⟨token2, type2, children2⟩ := k
        by_cases hs : token2 = .EMPTY ∧ ∃ g, children2 = [g]
        · obtain ⟨rfl, g, rfl⟩ := hs
          rw [collapseChild_single] at hdi
          exact Or.inr (properDescendants_of_child _ _ _ g (List.mem_singleton.mpr rfl) d hdi)
        · rw [collapseChild_other _ _ _ hs] at hdi
          exact hdi
      obtain ⟨m, hm, hlabel⟩ := ih c hc k hprune d hdk
      exact ⟨m, Or.inr (properDescendants_of_child _ _ _ c hc m hm), hlabel⟩

theorem pruneChildren_total :
    ∀ children : List ASTNode, (∀ c ∈ children, ∃ k, _pruneParseTree c = some k) →
      ∃ pruned, pruneChildren children = some pruned := by
  intro children
  induction children with
  | nil => intro _; exact ⟨[], rfl⟩
  | cons child rest ih =>
    intro h
    obtain ⟨k, hk⟩ := h child (List.mem_cons_self _ _)
    obtain ⟨others, hothers⟩ := ih (fun c hc => h c (List.mem_cons_of_mem _ hc))
    exact ⟨k :: others, by simp [pruneChildren, hk, hothers]⟩

theorem removeUnnecessary_total :
    ∀ pruned : List ASTNode, (∀ k ∈ pruned, ∃ b, removable k = some b) →
      ∃ kept, removeUnnecessary pruned = some kept := by
  intro pruned
  induction pruned with
  | nil => intro _; exact ⟨[], rfl⟩
  | cons node rest ih =>
    intro h
    obtain ⟨b, hb⟩ := h node (List.mem_cons_self _ _)
    obtain ⟨others, hothers⟩ := ih (fun c hc => h c (List.mem_cons_of_mem _ hc))
    cases b with
    | true => exact ⟨others, by simp [removeUnnecessary, hb, hothers]⟩
    | false => exact ⟨node :: others, by simp [removeUnnecessary, hb, hothers]⟩

/-- Pruning returns when every proper descendant that is not a placeholder
carries a token. -/
theorem pruneParseTree_total :
    ∀ root : ASTNode,
      (∀ d ∈ properDescendants root, d.type ≠ .EMPTY → d.token ≠ none) →
        ∃ result, _pruneParseTree root = some result := by
  intro root
  induction root using ASTNode.induction with
  | step type token children ih =>
    intro htokens
    obtain ⟨pruned, hpruned⟩ := pruneChildren_total children (fun c hc =>
      ih c hc (fun d hd => htokens d (properDescendants_of_child _ _ _ c hc d (Or.inr hd))))
    obtain ⟨kept, hkept⟩ := removeUnnecessary_total pruned (by
      intro k hk
      obtain ⟨c, hc, hprune⟩ := pruneChildren_mem children pruned hpruned k hk
      obtain ⟨h1, h2⟩ := pruneParseTree_label c k hprune
      have hc2 := htokens c (properDescendants_of_child _ _ _ c hc c (Or.inl rfl))
      obtain ⟨ctype, ctoken, cchildren⟩ := c
      obtain ⟨ktype, ktoken, kchildren⟩ := k
      simp only [ASTNode.type, ASTNode.token] at h1 h2 hc2
      subst h1
      subst h2
      by_cases hty : ktype = .EMPTY
      · exact ⟨kchildren.isEmpty, by simp [removable, hty]⟩
      · cases ktoken with
        | none => exact absurd rfl (hc2 hty)
        | some t =>
          exact ⟨decide (t.type = "(" ∨ t.type = ")"), by simp [removable, hty]⟩)
    exact ⟨.mk type token (kept.map collapseChild), by simp [_pruneParseTree, hpruned, hkept]⟩

end PruneLemmas

section PruneClaims

/-- C22, as stated, fails: the predicate of `remove_if` looks at the token
only of a node that is not a placeholder. A placeholder with two children and
a token of type `(` is neither removed nor collapsed: the tree is returned as
it is, with a proper descendant that carries a grouping delimiter. And on a
tree with a node that is not a placeholder and has no token, the predicate
dereferences the null token. -/
theorem prune_keeps_delimiter_on_placeholder :
    _pruneParseTree (.mk .EMPTY none
        [.mk .EMPTY (some { type := "(", value := "(" }) [numLeaf "1", numLeaf "2"]])
      = some (.mk .EMPTY none
        [.mk .EMPTY (some { type := "(", value := "(" }) [numLeaf "1", numLeaf "2"]])
    ∧ (∃ d ∈ properDescendants (.mk .EMPTY none
          [.mk .EMPTY (some { type := "(", value := "(" }) [numLeaf "1", numLeaf "2"]]),
        CarriesDelimiter d)
    ∧ _pruneParseTree (.mk .EMPTY none [.mk .OPERAND none []]) = none := by
  refine ⟨rfl, ⟨.mk .EMPTY (some { type := "(", value := "(" }) [numLeaf "1", numLeaf "2"],
    ?_, ⟨{ type := "(", value := "(" }, rfl, Or.inl rfl⟩⟩, rfl⟩
  simp [properDescendants, descendantsOfList]

/-- C22, amended: for every tree whose proper descendants other than
placeholders carry a token (the null token of another node would be
dereferenced), `_pruneParseTree` returns, and afterwards no proper descendant
of the root is
(a) a placeholder without children, (b) a node that is not a placeholder and
carries a token of type `(` or `)`, or (c) a placeholder with exactly one
child; if moreover no placeholder of the tree carries a token, as the parser
leaves them, then no proper descendant at all carries a token of type `(` or
`)`. -/
theorem prune_postcondition (root : ASTNode)
    (htokens : ∀ d ∈ properDescendants root, d.type ≠ .EMPTY → d.token ≠ none) :
    ∃ result, _pruneParseTree root = some result
      ∧ (∀ d ∈ properDescendants result,
          ¬ (d.type = .EMPTY ∧ d.children = [])
            ∧ ¬ (d.type ≠ .EMPTY ∧ CarriesDelimiter d)
            ∧ ¬ (d.type = .EMPTY ∧ d.children.length = 1))
      ∧ ((∀ m, m = root ∨ m ∈ properDescendants root → m.type = .EMPTY → m.token = none) →
          ∀ d ∈ properDescendants result, ¬ CarriesDelimiter d) := by
  obtain ⟨result, h⟩ := pruneParseTree_total root htokens
  have hpost := pruneParseTree_postcondition root result h
  refine ⟨result, h, ?_, ?_⟩
  · intro d hd
    have := hpost d hd
    exact ⟨fun ha => this (Or.inl ha), fun hb => this (Or.inr (Or.inl hb)),
      fun hc => this (Or.inr (Or.inr hc))⟩
  · intro hbare d hd hdel
    by_cases hty : d.type = .EMPTY
    · obtain ⟨m, hm, h1, h2⟩ := pruneParseTree_labels root result h d (Or.inr hd)
      have hnone := hbare m hm (by rw [h1]; exact hty)
      obtain ⟨t, ht, _⟩ := hdel
      rw [← h2, hnone] at ht
      exact absurd ht (by simp)
    · exact hpost d hd (Or.inr (Or.inl ⟨hty, hdel⟩))

theorem prune_postcondition_witness :
    (∀ d ∈ properDescendants (.mk .EMPTY none
        [.mk .EMPTY none [numLeaf "1"], .mk .EMPTY none [],
          .mk .OPERAND (some { type := "(", value := "(" }) []]),
        d.type ≠ .EMPTY → d.token ≠ none)
      ∧ ∃ result, _pruneParseTree (.mk .EMPTY none
          [.mk .EMPTY none [numLeaf "1"], .mk .EMPTY none [],
            .mk .OPERAND (some { type := "(", value := "(" }) []]) = some result
        ∧ (∀ d ∈ properDescendants result,
            ¬ (d.type = .EMPTY ∧ d.children = [])
              ∧ ¬ (d.type ≠ .EMPTY ∧ CarriesDelimiter d)
              ∧ ¬ (d.type = .EMPTY ∧ d.children.length = 1))
        ∧ ((∀ m, m = .mk .EMPTY none
              [.mk .EMPTY none [numLeaf "1"], .mk .EMPTY none [],
                .mk .OPERAND (some { type := "(", value := "(" }) []]
            ∨ m ∈ properDescendants (.mk .EMPTY none
              [.mk .EMPTY none [numLeaf "1"], .mk .EMPTY none [],
                .mk .OPERAND (some { type := "(", value := "(" }) []]) →
            m.type = .EMPTY → m.token = none) →
          ∀ d ∈ properDescendants result, ¬ CarriesDelimiter d) := by
  have htokens : ∀ d ∈ properDescendants (.mk .EMPTY none
      [.mk .EMPTY none [numLeaf "1"], .mk .EMPTY none [],
        .mk .OPERAND (some { type := "(", value := "(" }) []]),
      d.type ≠ .EMPTY → d.token ≠ none := by
    simp [properDescendants, descendantsOfList, numLeaf, ASTNode.type, ASTNode.token]
  exact ⟨htokens, prune_postcondition _ htokens⟩

end PruneClaims

/-! ## From the parse tree to the AST: the root -/

section RootClaims

/-- C25 at the grammar `E -> - num` with the unary-left slot at position 0 of
production 0, and the line `-2`: the parser returns the tree
`EMPTY[-, num 2]`; `_moveUpOperators` moves the operator to the root and
returns `true`; the second pruning leaves the root `-` with the single child
`2`, and the replacement of a one-child root (lines 516-517) returns the leaf
`2`: no node of the AST carries the token `-`, and `parse` writes
`ans = 2`. -/
theorem unary_operator_at_root_is_dropped (sqrt : ℚ → ℚ) :
    ((init [("E", ["-", "num"])] 2).bind (fun tables =>
        (_parseAndCreateParseTree
          (parserOf tables (fun i => if i = 0 then some 0 else none) ∅)
          [{ type := "-", value := "-" }, { type := "num", value := "2" }] 4).map
          (fun r => (r.1, r.2.astTree))))
      = some (.success,
          .mk .EMPTY none
            [.mk .UNARY_LEFT_OPERATOR (some { type := "-", value := "-" }) [], numLeaf "2"])
    ∧ _moveUpOperators (.mk .EMPTY none
          [.mk .UNARY_LEFT_OPERATOR (some { type := "-", value := "-" }) [], numLeaf "2"])
        = some (.mk .UNARY_LEFT_OPERATOR (some { type := "-", value := "-" })
            [.mk .EMPTY none [], numLeaf "2"], true)
    ∧ _pruneParseTree (.mk .UNARY_LEFT_OPERATOR (some { type := "-", value := "-" })
          [.mk .EMPTY none [], numLeaf "2"])
        = some (negateNode (numLeaf "2"))
    ∧ _convertParseTreeToAST (.mk .EMPTY none
          [.mk .UNARY_LEFT_OPERATOR (some { type := "-", value := "-" }) [], numLeaf "2"])
        = some (numLeaf "2")
    ∧ (∀ d, d = numLeaf "2" ∨ d ∈ properDescendants (numLeaf "2") →
        d.token ≠ some { type := "-", value := "-" })
    ∧ (init [("E", ["-", "num"])] 2).bind (fun tables =>
        parse (parserOf tables (fun i => if i = 0 then some 0 else none) ∅) atofDecimal sqrt
          [{ type := "-", value := "-" }, { type := "num", value := "2" }] 4)
      = some (.evaluated (.ans [{ coefficient := 2, exponent := 0 }])) := by
  refine ⟨?_, rfl, rfl, rfl, ?_, ?_⟩
  · simp [init, _readConfigFile, startSymbolOf, _computeFIRST, firstLoop, firstPass, firstStep,
      firstOfRhs, _computeFOLLOW, followLoop, followPass, followStep, followScan,
      _computeFIRST_PLUS, firstPlusOf, tableSet, symbolTypeOf, epsilonName, eofName,
      parserOf, _parseAndCreateParseTree, parseLoop, parseStep, initialState,
      eofToken, _constructLL1Table, constructFrom, tableWrite,
      updateAt, nodeAt, createdNodes, ASTNode.appendChildren, ASTNode.setToken,
      ASTNode.children, _binaryOperators, List.range, List.range.loop, numLeaf]
  · simp [properDescendants, descendantsOfList, numLeaf, ASTNode.token]
  · simp [init, _readConfigFile, startSymbolOf, _computeFIRST, firstLoop, firstPass, firstStep,
      firstOfRhs, _computeFOLLOW, followLoop, followPass, followStep, followScan,
      _computeFIRST_PLUS, firstPlusOf, tableSet, symbolTypeOf, epsilonName, eofName,
      parserOf, parse, _parseAndCreateParseTree, parseLoop, parseStep, initialState,
      eofToken, _constructLL1Table, constructFrom, tableWrite,
      updateAt, nodeAt, createdNodes, ASTNode.appendChildren, ASTNode.setToken,
      ASTNode.children, _binaryOperators, List.range, List.range.loop, numLeaf,
      _convertParseTreeToAST, _pruneParseTree, pruneChildren, removeUnnecessary, removable,
      collapseChild, replaceRoot, _moveUpOperators, moveUpAt, moveUpChildren, climb,
      swapWithChild, ASTNode.type, _evalASTTree, _evalASTNode, firstChar, atofDecimal,
      scanDigits]

end RootClaims

/-! ## Moving the operators up -/

section RelabelLemmas

theorem skeletonOfList_eq_map (l : List ASTNode) : skeletonOfList l = l.map skeleton := by
  induction l with
  | nil => rfl
  | cons c rest ih => simp [skeletonOfList, ih]

theorem skeleton_mk (type : ASTNodeType) (token : Option Token) (children : List ASTNode) :
    skeleton (.mk type token children) = .mk .EMPTY none (children.map skeleton) := by
  simp [skeleton, skeletonOfList_eq_map]

theorem labelsOfList_append (l1 l2 : List ASTNode) :
    labelsOfList (l1 ++ l2) = labelsOfList l1 ++ labelsOfList l2 := by
  induction l1 with
  | nil => rfl
  | cons c rest ih => simp [labelsOfList, ih]

/-- The list of children around position `i`. -/
theorem split_at_child (children : List ASTNode) (i : Nat) (child : ASTNode)
    (h : children[i]? = some child) :
    children = children.take i ++ child :: children.drop (i + 1)
      ∧ ∀ replacement, children.set i replacement
          = children.take i ++ replacement :: children.drop (i + 1) := by
  have hlt : i < children.length := by
    by_contra hge
    rw [List.getElem?_eq_none (by omega)] at h
    exact absurd h (by simp)
  have hget : children[i] = child := by
    rw [List.getElem?_eq_getElem hlt] at h
    exact Option.some.inj h
  constructor
  · rw [← hget]
    exact (List.take_append_drop i children).symm.trans
      (by rw [List.drop_eq_getElem_cons hlt])
  · intro replacement
    rw [List.set_eq_take_append_cons_drop, if_pos hlt]

theorem perm_exchange {α : Type} (a b : α) (l1 l2 l3 : List α) :
    (b :: (l1 ++ (a :: l2) ++ l3)).Perm (a :: (l1 ++ (b :: l2) ++ l3)) := by
  have h1 : (l1 ++ (a :: l2) ++ l3).Perm (a :: (l1 ++ l2 ++ l3)) := by
    rw [List.append_assoc, List.append_assoc]
    exact List.perm_middle
  have h2 : (l1 ++ (b :: l2) ++ l3).Perm (b :: (l1 ++ l2 ++ l3)) := by
    rw [List.append_assoc, List.append_assoc]
    exact List.perm_middle
  exact ((List.Perm.cons b h1).trans (List.Perm.swap a b _)).trans (List.Perm.cons a h2.symm)

/-- The exchange of lines 690-691 keeps the skeleton and permutes the
labels. -/
theorem swapWithChild_props (i : Nat) (node : ASTNode) :
    skeleton (swapWithChild i node) = skeleton node
      ∧ (labels (swapWithChild i node)).Perm (labels node) := by
  obtain ⟨type, token, children⟩ := node
  cases h : children[i]? with
  | none => simp [swapWithChild, h]
  | some child =>
    obtain ⟨childType, childToken, grandchildren⟩ := child
    obtain ⟨h1, h2⟩ := split_at_child children i _ h
    have hswap : swapWithChild i (.mk type token children)
        = .mk childType childToken (children.set i (.mk type token grandchildren)) := by
      simp [swapWithChild, h]
    rw [hswap, h2]
    constructor
    · rw [skeleton_mk, skeleton_mk]
      nth_rewrite 3 [h1]
      simp [skeleton_mk]
    · simp only [labels]
      nth_rewrite 3 [h1]
      simp only [labelsOfList_append, labelsOfList, labels]
      have := perm_exchange (type, token) (childType, childToken)
        (labelsOfList (children.take i)) (labelsOfList grandchildren)
        (labelsOfList (children.drop (i + 1)))
      simpa [List.append_assoc] using this

/-- A write through a pointer keeps the skeleton and permutes the labels when
the function written does. -/
theorem updateAt_props (f : ASTNode → ASTNode)
    (hf : ∀ node, skeleton (f node) = skeleton node ∧ (labels (f node)).Perm (labels node)) :
    ∀ (path : List Nat) (tree updated : ASTNode), updateAt f path tree = some updated →
      skeleton updated = skeleton tree ∧ (labels updated).Perm (labels tree) := by
  intro path
  induction path with
  | nil =>
    intro tree updated h
    simp only [updateAt, Option.some.injEq] at h
    rw [← h]
    exact hf tree
  | cons i path ih =>
    intro tree updated h
    obtain ⟨type, token, children⟩ := tree
    simp only [updateAt] at h
    split at h
    · exact absurd h (by simp)
    · rename_i child hchild
      split at h
      · exact absurd h (by simp)
      · rename_i inner hinner
        obtain ⟨hs, hl⟩ := ih child inner hinner
        simp only [Option.some.injEq] at h
        subst h
        obtain ⟨h1, h2⟩ := split_at_child children i child hchild
        rw [h2]
        constructor
        · rw [skeleton_mk, skeleton_mk]
          nth_rewrite 3 [h1]
          simp [hs]
        · simp only [labels]
          nth_rewrite 3 [h1]
          simp only [labelsOfList_append, labelsOfList]
          exact List.Perm.cons _
            (List.Perm.append_left _ (List.Perm.append_right _ hl))

theorem nodeAt_append :
    ∀ (p q : List Nat) (tree : ASTNode),
      nodeAt (p ++ q) tree = (nodeAt p tree).bind (nodeAt q) := by
  intro p
  induction p with
  | nil => intro q tree; rfl
  | cons i p ih =>
    intro q tree
    obtain ⟨type, token, children⟩ := tree
    simp only [List.cons_append, nodeAt]
    cases children[i]? with
    | none => rfl
    | some child => exact ih q child

/-- The node a path leads to in the skeleton is the skeleton of the node it
leads to in the tree. -/
theorem nodeAt_skeleton :
    ∀ (path : List Nat) (tree : ASTNode),
      nodeAt path (skeleton tree) = (nodeAt path tree).map skeleton := by
  intro path
  induction path with
  | nil => intro tree; rfl
  | cons i path ih =>
    intro tree
    obtain ⟨type, token, children⟩ := tree
    rw [skeleton_mk]
    simp only [nodeAt, List.getElem?_map]
    cases children[i]? with
    | none => rfl
    | some child => exact ih child

theorem updateAt_total (f : ASTNode → ASTNode) :
    ∀ (path : List Nat) (tree node : ASTNode), nodeAt path tree = some node →
      ∃ updated, updateAt f path tree = some updated := by
  intro path
  induction path with
  | nil => intro tree node _; exact ⟨f tree, rfl⟩
  | cons i path ih =>
    intro tree node h
    obtain ⟨type, token, children⟩ := tree
    simp only [nodeAt] at h
    split at h
    · exact absurd h (by simp)
    · rename_i child hchild
      obtain ⟨inner, hinner⟩ := ih child node h
      exact ⟨.mk type token (children.set i inner), by simp only [updateAt, hchild, hinner]⟩

theorem nodeAt_parent (path : List Nat) (i : Nat) (tree current : ASTNode)
    (h : nodeAt (path ++ [i]) tree = some current) :
    ∃ parent, nodeAt path tree = some parent ∧ parent.children[i]? = some current := by
  rw [nodeAt_append] at h
  cases hp : nodeAt path tree with
  | none => rw [hp] at h; exact absurd h (by simp)
  | some parent =>
    rw [hp] at h
    obtain ⟨type, token, children⟩ := parent
    change nodeAt [i] (ASTNode.mk type token children) = some current at h
    simp only [nodeAt] at h
    refine ⟨_, rfl, ?_⟩
    simp only [ASTNode.children]
    cases hc : children[i]? with
    | none => rw [hc] at h; exact absurd h (by simp)
    | some child =>
      rw [hc] at h
      simp only [nodeAt] at h
      rw [h]

/-- The loop of lines 670-693 returns when it starts at a node of the tree,
and the tree it leaves arises by exchanges of labels between a node and its
parent. -/
theorem climb_swaps :
    ∀ (reversed : List Nat) (tree : ASTNode) (hasLeft hasRight : Bool) (current : ASTNode),
      nodeAt reversed.reverse tree = some current →
        ∃ result ok, climb tree reversed hasLeft hasRight = some (result, ok)
          ∧ Relation.ReflTransGen LabelSwap tree result := by
  intro reversed
  induction reversed with
  | nil =>
    intro tree hasLeft hasRight current h
    rw [climb]
    simp only [h]
    split
    · exact ⟨tree, false, rfl, Relation.ReflTransGen.refl⟩
    · exact ⟨tree, true, rfl, Relation.ReflTransGen.refl⟩
  | cons childIndx parentReversed ih =>
    intro tree hasLeft hasRight current h
    have h2 := h
    rw [List.reverse_cons] at h2
    obtain ⟨parent, hparent, hchild⟩ := nodeAt_parent _ _ _ _ h2
    obtain ⟨swapped, hswapped⟩ :=
      updateAt_total (swapWithChild childIndx) _ _ _ hparent
    obtain ⟨node, hnode1, hnode2⟩ := nodeAt_updateAt_same _ _ _ _ hswapped
    obtain ⟨result, ok, hclimb, hsteps⟩ := ih swapped
      (hasLeft || decide (childIndx > 0))
      (hasRight || decide (childIndx < parent.children.length - 1)) _ hnode2
    rw [climb]
    simp only [h, hparent, hswapped]
    split
    · exact ⟨result, ok, hclimb,
        Relation.ReflTransGen.head ⟨_, childIndx, parent, current, hparent, hchild, hswapped⟩
          hsteps⟩
    · exact ⟨tree, true, rfl, Relation.ReflTransGen.refl⟩

theorem labelSwap_props (before after : ASTNode) (h : LabelSwap before after) :
    skeleton after = skeleton before ∧ (labels after).Perm (labels before) := by
  obtain ⟨path, i, _, _, _, _, hupdate⟩ := h
  exact updateAt_props (swapWithChild i) (swapWithChild_props i) path before after hupdate

theorem labelSwaps_props (before after : ASTNode)
    (h : Relation.ReflTransGen LabelSwap before after) :
    skeleton after = skeleton before ∧ (labels after).Perm (labels before) := by
  induction h with
  | refl => exact ⟨rfl, List.Perm.refl _⟩
  | tail _ hstep ih =>
    obtain ⟨h1, h2⟩ := labelSwap_props _ _ hstep
    exact ⟨h1.trans ih.1, h2.trans ih.2⟩

theorem nodeAt_of_skeleton (path : List Nat) (tree other : ASTNode) (image : ASTNode)
    (hsame : skeleton other = skeleton tree)
    (h : nodeAt path (skeleton tree) = some image) :
    ∃ node, nodeAt path other = some node := by
  rw [← hsame, nodeAt_skeleton] at h
  cases hn : nodeAt path other with
  | none => rw [hn] at h; exact absurd h (by simp)
  | some node => exact ⟨node, rfl⟩

/-- The loop of lines 662-664 over the children from number `k` on. -/
theorem moveUpChildren_swaps (path : List Nat) :
    ∀ (rest : List ASTNode) (k : Nat) (tree : ASTNode),
      (∀ c ∈ rest, ∀ (p : List Nat) (t : ASTNode),
        nodeAt p (skeleton t) = some (skeleton c) →
          ∃ result ok, moveUpAt c p t = some (result, ok)
            ∧ Relation.ReflTransGen LabelSwap t result) →
      (∀ (j : Nat) (c : ASTNode), rest[j]? = some c →
        nodeAt (path ++ [k + j]) (skeleton tree) = some (skeleton c)) →
      ∃ result ok, moveUpChildren rest path k tree = some (result, ok)
        ∧ Relation.ReflTransGen LabelSwap tree result := by
  intro rest
  induction rest with
  | nil =>
    intro k tree _ _
    exact ⟨tree, true, by simp [moveUpChildren], Relation.ReflTransGen.refl⟩
  | cons child rest ih =>
    intro k tree hP hpaths
    obtain ⟨moved, ok, hmoved, hsteps⟩ := hP child (List.mem_cons_self _ _) (path ++ [k]) tree
      (by simpa using hpaths 0 child (by simp))
    cases ok with
    | false =>
      exact ⟨moved, false, by simp [moveUpChildren, hmoved], hsteps⟩
    | true =>
      have hsame := (labelSwaps_props _ _ hsteps).1
      obtain ⟨result, ok2, hrest, hsteps2⟩ := ih (k + 1) moved
        (fun c hc => hP c (List.mem_cons_of_mem _ hc))
        (by
          intro j c hj
          rw [hsame]
          have := hpaths (j + 1) c (by simpa using hj)
          rw [show k + 1 + j = k + (j + 1) by omega]
          exact this)
      exact ⟨result, ok2, by simp [moveUpChildren, hmoved, hrest], hsteps.trans hsteps2⟩

/-- The call `_moveUpOperators(node)` on the node at `path` returns, and the
tree it leaves arises by exchanges of labels between a node and its parent. -/
theorem moveUpAt_swaps :
    ∀ (shape : ASTNode) (path : List Nat) (tree : ASTNode),
      nodeAt path (skeleton tree) = some (skeleton shape) →
        ∃ result ok, moveUpAt shape path tree = some (result, ok)
          ∧ Relation.ReflTransGen LabelSwap tree result := by
  intro shape
  induction shape using ASTNode.induction with
  | step type token children ih =>
    intro path tree hpath
    obtain ⟨moved, ok, hmoved, hsteps⟩ := moveUpChildren_swaps path children 0 tree ih (by
      intro j c hj
      rw [nodeAt_append, hpath, skeleton_mk]
      simp only [Option.some_bind, nodeAt, List.getElem?_map, Nat.zero_add, hj, Option.map_some']
      )
    cases ok with
    | false => exact ⟨moved, false, by simp [moveUpAt, hmoved], hsteps⟩
    | true =>
      have hsame := (labelSwaps_props _ _ hsteps).1
      obtain ⟨node, hnode⟩ := nodeAt_of_skeleton path tree moved _ hsame hpath
      obtain ⟨result, ok2, hclimb, hsteps2⟩ := climb_swaps path.reverse moved
        (decide (children.length ≥ 1)) (decide (children.length ≥ 2)) node
        (by rw [List.reverse_reverse]; exact hnode)
      exact ⟨result, ok2, by simp [moveUpAt, hmoved, hclimb], hsteps.trans hsteps2⟩

end RelabelLemmas

section RelabelClaims

/-- C27: on every tree `_moveUpOperators` returns, with success or failure,
and the tree it leaves arises from the tree it was given by exchanges of the
pair (kind, token) between a node and its parent: the skeleton, that is every
`children` vector and with it every parent reference, is the same, and the
labels of the tree after the call are a permutation of the labels before. -/
theorem moveUpOperators_only_relabels (root : ASTNode) :
    ∃ result ok, _moveUpOperators root = some (result, ok)
      ∧ Relation.ReflTransGen LabelSwap root result
      ∧ skeleton result = skeleton root
      ∧ (labels result).Perm (labels root) := by
  obtain ⟨result, ok, h, hsteps⟩ := moveUpAt_swaps root [] root rfl
  exact ⟨result, ok, h, hsteps, labelSwaps_props _ _ hsteps⟩

end RelabelClaims

/-! ## The parser loop: the three kinds of step -/

section StepLemmas

/-- The steps after which the loop goes on: an epsilon symbol is popped, a
terminal is matched (with or without a node), or a nonterminal is expanded. -/
theorem parseStep_cases (parser : Parser) (tokens : List Token) (s next : ParseState)
    (h : parseStep parser tokens s = .inl next) :
    ∃ (stackTop : Symbol) (rest : List Symbol), s.parseStack = stackTop :: rest
      ∧ ((stackTop.type = .EPSILON ∧ next = { s with parseStack := rest })
        ∨ (stackTop.type = .TERMINAL
            ∧ ∃ token : Token, tokens[s.nextInputToken]? = some token
              ∧ stackTop.name = token.type
              ∧ ((stackTop.name ∉ parser._unusedTerminals
                  ∧ ∃ (astStackTop : List Nat) (astStack : List (List Nat)) (tree : ASTNode),
                    s.astStack = astStackTop :: astStack
                    ∧ updateAt (ASTNode.setToken token) astStackTop s.astTree = some tree
                    ∧ next = { parseStack := rest, astStack := astStack, astTree := tree,
                               nextInputToken := s.nextInputToken + 1,
                               linePos := s.linePos + token.value.utf8ByteSize })
                ∨ (stackTop.name ∈ parser._unusedTerminals
                  ∧ next = { s with parseStack := rest,
                                    nextInputToken := s.nextInputToken + 1,
                                    linePos := s.linePos + token.value.utf8ByteSize })))
        ∨ (stackTop.type = .NONTERMINAL
            ∧ ∃ (token : Token) (i : Nat) (production : Production) (astStackTop : List Nat)
                (astStack : List (List Nat)) (tree node : ASTNode),
              tokens[s.nextInputToken]? = some token
              ∧ parser._ll1Table stackTop.name token.type = some i
              ∧ parser._productions[i]? = some production
              ∧ s.astStack = astStackTop :: astStack
              ∧ updateAt
                  (ASTNode.appendChildren (createdNodes parser i 0 production.rhsSymbols))
                  astStackTop s.astTree = some tree
              ∧ nodeAt astStackTop tree = some node
              ∧ next = { s with
                  parseStack := production.rhsSymbols ++ rest,
                  astStack :=
                    (List.range node.children.length).map (fun k => astStackTop ++ [k])
                      ++ astStack,
                  astTree := tree })) := by
  unfold parseStep at h
  split at h
  · exact absurd h (by simp)
  · rename_i stackTop rest hstack
    refine ⟨stackTop, rest, hstack, ?_⟩
    split at h
    · rename_i hty
      simp only [Sum.inl.injEq] at h
      exact Or.inl ⟨hty, h.symm⟩
    · split at h
      · exact absurd h (by simp)
      · split at h <;> exact absurd h (by simp)
    · rename_i hty
      right; left
      refine ⟨hty, ?_⟩
      split at h
      · exact absurd h (by simp)
      · rename_i token htoken
        split at h
        · rename_i hname
          refine ⟨token, htoken, hname, ?_⟩
          split at h
          · rename_i hused
            left
            refine ⟨hused, ?_⟩
            split at h
            · exact absurd h (by simp)
            · rename_i astStackTop astStack hast
              split at h
              · exact absurd h (by simp)
              · rename_i tree htree
                simp only [Sum.inl.injEq] at h
                exact ⟨astStackTop, astStack, tree, hast, htree, h.symm⟩
          · rename_i hunused
            right
            simp only [Sum.inl.injEq] at h
            exact ⟨not_not.mp hunused, h.symm⟩
        · exact absurd h (by simp)
    · rename_i hty
      right; right
      refine ⟨hty, ?_⟩
      split at h
      · exact absurd h (by simp)
      · rename_i token htoken
        split at h
        · exact absurd h (by simp)
        · rename_i i hi
          split at h
          · exact absurd h (by simp)
          · rename_i production hproduction
            split at h
            · exact absurd h (by simp)
            · rename_i astStackTop astStack hast
              split at h
              · exact absurd h (by simp)
              · rename_i tree htree
                split at h
                · exact absurd h (by simp)
                · rename_i node hnode
                  simp only [Sum.inl.injEq] at h
                  exact ⟨token, i, production, astStackTop, astStack, tree, node, htoken, hi,
                    hproduction, hast, htree, hnode, h.symm⟩

end StepLemmas

/-! ## The parser loop: soundness -/

section SoundnessLemmas

/-- A stack that is a body on top of the end-of-input symbol and whose top is
not an end-of-input symbol has its top in the body. -/
theorem body_of_stack (body rest : List Symbol) (stackTop bottom : Symbol)
    (h : body ++ [bottom] = stackTop :: rest) (hne : stackTop.type ≠ bottom.type) :
    ∃ tail, body = stackTop :: tail ∧ rest = tail ++ [bottom] := by
  cases body with
  | nil =>
    simp only [List.nil_append, List.cons.injEq] at h
    exact absurd (by rw [h.1]) hne
  | cons first tail =>
    simp only [List.cons_append, List.cons.injEq] at h
    exact ⟨tail, by rw [h.1], h.2.symm⟩

theorem take_succ_map_terminalOf (tokens : List Token) (n : Nat) (token : Token)
    (h : tokens[n]? = some token) :
    (tokens.take (n + 1)).map terminalOf = (tokens.take n).map terminalOf ++ [terminalOf token] := by
  rw [List.take_succ, h]
  simp

/-- Every step keeps the derivation invariant. -/
theorem parseStep_derivation (parser : Parser) (tokens : List Token)
    (hreg : NoEndSymbol parser) (htable : TablePointsToLhs parser) (s next : ParseState)
    (h : parseStep parser tokens s = .inl next) (hs : DerivationInvariant parser tokens s) :
    DerivationInvariant parser tokens next := by
  obtain ⟨body, hstack, hbody, hderives⟩ := hs
  obtain ⟨stackTop, rest, hstack2, hcases⟩ := parseStep_cases parser tokens s next h
  rw [hstack2] at hstack
  rcases hcases with ⟨hty, rfl⟩ | ⟨hty, token, htoken, hname, hmatch⟩
      | ⟨hty, token, i, production, astStackTop, astStack, tree, node, htoken, hi, hproduction,
          _, _, _, rfl⟩
  · obtain ⟨tail, rfl, rfl⟩ := body_of_stack body rest stackTop _ hstack.symm
      (by rw [hty]; decide)
    refine ⟨tail, rfl, fun x hx => hbody x (List.mem_cons_of_mem _ hx), ?_⟩
    obtain ⟨type, name⟩ := stackTop
    simp only at hty
    subst hty
    exact Relation.ReflTransGen.tail hderives
      (@DerivationStep.erase parser._productions name _ tail)
  · obtain ⟨tail, rfl, rfl⟩ := body_of_stack body rest stackTop _ hstack.symm
      (by rw [hty]; decide)
    have hsame : ((tokens.take (s.nextInputToken + 1)).map terminalOf ++ tail)
        = (tokens.take s.nextInputToken).map terminalOf ++ stackTop :: tail := by
      rw [take_succ_map_terminalOf tokens _ token htoken]
      obtain ⟨type, name⟩ := stackTop
      simp only at hty hname
      subst hty
      subst hname
      simp [terminalOf]
    rcases hmatch with ⟨_, _, _, _, _, _, rfl⟩ | ⟨_, rfl⟩
    · exact ⟨tail, rfl, fun x hx => hbody x (List.mem_cons_of_mem _ hx), by
        simp only
        rw [hsame]; exact hderives⟩
    · exact ⟨tail, rfl, fun x hx => hbody x (List.mem_cons_of_mem _ hx), by
        simp only
        rw [hsame]; exact hderives⟩
  · obtain ⟨tail, rfl, rfl⟩ := body_of_stack body rest stackTop _ hstack.symm
      (by rw [hty]; decide)
    obtain ⟨production2, hp2, hlhs⟩ := htable _ _ _ hi
    rw [hproduction] at hp2
    have hpeq : production = production2 := Option.some.inj hp2
    subst hpeq
    have hmem : production ∈ parser._productions := List.getElem?_mem hproduction
    refine ⟨production.rhsSymbols ++ tail, by simp, ?_, ?_⟩
    · intro x hx
      rcases List.mem_append.mp hx with hx | hx
      · exact hreg production hmem x hx
      · exact hbody x (List.mem_cons_of_mem _ hx)
    · obtain ⟨type, name⟩ := stackTop
      simp only at hty hlhs
      subst hty
      subst hlhs
      have hstep := DerivationStep.expand production
        ((tokens.take s.nextInputToken).map terminalOf) tail hmem
      simp only [List.append_assoc] at hstep
      exact Relation.ReflTransGen.tail hderives hstep

/-- A step that ends in success stands at an end-of-input symbol. -/
theorem parseStep_success_top (parser : Parser) (tokens : List Token) (s : ParseState)
    (h : parseStep parser tokens s = .inr .success) :
    ∃ stackTop rest, s.parseStack = stackTop :: rest ∧ stackTop.type = .EOFL := by
  unfold parseStep at h
  split at h
  · exact absurd h (by simp)
  · rename_i stackTop rest hstack
    refine ⟨stackTop, rest, hstack, ?_⟩
    split at h
    · exact absurd h (by simp)
    · rename_i hty
      exact hty
    · split at h
      · exact absurd h (by simp)
      · split at h
        · split at h
          · split at h
            · exact absurd h (by simp)
            · split at h <;> exact absurd h (by simp)
          · exact absurd h (by simp)
        · exact absurd h (by simp)
    · split at h
      · exact absurd h (by simp)
      · split at h
        · exact absurd h (by simp)
        · split at h
          · exact absurd h (by simp)
          · split at h
            · exact absurd h (by simp)
            · split at h
              · exact absurd h (by simp)
              · split at h <;> exact absurd h (by simp)

/-- When no token of the caller has the value of the end-of-input marker, a
step that ends in success has its cursor on the appended token. -/
theorem cursor_at_success (parser : Parser) (tokens : List Token)
    (hmarker : ∀ token ∈ tokens, token.value ≠ eofName) (s : ParseState)
    (h : parseStep parser (tokens ++ [eofToken]) s = .inr .success) :
    s.nextInputToken = tokens.length := by
  obtain ⟨token, htoken, hvalue⟩ := parseStep_success parser _ s h
  by_contra hne
  have hlt : s.nextInputToken < (tokens ++ [eofToken]).length := by
    by_contra hge
    rw [List.getElem?_eq_none (by omega)] at htoken
    exact absurd htoken (by simp)
  simp only [List.length_append, List.length_singleton] at hlt
  have hlt2 : s.nextInputToken < tokens.length := by omega
  rw [List.getElem?_append_left hlt2] at htoken
  exact hmarker token (List.getElem?_mem htoken) hvalue

/-- The tables `_constructLL1Table` builds point to productions of the
nonterminal they are filed under. -/
theorem constructLL1Table_pointsToLhs (productions : List Production)
    (FIRST_PLUS : List (Finset String)) (N t : String) (i : Nat)
    (h : _constructLL1Table productions FIRST_PLUS N t = some i) :
    ∃ production, productions[i]? = some production ∧ production.lhsSymbol = N := by
  obtain ⟨⟨production, _, hp, _, hlhs, _⟩, _⟩ :=
    (constructLL1Table_eq_some_iff productions FIRST_PLUS N t i).mp h
  exact ⟨production, hp, hlhs⟩

theorem expressionParser_regular :
    NoEndSymbol expressionParser ∧ TablePointsToLhs expressionParser := by
  constructor
  · simp [NoEndSymbol, expressionParser, expressionProductions]
  · intro N t i h
    exact constructLL1Table_pointsToLhs _ _ N t i h

end SoundnessLemmas

section SoundnessClaims

/-- C24: for every parser whose right-hand sides hold no end-of-input symbol
(as the reader leaves them) and whose table entries `(N, t) -> i` point to a
production with left-hand side `N`, and every token stream none of whose
tokens has the end-of-input marker as its value, if
`_parseAndCreateParseTree` ends in success then the start symbol derives, by
the productions of the grammar and the erasure of epsilon symbols, the
sequence of the terminal symbols named by the types of the tokens. -/
theorem parser_soundness (parser : Parser) (tokens : List Token)
    (hreg : NoEndSymbol parser) (htable : TablePointsToLhs parser)
    (hmarker : ∀ token ∈ tokens, token.value ≠ eofName)
    (fuel : Nat) (final : ParseState)
    (h : _parseAndCreateParseTree parser tokens fuel = some (.success, final)) :
    Derives parser._productions [{ type := .NONTERMINAL, name := parser._startSymbol }]
      (tokens.map terminalOf) := by
  unfold _parseAndCreateParseTree at h
  obtain ⟨hJ, hstep⟩ := parseLoop_final parser (tokens ++ [eofToken])
    (DerivationInvariant parser (tokens ++ [eofToken]))
    (parseStep_derivation parser _ hreg htable) fuel _ _ final h
    ⟨[{ type := .NONTERMINAL, name := parser._startSymbol }], rfl,
      by
        intro x hx
        rw [List.mem_singleton.mp hx]
        simp,
      Relation.ReflTransGen.refl⟩
  obtain ⟨body, hstack, hbody, hderives⟩ := hJ
  obtain ⟨stackTop, rest, hstack2, hty⟩ := parseStep_success_top parser _ final hstep
  have hcursor := cursor_at_success parser tokens hmarker final hstep
  have hnil : body = [] := by
    cases body with
    | nil => rfl
    | cons first tail =>
      rw [hstack2] at hstack
      simp only [List.cons_append, List.cons.injEq] at hstack
      exact absurd (hstack.1 ▸ hty) (hbody first (List.mem_cons_self _ _))
  rw [hnil, hcursor, List.take_left', List.append_nil] at hderives
  · exact hderives
  · rfl

theorem parser_soundness_witness :
    NoEndSymbol expressionParser ∧ TablePointsToLhs expressionParser
      ∧ (∀ token ∈ ([{ type := "num", value := "2" }] : List Token), token.value ≠ eofName)
      ∧ (∃ final,
          _parseAndCreateParseTree expressionParser [{ type := "num", value := "2" }] 20
            = some (.success, final))
      ∧ Derives expressionParser._productions
          [{ type := .NONTERMINAL, name := expressionParser._startSymbol }]
          (([{ type := "num", value := "2" }] : List Token).map terminalOf) := by
  have hmarker : ∀ token ∈ ([{ type := "num", value := "2" }] : List Token),
      token.value ≠ eofName := by
    intro token htoken
    rw [List.mem_singleton.mp htoken]
    decide
  have h : (_parseAndCreateParseTree expressionParser
      [{ type := "num", value := "2" }] 20).map (fun r => r.1) = some .success := by
    simp [_parseAndCreateParseTree, parseLoop, parseStep, initialState, expressionParser,
      eofToken, eofName, expressionProductions, _constructLL1Table, constructFrom, tableWrite,
      epsilonName, updateAt, nodeAt, createdNodes, ASTNode.appendChildren, ASTNode.setToken,
      ASTNode.children, _binaryOperators, List.range, List.range.loop]
  obtain ⟨r, hrun, hr⟩ := Option.map_eq_some'.mp h
  obtain ⟨outcome, final⟩ := r
  simp only at hr
  subst hr
  exact ⟨expressionParser_regular.1, expressionParser_regular.2, hmarker, ⟨final, hrun⟩,
    parser_soundness expressionParser _ expressionParser_regular.1 expressionParser_regular.2
      hmarker 20 final hrun⟩

end SoundnessClaims

/-! ## The parser loop: the two stacks and the tree -/

section TreeInvariantLemmas

theorem nodesAt_eq (path : List Nat) (node : ASTNode) :
    nodesAt path node = entryOf path node :: nodesOfChildren path 0 node.children := by
  obtain ⟨type, token, children⟩ := node
  rfl

theorem nodesOfChildren_append (path : List Nat) :
    ∀ (l1 l2 : List ASTNode) (k : Nat),
      nodesOfChildren path k (l1 ++ l2)
        = nodesOfChildren path k l1 ++ nodesOfChildren path (k + l1.length) l2 := by
  intro l1
  induction l1 with
  | nil => intro l2 k; simp [nodesOfChildren]
  | cons c rest ih =>
    intro l2 k
    have h := ih l2 (k + 1)
    rw [show k + 1 + rest.length = k + (c :: rest).length by
      simp only [List.length_cons]; omega] at h
    show nodesAt (path ++ [k]) c ++ nodesOfChildren path (k + 1) (rest ++ l2) = _
    rw [h]
    simp only [nodesOfChildren, List.append_assoc]

/-- The entries of the children from number `k` on: where an entry stands,
and what a write through the pointer to its node changes. -/
theorem nodesOfChildren_position (path : List Nat) :
    ∀ (children : List ASTNode),
      (∀ c ∈ children, ∀ (pre : List Nat) (A : List NodeEntry) (e : NodeEntry)
          (B : List NodeEntry), nodesAt pre c = A ++ e :: B →
        ∃ (q : List Nat) (node : ASTNode) (B2 : List NodeEntry),
          nodeAt q c = some node ∧ e.path = pre ++ q
            ∧ e :: B = nodesAt (pre ++ q) node ++ B2
            ∧ ∀ f : ASTNode → ASTNode, ∃ updated, updateAt f q c = some updated
                ∧ nodesAt pre updated = A ++ nodesAt (pre ++ q) (f node) ++ B2) →
      ∀ (k : Nat) (A : List NodeEntry) (e : NodeEntry) (B : List NodeEntry),
        nodesOfChildren path k children = A ++ e :: B →
        ∃ (i : Nat) (c : ASTNode) (q : List Nat) (node : ASTNode) (B2 : List NodeEntry),
          children[i]? = some c ∧ nodeAt q c = some node ∧ e.path = path ++ [k + i] ++ q
            ∧ e :: B = nodesAt (path ++ [k + i] ++ q) node ++ B2
            ∧ ∀ f : ASTNode → ASTNode, ∃ updated, updateAt f q c = some updated
                ∧ nodesOfChildren path k (children.set i updated)
                  = A ++ nodesAt (path ++ [k + i] ++ q) (f node) ++ B2 := by
  intro children
  induction children with
  | nil =>
    intro _ k A e B h
    simp only [nodesOfChildren] at h
    exact absurd h (by simp)
  | cons c0 rest ih =>
    intro hT k A e B h
    simp only [nodesOfChildren] at h
    have hrestT := fun c hc => hT c (List.mem_cons_of_mem _ hc)
    -- the entry stands among the entries of the later children
    have later : ∀ a2, A = nodesAt (path ++ [k]) c0 ++ a2 →
        nodesOfChildren path (k + 1) rest = a2 ++ e :: B →
        ∃ (i : Nat) (c : ASTNode) (q : List Nat) (node : ASTNode) (B2 : List NodeEntry),
          (c0 :: rest)[i]? = some c ∧ nodeAt q c = some node ∧ e.path = path ++ [k + i] ++ q
            ∧ e :: B = nodesAt (path ++ [k + i] ++ q) node ++ B2
            ∧ ∀ f : ASTNode → ASTNode, ∃ updated, updateAt f q c = some updated
                ∧ nodesOfChildren path k ((c0 :: rest).set i updated)
                  = A ++ nodesAt (path ++ [k + i] ++ q) (f node) ++ B2 := by
      intro a2 hA hrest
      obtain ⟨i, c, q, node, B2, h1, h2, h3, h4, h5⟩ := ih hrestT (k + 1) a2 e B hrest
      have hidx : k + 1 + i = k + (i + 1) := by omega
      rw [hidx] at h3 h4 h5
      refine ⟨i + 1, c, q, node, B2, by simpa using h1, h2, h3, h4, ?_⟩
      intro f
      obtain ⟨updated, hu1, hu2⟩ := h5 f
      refine ⟨updated, hu1, ?_⟩
      simp only [List.set_cons_succ, nodesOfChildren, hu2, hA, List.append_assoc]
    rcases List.append_eq_append_iff.mp h with ⟨a2, hA, hrest⟩ | ⟨c2, hfirst, hrest⟩
    · exact later a2 hA hrest
    · cases c2 with
      | nil =>
        simp only [List.append_nil] at hfirst
        simp only [List.nil_append] at hrest
        exact later [] (by rw [hfirst, List.append_nil]) (by rw [← hrest, List.nil_append])
      | cons e2 c3 =>
        simp only [List.cons_append, List.cons.injEq] at hrest
        obtain ⟨he, hB⟩ := hrest
        subst he
        obtain ⟨q, node, B2, h1, h2, h3, h4⟩ :=
          hT c0 (List.mem_cons_self _ _) (path ++ [k]) A e c3 hfirst
        refine ⟨0, c0, q, node, B2 ++ nodesOfChildren path (k + 1) rest, by simp, h1,
          by simpa using h2, ?_, ?_⟩
        · rw [hB]
          simp only [Nat.add_zero]
          rw [← List.append_assoc, ← h3]
          simp
        · intro f
          obtain ⟨updated, hu1, hu2⟩ := h4 f
          refine ⟨updated, hu1, ?_⟩
          simp only [List.set_cons_zero, nodesOfChildren, hu2, Nat.add_zero, List.append_assoc]

/-- Where an entry of the pre-order list stands in the tree: at the end of a
path that leads to its node; the entries from it on begin with those of the
node's subtree, and a write through the path replaces exactly these. -/
theorem nodesAt_position :
    ∀ (tree : ASTNode) (pre : List Nat) (A : List NodeEntry) (e : NodeEntry)
      (B : List NodeEntry), nodesAt pre tree = A ++ e :: B →
      ∃ (q : List Nat) (node : ASTNode) (B2 : List NodeEntry),
        nodeAt q tree = some node ∧ e.path = pre ++ q
          ∧ e :: B = nodesAt (pre ++ q) node ++ B2
          ∧ ∀ f : ASTNode → ASTNode, ∃ updated, updateAt f q tree = some updated
              ∧ nodesAt pre updated = A ++ nodesAt (pre ++ q) (f node) ++ B2 := by
  intro tree
  induction tree using ASTNode.induction with
  | step type token children ih =>
    intro pre A e B h
    cases A with
    | nil =>
      refine ⟨[], .mk type token children, [], rfl, ?_, ?_, ?_⟩
      · simp only [List.nil_append, nodesAt, List.cons.injEq] at h
        rw [← h.1]
        simp
      · simp only [List.nil_append] at h
        simp [← h]
      · intro f
        exact ⟨f (.mk type token children), rfl, by simp⟩
    | cons a A2 =>
      simp only [nodesAt, List.cons_append, List.cons.injEq] at h
      obtain ⟨ha, hrest⟩ := h
      obtain ⟨i, c, q, node, B2, h1, h2, h3, h4, h5⟩ :=
        nodesOfChildren_position pre children ih 0 A2 e B hrest
      simp only [Nat.zero_add] at h3 h4 h5
      have hpath : pre ++ [i] ++ q = pre ++ i :: q := by simp
      rw [hpath] at h3 h4 h5
      refine ⟨i :: q, node, B2, ?_, h3, h4, ?_⟩
      · simp only [nodeAt, h1]
        exact h2
      · intro f
        obtain ⟨updated, hu1, hu2⟩ := h5 f
        refine ⟨.mk type token (children.set i updated), ?_, ?_⟩
        · simp only [updateAt, h1, hu1]
        · simp only [nodesAt, List.length_set, hu2, ← ha, List.cons_append]

/-- The first waiting node: its entry determines the node, and a write
through its pointer replaces its entry by the entries of the node written. -/
theorem pending_head (tree : ASTNode) (finished : List NodeEntry) (e : NodeEntry)
    (pending : List NodeEntry) (h : nodesAt [] tree = finished ++ e :: pending)
    (hleaf : e.childCount = 0) :
    ∃ node, nodeAt e.path tree = some node ∧ node.type = e.type ∧ node.token = e.token
      ∧ node.children = []
      ∧ ∀ f : ASTNode → ASTNode, ∃ updated, updateAt f e.path tree = some updated
          ∧ nodesAt [] updated = finished ++ nodesAt e.path (f node) ++ pending := by
  obtain ⟨q, node, B2, h1, h2, h3, h4⟩ := nodesAt_position tree [] finished e pending h
  simp only [List.nil_append] at h2 h3 h4
  rw [← h2] at h3 h4
  rw [nodesAt_eq] at h3
  simp only [List.cons_append, List.cons.injEq] at h3
  obtain ⟨he, hB⟩ := h3
  have hchildren : node.children = [] := by
    have : node.children.length = 0 := by
      rw [← hleaf, he]
      rfl
    exact List.length_eq_zero.mp this
  rw [hchildren] at hB
  simp only [nodesOfChildren, List.nil_append] at hB
  rw [← h2] at h1
  refine ⟨node, h1, by rw [he]; rfl, by rw [he]; rfl, hchildren, ?_⟩
  intro f
  obtain ⟨updated, hu1, hu2⟩ := h4 f
  exact ⟨updated, hu1, by rw [hu2, hB]⟩

/-- The nodes created by an expansion, as entries below the node at `top`:
their pointers are the paths `top ++ [j]`, and they wait, in order, for the
counted symbols of the right-hand side. -/
theorem createdNodes_entries (parser : Parser) (i : Nat) (top : List Nat) :
    ∀ (rhs : List Symbol) (position k : Nat),
      (nodesOfChildren top k (createdNodes parser i position rhs)).map
          (fun entry => entry.path)
        = (List.range' k (createdNodes parser i position rhs).length).map
            (fun j => top ++ [j])
      ∧ List.Forall₂ Awaits (rhs.filter (counted parser))
          (nodesOfChildren top k (createdNodes parser i position rhs)) := by
  intro rhs
  induction rhs with
  | nil =>
    intro position k
    simp [createdNodes, nodesOfChildren]
  | cons symbol rest ih =>
    intro position k
    cases hty : symbol.type with
    | EPSILON =>
      have hc : counted parser symbol = false := by simp [counted, hty]
      simp only [createdNodes, hty, List.filter_cons, hc]
      exact ih (position + 1) k
    | EOFL =>
      have hc : counted parser symbol = false := by simp [counted, hty]
      simp only [createdNodes, hty, List.filter_cons, hc]
      exact ih (position + 1) k
    | NONTERMINAL =>
      have hc : counted parser symbol = true := by simp [counted, hty]
      obtain ⟨h1, h2⟩ := ih (position + 1) (k + 1)
      simp only [createdNodes, hty, List.filter_cons, hc, nodesOfChildren, nodesAt,
        List.length_cons, List.length_nil, List.append_nil, List.cons_append, List.nil_append,
        List.map_cons, h1, List.range'_succ, if_true]
      refine ⟨trivial, List.Forall₂.cons ?_ h2⟩
      exact ⟨rfl, rfl, fun _ => rfl, fun h => absurd (hty.symm.trans h) (by decide)⟩
    | TERMINAL =>
      by_cases hu : symbol.name ∈ parser._unusedTerminals
      · have hc : counted parser symbol = false := by simp [counted, hty, hu]
        simp only [createdNodes, hty, hu, if_true, List.filter_cons, hc]
        exact ih (position + 1) k
      · have hc : counted parser symbol = true := by simp [counted, hty, hu]
        obtain ⟨h1, h2⟩ := ih (position + 1) (k + 1)
        simp only [createdNodes, hty, hu, if_false, List.filter_cons, hc, nodesOfChildren,
          nodesAt, List.length_cons, List.length_nil, List.append_nil, List.cons_append,
          List.nil_append, List.map_cons, h1, List.range'_succ, if_true]
        refine ⟨trivial, List.Forall₂.cons ?_ h2⟩
        refine ⟨rfl, rfl, fun h => absurd (hty.symm.trans h) (by decide), fun _ => ?_⟩
        simp only
        split
        · decide
        · split <;> decide

theorem usedTokens_take_succ (parser : Parser) (tokens : List Token) (n : Nat)
    (token : Token) (h : tokens[n]? = some token) :
    usedTokens parser (tokens.take (n + 1))
      = usedTokens parser (tokens.take n)
        ++ (if token.type ∉ parser._unusedTerminals then [token] else []) := by
  unfold usedTokens
  rw [List.take_succ, h]
  simp only [Option.toList, List.filter_append, List.filter_cons, List.filter_nil]
  by_cases hu : token.type ∈ parser._unusedTerminals
  · simp [hu]
  · simp [hu]

theorem yieldOf_append (l1 l2 : List NodeEntry) :
    yieldOf (l1 ++ l2) = yieldOf l1 ++ yieldOf l2 := by
  simp [yieldOf]

/-- The way a used symbol on top of the symbol stack meets the first waiting
node. -/
theorem awaited_head (parser : Parser) (stackTop : Symbol) (rest : List Symbol)
    (pending : List NodeEntry) (astStackTop : List Nat) (astStack : List (List Nat))
    (hcounted : counted parser stackTop = true)
    (hawait : List.Forall₂ Awaits ((stackTop :: rest).filter (counted parser)) pending)
    (hpaths : pending.map (fun entry => entry.path) = astStackTop :: astStack) :
    ∃ e others, pending = e :: others ∧ Awaits stackTop e ∧ e.path = astStackTop
      ∧ others.map (fun entry => entry.path) = astStack
      ∧ List.Forall₂ Awaits (rest.filter (counted parser)) others := by
  rw [List.filter_cons, if_pos hcounted] at hawait
  cases hawait with
  | cons h1 h2 =>
    rename_i e others
    simp only [List.map_cons, List.cons.injEq] at hpaths
    exact ⟨e, others, rfl, h1, hpaths.1, hpaths.2, h2⟩

/-- Every step keeps the invariant of the two stacks and the tree. -/
theorem parseStep_treeInvariant (parser : Parser) (tokens : List Token) (s next : ParseState)
    (h : parseStep parser tokens s = .inl next) (hs : TreeInvariant parser tokens s) :
    TreeInvariant parser tokens next := by
  obtain ⟨finished, pending, hnodes, hpaths, hawait, hyield⟩ := hs
  obtain ⟨stackTop, rest, hstack, hcases⟩ := parseStep_cases parser tokens s next h
  rw [hstack] at hawait
  rcases hcases with ⟨hty, rfl⟩ | ⟨hty, token, htoken, hname, hmatch⟩
      | ⟨hty, token, i, production, astStackTop, astStack, tree, node2, htoken, hi,
          hproduction, hast, htree, hnode2, rfl⟩
  · have hc : counted parser stackTop = false := by simp [counted, hty]
    rw [List.filter_cons, hc] at hawait
    exact ⟨finished, pending, hnodes, hpaths, hawait, hyield⟩
  · rcases hmatch with ⟨hused, astStackTop, astStack, tree, hast, htree, rfl⟩ | ⟨hunused, rfl⟩
    · have hc : counted parser stackTop = true := by simp [counted, hty, hused]
      rw [hast] at hpaths
      obtain ⟨e, others, rfl, hawaits, hpath, hothers, hrest⟩ :=
        awaited_head parser stackTop rest pending astStackTop astStack hc hawait hpaths
      obtain ⟨node, _, hntype, hntoken, hnchildren, hupdate⟩ :=
        pending_head s.astTree finished e others hnodes hawaits.2.1
      obtain ⟨updated, hu1, hu2⟩ := hupdate (ASTNode.setToken token)
      rw [hpath, htree] at hu1
      have hut : tree = updated := Option.some.inj hu1
      subst hut
      obtain ⟨ntype, ntoken, nchildren⟩ := node
      simp only [ASTNode.type, ASTNode.children] at hntype hnchildren
      subst hnchildren
      refine ⟨finished ++ [NodeEntry.mk e.path ntype (some token) 0], others, ?_, hothers,
        hrest, ?_⟩
      · simp only
        rw [hu2]
        simp [ASTNode.setToken, nodesAt, nodesOfChildren]
      · simp only
        rw [yieldOf_append, hyield, usedTokens_take_succ parser tokens _ token htoken]
        have hne : ntype ≠ .EMPTY := hntype ▸ hawaits.2.2.2 hty
        have hu : token.type ∉ parser._unusedTerminals := hname ▸ hused
        simp [yieldOf, hne, hu]
    · have hc : counted parser stackTop = false := by simp [counted, hty, hunused]
      rw [List.filter_cons, hc] at hawait
      refine ⟨finished, pending, hnodes, hpaths, hawait, ?_⟩
      simp only
      rw [hyield, usedTokens_take_succ parser tokens _ token htoken]
      have hu : token.type ∈ parser._unusedTerminals := hname ▸ hunused
      simp [hu]
  · have hc : counted parser stackTop = true := by simp [counted, hty]
    rw [hast] at hpaths
    obtain ⟨e, others, rfl, hawaits, hpath, hothers, hrest⟩ :=
      awaited_head parser stackTop rest pending astStackTop astStack hc hawait hpaths
    obtain ⟨node, hnodeAt, hntype, hntoken, hnchildren, hupdate⟩ :=
      pending_head s.astTree finished e others hnodes hawaits.2.1
    obtain ⟨updated, hu1, hu2⟩ := hupdate
      (ASTNode.appendChildren (createdNodes parser i 0 production.rhsSymbols))
    rw [hpath, htree] at hu1
    have hut : tree = updated := Option.some.inj hu1
    subst hut
    obtain ⟨node3, hn1, hn2⟩ := nodeAt_updateAt_same _ _ _ _ htree
    rw [hnode2] at hn2
    have hnode2eq := Option.some.inj hn2
    rw [hpath, hn1] at hnodeAt
    have hnode3eq := Option.some.inj hnodeAt
    subst hnode3eq
    obtain ⟨ntype, ntoken, nchildren⟩ := node3
    simp only [ASTNode.type, ASTNode.children] at hntype hnchildren
    subst hnchildren
    obtain ⟨hentries1, hentries2⟩ :=
      createdNodes_entries parser i e.path production.rhsSymbols 0 0
    refine ⟨finished ++ [NodeEntry.mk e.path ntype ntoken
        (createdNodes parser i 0 production.rhsSymbols).length],
      nodesOfChildren e.path 0 (createdNodes parser i 0 production.rhsSymbols) ++ others,
      ?_, ?_, ?_, ?_⟩
    · simp only
      rw [hu2]
      simp [ASTNode.appendChildren, nodesAt]
    · simp only
      rw [List.map_append, hentries1, hothers, hnode2eq, hpath]
      simp [ASTNode.appendChildren, ASTNode.children, List.range_eq_range']
    · simp only
      rw [List.filter_append]
      exact List.rel_append hentries2 hrest
    · simp only
      rw [yieldOf_append, hyield]
      have hempty : ntype = .EMPTY := hntype ▸ hawaits.2.2.1 hty
      simp [yieldOf, hempty]

theorem initialState_treeInvariant (parser : Parser) (tokens : List Token) :
    TreeInvariant parser tokens (initialState parser) := by
  refine ⟨[], [NodeEntry.mk [] .EMPTY none 0], rfl, rfl, ?_, rfl⟩
  have h1 : counted parser { type := .NONTERMINAL, name := parser._startSymbol } = true := by
    simp [counted]
  have h2 : counted parser { type := .EOFL, name := eofName } = false := by
    simp [counted]
  simp only [initialState, List.filter_cons, h1, h2, List.filter_nil, if_true]
  exact List.Forall₂.cons ⟨rfl, rfl, fun _ => rfl, fun h => absurd h (by simp)⟩
    List.Forall₂.nil

/-- Every state the loop passes through satisfies the invariant of the two
stacks and the tree. -/
theorem reachable_treeInvariant (parser : Parser) (tokens : List Token) (s : ParseState)
    (h : Reachable parser tokens s) : TreeInvariant parser (tokens ++ [eofToken]) s := by
  unfold Reachable at h
  induction h with
  | refl => exact initialState_treeInvariant parser _
  | tail _ hstep ih => exact parseStep_treeInvariant parser _ _ _ hstep ih

end TreeInvariantLemmas

section SynchronisationClaims

/-- C28: in every state the loop of `_parseAndCreateParseTree` passes through,
the number of nodes on the node stack equals the number of symbols on the
symbol stack that are nonterminals or terminals outside the unused-terminal
set; hence the node stack is not empty when the symbol on top is one of
these, which are the two cases in which the parser takes `astStack.top()`. -/
theorem stack_synchronisation (parser : Parser) (tokens : List Token) (s : ParseState)
    (h : Reachable parser tokens s) :
    s.astStack.length = (s.parseStack.filter (counted parser)).length
      ∧ ∀ (stackTop : Symbol) (rest : List Symbol), s.parseStack = stackTop :: rest →
          (stackTop.type = .NONTERMINAL
            ∨ (stackTop.type = .TERMINAL ∧ stackTop.name ∉ parser._unusedTerminals)) →
          s.astStack ≠ [] := by
  obtain ⟨finished, pending, _, hpaths, hawait, _⟩ := reachable_treeInvariant parser tokens s h
  have hlen : s.astStack.length = (s.parseStack.filter (counted parser)).length := by
    rw [← hpaths, List.length_map, hawait.length_eq]
  refine ⟨hlen, ?_⟩
  intro stackTop rest hstack htop hempty
  have hc : counted parser stackTop = true := by simp [counted, htop]
  rw [hstack, List.filter_cons, if_pos hc, hempty] at hlen
  simp at hlen

theorem stack_synchronisation_witness :
    Reachable expressionParser [{ type := "num", value := "2" }]
        { parseStack := [{ type := .NONTERMINAL, name := "T" },
            { type := .NONTERMINAL, name := "E'" }, { type := .EOFL, name := "^" }],
          astStack := [[0], [1]],
          astTree := .mk .EMPTY none [.mk .EMPTY none [], .mk .EMPTY none []],
          nextInputToken := 0,
          linePos := 0 }
      ∧ ([[0], [1]] : List (List Nat)).length
          = (([{ type := .NONTERMINAL, name := "T" }, { type := .NONTERMINAL, name := "E'" },
              { type := .EOFL, name := "^" }] : List Symbol).filter
              (counted expressionParser)).length := by
  have hstep : parseStep expressionParser ([{ type := "num", value := "2" }] ++ [eofToken])
      (initialState expressionParser)
      = .inl
          { parseStack := [{ type := .NONTERMINAL, name := "T" },
              { type := .NONTERMINAL, name := "E'" }, { type := .EOFL, name := "^" }],
            astStack := [[0], [1]],
            astTree := .mk .EMPTY none [.mk .EMPTY none [], .mk .EMPTY none []],
            nextInputToken := 0,
            linePos := 0 } := by
    simp [parseStep, initialState, expressionParser,
      eofToken, eofName, expressionProductions, _constructLL1Table, constructFrom, tableWrite,
      epsilonName, updateAt, nodeAt, createdNodes, ASTNode.appendChildren, ASTNode.setToken,
      ASTNode.children, _binaryOperators, List.range, List.range.loop]
  have hreach : Reachable expressionParser [{ type := "num", value := "2" }]
      { parseStack := [{ type := .NONTERMINAL, name := "T" },
          { type := .NONTERMINAL, name := "E'" }, { type := .EOFL, name := "^" }],
        astStack := [[0], [1]],
        astTree := .mk .EMPTY none [.mk .EMPTY none [], .mk .EMPTY none []],
        nextInputToken := 0,
        linePos := 0 } :=
    Relation.ReflTransGen.single hstep
  exact ⟨hreach, (stack_synchronisation expressionParser _ _ hreach).1⟩

end SynchronisationClaims

/-! ## The parser loop: the yield of the parse tree -/

section YieldLemmas

/-- Every step keeps the shape of the symbol stack when no right-hand side
holds an end-of-input symbol. -/
theorem parseStep_stackShape (parser : Parser) (tokens : List Token) (hreg : NoEndSymbol parser)
    (s next : ParseState) (h : parseStep parser tokens s = .inl next) (hs : StackShape s) :
    StackShape next := by
  obtain ⟨body, hstack, hbody⟩ := hs
  obtain ⟨stackTop, rest, hstack2, hcases⟩ := parseStep_cases parser tokens s next h
  rw [hstack2] at hstack
  have hpop : stackTop.type ≠ .EOFL →
      ∃ tail, body = stackTop :: tail ∧ rest = tail ++ [{ type := .EOFL, name := eofName }] :=
    fun hne => body_of_stack body rest stackTop _ hstack.symm hne
  rcases hcases with ⟨hty, rfl⟩ | ⟨hty, token, _, _, hmatch⟩
      | ⟨hty, token, i, production, _, _, _, _, _, _, hproduction, _, _, _, rfl⟩
  · obtain ⟨tail, rfl, rfl⟩ := hpop (by rw [hty]; decide)
    exact ⟨tail, rfl, fun x hx => hbody x (List.mem_cons_of_mem _ hx)⟩
  · obtain ⟨tail, rfl, rfl⟩ := hpop (by rw [hty]; decide)
    rcases hmatch with ⟨_, _, _, _, _, _, rfl⟩ | ⟨_, rfl⟩
    · exact ⟨tail, rfl, fun x hx => hbody x (List.mem_cons_of_mem _ hx)⟩
    · exact ⟨tail, rfl, fun x hx => hbody x (List.mem_cons_of_mem _ hx)⟩
  · obtain ⟨tail, rfl, rfl⟩ := hpop (by rw [hty]; decide)
    refine ⟨production.rhsSymbols ++ tail, by simp, ?_⟩
    intro x hx
    rcases List.mem_append.mp hx with hx | hx
    · exact hreg production (List.getElem?_mem hproduction) x hx
    · exact hbody x (List.mem_cons_of_mem _ hx)

theorem initialState_stackShape (parser : Parser) : StackShape (initialState parser) :=
  ⟨[{ type := .NONTERMINAL, name := parser._startSymbol }], rfl, by
    intro x hx
    rw [List.mem_singleton.mp hx]
    simp⟩

/-- A stack of the invariant shape with an end-of-input symbol on top holds
nothing else. -/
theorem stackShape_at_end (s : ParseState) (hs : StackShape s) (stackTop : Symbol)
    (rest : List Symbol) (hstack : s.parseStack = stackTop :: rest)
    (hty : stackTop.type = .EOFL) :
    s.parseStack = [{ type := .EOFL, name := eofName }] := by
  obtain ⟨body, hshape, hbody⟩ := hs
  cases body with
  | nil => exact hshape
  | cons first tail =>
    rw [hstack] at hshape
    simp only [List.cons_append, List.cons.injEq] at hshape
    exact absurd (hshape.1 ▸ hty) (hbody first (List.mem_cons_self _ _))

end YieldLemmas

section YieldClaims

/-- C26 as stated fails: on the caller tokens `2`, `^`, `3`, the second of
which has the value of the end-of-input marker, the expression parser ends
in success with a tree whose only token is `2`, while none of the three
tokens has a type of the unused-terminal set. -/
theorem yield_misses_unconsumed_tokens :
    (_parseAndCreateParseTree expressionParser
        [{ type := "num", value := "2" }, { type := "^", value := "^" },
          { type := "num", value := "3" }] 30).map
        (fun r => (r.1, yieldOf (nodesAt [] r.2.astTree)))
      = some (.success, [some { type := "num", value := "2" }])
    ∧ (usedTokens expressionParser
        [{ type := "num", value := "2" }, { type := "^", value := "^" },
          { type := "num", value := "3" }]).map some
      = [some { type := "num", value := "2" }, some { type := "^", value := "^" },
          some { type := "num", value := "3" }] := by
  constructor
  · simp [_parseAndCreateParseTree, parseLoop, parseStep, initialState, expressionParser,
      eofToken, eofName, expressionProductions, _constructLL1Table, constructFrom, tableWrite,
      epsilonName, updateAt, nodeAt, createdNodes, ASTNode.appendChildren, ASTNode.setToken,
      ASTNode.children, _binaryOperators, List.range, List.range.loop, yieldOf, nodesAt,
      nodesOfChildren]
  · simp [usedTokens, expressionParser]

/-- C26, amended: for every parser whose right-hand sides hold no
end-of-input symbol and every token stream none of whose tokens has the
end-of-input marker as its value, whenever `_parseAndCreateParseTree` ends in
success, every node of the tree that is not a placeholder (the nodes created
for terminal symbols) carries a token, and the tokens of these nodes in
pre-order are exactly the caller's tokens whose type is not in the
unused-terminal set, in input order. -/
theorem parse_tree_yield (parser : Parser) (tokens : List Token)
    (hreg : NoEndSymbol parser) (hmarker : ∀ token ∈ tokens, token.value ≠ eofName)
    (fuel : Nat) (final : ParseState)
    (h : _parseAndCreateParseTree parser tokens fuel = some (.success, final)) :
    (∀ entry ∈ nodesAt [] final.astTree, entry.type ≠ .EMPTY → entry.token ≠ none)
      ∧ yieldOf (nodesAt [] final.astTree) = (usedTokens parser tokens).map some := by
  unfold _parseAndCreateParseTree at h
  obtain ⟨⟨hshape, hinv⟩, hstep⟩ := parseLoop_final parser (tokens ++ [eofToken])
    (fun s => StackShape s ∧ TreeInvariant parser (tokens ++ [eofToken]) s)
    (fun s next hstep hs => ⟨parseStep_stackShape parser _ hreg s next hstep hs.1,
      parseStep_treeInvariant parser _ s next hstep hs.2⟩)
    fuel _ _ final h
    ⟨initialState_stackShape parser, initialState_treeInvariant parser _⟩
  obtain ⟨stackTop, rest, hstack, hty⟩ := parseStep_success_top parser _ final hstep
  have hcursor := cursor_at_success parser tokens hmarker final hstep
  have hend := stackShape_at_end final hshape stackTop rest hstack hty
  obtain ⟨finished, pending, hnodes, _, hawait, hyield⟩ := hinv
  have hc : counted parser { type := .EOFL, name := eofName } = false := by simp [counted]
  rw [hend, List.filter_cons, hc] at hawait
  simp only [List.filter_nil, Bool.false_eq_true, if_false] at hawait
  cases hawait
  rw [List.append_nil] at hnodes
  rw [hcursor, List.take_left' rfl] at hyield
  rw [hnodes]
  refine ⟨?_, hyield⟩
  intro entry hentry hne hnone
  have hmem : entry.token ∈ yieldOf finished := by
    unfold yieldOf
    exact List.mem_map.mpr ⟨entry, List.mem_filter.mpr ⟨hentry, by simpa using hne⟩, rfl⟩
  rw [hyield, hnone] at hmem
  simp at hmem

theorem parse_tree_yield_witness :
    NoEndSymbol expressionParser
      ∧ (∀ token ∈ ([{ type := "num", value := "2" }, { type := "+", value := "+" },
            { type := "num", value := "3" }] : List Token), token.value ≠ eofName)
      ∧ ∃ final,
          _parseAndCreateParseTree expressionParser
              [{ type := "num", value := "2" }, { type := "+", value := "+" },
                { type := "num", value := "3" }] 40
            = some (.success, final)
          ∧ (∀ entry ∈ nodesAt [] final.astTree, entry.type ≠ .EMPTY → entry.token ≠ none)
          ∧ yieldOf (nodesAt [] final.astTree)
            = (usedTokens expressionParser
                [{ type := "num", value := "2" }, { type := "+", value := "+" },
                  { type := "num", value := "3" }]).map some := by
  have hmarker : ∀ token ∈ ([{ type := "num", value := "2" }, { type := "+", value := "+" },
      { type := "num", value := "3" }] : List Token), token.value ≠ eofName := by
    simp [eofName]
  have h : (_parseAndCreateParseTree expressionParser
      [{ type := "num", value := "2" }, { type := "+", value := "+" },
        { type := "num", value := "3" }] 40).map (fun r => r.1) = some .success := by
    simp [_parseAndCreateParseTree, parseLoop, parseStep, initialState, expressionParser,
      eofToken, eofName, expressionProductions, _constructLL1Table, constructFrom, tableWrite,
      epsilonName, updateAt, nodeAt, createdNodes, ASTNode.appendChildren, ASTNode.setToken,
      ASTNode.children, _binaryOperators, List.range, List.range.loop]
  obtain ⟨r, hrun, hr⟩ := Option.map_eq_some'.mp h
  obtain ⟨outcome, final⟩ := r
  simp only at hr
  subst hr
  exact ⟨expressionParser_regular.1, hmarker, final, hrun,
    parse_tree_yield expressionParser _ expressionParser_regular.1 hmarker 40 final hrun⟩

end YieldClaims

/-! ## The parser loop: termination -/

section TerminationLemmas

theorem leftRecursiveParser_from_init :
    ∃ tables, init leftRecursiveGrammar 3 = some tables
      ∧ parserOf tables (fun _ => none) ∅ = leftRecursiveParser := by
  have h : (init leftRecursiveGrammar 3).map (fun tables =>
      (tables.productions, tables.FIRST_PLUS, tables.startSymbol))
      = some ([{ lhsSymbol := "E", rhsSymbols := [{ type := .TERMINAL, name := "num" }] },
         { lhsSymbol := "E",
           rhsSymbols := [{ type := .NONTERMINAL, name := "E" },
             { type := .TERMINAL, name := "+" }, { type := .TERMINAL, name := "num" }] }],
          [{"num"}, {"num"}], "E") := by
    decide
  obtain ⟨tables, hinit, hpair⟩ := Option.map_eq_some'.mp h
  simp only [Prod.mk.injEq] at hpair
  obtain ⟨hP, hS, hstart⟩ := hpair
  refine ⟨tables, hinit, ?_⟩
  unfold parserOf leftRecursiveParser
  rw [init_table _ _ tables hinit, hP, hS, hstart]

theorem runsTo_refl (parser : Parser) (tokens : List Token) (s : ParseState) :
    RunsTo parser tokens 0 s s := by
  intro k
  rw [Nat.zero_add]

theorem runsTo_step (parser : Parser) (tokens : List Token) (s t : ParseState)
    (h : parseStep parser tokens s = .inl t) : RunsTo parser tokens 1 s t := by
  intro k
  rw [Nat.add_comm]
  simp only [parseLoop, h]

theorem runsTo_trans (parser : Parser) (tokens : List Token) (n m : Nat)
    (a b c : ParseState) (h1 : RunsTo parser tokens n a b) (h2 : RunsTo parser tokens m b c) :
    RunsTo parser tokens (n + m) a c := by
  intro k
  rw [Nat.add_assoc, h1, h2]

theorem runsTo_ends (parser : Parser) (tokens : List Token) (n fuel : Nat)
    (a b : ParseState) (result : ParseOutcome × ParseState)
    (h1 : RunsTo parser tokens n a b) (h2 : parseLoop parser tokens fuel b = some result) :
    parseLoop parser tokens (n + fuel) a = some result := by
  rw [h1, h2]

theorem parseLoop_ends_at (parser : Parser) (tokens : List Token) (s : ParseState)
    (outcome : ParseOutcome) (h : parseStep parser tokens s = .inr outcome) :
    parseLoop parser tokens 1 s = some (outcome, s) := by
  simp only [parseLoop, h]

theorem transGen_context (productions : List Production) (c d : List Symbol)
    {a b : List Symbol} (h : Relation.TransGen (DerivationStep productions) a b) :
    Relation.TransGen (DerivationStep productions) (c ++ a ++ d) (c ++ b ++ d) := by
  induction h with
  | single hstep => exact Relation.TransGen.single (derivationStep_context productions c d hstep)
  | tail _ hstep ih =>
    exact Relation.TransGen.tail ih (derivationStep_context productions c d hstep)

/-- A nonterminal derives, in one step or more, a form that begins with any
of its left corners. -/
theorem leftCorner_derives (productions : List Production) (Y X : Symbol)
    (h : LeftCorner productions Y X) :
    ∃ γ, Relation.TransGen (DerivationStep productions) [X] (Y :: γ) := by
  obtain ⟨hty, production, hp, hlhs, α, β, hrhs, hα⟩ := h
  obtain ⟨type, name⟩ := X
  simp only at hty hlhs
  subst hty
  subst hlhs
  have h1 := DerivationStep.expand production [] [] hp
  simp only [List.nil_append, List.append_nil] at h1
  rw [hrhs] at h1
  have h2 := derives_context productions [] (Y :: β) hα
  simp only [List.nil_append] at h2
  exact ⟨β, Relation.TransGen.trans_left (Relation.TransGen.single h1) h2⟩

theorem leftCorner_chain_derives (productions : List Production) (Y X : Symbol)
    (h : Relation.TransGen (LeftCorner productions) Y X) :
    ∃ γ, Relation.TransGen (DerivationStep productions) [X] (Y :: γ) := by
  induction h with
  | single hstep => exact leftCorner_derives productions _ _ hstep
  | tail _ hstep ih =>
    rename_i Z X2
    obtain ⟨γ1, h1⟩ := leftCorner_derives productions _ _ hstep
    obtain ⟨γ2, h2⟩ := ih
    have h3 := transGen_context productions [] γ1 h2
    simp only [List.nil_append, List.singleton_append, List.cons_append] at h3
    exact ⟨γ2 ++ γ1, Relation.TransGen.trans h1 h3⟩

theorem leftCorner_chain_type (productions : List Production) (Y X : Symbol)
    (h : Relation.TransGen (LeftCorner productions) Y X) : X.type = .NONTERMINAL := by
  cases h with
  | single hstep => exact hstep.1
  | tail _ hstep => exact hstep.1

theorem leftCorner_chain_mem (productions : List Production) (Y X : Symbol)
    (h : Relation.TransGen (LeftCorner productions) Y X) :
    Y ∈ productions.flatMap (fun production => production.rhsSymbols) := by
  have hfirst : ∃ Z, LeftCorner productions Y Z := by
    induction h with
    | single hstep => exact ⟨_, hstep⟩
    | tail _ _ ih => exact ih
  obtain ⟨Z, _, production, hp, _, α, β, hrhs, _⟩ := hfirst
  rw [List.mem_flatMap]
  exact ⟨production, hp, by rw [hrhs]; simp⟩

/-- In a grammar that is not left-recursive the left-corner relation is
well-founded. -/
theorem leftCorner_wellFounded (productions : List Production)
    (h : ¬ LeftRecursive productions) : WellFounded (LeftCorner productions) := by
  have hirrefl : ∀ X, ¬ Relation.TransGen (LeftCorner productions) X X := by
    intro X hX
    obtain ⟨γ, hγ⟩ := leftCorner_chain_derives productions X X hX
    have hty := leftCorner_chain_type productions X X hX
    obtain ⟨type, name⟩ := X
    simp only at hty
    subst hty
    exact h ⟨name, γ, hγ⟩
  haveI : IsStrictOrder Symbol (Relation.TransGen (LeftCorner productions)) :=
    { irrefl := hirrefl, trans := fun _ _ _ => Relation.TransGen.trans }
  have hwf : WellFounded (Relation.TransGen (LeftCorner productions)) := by
    rw [RelEmbedding.wellFounded_iff_no_descending_seq]
    constructor
    intro f
    have hmem : ∀ n : Nat, f (n + 1)
        ∈ {x | x ∈ productions.flatMap (fun production => production.rhsSymbols)} := by
      intro n
      exact leftCorner_chain_mem productions _ (f n) (f.map_rel_iff.mpr (Nat.lt_succ_self n))
    have hinj : Function.Injective (fun n : Nat => f (n + 1)) := by
      intro a b hab
      have := f.injective hab
      omega
    exact (Set.infinite_of_injective_forall_mem hinj hmem) (List.finite_toSet _)
  exact Subrelation.wf (fun hr => Relation.TransGen.single hr) hwf

/-- The loop works off the symbol on top of the symbol stack: started in a
state with `X` on top it ends, or it reaches a state in which `X` and all that
came of it are popped; if no token was consumed on the way, `X` derives the
empty form. The cursor never moves back and never passes the end of the
token vector. -/
theorem process_symbol (parser : Parser) (tokens : List Token)
    (htable : TablePointsToLhs parser)
    (hwf : WellFounded (LeftCorner parser._productions)) :
    ∀ (m : Nat) (X : Symbol) (s : ParseState) (rest : List Symbol),
      s.parseStack = X :: rest → s.nextInputToken ≤ tokens.length →
      tokens.length - s.nextInputToken = m →
      (∃ fuel result, parseLoop parser tokens fuel s = some result)
        ∨ (∃ n t, RunsTo parser tokens n s t ∧ t.parseStack = rest
            ∧ s.nextInputToken ≤ t.nextInputToken ∧ t.nextInputToken ≤ tokens.length
            ∧ (t.nextInputToken = s.nextInputToken →
                Derives parser._productions [X] [])) := by
  intro m
  induction m using Nat.strong_induction_on with
  | _ m ihm =>
    intro X
    induction X using hwf.induction with
    | _ X ihX =>
    intro s rest hstack hle hm
    cases hstep : parseStep parser tokens s with
    | inr outcome => exact Or.inl ⟨1, _, parseLoop_ends_at parser tokens s outcome hstep⟩
    | inl t =>
      obtain ⟨stackTop, rest2, hstack2, hcases⟩ := parseStep_cases parser tokens s t hstep
      rw [hstack] at hstack2
      simp only [List.cons.injEq] at hstack2
      obtain ⟨hX, hrest⟩ := hstack2
      subst hX
      subst hrest
      have hlt : ∀ token, tokens[s.nextInputToken]? = some token →
          s.nextInputToken < tokens.length := by
        intro token htoken
        by_contra hge
        rw [List.getElem?_eq_none (by omega)] at htoken
        exact absurd htoken (by simp)
      rcases hcases with ⟨hty, ht⟩ | ⟨hty, token, htoken, hname, hmatch⟩
          | ⟨hty, token, i, production, astStackTop, astStack, tree, node, htoken, hi,
              hproduction, _, _, _, ht⟩
      · right
        refine ⟨1, t, runsTo_step parser tokens s t hstep, by rw [ht], by rw [ht],
          by rw [ht]; exact hle, fun _ => ?_⟩
        obtain ⟨type, name⟩ := X
        simp only at hty
        subst hty
        have h1 := @DerivationStep.erase parser._productions name [] []
        simp only [List.nil_append] at h1
        exact Relation.ReflTransGen.single h1
      · right
        have hlt2 := hlt token htoken
        have hnext : t.nextInputToken = s.nextInputToken + 1 ∧ t.parseStack = rest := by
          rcases hmatch with ⟨_, _, _, _, _, _, ht⟩ | ⟨_, ht⟩
          · rw [ht]; exact ⟨rfl, rfl⟩
          · rw [ht]; exact ⟨rfl, rfl⟩
        refine ⟨1, t, runsTo_step parser tokens s t hstep, hnext.2, by omega, by omega,
          fun h => ?_⟩
        omega
      · obtain ⟨production2, hp2, hlhs⟩ := htable _ _ _ hi
        rw [hproduction] at hp2
        have hpeq : production = production2 := Option.some.inj hp2
        subst hpeq
        have hmem : production ∈ parser._productions := List.getElem?_mem hproduction
        have htstack : t.parseStack = production.rhsSymbols ++ rest := by rw [ht]
        have htnext : t.nextInputToken = s.nextInputToken := by rw [ht]
        have seq : ∀ (β α : List Symbol) (sk : ParseState),
            production.rhsSymbols = α ++ β → sk.parseStack = β ++ rest →
            s.nextInputToken ≤ sk.nextInputToken → sk.nextInputToken ≤ tokens.length →
            (sk.nextInputToken = s.nextInputToken → Derives parser._productions α []) →
            (∃ fuel result, parseLoop parser tokens fuel sk = some result)
              ∨ (∃ n t2, RunsTo parser tokens n sk t2 ∧ t2.parseStack = rest
                  ∧ s.nextInputToken ≤ t2.nextInputToken
                  ∧ t2.nextInputToken ≤ tokens.length
                  ∧ (t2.nextInputToken = s.nextInputToken →
                      Derives parser._productions production.rhsSymbols [])) := by
          intro β
          induction β with
          | nil =>
            intro α sk hrhs hsk h1 h2 hα
            right
            refine ⟨0, sk, runsTo_refl parser tokens sk, by simpa using hsk, h1, h2, ?_⟩
            intro h
            rw [hrhs, List.append_nil]
            exact hα h
          | cons Y β2 ih =>
            intro α sk hrhs hsk h1 h2 hα
            have hsk2 : sk.parseStack = Y :: (β2 ++ rest) := by simpa using hsk
            have hY : (∃ fuel result, parseLoop parser tokens fuel sk = some result)
                ∨ (∃ n t2, RunsTo parser tokens n sk t2 ∧ t2.parseStack = β2 ++ rest
                    ∧ sk.nextInputToken ≤ t2.nextInputToken
                    ∧ t2.nextInputToken ≤ tokens.length
                    ∧ (t2.nextInputToken = sk.nextInputToken →
                        Derives parser._productions [Y] [])) := by
              by_cases hcur : sk.nextInputToken = s.nextInputToken
              · exact ihX Y ⟨hty, production, hmem, hlhs, α, β2, hrhs, hα hcur⟩ sk
                  (β2 ++ rest) hsk2 h2 (by omega)
              · exact ihm (tokens.length - sk.nextInputToken) (by omega) Y sk (β2 ++ rest)
                  hsk2 h2 rfl
            rcases hY with ⟨fuel, result, hend⟩ | ⟨n, t2, hrun, hstack3, hle1, hle2, hder⟩
            · exact Or.inl ⟨fuel, result, hend⟩
            · have hnext := ih (α ++ [Y]) t2 (by rw [hrhs]; simp) hstack3 (by omega) hle2
                (by
                  intro h
                  have hc1 : sk.nextInputToken = s.nextInputToken := by omega
                  have hc2 : t2.nextInputToken = sk.nextInputToken := by omega
                  have := derives_append parser._productions (hα hc1) (hder hc2)
                  simpa using this)
              rcases hnext with ⟨fuel, result, hend⟩ | ⟨n2, t3, hrun2, h3, h4, h5, h6⟩
              · exact Or.inl ⟨n + fuel, result,
                  runsTo_ends parser tokens n fuel sk t2 result hrun hend⟩
              · exact Or.inr ⟨n + n2, t3, runsTo_trans parser tokens n n2 sk t2 t3 hrun hrun2,
                  h3, h4, h5, h6⟩
        have hall := seq production.rhsSymbols [] t (by simp) htstack (by omega) (by omega)
          (fun _ => Relation.ReflTransGen.refl)
        rcases hall with ⟨fuel, result, hend⟩ | ⟨n, t2, hrun, h3, h4, h5, h6⟩
        · exact Or.inl ⟨1 + fuel, result,
            runsTo_ends parser tokens 1 fuel s t result (runsTo_step parser tokens s t hstep)
              hend⟩
        · right
          refine ⟨1 + n, t2,
            runsTo_trans parser tokens 1 n s t t2 (runsTo_step parser tokens s t hstep) hrun,
            h3, h4, h5, fun h => ?_⟩
          obtain ⟨type, name⟩ := X
          simp only at hty hlhs
          subst hty
          subst hlhs
          exact Relation.ReflTransGen.trans
            (derives_of_production parser._productions production hmem) (h6 h)

end TerminationLemmas


section SafetyLemmas

/-- Under the invariant of the two stacks and the tree, a symbol on top of the
symbol stack that has a node has its node on top of the node stack, and the
tree can be updated there. -/
theorem stack_top_pending (parser : Parser) (tokens : List Token) (s : ParseState)
    (X : Symbol) (rest : List Symbol) (hs : TreeInvariant parser tokens s)
    (hstack : s.parseStack = X :: rest) (hcounted : counted parser X = true) :
    ∃ (astStackTop : List Nat) (astStack : List (List Nat)),
      s.astStack = astStackTop :: astStack
        ∧ ∀ f : ASTNode → ASTNode, ∃ updated node,
            updateAt f astStackTop s.astTree = some updated
              ∧ nodeAt astStackTop updated = some node := by
  obtain ⟨finished, pending, hnodes, hpaths, hawait, _⟩ := hs
  rw [hstack, List.filter_cons, if_pos hcounted] at hawait
  cases hawait with
  | cons h1 h2 =>
    rename_i e others
    simp only [List.map_cons] at hpaths
    refine ⟨e.path, others.map (fun entry => entry.path), hpaths.symm, ?_⟩
    intro f
    obtain ⟨_, _, _, _, _, hupdate⟩ := pending_head s.astTree finished e others hnodes h1.2.1
    obtain ⟨updated, hupdated, _⟩ := hupdate f
    obtain ⟨node, _, hnode⟩ := nodeAt_updateAt_same f e.path s.astTree updated hupdated
    exact ⟨updated, f node, hupdated, hnode⟩

/-- A nonterminal on top of the stack whose table entry exists is expanded: the
iteration continues with the right-hand side in place of the nonterminal and
the cursor where it was. -/
theorem parseStep_nonterminal_continues (parser : Parser) (tokens : List Token)
    (s : ParseState) (X : Symbol) (rest : List Symbol) (token : Token) (i : Nat)
    (production : Production) (hs : TreeInvariant parser tokens s)
    (hstack : s.parseStack = X :: rest) (hty : X.type = .NONTERMINAL)
    (htoken : tokens[s.nextInputToken]? = some token)
    (hi : parser._ll1Table X.name token.type = some i)
    (hproduction : parser._productions[i]? = some production) :
    ∃ next, parseStep parser tokens s = .inl next
      ∧ next.parseStack = production.rhsSymbols ++ rest
      ∧ next.nextInputToken = s.nextInputToken := by
  obtain ⟨astStackTop, astStack, hast, hupdate⟩ :=
    stack_top_pending parser tokens s X rest hs hstack (by simp [counted, hty])
  obtain ⟨updated, node, hupdated, hnode⟩ :=
    hupdate (ASTNode.appendChildren (createdNodes parser i 0 production.rhsSymbols))
  simp only [parseStep, hstack, hty, htoken, hi, hproduction, hast, hupdated, hnode]
  exact ⟨_, rfl, rfl, rfl⟩

/-- With a token under the cursor, a terminal on top of the stack never sends
the iteration outside its containers. -/
theorem parseStep_terminal_defined (parser : Parser) (tokens : List Token)
    (s : ParseState) (X : Symbol) (rest : List Symbol) (token : Token)
    (hs : TreeInvariant parser tokens s) (hstack : s.parseStack = X :: rest)
    (hty : X.type = .TERMINAL) (htoken : tokens[s.nextInputToken]? = some token) :
    parseStep parser tokens s ≠ .inr .undefinedBehaviour := by
  by_cases hname : X.name = token.type
  · by_cases hused : X.name ∈ parser._unusedTerminals
    · rw [hname] at hused
      simp [parseStep, hstack, hty, htoken, hname, hused]
    · obtain ⟨astStackTop, astStack, hast, hupdate⟩ :=
        stack_top_pending parser tokens s X rest hs hstack (by simp [counted, hty, hused])
      obtain ⟨updated, node, hupdated, hnode⟩ := hupdate (ASTNode.setToken token)
      rw [hname] at hused
      simp [parseStep, hstack, hty, htoken, hname, hused, hast, hupdated]
  · simp [parseStep, hstack, hty, htoken, hname]

/-- In a state of the invariant the iteration stays within its containers. -/
theorem parseStep_defined (parser : Parser) (tokens : List Token)
    (htable : TablePointsToLhs parser) (s : ParseState)
    (hs : SafeState parser tokens s) :
    parseStep parser (tokens ++ [eofToken]) s ≠ .inr .undefinedBehaviour := by
  obtain ⟨htree, ⟨body, hshape, _⟩, _, hcursor⟩ := hs
  have hlt : s.nextInputToken < (tokens ++ [eofToken]).length := by
    simp only [List.length_append, List.length_singleton]
    omega
  have htoken : (tokens ++ [eofToken])[s.nextInputToken]?
      = some ((tokens ++ [eofToken])[s.nextInputToken]) := List.getElem?_eq_getElem hlt
  obtain ⟨X, rest, hstack⟩ : ∃ X rest, s.parseStack = X :: rest := by
    cases body with
    | nil => exact ⟨_, [], hshape⟩
    | cons first tail => exact ⟨first, tail ++ [_], by simpa using hshape⟩
  cases hty : X.type with
  | EPSILON => simp [parseStep, hstack, hty]
  | EOFL =>
    simp only [parseStep, hstack, hty, htoken]
    split <;> simp
  | TERMINAL => exact parseStep_terminal_defined parser _ s X rest _ htree hstack hty htoken
  | NONTERMINAL =>
    cases hi : parser._ll1Table X.name ((tokens ++ [eofToken])[s.nextInputToken]).type with
    | none => simp [parseStep, hstack, hty, htoken, hi]
    | some i =>
      obtain ⟨production, hproduction, _⟩ := htable _ _ _ hi
      obtain ⟨next, hnext, _⟩ := parseStep_nonterminal_continues parser _ s X rest _ i
        production htree hstack hty htoken hi hproduction
      rw [hnext]
      simp

/-- The iteration keeps the invariant of the safe states. -/
theorem parseStep_safe (parser : Parser) (tokens : List Token) (hreg : NoEndSymbol parser)
    (hmarker : NoMarkerTerminal parser) (s next : ParseState)
    (h : parseStep parser (tokens ++ [eofToken]) s = .inl next)
    (hs : SafeState parser tokens s) : SafeState parser tokens next := by
  obtain ⟨htree, hshape, hnames, hcursor⟩ := hs
  refine ⟨parseStep_treeInvariant parser _ s next h htree,
    parseStep_stackShape parser _ hreg s next h hshape, ?_, ?_⟩
  · obtain ⟨stackTop, rest, hstack, hcases⟩ := parseStep_cases parser _ s next h
    have hrest : ∀ symbol ∈ rest, symbol.type = .TERMINAL → symbol.name ≠ eofName := by
      intro symbol hmem
      exact hnames symbol (by rw [hstack]; exact List.mem_cons_of_mem _ hmem)
    rcases hcases with ⟨_, rfl⟩ | ⟨_, _, _, _, hmatch⟩
        | ⟨_, _, i, production, _, _, _, _, _, _, hproduction, _, _, _, rfl⟩
    · exact hrest
    · rcases hmatch with ⟨_, _, _, _, _, _, rfl⟩ | ⟨_, rfl⟩
      · exact hrest
      · exact hrest
    · intro symbol hmem
      rcases List.mem_append.mp hmem with hin | hin
      · exact hmarker production (List.getElem?_mem hproduction) symbol hin
      · exact hrest symbol hin
  · obtain ⟨stackTop, rest, hstack, hcases⟩ := parseStep_cases parser _ s next h
    rcases hcases with ⟨_, rfl⟩ | ⟨hty, token, htoken, hname, hmatch⟩
        | ⟨_, _, _, _, _, _, _, _, _, _, _, _, _, _, rfl⟩
    · exact hcursor
    · have hlt : s.nextInputToken < tokens.length := by
        by_contra hge
        have heq : s.nextInputToken = tokens.length := by omega
        rw [heq] at htoken
        simp only [List.getElem?_concat_length, Option.some.injEq] at htoken
        refine hnames stackTop (by rw [hstack]; exact List.mem_cons_self _ _) hty ?_
        rw [hname, ← htoken]
        rfl
      rcases hmatch with ⟨_, _, _, _, _, _, rfl⟩ | ⟨_, rfl⟩
      · exact hlt
      · exact hlt
    · exact hcursor

theorem initialState_safe (parser : Parser) (tokens : List Token) :
    SafeState parser tokens (initialState parser) := by
  refine ⟨initialState_treeInvariant parser _, initialState_stackShape parser, ?_,
    Nat.zero_le _⟩
  intro symbol hmem
  simp only [initialState, List.mem_cons, List.mem_singleton, List.not_mem_nil, or_false] at hmem
  rcases hmem with rfl | rfl
  · intro h; simp at h
  · intro h; simp at h

/-- As long as the top of the stack is the nonterminal `E` and the cursor is
on the first token `num`, the left-recursive parser expands `E` again. -/
theorem leftRecursiveParser_loops (tokens : List Token) (value : String) :
    ∀ (fuel : Nat) (s : ParseState),
      TreeInvariant leftRecursiveParser ({ type := "num", value := value } :: tokens) s →
      s.nextInputToken = 0 →
      (∃ rest, s.parseStack = { type := .NONTERMINAL, name := "E" } :: rest) →
      parseLoop leftRecursiveParser ({ type := "num", value := value } :: tokens) fuel s
        = none := by
  intro fuel
  induction fuel with
  | zero => intro s _ _ _; rfl
  | succ n ih =>
    intro s htree hcursor hstack
    obtain ⟨rest, hstack⟩ := hstack
    have htoken : ({ type := "num", value := value } :: tokens : List Token)[s.nextInputToken]?
        = some { type := "num", value := value } := by rw [hcursor]; simp
    have hi : leftRecursiveParser._ll1Table "E" "num" = some 1 := by
      simp [leftRecursiveParser, _constructLL1Table, constructFrom, tableWrite, epsilonName]
    obtain ⟨next, hnext, hnextStack, hnextCursor⟩ :=
      parseStep_nonterminal_continues leftRecursiveParser _ s _ rest _ 1
        { lhsSymbol := "E",
          rhsSymbols := [{ type := .NONTERMINAL, name := "E" },
            { type := .TERMINAL, name := "+" }, { type := .TERMINAL, name := "num" }] }
        htree hstack rfl htoken hi rfl
    simp only [parseLoop, hnext]
    exact ih next (parseStep_treeInvariant _ _ s next hnext htree) (by rw [hnextCursor, hcursor])
      ⟨_, hnextStack⟩

end SafetyLemmas


section ExpressionRankLemmas

/-- A derivation step of the expression grammar does not raise the rank of a
form, and lowers it when it rewrites the head. -/
theorem expressionHeadRank_step (a b : List Symbol)
    (h : DerivationStep expressionProductions a b) (k : Nat)
    (hk : expressionHeadRank a = some k) :
    ∃ j, expressionHeadRank b = some j ∧ j ≤ k ∧ (a.length = 1 → j < k) := by
  cases h with
  | expand production before after hmem =>
    cases before with
    | nil =>
      simp only [expressionProductions, List.mem_cons, List.mem_singleton, List.not_mem_nil,
        or_false] at hmem
      rcases hmem with rfl | rfl | rfl | rfl | rfl | rfl | rfl | rfl | rfl | rfl <;>
        simp [expressionHeadRank] at hk ⊢
      all_goals first
        | omega
        | (constructor <;> omega)
        | (refine ⟨1, ⟨hk.1, rfl⟩, ?_, ?_⟩ <;> omega)
    | cons first rest =>
      obtain ⟨type, name⟩ := first
      cases type <;> simp [expressionHeadRank] at hk ⊢
      split_ifs at hk <;> simp_all
  | erase name before after =>
    cases before with
    | nil =>
      simp only [List.nil_append, expressionHeadRank, ite_eq_left_iff] at hk
      have hafter : after = [] := by
        by_contra hne
        simp [hne] at hk
      subst hafter
      simp only [if_true, Option.some.injEq] at hk
      exact ⟨0, rfl, by omega, fun _ => by omega⟩
    | cons first rest =>
      obtain ⟨type, name⟩ := first
      cases type <;> simp [expressionHeadRank] at hk ⊢
      split_ifs at hk <;> simp_all

theorem expressionHeadRank_derives (a b : List Symbol)
    (h : Derives expressionProductions a b) :
    ∀ k, expressionHeadRank a = some k → ∃ j, expressionHeadRank b = some j ∧ j ≤ k := by
  induction h with
  | refl => intro k hk; exact ⟨k, hk, le_refl k⟩
  | tail _ hstep ih =>
    intro k hk
    obtain ⟨j, hj, hle⟩ := ih k hk
    obtain ⟨j2, hj2, hle2, _⟩ := expressionHeadRank_step _ _ hstep j hj
    exact ⟨j2, hj2, le_trans hle2 hle⟩

/-- The expression grammar is not left-recursive. -/
theorem expressionProductions_not_leftRecursive : ¬ LeftRecursive expressionProductions := by
  rintro ⟨A, γ, h⟩
  obtain ⟨b, hstep, hrest⟩ := Relation.TransGen.head'_iff.mp h
  have hsingle : ∃ k, expressionHeadRank [{ type := .NONTERMINAL, name := A }] = some k := by
    simp only [expressionHeadRank, if_true]
    split_ifs <;> exact ⟨_, rfl⟩
  obtain ⟨k, hk⟩ := hsingle
  obtain ⟨j, hj, _, hlt⟩ := expressionHeadRank_step _ _ hstep k hk
  obtain ⟨j2, hj2, hle⟩ := expressionHeadRank_derives _ _ hrest j hj
  have hlt2 : j2 < k := lt_of_le_of_lt hle (hlt rfl)
  simp only [expressionHeadRank, if_true] at hk hj2
  split_ifs at hk hj2 <;> simp_all

end ExpressionRankLemmas

section TerminationClaims

/-- C23 (as stated, refuted): the grammar `E -> num`, `E -> E + num` is
left-recursive, `init` builds a table for it whose entry for `E` under `num`
is the left-recursive production, and on the one-token line `2` the loop of
`_parseAndCreateParseTree` has not ended after any number of iterations. -/
theorem left_recursive_grammar_never_halts :
    (∃ tables, init leftRecursiveGrammar 3 = some tables
        ∧ parserOf tables (fun _ => none) ∅ = leftRecursiveParser)
      ∧ LeftRecursive leftRecursiveParser._productions
      ∧ ∀ fuel : Nat,
          _parseAndCreateParseTree leftRecursiveParser [{ type := "num", value := "2" }] fuel
            = none := by
  refine ⟨leftRecursiveParser_from_init, ?_, ?_⟩
  · refine ⟨"E", [{ type := .TERMINAL, name := "+" }, { type := .TERMINAL, name := "num" }], ?_⟩
    have h := @DerivationStep.expand leftRecursiveParser._productions
      { lhsSymbol := "E",
        rhsSymbols := [{ type := .NONTERMINAL, name := "E" },
          { type := .TERMINAL, name := "+" }, { type := .TERMINAL, name := "num" }] }
      [] [] (by simp [leftRecursiveParser])
    exact Relation.TransGen.single h
  · intro fuel
    exact leftRecursiveParser_loops [eofToken] "2" fuel (initialState leftRecursiveParser)
      (initialState_treeInvariant leftRecursiveParser _) rfl ⟨_, rfl⟩

/-- C23 (amended): for every parser whose grammar is not left-recursive, whose
right-hand sides hold no end-of-input symbol and no terminal named like the
end-of-input marker, and whose table entries point to productions of the
nonterminal they are filed under, with any semantics annotation, and for
every token stream, the loop of `_parseAndCreateParseTree` ends after
finitely many iterations, in success or in a syntax error. -/
theorem parser_terminates (parser : Parser) (tokens : List Token)
    (hreg : NoEndSymbol parser) (hmarker : NoMarkerTerminal parser)
    (htable : TablePointsToLhs parser) (hrec : ¬ LeftRecursive parser._productions) :
    ∃ (fuel : Nat) (final : ParseState),
      _parseAndCreateParseTree parser tokens fuel = some (.success, final)
        ∨ ∃ linePos : Nat,
            _parseAndCreateParseTree parser tokens fuel = some (.syntaxError linePos, final) := by
  have hends : ∃ fuel result,
      parseLoop parser (tokens ++ [eofToken]) fuel (initialState parser) = some result := by
    rcases process_symbol parser (tokens ++ [eofToken]) htable
        (leftCorner_wellFounded parser._productions hrec) _
        { type := .NONTERMINAL, name := parser._startSymbol } (initialState parser)
        [{ type := .EOFL, name := eofName }] rfl (Nat.zero_le _) rfl with
      h | ⟨n, t, hrun, hstack, _, _, _⟩
    · exact h
    · have hstep : ∃ outcome, parseStep parser (tokens ++ [eofToken]) t = .inr outcome := by
        simp only [parseStep, hstack]
        split
        · exact ⟨_, rfl⟩
        · split <;> exact ⟨_, rfl⟩
      obtain ⟨outcome, hstep⟩ := hstep
      exact ⟨n + 1, _, runsTo_ends parser _ n 1 _ t _ hrun (parseLoop_ends_at parser _ t _ hstep)⟩
  obtain ⟨fuel, ⟨outcome, final⟩, hloop⟩ := hends
  obtain ⟨hsafe, hstep⟩ := parseLoop_final parser (tokens ++ [eofToken])
    (SafeState parser tokens) (parseStep_safe parser tokens hreg hmarker) fuel _ outcome final
    hloop (initialState_safe parser tokens)
  have hdefined := parseStep_defined parser tokens htable final hsafe
  refine ⟨fuel, final, ?_⟩
  unfold _parseAndCreateParseTree
  cases outcome with
  | success => exact Or.inl hloop
  | syntaxError linePos => exact Or.inr ⟨linePos, hloop⟩
  | undefinedBehaviour => exact absurd hstep hdefined

/-- C23 (amended) on the expression grammar and the tokens of `2 + 3`. -/
theorem parser_terminates_witness :
    ∃ (fuel : Nat) (final : ParseState),
      _parseAndCreateParseTree expressionParser
          [{ type := "num", value := "2" }, { type := "+", value := "+" },
            { type := "num", value := "3" }] fuel = some (.success, final)
        ∨ ∃ linePos : Nat,
            _parseAndCreateParseTree expressionParser
              [{ type := "num", value := "2" }, { type := "+", value := "+" },
                { type := "num", value := "3" }] fuel = some (.syntaxError linePos, final) :=
  parser_terminates expressionParser _ expressionParser_regular.1
    (by simp [NoMarkerTerminal, expressionParser, expressionProductions, eofName])
    expressionParser_regular.2 expressionProductions_not_leftRecursive

end TerminationClaims

end MathSym
